import Mathlib

/-!
# NAND2TETRIS-IN-GO: assembler, VM translator and Jack analyzer

A shallow embedding of the three Go programs of the repository
(`HACK-ASSEMBLER/hackassembler.go`, `VM-TRANSLATOR/VMTranslator.go`,
`JACK-TO-XML/JackAnalyzer.go`) together with the properties proved about them.

Go strings are modelled as lists of characters (`Str`), a file as the list of
its lines (what `bufio.Scanner` returns from `Text()`), and a `bufio.Writer`
as the list of the strings handed to `WriteString`, in order.
-/

/-! ## The Go string library -/

namespace GoStr

/-- A Go string, as the list of its characters. -/
abbrev Str := List Char

/-- The predicate `unicode.IsSpace`, which `strings.TrimSpace` uses. -/
def isSpace (c : Char) : Bool :=
  let n := c.toNat
  (9 ≤ n && n ≤ 13) || n == 32 || n == 133 || n == 160 || n == 5760 ||
  (8192 ≤ n && n ≤ 8202) || n == 8232 || n == 8233 || n == 8239 || n == 8287 ||
  n == 12288

/-- The function `strings.TrimSpace`. -/
def trimSpace (s : Str) : Str :=
  ((s.dropWhile isSpace).reverse.dropWhile isSpace).reverse

/-- The function `strings.HasPrefix`. -/
def startsWith (s pre : Str) : Bool := pre.isPrefixOf s

/-- The function `strings.HasSuffix`. -/
def endsWith (s suf : Str) : Bool := suf.isSuffixOf s

/-- The first occurrence of `sep` in a string: the text before it and the text
after it (`strings.Cut`, which `Contains`, `Split` and `Replace` share via
`strings.Index`). -/
def indexCut (sep : Str) : Str → Option (Str × Str)
  | [] => if sep.isEmpty then some ([], []) else none
  | c :: t =>
    if sep.isPrefixOf (c :: t) then some ([], (c :: t).drop sep.length)
    else match indexCut sep t with
      | some (p, q) => some (c :: p, q)
      | none => none

/-- The function `strings.Contains`. -/
def contains (s sub : Str) : Bool := (indexCut sub s).isSome

/-- The loop of `strings.Split` for a non-empty separator; every cut consumes
at least one character, so `s.length + 1` rounds are enough. -/
def splitAux (sep : Str) : Nat → Str → List Str
  | 0, s => [s]
  | fuel + 1, s =>
    match indexCut sep s with
    | none => [s]
    | some (p, q) => p :: splitAux sep fuel q

/-- The function `strings.Split` (for a non-empty separator). -/
def split (s sep : Str) : List Str := splitAux sep (s.length + 1) s

/-- The call `strings.Replace(s, old, "", 1)`: drop the first occurrence. -/
def removeFirst (s old : Str) : Str :=
  match indexCut old s with
  | none => s
  | some (p, q) => p ++ q

/-- The value of a decimal digit character. -/
def digitVal (c : Char) : Option Nat :=
  if 48 ≤ c.toNat ∧ c.toNat ≤ 57 then some (c.toNat - 48) else none

/-- Read a run of decimal digits, most significant first. -/
def parseDigits : Str → Nat → Option Nat
  | [], acc => some acc
  | c :: t, acc =>
    match digitVal c with
    | none => none
    | some d => parseDigits t (acc * 10 + d)

/-- The loop of `strconv.ParseUint` for base 10 and 64 bits: `none` is the
syntax error at a character that is no digit; when the number read so far
no longer fits 64 bits the loop returns the largest value (the range error)
at once, without a look at the characters that follow. -/
def parseUint : Str → Nat → Option Nat
  | [], acc => some acc
  | c :: t, acc =>
    match digitVal c with
    | none => none
    | some d => if acc * 10 + d ≥ 2 ^ 64 then some (2 ^ 64 - 1) else parseUint t (acc * 10 + d)

/-- The digits of `strconv.Atoi` after the sign, on a 64-bit platform: the
value and whether the error is nil. A syntax error gives 0, a range error the
nearest bound. -/
def atoiBody (neg : Bool) (body : Str) : Int × Bool :=
  if body.isEmpty then (0, false)
  else match parseUint body 0 with
    | none => (0, false)
    | some n =>
      if neg then
        if n > 2 ^ 63 then (-(2 ^ 63 : Int), false) else (-(n : Int), true)
      else
        if n ≥ 2 ^ 63 then ((2 ^ 63 : Int) - 1, false) else ((n : Int), true)

/-- The function `strconv.Atoi`: an optional sign, then decimal digits. -/
def atoi (s : Str) : Int × Bool :=
  match s with
  | [] => (0, false)
  | c :: t =>
    if c = '-' then atoiBody true t
    else if c = '+' then atoiBody false t
    else atoiBody false (c :: t)

/-- The function `strconv.Itoa`. -/
def itoa (i : Int) : Str :=
  if i < 0 then '-' :: Nat.toDigits 10 i.natAbs else Nat.toDigits 10 i.toNat

/-- Reduce an integer to the range of Go's 64-bit `int` (two's complement). -/
def wrap64 (x : Int) : Int := (x + 2 ^ 63) % 2 ^ 64 - 2 ^ 63

/-- The scan of `filepath.Ext` from the end of the path: `acc` holds the
characters already passed. -/
def extAux : Str → Str → Str
  | [], _ => []
  | c :: t, acc =>
    if c = '/' then []
    else if c = '.' then '.' :: acc
    else extAux t (c :: acc)

/-- The function `filepath.Ext`: the suffix from the last dot of the last
element of the path on, or the empty string. -/
def ext (path : Str) : Str := extAux path.reverse []

/-- The text of a list of lines, each ended by a line break. -/
def unlines : List Str → Str
  | [] => []
  | l :: rest => l ++ '\n' :: unlines rest

/-- A Go `map[string]T` read with the zero value for a missing key. -/
def mapGetD {α : Type} (m : List (Str × α)) (k : Str) (zero : α) : α :=
  (m.lookup k).getD zero

end GoStr

/-! ## HACK-ASSEMBLER/hackassembler.go -/

namespace HackAssembler

open GoStr

/-- The table `code_dest`. -/
def code_dest : List (Str × Str) :=
  [ ("".toList, "000".toList), ("M".toList, "001".toList), ("D".toList, "010".toList),
    ("MD".toList, "011".toList), ("A".toList, "100".toList), ("AM".toList, "101".toList),
    ("AD".toList, "110".toList), ("AMD".toList, "111".toList) ]

/-- The table `code_comp`. -/
def code_comp : List (Str × Str) :=
  [ ("0".toList, "0101010".toList), ("1".toList, "0111111".toList),
    ("-1".toList, "0111010".toList), ("D".toList, "0001100".toList),
    ("A".toList, "0110000".toList), ("M".toList, "1110000".toList),
    ("!D".toList, "0001101".toList), ("!A".toList, "0110001".toList),
    ("!M".toList, "1110001".toList), ("-D".toList, "0001111".toList),
    ("-A".toList, "0110011".toList), ("-M".toList, "1110011".toList),
    ("D+1".toList, "0011111".toList), ("A+1".toList, "0110111".toList),
    ("M+1".toList, "1110111".toList), ("D-1".toList, "0001110".toList),
    ("A-1".toList, "0110010".toList), ("M-1".toList, "1110010".toList),
    ("D+A".toList, "0000010".toList), ("D+M".toList, "1000010".toList),
    ("D-A".toList, "0010011".toList), ("D-M".toList, "1010011".toList),
    ("A-D".toList, "0000111".toList), ("M-D".toList, "1000111".toList),
    ("D&A".toList, "0000000".toList), ("D&M".toList, "1000000".toList),
    ("D|A".toList, "0010101".toList), ("D|M".toList, "1010101".toList) ]

/-- The table `code_jump`. -/
def code_jump : List (Str × Str) :=
  [ ("".toList, "000".toList), ("JGT".toList, "001".toList), ("JEQ".toList, "010".toList),
    ("JGE".toList, "011".toList), ("JLT".toList, "100".toList), ("JNE".toList, "101".toList),
    ("JLE".toList, "110".toList), ("JMP".toList, "111".toList) ]

/-- The binary code of the dest mnemonic (empty for an unknown one). -/
def dest (mnemonic : Str) : Str := mapGetD code_dest mnemonic []

/-- The binary code of the comp mnemonic (empty for an unknown one). -/
def comp (mnemonic : Str) : Str := mapGetD code_comp mnemonic []

/-- The binary code of the jump mnemonic (empty for an unknown one). -/
def jump (mnemonic : Str) : Str := mapGetD code_jump mnemonic []

/-- The symbol table: a Go map, kept as an association list in which the
first binding of a key is the current one. -/
abbrev SymbolTable := List (Str × Int)

/-- The 23 predefined symbols. -/
def initSymbolTable : SymbolTable :=
  [ ("SP".toList, 0), ("LCL".toList, 1), ("ARG".toList, 2), ("THIS".toList, 3),
    ("THAT".toList, 4), ("SCREEN".toList, 16384), ("KBD".toList, 24576),
    ("R0".toList, 0), ("R1".toList, 1), ("R2".toList, 2), ("R3".toList, 3),
    ("R4".toList, 4), ("R5".toList, 5), ("R6".toList, 6), ("R7".toList, 7),
    ("R8".toList, 8), ("R9".toList, 9), ("R10".toList, 10), ("R11".toList, 11),
    ("R12".toList, 12), ("R13".toList, 13), ("R14".toList, 14), ("R15".toList, 15) ]

/-- Assign `table.symbols[symbol] = address`. -/
def SymbolTable.addEntry (table : SymbolTable) (symbol : Str) (address : Int) : SymbolTable :=
  (symbol, address) :: table

/-- Whether the table has the symbol. -/
def SymbolTable.contains (table : SymbolTable) (symbol : Str) : Bool :=
  (table.lookup symbol).isSome

/-- The address of the symbol (0 when it is absent). -/
def SymbolTable.GetAddress (table : SymbolTable) (symbol : Str) : Int :=
  mapGetD table symbol 0

/-- The three command types. -/
inductive CommandType where
  | A_COMMAND
  | C_COMMAND
  | L_COMMAND
  deriving DecidableEq, Repr

open CommandType

/-- The fields of `Parser` that the translation reads and writes; the scanner
is the list of lines still to be read. -/
structure Parser where
  currentCommand : Str
  ramAddress : Int
  deriving DecidableEq, Repr

/-- The parser `initParser` returns. -/
def initParser : Parser := { currentCommand := [], ramAddress := 0 }

/-- The test `hasMoreCommands` applies to a scanned line: the scan goes on
past a line that starts with `//` or is blank, and stops on any other. -/
def keepsLine (line : Str) : Bool :=
  if startsWith line "//".toList then false
  else if trimSpace line == [] then false
  else true

/-- Make the scanned line the current command, without its comment and
surrounding white space. -/
def Parser.advance (parser : Parser) (line : Str) : Parser :=
  { parser with currentCommand := trimSpace ((split line "//".toList).getD 0 []) }

/-- The type of the current command. -/
def Parser.commandType (parser : Parser) : CommandType :=
  if startsWith parser.currentCommand "@".toList then A_COMMAND
  else if startsWith parser.currentCommand "(".toList && endsWith parser.currentCommand ")".toList then
    L_COMMAND
  else C_COMMAND

/-- The symbol or decimal of `@Xxx` or `(Xxx)`. -/
def Parser.symbol (parser : Parser) : Str :=
  match parser.commandType with
  | A_COMMAND => removeFirst parser.currentCommand "@".toList
  | L_COMMAND => removeFirst (removeFirst parser.currentCommand "(".toList) ")".toList
  | C_COMMAND => parser.currentCommand

/-- The dest mnemonic of the current C-command. -/
def Parser.dest (parser : Parser) : Str :=
  if contains parser.currentCommand "=".toList then
    (split parser.currentCommand "=".toList).getD 0 []
  else []

/-- The comp mnemonic of the current C-command. -/
def Parser.comp (parser : Parser) : Str :=
  if contains parser.currentCommand "=".toList then
    (split parser.currentCommand "=".toList).getD 1 []
  else (split parser.currentCommand ";".toList).getD 0 []

/-- The jump mnemonic of the current C-command. -/
def Parser.jump (parser : Parser) : Str :=
  if contains parser.currentCommand ";".toList then
    (split parser.currentCommand ";".toList).getD 1 []
  else []

/-- The loop of `decimalToBinary` on Go's 64-bit `int`: `/` and `%` truncate
towards zero and the sums and products wrap. The magnitude of `decimal`
halves in every round, so 64 rounds end the loop. -/
def decimalToBinaryLoop : Nat → Int → Int → Int → Int
  | 0, _, binary, _ => binary
  | fuel + 1, decimal, binary, counter =>
    if decimal = 0 then binary
    else
      let remainder := Int.tmod decimal 2
      decimalToBinaryLoop fuel (Int.tdiv decimal 2)
        (wrap64 (binary + wrap64 (remainder * counter))) (wrap64 (counter * 10))

/-- The binary digits of `decimal`, read as a decimal number. -/
def decimalToBinary (decimal : Int) : Int := decimalToBinaryLoop 64 decimal 0 1

/-- The loop `for len(hackCommand) < 16 { hackCommand = "0" + hackCommand }`,
which runs at most 16 times. -/
def padLoop : Nat → Str → Str
  | 0, s => s
  | fuel + 1, s => if s.length < 16 then padLoop fuel ('0' :: s) else s

/-- Pass 1 (`addLCOMMAND`): bind every label to the current instruction
count. The scanner is the list of lines; `hasMoreCommands` skips the lines
that `keepsLine` refuses. -/
def addLCOMMAND : List Str → Parser → SymbolTable → Parser × SymbolTable
  | [], parser, symboltable => (parser, symboltable)
  | line :: rest, parser, symboltable =>
    if keepsLine line then
      let parser := parser.advance line
      if parser.commandType = L_COMMAND then
        addLCOMMAND rest parser (symboltable.addEntry parser.symbol parser.ramAddress)
      else
        addLCOMMAND rest { parser with ramAddress := parser.ramAddress + 1 } symboltable
    else addLCOMMAND rest parser symboltable

/-- The A-command branch of the loop of `generateHack`: the new parser and
symbol table and the string written. -/
def writeACommand (parser : Parser) (symboltable : SymbolTable) : Parser × SymbolTable × Str :=
  let symbol := parser.symbol
  let r := atoi symbol
  let res : Parser × SymbolTable × Int :=
    if r.2 = false then
      if symboltable.contains symbol = false then
        ({ parser with ramAddress := parser.ramAddress + 1 },
          symboltable.addEntry symbol parser.ramAddress, parser.ramAddress)
      else (parser, symboltable, symboltable.GetAddress symbol)
    else (parser, symboltable, r.1)
  (res.1, res.2.1, padLoop 16 (itoa (decimalToBinary res.2.2)) ++ "\n".toList)

/-- The string the C-command branch of `generateHack` writes. -/
def writeCCommand (parser : Parser) : Str :=
  "111".toList ++ comp parser.comp ++ dest parser.dest ++ jump parser.jump ++ "\n".toList

/-- One round of the loop of `generateHack` on the current command: the
strings written, with the new parser and symbol table. -/
def generateHackStep (parser : Parser) (symboltable : SymbolTable) :
    Parser × SymbolTable × List Str :=
  let r : Parser × SymbolTable × List Str :=
    if parser.commandType = A_COMMAND then
      let w := writeACommand parser symboltable
      (w.1, w.2.1, [w.2.2])
    else (parser, symboltable, [])
  if r.1.commandType = C_COMMAND then (r.1, r.2.1, r.2.2 ++ [writeCCommand r.1])
  else r

/-- The loop of `generateHack` (pass 2) over the lines of the file. -/
def generateHackLoop : List Str → Parser → SymbolTable → Parser × SymbolTable × List Str
  | [], parser, symboltable => (parser, symboltable, [])
  | line :: rest, parser, symboltable =>
    if keepsLine line then
      let r := generateHackStep (parser.advance line) symboltable
      let r2 := generateHackLoop rest r.1 r.2.1
      (r2.1, r2.2.1, r.2.2 ++ r2.2.2)
    else generateHackLoop rest parser symboltable

/-- Pass 2 (`generateHack`): rewind the file, reset the current command and
the RAM address, and translate every command. -/
def generateHack (lines : List Str) (parser : Parser) (symboltable : SymbolTable) :
    Parser × SymbolTable × List Str :=
  generateHackLoop lines { parser with currentCommand := [], ramAddress := 16 } symboltable

/-- The body of the loop of `main` for one file: both passes, from the symbol
table `main` holds; the strings written to the `.hack` file and the table
afterwards. -/
def assembleWith (symboltable : SymbolTable) (lines : List Str) : SymbolTable × List Str :=
  let p1 := addLCOMMAND lines initParser symboltable
  let p2 := generateHack lines p1.1 p1.2
  (p2.2.1, p2.2.2)

/-- The `.hack` file written for the first file of a run. -/
def assemble (lines : List Str) : List Str := (assembleWith initSymbolTable lines).2

/-- The loop of `main` over the files the user names one after the other: the
strings written to each `.hack` file. Every file gets a new parser; the symbol
table is the one of the run, as the file before left it. -/
def mainLoop : SymbolTable → List (List Str) → List (List Str)
  | _, [] => []
  | symboltable, lines :: rest =>
    (assembleWith symboltable lines).2 :: mainLoop (assembleWith symboltable lines).1 rest

/-- The function `main`: the run of the tool on the files of the given lines,
from the symbol table of `initSymbolTable`. -/
def main (files : List (List Str)) : List (List Str) := mainLoop initSymbolTable files

end HackAssembler

/-! ## Reference notions for the assembler's properties -/

namespace HackAssembler

open GoStr

/-- The big-endian binary representation of `n` on `width` characters,
zero-padded on the left (the low `width` bits of `n`). -/
def bitsBE : Nat → Nat → Str
  | 0, _ => []
  | width + 1, n => bitsBE width (n / 2) ++ [if n % 2 = 1 then '1' else '0']

/-- The number a string of `0` and `1` characters denotes, most significant
bit first. -/
def binValue (s : Str) : Nat :=
  s.foldl (fun acc c => 2 * acc + (if c = '1' then 1 else 0)) 0

/-- A text without white space and without `/`: the scanner keeps such a
line whole, as `advance` finds no comment in it and nothing to trim. -/
def isPlain (s : Str) : Bool := s.all (fun c => c != '/' && !isSpace c)

/-- A text that can stand as a field of a C-instruction: no white space, and
none of the characters `/`, `=`, `;`, `@`, `(` that delimit comments, fields
and the other command types. -/
def isField (s : Str) : Bool :=
  s.all (fun c => c != '/' && !isSpace c && c != '=' && c != ';' && c != '@' && c != '(')

/-- The 28 comp mnemonics: the keys of `code_comp`. -/
def compMnemonics : List Str := code_comp.map Prod.fst

/-- The 7 dest mnemonics: the non-empty keys of `code_dest`. -/
def destMnemonics : List Str := (code_dest.map Prod.fst).filter (fun m => !m.isEmpty)

/-- The 7 jump mnemonics: the non-empty keys of `code_jump`. -/
def jumpMnemonics : List Str := (code_jump.map Prod.fst).filter (fun m => !m.isEmpty)

/-- The lines of a program made of A-instructions, C-instructions and label
lines, by their parts. -/
inductive SourceLine where
  | aInstr (symbol : Str)
  | cInstr (text : Str)
  | label (name : Str)
  deriving DecidableEq, Repr

/-- The text of a source line: `@symbol`, the C-instruction, `(name)`. -/
def SourceLine.render : SourceLine → Str
  | .aInstr symbol => '@' :: symbol
  | .cInstr text => text
  | .label name => '(' :: (name ++ [')'])

/-- The parts of a source line are free of white space and of `/`; a
C-instruction is not empty and starts with neither `@` nor `(`; a label name
has no `)`. -/
def SourceLine.wellFormed : SourceLine → Bool
  | .aInstr symbol => isPlain symbol
  | .cInstr text =>
    isPlain text && (match text with
      | [] => false
      | c :: _ => c != '@' && c != '(')
  | .label name => isPlain name && name.all (fun c => c != ')')

/-- Whether the line is a label line. -/
def SourceLine.isLabel : SourceLine → Bool
  | .label _ => true
  | _ => false

/-- The number of non-label instructions of a program text. -/
def instructionCount (prog : List SourceLine) : Nat :=
  (prog.filter (fun l => !l.isLabel)).length

/-- The string pass 2 writes for an A-instruction of the given address. -/
def aWord (address : Int) : Str :=
  padLoop 16 (itoa (decimalToBinary address)) ++ "\n".toList

/-- The symbol table pass 1 is to produce according to the specification:
every label is bound to the number of instructions before it, counted from
`address`. -/
def bindLabels : List SourceLine → Int → SymbolTable → SymbolTable
  | [], _, table => table
  | .label name :: rest, address, table => bindLabels rest address ((name, address) :: table)
  | _ :: rest, address, table => bindLabels rest (address + 1) table

/-- The symbols that pass 2 has to allocate, in the order of their first
occurrence: the symbols of the A-instructions that are no decimal literal and
that `table`, the symbol table after pass 1, does not contain. -/
def newSymbols (table : SymbolTable) : List SourceLine → List Str → List Str
  | [], acc => acc
  | .aInstr symbol :: rest, acc =>
    if (atoi symbol).2 = false ∧ table.contains symbol = false ∧ symbol ∉ acc then
      newSymbols table rest (acc ++ [symbol])
    else newSymbols table rest acc
  | _ :: rest, acc => newSymbols table rest acc

/-- The index of the first occurrence of `s` in a list (its length when `s`
does not occur). -/
def position (s : Str) : List Str → Nat
  | [] => 0
  | x :: rest => if x = s then 0 else position s rest + 1

/-- The state of pass 2 after the symbols `vars` have been allocated, in this
order, on top of the table `table1` of pass 1: the next free address is
`16 + vars.length`, and the table binds the k-th of them to `16 + k` and
every other symbol as `table1` does. -/
def Allocated (table1 : SymbolTable) (vars : List Str) (ramAddress : Int)
    (table : SymbolTable) : Prop :=
  ramAddress = 16 + (vars.length : Int) ∧
  ∀ s : Str, table.lookup s =
    if s ∈ vars then some (16 + (position s vars : Int)) else table1.lookup s

/-- The decimal number whose digits are the low `width` bits of `n`. -/
def binAsDec : Nat → Nat → Nat
  | 0, _ => 0
  | width + 1, n => n % 2 + 10 * binAsDec width (n / 2)

/-- Two symbol tables that are the same Go map: they bind every symbol
alike. -/
def SameMap (t1 t2 : SymbolTable) : Prop := ∀ k : Str, t1.lookup k = t2.lookup k

/-- Whether a line of the source is a label line: the scanner keeps it and
`commandType` finds `L_COMMAND`. -/
def isLabelLine (line : Str) : Bool :=
  keepsLine line && decide ((initParser.advance line).commandType = CommandType.L_COMMAND)

/-- The symbols of the label lines of a source, in order. -/
def labelNames (lines : List Str) : List Str :=
  (lines.filter isLabelLine).map (fun line => (initParser.advance line).symbol)

/-- A line of a file as the two passes read it: nothing for a line the
scanner skips, else the instruction or label that `advance`, `commandType` and
`symbol` make of it. -/
def readLine (line : Str) : Option SourceLine :=
  if keepsLine line then
    match (initParser.advance line).commandType with
    | CommandType.A_COMMAND => some (.aInstr (initParser.advance line).symbol)
    | CommandType.C_COMMAND => some (.cInstr (initParser.advance line).currentCommand)
    | CommandType.L_COMMAND => some (.label (initParser.advance line).symbol)
  else none

/-- The program of a file: what the two passes read in its lines, in
order. -/
def readProgram (lines : List Str) : List SourceLine := lines.filterMap readLine

/-- A text of white space only (possibly empty). -/
def isBlank (s : Str) : Bool := s.all isSpace

/-- A source line as it may stand in a file: white space before and after
the instruction, and a comment at the end of the line. -/
def SourceLine.renderIn (indent trail : Str) (comment : Option Str) (l : SourceLine) : Str :=
  indent ++ (l.render ++ (trail ++
    (match comment with
    | none => []
    | some text => '/' :: '/' :: text)))

end HackAssembler

/-! ## VM-TRANSLATOR/VMTranslator.go -/

namespace VMTranslator

open GoStr

/-- The command types; `unrecognised` is the value -1 that `commandType`
returns for an unknown first word. -/
inductive CommandType where
  | C_ARITHMETIC
  | C_PUSH
  | C_POP
  | C_LABEL
  | C_GOTO
  | C_IF
  | C_FUNCTION
  | C_RETURN
  | C_CALL
  | unrecognised
  deriving DecidableEq, Repr

open CommandType

/-- The fields of `Parser` that the translation reads and writes; the scanner
is the list of lines still to be read. -/
structure Parser where
  currentCommand : Str
  args : List Str
  deriving DecidableEq, Repr

/-- The parser `initParser` returns. -/
def initParser : Parser := { currentCommand := [], args := [] }

/-- The test `hasMoreCommands` applies to a scanned line: the scan goes on
past a line that starts with `//` or is blank, and stops on any other. -/
def keepsLine (line : Str) : Bool :=
  if startsWith line "//".toList then false
  else if trimSpace line == [] then false
  else true

/-- Make the scanned line, without its comment, the current command and split
it at the spaces. -/
def Parser.advance (parser : Parser) (line : Str) : Parser :=
  let currentCommand := (split line "//".toList).getD 0 []
  { parser with currentCommand := currentCommand, args := split currentCommand " ".toList }

/-- The type of the current command, from its first word. -/
def Parser.commandType (parser : Parser) : CommandType :=
  let w := parser.args.getD 0 []
  if w = "add".toList then C_ARITHMETIC
  else if w = "sub".toList then C_ARITHMETIC
  else if w = "neg".toList then C_ARITHMETIC
  else if w = "eq".toList then C_ARITHMETIC
  else if w = "gt".toList then C_ARITHMETIC
  else if w = "lt".toList then C_ARITHMETIC
  else if w = "and".toList then C_ARITHMETIC
  else if w = "or".toList then C_ARITHMETIC
  else if w = "not".toList then C_ARITHMETIC
  else if w = "push".toList then C_PUSH
  else if w = "pop".toList then C_POP
  else if w = "label".toList then C_LABEL
  else if w = "goto".toList then C_GOTO
  else if w = "if-goto".toList then C_IF
  else if w = "function".toList then C_FUNCTION
  else if w = "return".toList then C_RETURN
  else if w = "call".toList then C_CALL
  else unrecognised

/-- The first argument of the current command; `none` is the run-time panic
of an index out of range. -/
def Parser.arg1 (parser : Parser) : Option Str :=
  if parser.commandType = C_ARITHMETIC then parser.args[0]? else parser.args[1]?

/-- The second argument of the current command: the value `strconv.Atoi`
returns, its error being dropped; `none` is the run-time panic of an index out
of range. -/
def Parser.arg2 (parser : Parser) : Option Int :=
  parser.args[2]?.map (fun s => (atoi s).1)

/-- The fields of `CodeWriter` that the translation reads and writes. -/
structure CodeWriter where
  comparisonCount : Int
  callCount : Int
  currentFileName : Str
  currentFunction : Str
  deriving DecidableEq, Repr

/-- The constant `pushDcommand`. -/
def pushDcommand : Str := "@SP\nA=M\nM=D\n@SP\nM=M+1".toList

/-- The constant `popDcommand`. -/
def popDcommand : Str := "@SP\nAM=M-1\nD=M".toList

/-- The code writer for the file of the given path. -/
def initCodeWriter (fileName : Str) : CodeWriter :=
  let filePath := split fileName "/".toList
  { comparisonCount := 0, callCount := 0,
    currentFileName := (split (filePath.getD (filePath.length - 1) []) ".".toList).getD 0 [],
    currentFunction := "main".toList }

/-- Set the name of the file being translated. -/
def CodeWriter.setFileName (codewriter : CodeWriter) (filename : Str) : CodeWriter :=
  { codewriter with currentFileName := filename }

/-- The assembly code of an arithmetic command, and the code writer with its
comparison counter advanced. -/
def CodeWriter.writeArithmetic (codewriter : CodeWriter) (command : Str) : CodeWriter × Str :=
  let incrementSP : Str := "@SP\nM=M+1\n".toList
  let binarycommand : Str := popDcommand ++ "\n@SP\nAM=M-1\n".toList
  let count : Str := itoa codewriter.comparisonCount
  let booleancommand1 : Str :=
    popDcommand ++ "\n@SP\nAM=M-1\nD=M-D\n".toList ++ "@BOOLEAN_".toList ++ count ++ "\n".toList
  let booleancommand2 : Str :=
    "\nD=0\n@FINAL_BOOLEAN_".toList ++ count ++ "\n0;JEQ\n(BOOLEAN_".toList ++ count ++
      (")\nD=-1\n(FINAL_BOOLEAN_".toList ++ count ++ ")\n".toList ++ pushDcommand ++ "\n".toList)
  let codewriter := { codewriter with comparisonCount := wrap64 (codewriter.comparisonCount + 1) }
  let assembly : Str :=
    if command = "add".toList then "// add\n".toList ++ binarycommand ++ "M=D+M\n".toList ++ incrementSP
    else if command = "sub".toList then
      "// sub\n".toList ++ binarycommand ++ "M=M-D\n".toList ++ incrementSP
    else if command = "and".toList then
      "// and\n".toList ++ binarycommand ++ "M=D&M\n".toList ++ "M=D\n".toList ++ incrementSP
    else if command = "or".toList then
      "// or\n".toList ++ binarycommand ++ "M=D|M\n".toList ++ "M=D\n".toList ++ incrementSP
    else if command = "not".toList then
      "// not\n".toList ++ popDcommand ++ "\nM=!M\n".toList ++ incrementSP
    else if command = "neg".toList then
      "// neg\n".toList ++ popDcommand ++ "\nM=-M\n".toList ++ incrementSP
    else if command = "eq".toList then
      "// eq\n".toList ++ booleancommand1 ++ "D;JEQ".toList ++ booleancommand2
    else if command = "gt".toList then
      "// gt\n".toList ++ booleancommand1 ++ "D;JGT".toList ++ booleancommand2
    else if command = "lt".toList then
      "// lt\n".toList ++ booleancommand1 ++ "D;JLT".toList ++ booleancommand2
    else []
  (codewriter, assembly)

/-- The assembly code of a push command. -/
def CodeWriter.writePush (codewriter : CodeWriter) (segment : Str) (index : Int) : Str :=
  let assembly : Str := "// C_PUSH ".toList ++ segment ++ "[".toList ++ itoa index ++ "]\n".toList
  let indexString : Str := itoa index
  let memoryIndex : Str := "@".toList ++ indexString
  let pushString : Str := "\nD=M\n".toList ++ pushDcommand ++ "\n".toList
  if segment = "local".toList then
    assembly ++ (memoryIndex ++ "\nD=A\n@LCL\nA=D+M".toList ++ pushString)
  else if segment = "argument".toList then
    assembly ++ (memoryIndex ++ "\nD=A\n@ARG\nA=D+M".toList ++ pushString)
  else if segment = "this".toList then
    assembly ++ (memoryIndex ++ "\nD=A\n@THIS\nA=D+M".toList ++ pushString)
  else if segment = "that".toList then
    assembly ++ (memoryIndex ++ "\nD=A\n@THAT\nA=D+M".toList ++ pushString)
  else if segment = "pointer".toList then
    if index = 0 then assembly ++ ("@THIS".toList ++ pushString)
    else assembly ++ ("@THAT".toList ++ pushString)
  else if segment = "static".toList then
    assembly ++ ("@".toList ++ codewriter.currentFileName ++ "_".toList ++ indexString ++ pushString)
  else if segment = "temp".toList then
    assembly ++ (memoryIndex ++ "\nD=A\n@R5\nA=D+A".toList ++ pushString)
  else if segment = "constant".toList then
    assembly ++ (memoryIndex ++ "\nD=A\n".toList ++ pushDcommand ++ "\n".toList)
  else assembly

/-- The assembly code of a pop command. -/
def CodeWriter.writePop (codewriter : CodeWriter) (segment : Str) (index : Int) : Str :=
  let assembly : Str := "// C_POP ".toList ++ segment ++ "[".toList ++ itoa index ++ "]\n".toList
  let indexString : Str := itoa index
  let memoryIndex : Str := "@".toList ++ indexString
  let popString : Str :=
    "\n@FRAME\nM=D\n".toList ++ popDcommand ++ "\n@FRAME\nA=M\nM=D\n".toList
  if segment = "local".toList then
    assembly ++ (memoryIndex ++ "\nD=A\n@LCL\nD=D+M".toList ++ popString)
  else if segment = "argument".toList then
    assembly ++ (memoryIndex ++ "\nD=A\n@ARG\nD=D+M".toList ++ popString)
  else if segment = "this".toList then
    assembly ++ (memoryIndex ++ "\nD=A\n@THIS\nD=D+M".toList ++ popString)
  else if segment = "that".toList then
    assembly ++ (memoryIndex ++ "\nD=A\n@THAT\nD=D+M".toList ++ popString)
  else if segment = "pointer".toList then
    if index = 0 then assembly ++ (popDcommand ++ "\n@THIS\nM=D\n".toList)
    else assembly ++ (popDcommand ++ "\n@THAT\nM=D\n".toList)
  else if segment = "static".toList then
    assembly ++ (popDcommand ++ "\n@".toList ++ codewriter.currentFileName ++ "_".toList ++
      indexString ++ "\nM=D\n".toList)
  else if segment = "temp".toList then
    assembly ++ (memoryIndex ++ "\nD=A\n@R5\nD=D+A".toList ++ popString)
  else assembly

/-- The assembly code of a label command. -/
def CodeWriter.writeLabel (_codewriter : CodeWriter) (label : Str) : Str :=
  "// label ".toList ++ label ++ "\n".toList ++ ("(".toList ++ label ++ ")\n".toList)

/-- The assembly code of a goto command. -/
def CodeWriter.writeGoto (_codewriter : CodeWriter) (label : Str) : Str :=
  "// goto ".toList ++ label ++ "\n".toList ++ ("@".toList ++ label ++ "\n0;JMP\n".toList)

/-- The assembly code of an if-goto command. -/
def CodeWriter.writeIf (_codewriter : CodeWriter) (label : Str) : Str :=
  "// if-goto ".toList ++ label ++ "\n".toList ++ (popDcommand ++ "\n".toList) ++
    ("@".toList ++ label ++ "\nD;JNE\n".toList)

/-- The assembly code of a call command, and the code writer with its call
counter advanced. -/
def CodeWriter.writeCall (codewriter : CodeWriter) (functionName : Str) (numArgs : Int) :
    CodeWriter × Str :=
  let assembly : Str := "// call ".toList ++ functionName ++ " ".toList ++ itoa numArgs ++ "\n".toList
  let return_address : Str := "return_address_".toList ++ itoa codewriter.callCount
  let pushString : Str := "\nD=M\n".toList ++ pushDcommand ++ "\n".toList
  let assembly := assembly ++ ("@".toList ++ return_address ++ "\nD=A\n".toList ++ pushDcommand ++ "\n".toList)
  let assembly := assembly ++ ("@LCL".toList ++ pushString)
  let assembly := assembly ++ ("@ARG".toList ++ pushString)
  let assembly := assembly ++ ("@THIS".toList ++ pushString)
  let assembly := assembly ++ ("@THAT".toList ++ pushString)
  let assembly := assembly ++
    ("\nD=M\n@".toList ++ itoa (wrap64 (numArgs + 5)) ++ "\nD=D-A\n@ARG\nM=D\n".toList)
  let assembly := assembly ++ "\n@SP\nD=M\n@LCL\nM=D\n".toList
  let assembly := assembly ++ ("@".toList ++ functionName ++ "\n0;JMP\n".toList)
  let assembly := assembly ++ ("(".toList ++ return_address ++ ")\n".toList)
  ({ codewriter with callCount := wrap64 (codewriter.callCount + 1) }, assembly)

/-- The bootstrap code, and the code writer after its call of `Sys.init`. -/
def CodeWriter.writeInit (codewriter : CodeWriter) : CodeWriter × Str :=
  let assembly : Str := "// Boostrap code\n@256\nD=A\n@SP\nM=D\n".toList
  let r := codewriter.writeCall "Sys.init".toList 0
  (r.1, assembly ++ (r.2 ++ "0;JMP\n".toList))

/-- The assembly code of a return command. -/
def CodeWriter.writeReturn (_codewriter : CodeWriter) : Str :=
  let assembly : Str := "// return\n".toList
  let FRAME : Str := "\n@FRAME\n".toList
  let RET : Str := "\n@RET\n".toList
  let assembly := assembly ++ ("@LCL\nD=M".toList ++ FRAME ++ "M=D".toList)
  let assembly := assembly ++ (FRAME ++ "D=M\n@5\nD=D-A\nA=D\nD=M".toList ++ RET ++ "M=D\n".toList)
  let assembly := assembly ++ (popDcommand ++ "\n@ARG\nA=M\nM=D\n".toList)
  let assembly := assembly ++ "@ARG\nD=M+1\n@SP\nM=D".toList
  let assembly := assembly ++ (FRAME ++ "D=M\n@1\nD=D-A\nA=D\nD=M\n@THAT\nM=D".toList)
  let assembly := assembly ++ (FRAME ++ "D=M\n@2\nD=D-A\nA=D\nD=M\n@THIS\nM=D".toList)
  let assembly := assembly ++ (FRAME ++ "D=M\n@3\nD=D-A\nA=D\nD=M\n@ARG\nM=D".toList)
  let assembly := assembly ++ (FRAME ++ "D=M\n@4\nD=D-A\nA=D\nD=M\n@LCL\nM=D".toList)
  let assembly := assembly ++ (RET ++ "A=M\n0;JMP\n".toList)
  assembly

/-- The loop of `writeFunction`: `numLocals` rounds of the two lines that
store a zero and move on (none when `numLocals` is negative). -/
def localsLoop (numLocals : Int) : Str :=
  (List.replicate numLocals.toNat "M=0\nA=A+1\n".toList).flatten

/-- The assembly code of a function command, and the code writer with its
current function set. -/
def CodeWriter.writeFunction (codewriter : CodeWriter) (functionName : Str) (numLocals : Int) :
    CodeWriter × Str :=
  let codewriter := { codewriter with currentFunction := functionName }
  let assembly : Str := "// function ".toList ++ functionName ++ itoa numLocals ++ "\n".toList
  let assembly := assembly ++ ("(".toList ++ functionName ++ ")\n@SP\nA=M\n".toList)
  let assembly := assembly ++ localsLoop numLocals
  let assembly := assembly ++ "D=A\n@SP\nM=D\n".toList
  (codewriter, assembly)

/-- One round of the loop of `generateASM` on the current command: the new
code writer and the new value of the variable `assembly`, which keeps its
value when no case of the switch applies; `none` is a run-time panic. -/
def generateASMStep (parser : Parser) (codewriter : CodeWriter) (assembly : Str) :
    Option (CodeWriter × Str) :=
  match parser.commandType with
  | C_ARITHMETIC => parser.arg1.map (fun a => codewriter.writeArithmetic a)
  | C_PUSH =>
    parser.arg1.bind (fun a => parser.arg2.map (fun i => (codewriter, codewriter.writePush a i)))
  | C_POP =>
    parser.arg1.bind (fun a => parser.arg2.map (fun i => (codewriter, codewriter.writePop a i)))
  | C_LABEL => parser.arg1.map (fun a => (codewriter, codewriter.writeLabel a))
  | C_GOTO => parser.arg1.map (fun a => (codewriter, codewriter.writeGoto a))
  | C_IF => parser.arg1.map (fun a => (codewriter, codewriter.writeIf a))
  | C_FUNCTION =>
    parser.arg1.bind (fun a => parser.arg2.map (fun i => codewriter.writeFunction a i))
  | C_RETURN => some (codewriter, codewriter.writeReturn)
  | C_CALL => parser.arg1.bind (fun a => parser.arg2.map (fun i => codewriter.writeCall a i))
  | unrecognised => some (codewriter, assembly)

/-- The loop of `generateASM` over the lines of the file: the strings written,
with the final code writer and value of `assembly`. -/
def generateASMLoop : List Str → Parser → CodeWriter → Str → Option (CodeWriter × Str × List Str)
  | [], _, codewriter, assembly => some (codewriter, assembly, [])
  | line :: rest, parser, codewriter, assembly =>
    if keepsLine line then
      match generateASMStep (parser.advance line) codewriter assembly with
      | none => none
      | some (codewriter, assembly) =>
        match generateASMLoop rest (parser.advance line) codewriter assembly with
        | none => none
        | some (cw, asm, out) => some (cw, asm, assembly :: out)
    else generateASMLoop rest parser codewriter assembly

/-- The function `generateASM`: the strings written for a file. -/
def generateASM (lines : List Str) (parser : Parser) (codewriter : CodeWriter) :
    Option (CodeWriter × List Str) :=
  (generateASMLoop lines parser codewriter []).map (fun r => (r.1, r.2.2))

/-- File mode of `main`: the content of the `.asm` file written for the
`.vm` file of the given path and lines. -/
def translateFile (filePath : Str) (lines : List Str) : Option Str :=
  (generateASM lines initParser (initCodeWriter filePath)).map (fun r => r.2.flatten)

/-- The loop of directory mode of `main` over the entries of the directory,
each given by its path `filepath.Join(fileName, file.Name())` and the lines of
the file: the strings written to the one output file. Every `.vm` file gets a
new parser and a new code writer; the bootstrap code is written once, by the
code writer of the first `.vm` file, before that file's code. -/
def translateDirectoryLoop : List (Str × List Str) → Bool → Option (List Str)
  | [], _ => some []
  | (path, lines) :: rest, init =>
    if ext path = ".vm".toList then
      let codewriter := initCodeWriter path
      let boot : CodeWriter × List Str :=
        if init = false then ((codewriter.writeInit).1, [(codewriter.writeInit).2])
        else (codewriter, [])
      match generateASM lines initParser boot.1 with
      | none => none
      | some r =>
        match translateDirectoryLoop rest true with
        | none => none
        | some out => some (boot.2 ++ r.2 ++ out)
    else translateDirectoryLoop rest init

/-- Directory mode of `main`: the content of the `.asm` file written for the
entries of a directory. -/
def translateDirectory (files : List (Str × List Str)) : Option Str :=
  (translateDirectoryLoop files false).map List.flatten

end VMTranslator

/-! ## The Hack computer

The reference model against which the translated programs are run: the Hack
assembly language and the Hack CPU of the platform specification (The Elements
of Computing Systems, chapters 4 to 6). Words are numbers below 2^16, negative
numbers in two's complement, and the memory is addressed by the low 15 bits of
the A register. -/

namespace HackMachine

open GoStr

/-- The second operand of the ALU: the A register or the memory word `M`. -/
inductive Operand where
  | A
  | M
  deriving DecidableEq, Repr

/-- The 28 computations of a C-instruction; `y` is the A register or `M`. -/
inductive Comp where
  | zero
  | one
  | negOne
  | d
  | y (o : Operand)
  | notD
  | notY (o : Operand)
  | negD
  | negY (o : Operand)
  | incD
  | incY (o : Operand)
  | decD
  | decY (o : Operand)
  | dPlusY (o : Operand)
  | dMinusY (o : Operand)
  | yMinusD (o : Operand)
  | dAndY (o : Operand)
  | dOrY (o : Operand)
  deriving DecidableEq, Repr

/-- The destinations of a C-instruction. -/
structure Dest where
  a : Bool
  d : Bool
  m : Bool
  deriving DecidableEq, Repr

/-- The jump conditions of a C-instruction. -/
inductive Jump where
  | null
  | JGT
  | JEQ
  | JGE
  | JLT
  | JNE
  | JLE
  | JMP
  deriving DecidableEq, Repr

/-- A machine instruction: `@value` or `dest=comp;jump`. -/
inductive Instr where
  | aInstr (value : Nat)
  | cInstr (dest : Dest) (comp : Comp) (jump : Jump)
  deriving DecidableEq, Repr

/-- A line of an assembly program, parsed. -/
inductive AsmLine where
  | label (name : Str)
  | aNumber (value : Nat)
  | aSymbol (name : Str)
  | cInstr (dest : Dest) (comp : Comp) (jump : Jump)
  deriving DecidableEq, Repr

/-- The comp mnemonics of the assembly language. -/
def compNames : List (Str × Comp) :=
  [ ("0".toList, .zero), ("1".toList, .one), ("-1".toList, .negOne), ("D".toList, .d),
    ("A".toList, .y .A), ("M".toList, .y .M), ("!D".toList, .notD), ("!A".toList, .notY .A),
    ("!M".toList, .notY .M), ("-D".toList, .negD), ("-A".toList, .negY .A),
    ("-M".toList, .negY .M), ("D+1".toList, .incD), ("A+1".toList, .incY .A),
    ("M+1".toList, .incY .M), ("D-1".toList, .decD), ("A-1".toList, .decY .A),
    ("M-1".toList, .decY .M), ("D+A".toList, .dPlusY .A), ("D+M".toList, .dPlusY .M),
    ("D-A".toList, .dMinusY .A), ("D-M".toList, .dMinusY .M), ("A-D".toList, .yMinusD .A),
    ("M-D".toList, .yMinusD .M), ("D&A".toList, .dAndY .A), ("D&M".toList, .dAndY .M),
    ("D|A".toList, .dOrY .A), ("D|M".toList, .dOrY .M) ]

/-- The dest mnemonics of the assembly language. -/
def destNames : List (Str × Dest) :=
  [ ("M".toList, ⟨false, false, true⟩), ("D".toList, ⟨false, true, false⟩),
    ("MD".toList, ⟨false, true, true⟩), ("A".toList, ⟨true, false, false⟩),
    ("AM".toList, ⟨true, false, true⟩), ("AD".toList, ⟨true, true, false⟩),
    ("AMD".toList, ⟨true, true, true⟩) ]

/-- The jump mnemonics of the assembly language. -/
def jumpNames : List (Str × Jump) :=
  [ ("JGT".toList, .JGT), ("JEQ".toList, .JEQ), ("JGE".toList, .JGE), ("JLT".toList, .JLT),
    ("JNE".toList, .JNE), ("JLE".toList, .JLE), ("JMP".toList, .JMP) ]

/-- The predefined symbols of the assembly language. -/
def predefined : List (Str × Nat) :=
  [ ("SP".toList, 0), ("LCL".toList, 1), ("ARG".toList, 2), ("THIS".toList, 3),
    ("THAT".toList, 4), ("SCREEN".toList, 16384), ("KBD".toList, 24576),
    ("R0".toList, 0), ("R1".toList, 1), ("R2".toList, 2), ("R3".toList, 3),
    ("R4".toList, 4), ("R5".toList, 5), ("R6".toList, 6), ("R7".toList, 7),
    ("R8".toList, 8), ("R9".toList, 9), ("R10".toList, 10), ("R11".toList, 11),
    ("R12".toList, 12), ("R13".toList, 13), ("R14".toList, 14), ("R15".toList, 15) ]

/-- Parse `dest=comp;jump`, where `dest=` and `;jump` are optional. -/
def parseC (body : Str) : Option AsmLine :=
  let dc : Option Dest × Str := match indexCut "=".toList body with
    | some (d, rest) => (destNames.lookup d, rest)
    | none => (some ⟨false, false, false⟩, body)
  let cj : Str × Option Jump := match indexCut ";".toList dc.2 with
    | some (c, j) => (c, jumpNames.lookup j)
    | none => (dc.2, some Jump.null)
  match dc.1, compNames.lookup cj.1, cj.2 with
  | some d, some c, some j => some (AsmLine.cInstr d c j)
  | _, _, _ => none

/-- Parse a line of assembly text: `none` is a syntax error, `some none` a
line without a command (blank or comment only). -/
def parseLine (line : Str) : Option (Option AsmLine) :=
  let body := trimSpace ((split line "//".toList).getD 0 [])
  match body with
  | [] => some none
  | c :: rest =>
    if c = '@' then
      match rest with
      | [] => none
      | r :: _ =>
        if (digitVal r).isSome then
          match parseDigits rest 0 with
          | some n => if n < 32768 then some (some (AsmLine.aNumber n)) else none
          | none => none
        else some (some (AsmLine.aSymbol rest))
    else if c = '(' ∧ endsWith rest ")".toList = true then
      some (some (AsmLine.label (rest.take (rest.length - 1))))
    else (parseC body).map some

/-- Parse the lines of an assembly text. -/
def parseLines : List Str → Option (List AsmLine)
  | [] => some []
  | line :: rest =>
    match parseLine line, parseLines rest with
    | some (some l), some ls => some (l :: ls)
    | some none, some ls => some ls
    | _, _ => none

/-- The label bindings of a program: every label with the number of
instructions before it, counted from `address`. -/
def labelTable : List AsmLine → Nat → List (Str × Nat)
  | [], _ => []
  | .label name :: rest, address => (name, address) :: labelTable rest address
  | _ :: rest, address => labelTable rest (address + 1)

/-- The variables of a program in the order of their first occurrence: the
symbols of A-instructions that are neither labels nor predefined. -/
def variableList (labels : List (Str × Nat)) : List AsmLine → List Str → List Str
  | [], acc => acc
  | .aSymbol name :: rest, acc =>
    if (labels.lookup name).isSome ∨ (predefined.lookup name).isSome ∨ name ∈ acc then
      variableList labels rest acc
    else variableList labels rest (acc ++ [name])
  | _ :: rest, acc => variableList labels rest acc

/-- The address of a symbol: its label address, its predefined address, or,
for the k-th variable, `16 + k`. -/
def symbolAddress (labels : List (Str × Nat)) (vars : List Str) (name : Str) : Nat :=
  match labels.lookup name with
  | some a => a
  | none =>
    match predefined.lookup name with
    | some a => a
    | none => 16 + HackAssembler.position name vars

/-- The instructions of a parsed program, symbols resolved. -/
def resolve (labels : List (Str × Nat)) (vars : List Str) : List AsmLine → List Instr
  | [] => []
  | .label _ :: rest => resolve labels vars rest
  | .aNumber n :: rest => Instr.aInstr n :: resolve labels vars rest
  | .aSymbol name :: rest => Instr.aInstr (symbolAddress labels vars name) :: resolve labels vars rest
  | .cInstr d c j :: rest => Instr.cInstr d c j :: resolve labels vars rest

/-- The program of a parsed assembly text. -/
def link (lines : List AsmLine) : List Instr :=
  resolve (labelTable lines 0) (variableList (labelTable lines 0) lines []) lines

/-- Parse an assembly text, line by line. -/
def parseText (text : Str) : Option (List AsmLine) :=
  parseLines (split text "\n".toList)

/-- The reference assembler: the program an assembly text denotes; `none` for
a text with a syntax error. -/
def assemble (text : Str) : Option (List Instr) :=
  (parseText text).map link

/-- The state of the computer: the registers A and D, the program counter and
the data memory. -/
structure State where
  a : Nat
  d : Nat
  pc : Nat
  ram : Nat → Nat

/-- The bitwise negation of a word. -/
def not16 (x : Nat) : Nat := 65535 - x % 65536

/-- The value of a computation, a word, from the registers and `M`. -/
def Comp.eval (c : Comp) (a d m : Nat) : Nat :=
  let y : Operand → Nat := fun o => match o with
    | .A => a
    | .M => m
  match c with
  | .zero => 0
  | .one => 1
  | .negOne => 65535
  | .d => d % 65536
  | .y o => y o % 65536
  | .notD => not16 d
  | .notY o => not16 (y o)
  | .negD => (65536 - d % 65536) % 65536
  | .negY o => (65536 - y o % 65536) % 65536
  | .incD => (d + 1) % 65536
  | .incY o => (y o + 1) % 65536
  | .decD => (d + 65535) % 65536
  | .decY o => (y o + 65535) % 65536
  | .dPlusY o => (d + y o) % 65536
  | .dMinusY o => (d + (65536 - y o % 65536)) % 65536
  | .yMinusD o => (y o + (65536 - d % 65536)) % 65536
  | .dAndY o => Nat.land (d % 65536) (y o % 65536)
  | .dOrY o => Nat.lor (d % 65536) (y o % 65536)

/-- Whether a jump is taken on the value `out` of the computation, read as a
signed 16-bit number. -/
def Jump.taken (j : Jump) (out : Nat) : Bool :=
  match j with
  | .null => false
  | .JGT => 0 < out && out < 32768
  | .JEQ => out == 0
  | .JGE => out < 32768
  | .JLT => 32768 ≤ out
  | .JNE => out != 0
  | .JLE => out == 0 || 32768 ≤ out
  | .JMP => true

/-- The memory after the word at `addr` is set to `v`. -/
def setRam (ram : Nat → Nat) (addr v : Nat) : Nat → Nat :=
  fun x => if x = addr then v else ram x

/-- Execute an instruction. A C-instruction reads `M` at the address in A,
writes the value to its destinations (to `M` at the old address), and jumps to
the old value of A when its condition holds. -/
def exec (i : Instr) (s : State) : State :=
  match i with
  | .aInstr v => { s with a := v, pc := s.pc + 1 }
  | .cInstr dest comp jump =>
    let addr := s.a % 32768
    let out := comp.eval s.a s.d (s.ram addr)
    { a := if dest.a then out else s.a,
      d := if dest.d then out else s.d,
      pc := if jump.taken out then s.a else s.pc + 1,
      ram := if dest.m then setRam s.ram addr out else s.ram }

/-- Execute a list of instructions one after the other. -/
def execBlock : List Instr → State → State
  | [], s => s
  | i :: rest, s => execBlock rest (exec i s)

/-- Whether an instruction never jumps. -/
def Instr.noJump : Instr → Bool
  | .aInstr _ => true
  | .cInstr _ _ j => j == Jump.null

/-- The program holds the instructions `code` from the address `off` on. -/
def CodeAt (prog : List Instr) (off : Nat) (code : List Instr) : Prop :=
  ∃ pre post, prog = pre ++ code ++ post ∧ pre.length = off

/-- One step of the computer: fetch and execute; `none` when the program
counter is past the program. -/
def step (prog : List Instr) (s : State) : Option State :=
  match prog[s.pc]? with
  | none => none
  | some i => some (exec i s)

/-- Run the computer for `n` steps. -/
def runFor (prog : List Instr) : Nat → State → Option State
  | 0, s => some s
  | n + 1, s =>
    match step prog s with
    | none => none
    | some s2 => runFor prog n s2

end HackMachine

/-! ## Reference notions for the translator's properties -/

namespace VMTranslator

open GoStr HackMachine

/-- The lines of `pushDcommand`: store D at the top of the stack and advance
the stack pointer. -/
def pushDLines : List Str :=
  ["@SP".toList, "A=M".toList, "M=D".toList, "@SP".toList, "M=M+1".toList]

/-- The lines of `popDcommand`: step the stack pointer back and load the top
of the stack into D. -/
def popDLines : List Str := ["@SP".toList, "AM=M-1".toList, "D=M".toList]

/-- The lines written for `push constant n`. -/
def pushConstantLines (n : Nat) : List Str :=
  [ "// C_PUSH constant[".toList ++ Nat.toDigits 10 n ++ "]".toList, '@' :: Nat.toDigits 10 n,
    "D=A".toList ] ++ pushDLines

/-- The lines written for `add`. -/
def addLines : List Str :=
  ["// add".toList] ++ popDLines ++ ["@SP".toList, "AM=M-1".toList, "M=D+M".toList,
    "@SP".toList, "M=M+1".toList]

/-- The instructions of `pushDLines`. -/
def pushDAsm : List AsmLine :=
  [.aSymbol "SP".toList, .cInstr ⟨true, false, false⟩ (.y .M) .null,
    .cInstr ⟨false, false, true⟩ .d .null, .aSymbol "SP".toList,
    .cInstr ⟨false, false, true⟩ (.incY .M) .null]

/-- The instructions of `popDLines`. -/
def popDAsm : List AsmLine :=
  [.aSymbol "SP".toList, .cInstr ⟨true, false, true⟩ (.decY .M) .null,
    .cInstr ⟨false, true, false⟩ (.y .M) .null]

/-- The instructions of `push constant n`. -/
def pushConstantAsm (n : Nat) : List AsmLine :=
  [.aNumber n, .cInstr ⟨false, true, false⟩ (.y .A) .null] ++ pushDAsm

/-- The instructions of `add`. -/
def addAsm : List AsmLine :=
  popDAsm ++ [.aSymbol "SP".toList, .cInstr ⟨true, false, true⟩ (.decY .M) .null,
    .cInstr ⟨false, false, true⟩ (.dPlusY .M) .null, .aSymbol "SP".toList,
    .cInstr ⟨false, false, true⟩ (.incY .M) .null]

/-- The lines written for `lt` when the comparison counter is 0. -/
def ltLines : List Str :=
  ["// lt".toList] ++ popDLines ++
    ["@SP".toList, "AM=M-1".toList, "D=M-D".toList, "@BOOLEAN_0".toList, "D;JLT".toList,
      "D=0".toList, "@FINAL_BOOLEAN_0".toList, "0;JEQ".toList, "(BOOLEAN_0)".toList,
      "D=-1".toList, "(FINAL_BOOLEAN_0)".toList] ++ pushDLines

/-- The instructions and labels of `lt` when the comparison counter is 0. -/
def ltAsm : List AsmLine :=
  popDAsm ++
    [.aSymbol "SP".toList, .cInstr ⟨true, false, true⟩ (.decY .M) .null,
      .cInstr ⟨false, true, false⟩ (.yMinusD .M) .null, .aSymbol "BOOLEAN_0".toList,
      .cInstr ⟨false, false, false⟩ .d .JLT, .cInstr ⟨false, true, false⟩ .zero .null,
      .aSymbol "FINAL_BOOLEAN_0".toList, .cInstr ⟨false, false, false⟩ .zero .JEQ,
      .label "BOOLEAN_0".toList, .cInstr ⟨false, true, false⟩ .negOne .null,
      .label "FINAL_BOOLEAN_0".toList] ++ pushDAsm

/-- The name of the return label of the call site number `k`. -/
def returnLabel (k : Nat) : Str := "return_address_".toList ++ Nat.toDigits 10 k

/-- Lines that push the address of a symbol. -/
def pushAddressLines (symbol : Str) : List Str :=
  ['@' :: symbol, "D=A".toList] ++ pushDLines

/-- Lines that push the content of the memory word a symbol names. -/
def pushMemLines (symbol : Str) : List Str :=
  ['@' :: symbol, "D=M".toList] ++ pushDLines

/-- Lines that set ARG to SP - (n + 5); they take over the address of SP in
the A register from the push before them. -/
def setArgLines (n : Nat) : List Str :=
  [[], "D=M".toList, '@' :: Nat.toDigits 10 (n + 5), "D=D-A".toList, "@ARG".toList,
    "M=D".toList]

/-- Lines that set LCL to SP. -/
def setLclLines : List Str :=
  [[], "@SP".toList, "D=M".toList, "@LCL".toList, "M=D".toList]

/-- Lines that jump to a symbol. -/
def gotoLines (symbol : Str) : List Str := ['@' :: symbol, "0;JMP".toList]

/-- The lines of a call of `f` with `n` arguments at the call site number
`k`, block by block. -/
def callLines (f : Str) (n k : Nat) : List Str :=
  ["// call ".toList ++ f ++ " ".toList ++ Nat.toDigits 10 n] ++
    (pushAddressLines (returnLabel k) ++
    (pushMemLines "LCL".toList ++
    (pushMemLines "ARG".toList ++
    (pushMemLines "THIS".toList ++
    (pushMemLines "THAT".toList ++
    (setArgLines n ++
    (setLclLines ++
    (gotoLines f ++
    ['(' :: (returnLabel k ++ [')'])]))))))))

/-- The instructions of `pushDLines`, `SP` resolved. -/
def pushDCode : List Instr :=
  [.aInstr 0, .cInstr ⟨true, false, false⟩ (.y .M) .null, .cInstr ⟨false, false, true⟩ .d .null,
    .aInstr 0, .cInstr ⟨false, false, true⟩ (.incY .M) .null]

/-- The instructions of `popDLines`, `SP` resolved. -/
def popDCode : List Instr :=
  [.aInstr 0, .cInstr ⟨true, false, true⟩ (.decY .M) .null,
    .cInstr ⟨false, true, false⟩ (.y .M) .null]

/-- Instructions that push the number `v`. -/
def pushAddressCode (v : Nat) : List Instr :=
  [.aInstr v, .cInstr ⟨false, true, false⟩ (.y .A) .null] ++ pushDCode

/-- Instructions that push the content of the memory word at `v`. -/
def pushMemCode (v : Nat) : List Instr :=
  [.aInstr v, .cInstr ⟨false, true, false⟩ (.y .M) .null] ++ pushDCode

/-- Instructions that set ARG to SP - (n + 5), with the address of SP in the
A register at their start. -/
def setArgCode (n : Nat) : List Instr :=
  [.cInstr ⟨false, true, false⟩ (.y .M) .null, .aInstr (n + 5),
    .cInstr ⟨false, true, false⟩ (.dMinusY .A) .null, .aInstr 2,
    .cInstr ⟨false, false, true⟩ .d .null]

/-- Instructions that set LCL to SP. -/
def setLclCode : List Instr :=
  [.aInstr 0, .cInstr ⟨false, true, false⟩ (.y .M) .null, .aInstr 1,
    .cInstr ⟨false, false, true⟩ .d .null]

/-- The instructions of a call before its jump, for the return address
`ret`. -/
def callFrameCode (ret n : Nat) : List Instr :=
  pushAddressCode ret ++ (pushMemCode 1 ++ (pushMemCode 2 ++ (pushMemCode 3 ++
    (pushMemCode 4 ++ (setArgCode n ++ setLclCode)))))

/-- The instructions of a call: build the frame, then jump to the function at
`fa`. -/
def callCode (ret fa n : Nat) : List Instr :=
  callFrameCode ret n ++ [.aInstr fa, .cInstr ⟨false, false, false⟩ .zero .JMP]

/-- Lines that set FRAME to LCL. -/
def frameLines : List Str :=
  ["@LCL".toList, "D=M".toList, "@FRAME".toList, "M=D".toList]

/-- Lines that set the word `symbol` names to `*(FRAME - i)`. -/
def restoreLines (i : Nat) (symbol : Str) : List Str :=
  ["@FRAME".toList, "D=M".toList, '@' :: Nat.toDigits 10 i, "D=D-A".toList, "A=D".toList,
    "D=M".toList, '@' :: symbol, "M=D".toList]

/-- Lines that pop the top of the stack into `*ARG`. -/
def popArgLines : List Str :=
  popDLines ++ ["@ARG".toList, "A=M".toList, "M=D".toList]

/-- Lines that set SP to ARG + 1. -/
def spLines : List Str :=
  ["@ARG".toList, "D=M+1".toList, "@SP".toList, "M=D".toList]

/-- Lines that jump to the address stored in RET. -/
def jumpRetLines : List Str := ["@RET".toList, "A=M".toList, "0;JMP".toList]

/-- The lines of a return, block by block. -/
def returnLines : List Str :=
  ["// return".toList] ++
    (frameLines ++
    (restoreLines 5 "RET".toList ++
    (popArgLines ++
    (spLines ++
    (restoreLines 1 "THAT".toList ++
    (restoreLines 2 "THIS".toList ++
    (restoreLines 3 "ARG".toList ++
    (restoreLines 4 "LCL".toList ++
    jumpRetLines))))))))

/-- Instructions that set FRAME, at the address `fr`, to LCL. -/
def frameCode (fr : Nat) : List Instr :=
  [.aInstr 1, .cInstr ⟨false, true, false⟩ (.y .M) .null, .aInstr fr,
    .cInstr ⟨false, false, true⟩ .d .null]

/-- Instructions that set the word at `reg` to `*(FRAME - i)`. -/
def restoreCode (fr i reg : Nat) : List Instr :=
  [.aInstr fr, .cInstr ⟨false, true, false⟩ (.y .M) .null, .aInstr i,
    .cInstr ⟨false, true, false⟩ (.dMinusY .A) .null, .cInstr ⟨true, false, false⟩ .d .null,
    .cInstr ⟨false, true, false⟩ (.y .M) .null, .aInstr reg,
    .cInstr ⟨false, false, true⟩ .d .null]

/-- Instructions that pop the top of the stack into `*ARG`. -/
def popArgCode : List Instr :=
  popDCode ++ [.aInstr 2, .cInstr ⟨true, false, false⟩ (.y .M) .null,
    .cInstr ⟨false, false, true⟩ .d .null]

/-- Instructions that set SP to ARG + 1. -/
def spCode : List Instr :=
  [.aInstr 2, .cInstr ⟨false, true, false⟩ (.incY .M) .null, .aInstr 0,
    .cInstr ⟨false, false, true⟩ .d .null]

/-- The instructions of a return before its jump, with FRAME at `fr` and RET
at `rt`. -/
def returnFrameCode (fr rt : Nat) : List Instr :=
  frameCode fr ++ (restoreCode fr 5 rt ++ (popArgCode ++ (spCode ++ (restoreCode fr 1 4 ++
    (restoreCode fr 2 3 ++ (restoreCode fr 3 2 ++ restoreCode fr 4 1))))))

/-- The instructions of a return: unwind the frame, then jump to the address
stored in RET. -/
def returnCode (fr rt : Nat) : List Instr :=
  returnFrameCode fr rt ++
    [.aInstr rt, .cInstr ⟨true, false, false⟩ (.y .M) .null,
      .cInstr ⟨false, false, false⟩ .zero .JMP]

/-- A symbol name: not empty, no white space, no `/`, and no digit at its
start. -/
def isName (s : Str) : Bool :=
  match s with
  | [] => false
  | c :: _ => (digitVal c).isNone && s.all (fun x => x != '/' && !isSpace x)

/-- The symbols that the code of the translator uses for itself. -/
def translatorSymbols : List Str :=
  ["SP".toList, "LCL".toList, "ARG".toList, "THIS".toList, "THAT".toList, "R5".toList,
    "FRAME".toList, "RET".toList]

/-- The lines written for `function f k`: the label, the `k` rounds that
store a zero, and the new SP. -/
def functionLines (f : Str) (k : Nat) : List Str :=
  ["// function ".toList ++ f ++ Nat.toDigits 10 k, '(' :: (f ++ [')']), "@SP".toList,
    "A=M".toList] ++
    ((List.replicate k ["M=0".toList, "A=A+1".toList]).flatten ++
    ["D=A".toList, "@SP".toList, "M=D".toList])

/-- The two instructions of a round of the loop of `writeFunction`. -/
def loopAsm (k : Nat) : List AsmLine :=
  (List.replicate k [AsmLine.cInstr ⟨false, false, true⟩ .zero .null,
    AsmLine.cInstr ⟨true, false, false⟩ (.incY .A) .null]).flatten

/-- The instructions and the label of `function f k`. -/
def functionAsm (f : Str) (k : Nat) : List AsmLine :=
  [.label f, .aSymbol "SP".toList, .cInstr ⟨true, false, false⟩ (.y .M) .null] ++
    (loopAsm k ++
    [.cInstr ⟨false, true, false⟩ (.y .A) .null, .aSymbol "SP".toList,
      .cInstr ⟨false, false, true⟩ .d .null])

/-- The instructions of `k` rounds of the loop of `writeFunction`. -/
def loopCode (k : Nat) : List Instr :=
  (List.replicate k [Instr.cInstr ⟨false, false, true⟩ .zero .null,
    Instr.cInstr ⟨true, false, false⟩ (.incY .A) .null]).flatten

/-- The instructions of `function f k`. -/
def functionCode (k : Nat) : List Instr :=
  [.aInstr 0, .cInstr ⟨true, false, false⟩ (.y .M) .null] ++
    (loopCode k ++
    [.cInstr ⟨false, true, false⟩ (.y .A) .null, .aInstr 0,
      .cInstr ⟨false, false, true⟩ .d .null])

/-- The memory after the `k` words from `a` on are set to zero. -/
def zeroRange (ram : Nat → Nat) (a k : Nat) : Nat → Nat :=
  fun x => if a ≤ x ∧ x < a + k then 0 else ram x

/-- The instructions of pushing the address of a symbol. -/
def pushAddressAsm (symbol : Str) : List AsmLine :=
  [.aSymbol symbol, .cInstr ⟨false, true, false⟩ (.y .A) .null] ++ pushDAsm

/-- The instructions of pushing the word a symbol names. -/
def pushMemAsm (symbol : Str) : List AsmLine :=
  [.aSymbol symbol, .cInstr ⟨false, true, false⟩ (.y .M) .null] ++ pushDAsm

/-- The instructions of `setArgLines`. -/
def setArgAsm (n : Nat) : List AsmLine :=
  [.cInstr ⟨false, true, false⟩ (.y .M) .null, .aNumber (n + 5),
    .cInstr ⟨false, true, false⟩ (.dMinusY .A) .null, .aSymbol "ARG".toList,
    .cInstr ⟨false, false, true⟩ .d .null]

/-- The instructions of `setLclLines`. -/
def setLclAsm : List AsmLine :=
  [.aSymbol "SP".toList, .cInstr ⟨false, true, false⟩ (.y .M) .null, .aSymbol "LCL".toList,
    .cInstr ⟨false, false, true⟩ .d .null]

/-- The instructions and the label of a call. -/
def callAsm (f : Str) (n k : Nat) : List AsmLine :=
  pushAddressAsm (returnLabel k) ++ (pushMemAsm "LCL".toList ++ (pushMemAsm "ARG".toList ++
    (pushMemAsm "THIS".toList ++ (pushMemAsm "THAT".toList ++ (setArgAsm n ++ (setLclAsm ++
    [.aSymbol f, .cInstr ⟨false, false, false⟩ .zero .JMP, .label (returnLabel k)]))))))

/-- The instructions of `restoreLines`. -/
def restoreAsm (i : Nat) (symbol : Str) : List AsmLine :=
  [.aSymbol "FRAME".toList, .cInstr ⟨false, true, false⟩ (.y .M) .null, .aNumber i,
    .cInstr ⟨false, true, false⟩ (.dMinusY .A) .null, .cInstr ⟨true, false, false⟩ .d .null,
    .cInstr ⟨false, true, false⟩ (.y .M) .null, .aSymbol symbol,
    .cInstr ⟨false, false, true⟩ .d .null]

/-- The instructions of a return. -/
def returnAsm : List AsmLine :=
  [.aSymbol "LCL".toList, .cInstr ⟨false, true, false⟩ (.y .M) .null, .aSymbol "FRAME".toList,
    .cInstr ⟨false, false, true⟩ .d .null] ++
  (restoreAsm 5 "RET".toList ++
  (popDAsm ++ [.aSymbol "ARG".toList, .cInstr ⟨true, false, false⟩ (.y .M) .null,
    .cInstr ⟨false, false, true⟩ .d .null] ++
  ([.aSymbol "ARG".toList, .cInstr ⟨false, true, false⟩ (.incY .M) .null, .aSymbol "SP".toList,
    .cInstr ⟨false, false, true⟩ .d .null] ++
  (restoreAsm 1 "THAT".toList ++ (restoreAsm 2 "THIS".toList ++ (restoreAsm 3 "ARG".toList ++
  (restoreAsm 4 "LCL".toList ++
  [.aSymbol "RET".toList, .cInstr ⟨true, false, false⟩ (.y .M) .null,
    .cInstr ⟨false, false, false⟩ .zero .JMP])))))))

/-- The lines written for `and` (`op` is `M=D&M`) and for `or` (`op` is
`M=D|M`): after the two pops, the operation, then the line `M=D`, then the
increment of SP. -/
def logicLines (name op : Str) : List Str :=
  ["// ".toList ++ name] ++ popDLines ++ ["@SP".toList, "AM=M-1".toList, op, "M=D".toList,
    "@SP".toList, "M=M+1".toList]

/-- The instructions of `logicLines` for the computation `c`. -/
def logicAsm (c : Comp) : List AsmLine :=
  popDAsm ++ [.aSymbol "SP".toList, .cInstr ⟨true, false, true⟩ (.decY .M) .null,
    .cInstr ⟨false, false, true⟩ c .null, .cInstr ⟨false, false, true⟩ .d .null,
    .aSymbol "SP".toList, .cInstr ⟨false, false, true⟩ (.incY .M) .null]

/-- The label declarations of an assembly text, in order: its lines that
start with `(`. -/
def labelDeclarations (text : Str) : List Str :=
  (split text "\n".toList).filter (fun l => l.head? == some '(')

/-- The code of a program between the addresses `start` and `stop` pushes one
value on a stack at `sp`, in a function with the local segment at `lcl` and
the argument segment at `arg`: run from `start` in such a state, the computer
reaches `stop` with the stack pointer at `sp + 1`, with LCL and ARG and the
five words below `lcl`, the saved frame, as they were, and with 16-bit words
in memory. The value pushed is the word at `sp`. -/
def PushesOneValue (prog : List Instr) (start stop sp lcl arg : Nat) : Prop :=
  ∀ s : State, s.pc = start → s.ram 0 = sp → s.ram 1 = lcl → s.ram 2 = arg →
    (∀ x, s.ram x < 65536) →
    ∃ (m : Nat) (s2 : State), runFor prog m s = some s2 ∧ s2.pc = stop ∧
      s2.ram 0 = sp + 1 ∧ s2.ram 1 = lcl ∧ s2.ram 2 = arg ∧
      (∀ x, lcl ≤ x + 5 → x < lcl → s2.ram x = s.ram x) ∧ (∀ x, s2.ram x < 65536)

/-- A directory of three `.vm` files, in the order of `ioutil.ReadDir`:
`Main.f` pushes 7 and returns, `Sys.init` calls `Main.f`, and `Util.h`, which
is never called, calls `Main.f` and returns. -/
def callDirectory : List (Str × List Str) :=
  [("d/Main.vm".toList,
      ["function Main.f 0".toList, "push constant 7".toList, "return".toList]),
    ("d/Sys.vm".toList, ["function Sys.init 0".toList, "call Main.f 0".toList]),
    ("d/Util.vm".toList,
      ["function Util.h 0".toList, "call Main.f 0".toList, "return".toList])]

end VMTranslator

/-! ## The Jack analyzer

The tokenizer and the compilation engine of `JackAnalyzer.go`. A file is the
list of the lines `bufio.Scanner` yields; a `bufio.Writer` is the list of the
strings written to it. The regular expressions are used through
`MatchString` only, which reports whether the string CONTAINS a match. -/

namespace GoStr

/-- The function `strings.TrimLeft`: drop the leading characters that are in
the cutset. -/
def trimLeft (s cutset : Str) : Str := s.dropWhile (fun c => cutset.contains c)

end GoStr

namespace JackAnalyzer

open GoStr

/-- The token types; `unknown` is the value -1 of `tokenType`. -/
inductive TokenType where
  | KEYWORD | SYMBOL | IDENTIFIER | INT_CONST | STRING_CONST | unknown
  deriving DecidableEq, Repr

/-- The keyword constants, `CLASS` being 0, the zero value a map lookup
returns for a missing key. -/
inductive KeyWord where
  | CLASS | METHOD | FUNCTION | CONSTRUCTOR | INT | BOOLEAN | CHAR | VOID | VAR | STATIC | FIELD
  | LET | DO | IF | ELSE | WHILE | RETURN | TRUE | FALSE | NULL | THIS
  deriving DecidableEq, Repr

open TokenType KeyWord

/-- The map `kerywordlist`. -/
def kerywordlist : List (Str × KeyWord) :=
  [("class".toList, CLASS), ("method".toList, METHOD), ("function".toList, FUNCTION),
    ("constructor".toList, CONSTRUCTOR), ("int".toList, INT), ("boolean".toList, BOOLEAN),
    ("char".toList, CHAR), ("void".toList, VOID), ("var".toList, VAR), ("static".toList, STATIC),
    ("field".toList, FIELD), ("let".toList, LET), ("do".toList, DO), ("if".toList, IF),
    ("else".toList, ELSE), ("while".toList, WHILE), ("return".toList, RETURN),
    ("true".toList, TRUE), ("false".toList, FALSE), ("null".toList, NULL),
    ("this".toList, THIS)]

/-- Whether `keywordRegularExpression` matches: the string contains one of
the alternatives. -/
def keywordMatch (s : Str) : Bool :=
  ["class".toList, "method".toList, "function".toList, "constructor".toList, "int".toList,
    "boolean".toList, "char".toList, "void".toList, "var".toList, "static".toList,
    "field".toList, "let".toList, "do".toList, "if".toList, "else".toList, "while".toList,
    "return".toList, "true".toList, "false".toList, "null".toList, "this".toList].any
    (fun k => contains s k)

/-- The characters of the class of `symbolRegularExpression`; the bar that
separates the escapes inside the brackets is a member of the class itself. -/
def symbolChars : Str := "\x7b|\x7d()[].,;+-*/&<>=~".toList

/-- Whether `symbolRegularExpression` matches: the string contains a
character of the class. -/
def symbolMatch (s : Str) : Bool := s.any (fun c => symbolChars.contains c)

/-- The class `[0-9]`. -/
def isDigit (c : Char) : Bool := 48 ≤ c.toNat && c.toNat ≤ 57

/-- The class `[\w_]`: ASCII letters, digits and the underscore. -/
def isWord (c : Char) : Bool :=
  isDigit c || (65 ≤ c.toNat && c.toNat ≤ 90) || (97 ≤ c.toNat && c.toNat ≤ 122) || c == '_'

/-- Whether `identifierRegularExpression` matches: the string contains a word
character. -/
def identifierMatch (s : Str) : Bool := s.any isWord

/-- Whether `integerRegularExpression` matches: the string contains a digit. -/
def integerMatch (s : Str) : Bool := s.any isDigit

/-- After an opening double quote: characters other than a double quote and a
line break, then a double quote. -/
def stringCloses : Str → Bool
  | [] => false
  | c :: t => if c = '"' then true else if c = '\n' then false else stringCloses t

/-- Whether `stringRegularExpression` matches: the string contains a double
quote that `stringCloses` follows. -/
def stringMatch : Str → Bool
  | [] => false
  | c :: t => (c == '"' && stringCloses t) || stringMatch t

/-- The fields of `JackTokenizer` that the analysis reads and writes, with the
strings written to `writerT`. -/
structure JackTokenizer where
  tokenPointer : Int
  tokenList : List Str
  writerT : List Str
  deriving DecidableEq, Repr

/-- The function `appendToken`. -/
def JackTokenizer.appendToken (jackTokenizer : JackTokenizer) (currentToken : Str) :
    JackTokenizer :=
  { jackTokenizer with
    tokenList := jackTokenizer.tokenList ++ [currentToken],
    tokenPointer := jackTokenizer.tokenPointer + 1 }

/-- The function `getCurrentToken`: the token at the pointer and the tokenizer
with the pointer the function leaves; `none` is the run-time panic of an index
out of range. -/
def JackTokenizer.getCurrentToken (jackTokenizer : JackTokenizer) :
    Option (Str × JackTokenizer) :=
  let len : Int := jackTokenizer.tokenList.length
  let p : Int :=
    if jackTokenizer.tokenPointer > len then jackTokenizer.tokenPointer - len
    else jackTokenizer.tokenPointer
  if 0 ≤ p ∧ p < len then
    (jackTokenizer.tokenList[p.toNat]?).map (fun t => (t, { jackTokenizer with tokenPointer := p }))
  else none

/-- The function `hasMoreTokens`. -/
def JackTokenizer.hasMoreTokens (jackTokenizer : JackTokenizer) : Bool :=
  jackTokenizer.tokenPointer < (jackTokenizer.tokenList.length : Int)

/-- The function `advance`. -/
def JackTokenizer.advance (jackTokenizer : JackTokenizer) : JackTokenizer :=
  if jackTokenizer.hasMoreTokens then
    { jackTokenizer with tokenPointer := jackTokenizer.tokenPointer + 1 }
  else jackTokenizer

/-- The classification `tokenType` makes of a token: the first of the five
expressions, in the order integer, string, keyword, symbol, identifier, that
matches somewhere in it. -/
def classify (token : Str) : TokenType :=
  if integerMatch token then INT_CONST
  else if stringMatch token then STRING_CONST
  else if keywordMatch token then KEYWORD
  else if symbolMatch token then SYMBOL
  else if identifierMatch token then IDENTIFIER
  else unknown

/-- The function `tokenType`. -/
def JackTokenizer.tokenType (jackTokenizer : JackTokenizer) :
    Option (TokenType × JackTokenizer) :=
  jackTokenizer.getCurrentToken.map (fun r => (classify r.1, r.2))

/-- The function `keyWord`. -/
def JackTokenizer.keyWord (jackTokenizer : JackTokenizer) : Option (KeyWord × JackTokenizer) :=
  jackTokenizer.getCurrentToken.map (fun r => ((kerywordlist.lookup r.1).getD CLASS, r.2))

/-- The function `intVal`: the value of `strconv.Atoi`, its error dropped. -/
def JackTokenizer.intVal (jackTokenizer : JackTokenizer) : Option (Int × JackTokenizer) :=
  jackTokenizer.getCurrentToken.map (fun r => ((atoi r.1).1, r.2))

/-- The function `stringVal`: the token without its first and its last
character, which are the double quotes of a token the tokenizer built;
`none` is the panic of the slice `[1 : len-1]` on a token shorter than two. -/
def JackTokenizer.stringVal (jackTokenizer : JackTokenizer) : Option (Str × JackTokenizer) :=
  match jackTokenizer.getCurrentToken with
  | none => none
  | some (t, jt) => if t.length < 2 then none else some (t.tail.dropLast, jt)

/-- The body of the loop of `writeTXML` for the token at the pointer. -/
def JackTokenizer.writeToken (jackTokenizer : JackTokenizer) : Option JackTokenizer :=
  match jackTokenizer.tokenType with
  | none => none
  | some (tt, jt) =>
    let tag : Option (Str × Str) := match tt with
      | INT_CONST => some ("<integerConstant> ".toList, " </integerConstant>\n".toList)
      | STRING_CONST => some ("<stringConstant> ".toList, " </stringConstant>\n".toList)
      | KEYWORD => some ("<keyword> ".toList, " </keyword>\n".toList)
      | SYMBOL => some ("<symbol> ".toList, " </symbol>\n".toList)
      | IDENTIFIER => some ("<identifier> ".toList, " </identifier>\n".toList)
      | unknown => none
    match tag with
    | none => some { jt with tokenPointer := jt.tokenPointer + 1 }
    | some (o, c) =>
      match jt.getCurrentToken with
      | none => none
      | some (t, jt2) =>
        some { jt2 with
          writerT := jt2.writerT ++ [o ++ t ++ c],
          tokenPointer := jt2.tokenPointer + 1 }

/-- The loop of `writeTXML`, `n` rounds. -/
def JackTokenizer.writeTokens : Nat → JackTokenizer → Option JackTokenizer
  | 0, jt => some jt
  | n + 1, jt =>
    match jt.writeToken with
    | none => none
    | some jt2 => JackTokenizer.writeTokens n jt2

/-- The function `writeTXML`. -/
def JackTokenizer.writeTXML (jackTokenizer : JackTokenizer) : Option JackTokenizer :=
  let jt := { jackTokenizer with
    writerT := jackTokenizer.writerT ++ ["<tokens>\n".toList],
    tokenPointer := 0 }
  match JackTokenizer.writeTokens jt.tokenList.length jt with
  | none => none
  | some jt2 =>
    some { jt2 with writerT := jt2.writerT ++ ["</tokens>\n".toList], tokenPointer := 0 }

/-- The loop of `initJackTokenizer` over the characters of a line, with the
variables `inputstring` and `isDoubleQuote`; what is left in `inputstring` at
the end of the line is dropped. -/
def scanChars : Str → Str → Bool → JackTokenizer → JackTokenizer
  | [], _, _, jt => jt
  | c :: rest, inputstring, isDoubleQuote, jt =>
    if !isDoubleQuote then
      if c = ' ' then
        if inputstring ≠ [] then scanChars rest [] isDoubleQuote (jt.appendToken inputstring)
        else scanChars rest inputstring isDoubleQuote jt
      else if symbolMatch [c] then
        if inputstring ≠ [] then
          scanChars rest [] isDoubleQuote ((jt.appendToken inputstring).appendToken [c])
        else scanChars rest inputstring isDoubleQuote (jt.appendToken [c])
      else if c = '"' then scanChars rest inputstring true jt
      else scanChars rest (inputstring ++ [c]) isDoubleQuote jt
    else
      if c ≠ '"' then scanChars rest (inputstring ++ [c]) isDoubleQuote jt
      else scanChars rest [] false (jt.appendToken ('"' :: (inputstring ++ ['"'])))

/-- The loop of `initJackTokenizer` over the lines of the file, with the
variable `longcomment`. -/
def scanLines : List Str → Bool → JackTokenizer → JackTokenizer
  | [], _, jt => jt
  | line :: rest, longcomment, jt =>
    if startsWith line "//".toList then scanLines rest longcomment jt
    else if trimSpace line = [] then scanLines rest longcomment jt
    else
      let preprocessedCommand := trimLeft ((split line "//".toList).getD 0 []) " ".toList
      if startsWith preprocessedCommand "/*".toList && endsWith preprocessedCommand "*/".toList
      then scanLines rest longcomment jt
      else if startsWith preprocessedCommand "/*".toList &&
          !endsWith preprocessedCommand "*/".toList then scanLines rest true jt
      else if longcomment && endsWith preprocessedCommand "*/".toList then
        scanLines rest false jt
      else if longcomment then scanLines rest longcomment jt
      else scanLines rest longcomment (scanChars (trimSpace preprocessedCommand) [] false jt)

/-- The function `initJackTokenizer` on the lines of a file: the tokenizer
with the token list and the token file written; `none` is a run-time panic. -/
def initJackTokenizer (lines : List Str) : Option JackTokenizer :=
  (scanLines lines false { tokenPointer := 0, tokenList := [], writerT := [] }).writeTXML

end JackAnalyzer

namespace JackAnalyzer

open GoStr TokenType KeyWord

/-- The fields of `CompilationEngine` that the compilation reads and writes,
with the strings written to `writer`. -/
structure CompilationEngine where
  jackTokenizer : JackTokenizer
  writer : List Str
  deriving DecidableEq, Repr

/-- The outcome of a routine of the engine: its result, or the run-time panic
of an index out of range, with the engine as it was then (what it had written
is flushed by the deferred calls of `main`), or the end of the fuel that
bounds the depth of the calls. -/
inductive Result (α : Type) where
  | ok (a : α)
  | panic (ce : CompilationEngine)
  | fuel
  deriving DecidableEq, Repr

/-- Sequencing of outcomes. -/
def Result.bind {α β : Type} (r : Result α) (f : α → Result β) : Result β :=
  match r with
  | .ok a => f a
  | .panic ce => .panic ce
  | .fuel => .fuel

instance : Monad Result where
  pure := Result.ok
  bind := Result.bind

/-- A string written to `writer`. -/
def CompilationEngine.write (ce : CompilationEngine) (s : Str) : CompilationEngine :=
  { ce with writer := ce.writer ++ [s] }

/-- The call `ce.jackTokenizer.getCurrentToken()`. -/
def CompilationEngine.token (ce : CompilationEngine) : Result (Str × CompilationEngine) :=
  match ce.jackTokenizer.getCurrentToken with
  | some (t, jt) => .ok (t, { ce with jackTokenizer := jt })
  | none => .panic ce

/-- The call `ce.jackTokenizer.tokenType()`. -/
def CompilationEngine.tokenType (ce : CompilationEngine) :
    Result (TokenType × CompilationEngine) :=
  match ce.jackTokenizer.tokenType with
  | some (t, jt) => .ok (t, { ce with jackTokenizer := jt })
  | none => .panic ce

/-- The call `ce.jackTokenizer.keyWord()`. -/
def CompilationEngine.keyWord (ce : CompilationEngine) : Result (KeyWord × CompilationEngine) :=
  match ce.jackTokenizer.keyWord with
  | some (k, jt) => .ok (k, { ce with jackTokenizer := jt })
  | none => .panic ce

/-- The test `tokenType() == KEYWORD && (keyWord() == k1 || ...)`. -/
def CompilationEngine.isKeyWord (ce : CompilationEngine) (ks : List KeyWord) :
    Result (Bool × CompilationEngine) := do
  let (t, ce) ← ce.tokenType
  if t = KEYWORD then
    let (k, ce) ← ce.keyWord
    pure (ks.contains k, ce)
  else pure (false, ce)

/-- The test `tokenType() == SYMBOL && (symbol() == s1 || ...)`. -/
def CompilationEngine.isSymbol (ce : CompilationEngine) (ss : List Str) :
    Result (Bool × CompilationEngine) := do
  let (t, ce) ← ce.tokenType
  if t = SYMBOL then
    let (s, ce) ← ce.token
    pure (ss.contains s, ce)
  else pure (false, ce)

/-- The function `CompileSymbol`. -/
def CompilationEngine.CompileSymbol (ce : CompilationEngine) : Result CompilationEngine := do
  let (t, ce) ← ce.token
  pure (ce.write ("<symbol> ".toList ++ t ++ " </symbol>\n".toList))

/-- The function `CompileIdentifier`. -/
def CompilationEngine.CompileIdentifier (ce : CompilationEngine) : Result CompilationEngine := do
  let (t, ce) ← ce.token
  pure (ce.write ("<identifier> ".toList ++ t ++ " </identifier>\n".toList))

/-- The function `CompileKeyWord`. -/
def CompilationEngine.CompileKeyWord (ce : CompilationEngine) : Result CompilationEngine := do
  let (t, ce) ← ce.token
  pure (ce.write ("<keyword> ".toList ++ t ++ " </keyword>\n".toList))

/-- The function `IncrementPointer`. -/
def CompilationEngine.IncrementPointer (ce : CompilationEngine) : CompilationEngine :=
  if ce.jackTokenizer.hasMoreTokens then { ce with jackTokenizer := ce.jackTokenizer.advance }
  else ce

/-- The function `DecrementPointer`. -/
def CompilationEngine.DecrementPointer (ce : CompilationEngine) : CompilationEngine :=
  { ce with jackTokenizer :=
      { ce.jackTokenizer with tokenPointer := ce.jackTokenizer.tokenPointer - 1 } }

/-- The text `"<symbol> " + symbol() + " </symbol>\n"` that `CompileTermOutput`
adds to its output. -/
def CompilationEngine.symbolText (ce : CompilationEngine) : Result (Str × CompilationEngine) := do
  let (t, ce) ← ce.token
  pure ("<symbol> ".toList ++ t ++ " </symbol>\n".toList, ce)

/-- The code `if keyword type then CompileKeyWord else if IDENTIFIER then
CompileIdentifier` of `CompileSubroutine` and `CompileVarDec`. -/
def CompilationEngine.compileType (ce : CompilationEngine) : Result CompilationEngine := do
  let (b, ce) ← ce.isKeyWord [BOOLEAN, CHAR, INT, VOID]
  if b then ce.CompileKeyWord
  else
    let (t, ce) ← ce.tokenType
    if t = IDENTIFIER then ce.CompileIdentifier else pure ce

/-- The routines of the engine and the loops inside them. -/
inductive Routine where
  | CompileClass | CompileClassVarDec | classVarDecLoop | CompileSubroutine | subroutineLoop
  | varDecLoop | CompileParameterList | CompileVarDec | varNameLoop | CompileStatements
  | statementLoop | CompileDo | CompileLet | CompileWhile | CompileReturn | CompileIf
  | CompileExpression | CompileExpressionOutput | operatorLoop | CompileTerm
  | CompileTermOutput | argumentLoop | CompileExpressionList | expressionListLoop
  deriving DecidableEq, Repr

end JackAnalyzer

namespace JackAnalyzer

open GoStr TokenType KeyWord

/-- Whether `symbolRegularExpression2`, the class of the binary operators,
matches. -/
def operatorMatch (s : Str) : Bool := s.any (fun c => "+|-*/&<>=".toList.contains c)

/-- The routines of the compilation engine, by name: the engine after the
routine and the string the routine returns (empty for the routines that return
nothing). A loop is a routine of its own that calls itself for the next round;
every call takes one unit of `fuel`. -/
def compile : Nat → Routine → CompilationEngine → Result (CompilationEngine × Str)
  | 0, _, _ => .fuel
  | fuel + 1, routine, ce =>
    match routine with
    | .CompileClass => do
      let ce := ce.write "<class>\n".toList
      let ce ← ce.CompileKeyWord
      let ce := ce.IncrementPointer
      let ce ← ce.CompileIdentifier
      let ce := ce.IncrementPointer
      let ce ← ce.CompileSymbol
      let (ce, _) ← compile fuel .CompileClassVarDec ce
      let (ce, _) ← compile fuel .CompileSubroutine ce
      let ce ← ce.CompileSymbol
      pure (ce.write "</class>\n".toList, [])
    | .CompileClassVarDec => do
      let ce := ce.IncrementPointer
      let (ce, _) ← compile fuel .classVarDecLoop ce
      pure (ce.DecrementPointer, [])
    | .classVarDecLoop => do
      let (b, ce) ← ce.isKeyWord [STATIC, FIELD]
      if b then
        let ce := ce.write "<classVarDec>\n".toList
        let ce ← ce.CompileKeyWord
        let (ce, _) ← compile fuel .CompileVarDec ce
        let ce := ce.write "</classVarDec>\n".toList
        let ce := ce.IncrementPointer
        compile fuel .classVarDecLoop ce
      else pure (ce, [])
    | .CompileSubroutine => do
      let ce := ce.IncrementPointer
      compile fuel .subroutineLoop ce
    | .subroutineLoop => do
      let (b, ce) ← ce.isKeyWord [CONSTRUCTOR, FUNCTION, METHOD]
      if b then
        let ce := ce.write "<subroutineDec>\n".toList
        let ce ← ce.CompileKeyWord
        let ce := ce.IncrementPointer
        let ce ← ce.compileType
        let ce := ce.IncrementPointer
        let ce ← ce.CompileIdentifier
        let ce := ce.IncrementPointer
        let ce ← ce.CompileSymbol
        let ce := ce.write "<parameterList>\n".toList
        let (ce, _) ← compile fuel .CompileParameterList ce
        let ce := ce.write "</parameterList>\n".toList
        let ce := ce.IncrementPointer
        let ce ← ce.CompileSymbol
        let ce := ce.write "<subroutineBody>\n".toList
        let ce := ce.IncrementPointer
        let ce ← ce.CompileSymbol
        let ce := ce.IncrementPointer
        let (ce, _) ← compile fuel .varDecLoop ce
        let ce := ce.DecrementPointer
        let (ce, _) ← compile fuel .CompileStatements ce
        let ce := ce.IncrementPointer
        let ce ← ce.CompileSymbol
        let ce := ce.write "</subroutineBody>\n</subroutineDec>\n".toList
        let ce := ce.IncrementPointer
        compile fuel .subroutineLoop ce
      else pure (ce, [])
    | .varDecLoop => do
      let (b, ce) ← ce.isKeyWord [VAR]
      if b then
        let ce := ce.write "<varDec>\n".toList
        let ce := ce.write "<keyword> var </keyword>\n".toList
        let (ce, _) ← compile fuel .CompileVarDec ce
        let ce := ce.write "</varDec>\n".toList
        let ce := ce.IncrementPointer
        compile fuel .varDecLoop ce
      else pure (ce, [])
    | .CompileParameterList => do
      let ce := ce.IncrementPointer
      let (b, ce) ← ce.isKeyWord [BOOLEAN, CHAR, INT, VOID]
      let (found, ce) ←
        (if b then do
          let ce ← ce.CompileKeyWord
          pure (true, ce)
        else do
          let (t, ce) ← ce.tokenType
          if t = IDENTIFIER then do
            let ce ← ce.CompileIdentifier
            pure (true, ce)
          else pure (false, ce) : Result (Bool × CompilationEngine))
      if found then
        let ce := ce.IncrementPointer
        let ce ← ce.CompileIdentifier
        let ce := ce.IncrementPointer
        let (c, ce) ← ce.isSymbol [",".toList]
        if c then
          let ce ← ce.CompileSymbol
          compile fuel .CompileParameterList ce
        else pure (ce.DecrementPointer, [])
      else pure (ce.DecrementPointer, [])
    | .CompileVarDec => do
      let ce := ce.IncrementPointer
      let ce ← ce.compileType
      let ce := ce.IncrementPointer
      let ce ← ce.CompileIdentifier
      let ce := ce.IncrementPointer
      let (ce, _) ← compile fuel .varNameLoop ce
      let ce ← ce.CompileSymbol
      pure (ce, [])
    | .varNameLoop => do
      let (c, ce) ← ce.isSymbol [",".toList]
      if c then
        let ce ← ce.CompileSymbol
        let ce := ce.IncrementPointer
        let ce ← ce.CompileIdentifier
        let ce := ce.IncrementPointer
        compile fuel .varNameLoop ce
      else pure (ce, [])
    | .CompileStatements => do
      let ce := ce.write "<statements>\n".toList
      let ce := ce.IncrementPointer
      let (ce, _) ← compile fuel .statementLoop ce
      let ce := ce.DecrementPointer
      pure (ce.write "</statements>\n".toList, [])
    | .statementLoop => do
      let (t, ce) ← ce.tokenType
      if t = KEYWORD then
        let (k, ce) ← ce.keyWord
        let (ce, _) ←
          (match k with
          | DO => compile fuel .CompileDo ce
          | LET => compile fuel .CompileLet ce
          | WHILE => compile fuel .CompileWhile ce
          | RETURN => compile fuel .CompileReturn ce
          | IF => compile fuel .CompileIf ce
          | _ => pure (ce, []) : Result (CompilationEngine × Str))
        let ce := ce.IncrementPointer
        compile fuel .statementLoop ce
      else pure (ce, [])
    | .CompileDo => do
      let ce := ce.write "<doStatement>\n".toList
      let ce ← ce.CompileKeyWord
      let ce := ce.IncrementPointer
      let ce ← ce.CompileIdentifier
      let ce := ce.IncrementPointer
      let ce ← ce.CompileSymbol
      let (d, ce) ← ce.isSymbol [".".toList]
      let ce ←
        (if d then do
          let ce := ce.IncrementPointer
          let ce ← ce.CompileIdentifier
          let ce := ce.IncrementPointer
          ce.CompileSymbol
        else pure ce : Result CompilationEngine)
      let (ce, _) ← compile fuel .CompileExpressionList ce
      let ce := ce.IncrementPointer
      let ce ← ce.CompileSymbol
      let ce := ce.IncrementPointer
      let ce ← ce.CompileSymbol
      pure (ce.write "</doStatement>\n".toList, [])
    | .CompileLet => do
      let ce := ce.write "<letStatement>\n".toList
      let ce ← ce.CompileKeyWord
      let ce := ce.IncrementPointer
      let ce ← ce.CompileIdentifier
      let ce := ce.IncrementPointer
      let (b, ce) ← ce.isSymbol ["[".toList]
      let ce ←
        (if b then do
          let ce ← ce.CompileSymbol
          let (ce, _) ← compile fuel .CompileExpression ce
          let ce ← ce.CompileSymbol
          pure ce.IncrementPointer
        else pure ce : Result CompilationEngine)
      let ce ← ce.CompileSymbol
      let (ce, _) ← compile fuel .CompileExpression ce
      let ce ← ce.CompileSymbol
      pure (ce.write "</letStatement>\n".toList, [])
    | .CompileWhile => do
      let ce := ce.write "<whileStatement>\n".toList
      let ce ← ce.CompileKeyWord
      let ce := ce.IncrementPointer
      let ce ← ce.CompileSymbol
      let (ce, _) ← compile fuel .CompileExpression ce
      let ce ← ce.CompileSymbol
      let ce := ce.IncrementPointer
      let ce ← ce.CompileSymbol
      let (ce, _) ← compile fuel .CompileStatements ce
      let ce := ce.IncrementPointer
      let ce ← ce.CompileSymbol
      pure (ce.write "</whileStatement>\n".toList, [])
    | .CompileReturn => do
      let ce := ce.write "<returnStatement>\n".toList
      let ce ← ce.CompileKeyWord
      let ce := ce.IncrementPointer
      let (b, ce) ← ce.isSymbol [";".toList]
      if b then
        let ce ← ce.CompileSymbol
        pure (ce.write "</returnStatement>\n".toList, [])
      else
        let ce := ce.DecrementPointer
        let (ce, _) ← compile fuel .CompileExpression ce
        let ce ← ce.CompileSymbol
        pure (ce.write "</returnStatement>\n".toList, [])
    | .CompileIf => do
      let ce := ce.write "<ifStatement>\n".toList
      let ce ← ce.CompileKeyWord
      let ce := ce.IncrementPointer
      let ce ← ce.CompileSymbol
      let (ce, _) ← compile fuel .CompileExpression ce
      let ce ← ce.CompileSymbol
      let ce := ce.IncrementPointer
      let ce ← ce.CompileSymbol
      let (ce, _) ← compile fuel .CompileStatements ce
      let ce := ce.IncrementPointer
      let ce ← ce.CompileSymbol
      let ce := ce.IncrementPointer
      let (b, ce) ← ce.isKeyWord [ELSE]
      let ce ←
        (if b then do
          let ce ← ce.CompileKeyWord
          let ce := ce.IncrementPointer
          let ce ← ce.CompileSymbol
          let (ce, _) ← compile fuel .CompileStatements ce
          let ce := ce.IncrementPointer
          ce.CompileSymbol
        else pure ce.DecrementPointer : Result CompilationEngine)
      pure (ce.write "</ifStatement>\n".toList, [])
    | .CompileExpression => do
      let (ce, output) ← compile fuel .CompileExpressionOutput ce
      if output ≠ [] then
        pure (ce.write ("<expression>\n".toList ++ output ++ "</expression>\n".toList), [])
      else pure (ce, [])
    | .CompileExpressionOutput => do
      let ce := ce.IncrementPointer
      let (ce, term) ← compile fuel .CompileTerm ce
      let ce := ce.IncrementPointer
      let (ce, more) ← compile fuel .operatorLoop ce
      pure (ce, term ++ more)
    | .operatorLoop => do
      let (t, ce) ← ce.tokenType
      let (b, ce) ←
        (if t = SYMBOL then do
          let (s, ce) ← ce.token
          pure (operatorMatch s, ce)
        else pure (false, ce) : Result (Bool × CompilationEngine))
      if b then
        let (s, ce) ← ce.token
        let (op, ce) ←
          (if s = ">".toList then pure ("<symbol> &gt; </symbol>\n".toList, ce)
          else if s = "<".toList then pure ("<symbol> &lt; </symbol>\n".toList, ce)
          else if s = "&".toList then pure ("<symbol> &amp; </symbol>\n".toList, ce)
          else ce.symbolText : Result (Str × CompilationEngine))
        let ce := ce.IncrementPointer
        let (ce, term) ← compile fuel .CompileTerm ce
        let ce := ce.IncrementPointer
        let (ce, more) ← compile fuel .operatorLoop ce
        pure (ce, op ++ term ++ more)
      else pure (ce, [])
    | .CompileTerm => do
      let (ce, output) ← compile fuel .CompileTermOutput ce
      if output ≠ [] then pure (ce, "<term>\n".toList ++ output ++ "</term>\n".toList)
      else pure (ce, [])
    | .CompileTermOutput => do
      let (t, ce) ← ce.tokenType
      if t = STRING_CONST then
        match ce.jackTokenizer.stringVal with
        | none => .panic ce
        | some (s, jt) =>
          pure ({ ce with jackTokenizer := jt },
            "<stringConstant> ".toList ++ s ++ " </stringConstant>\n".toList)
      else if t = INT_CONST then
        match ce.jackTokenizer.intVal with
        | none => .panic ce
        | some (i, jt) =>
          pure ({ ce with jackTokenizer := jt },
            "<integerConstant> ".toList ++ itoa i ++ " </integerConstant>\n".toList)
      else
        let (par, ce) ← ce.isSymbol ["(".toList]
        if par then
          let (o1, ce) ← ce.symbolText
          let (ce, e) ← compile fuel .CompileExpressionOutput ce
          let (o2, ce) ← ce.symbolText
          pure (ce, o1 ++ ("<expression>\n".toList ++ e ++ "</expression>\n".toList) ++ o2)
        else
          let (kw, ce) ← ce.isKeyWord [THIS, NULL, TRUE, FALSE]
          if kw then
            let (s, ce) ← ce.token
            pure (ce, "<keyword> ".toList ++ s ++ " </keyword>\n".toList)
          else
            let (t, ce) ← ce.tokenType
            if t = IDENTIFIER then
              let (s, ce) ← ce.token
              let o0 := "<identifier> ".toList ++ s ++ " </identifier>\n".toList
              let ce := ce.IncrementPointer
              let (br, ce) ← ce.isSymbol ["[".toList]
              if br then
                let (o1, ce) ← ce.symbolText
                let (ce, e) ← compile fuel .CompileExpressionOutput ce
                let (o2, ce) ← ce.symbolText
                pure (ce, o0 ++ o1 ++ ("<expression>\n".toList ++ e ++ "</expression>\n".toList)
                  ++ o2)
              else
                let (call, ce) ← ce.isSymbol ["(".toList, ".".toList]
                if call then
                  let (o1, ce) ← ce.symbolText
                  let (s, ce) ← ce.token
                  let (o2, ce) ←
                    (if s = ".".toList then do
                      let ce := ce.IncrementPointer
                      let (n, ce) ← ce.token
                      let ce := ce.IncrementPointer
                      let (o, ce) ← ce.symbolText
                      pure ("<identifier> ".toList ++ n ++ " </identifier>\n".toList ++ o, ce)
                    else pure ([], ce) : Result (Str × CompilationEngine))
                  let (ce, e) ← compile fuel .CompileExpressionOutput ce
                  let o3 : Str :=
                    if e ≠ [] then "<expression>\n".toList ++ e ++ "</expression>\n".toList
                    else []
                  let (ce, o4) ← compile fuel .argumentLoop ce
                  let (o5, ce) ← ce.symbolText
                  pure (ce, o0 ++ o1 ++ o2 ++ "<expressionList>\n".toList ++ o3 ++ o4 ++
                    "</expressionList>\n".toList ++ o5)
                else pure (ce.DecrementPointer, o0)
            else
              let (un, ce) ← ce.isSymbol ["-".toList, "~".toList]
              if un then
                let (o1, ce) ← ce.symbolText
                let ce := ce.IncrementPointer
                let (ce, term) ← compile fuel .CompileTerm ce
                pure (ce, o1 ++ term)
              else pure (ce.DecrementPointer, [])
    | .argumentLoop => do
      let (c, ce) ← ce.isSymbol [",".toList]
      if c then
        let (o1, ce) ← ce.symbolText
        let (ce, e) ← compile fuel .CompileExpressionOutput ce
        if e ≠ [] then
          let (ce, more) ← compile fuel .argumentLoop ce
          pure (ce, o1 ++ ("<expression>\n".toList ++ e ++ "</expression>\n".toList) ++ more)
        else
          let ce := ce.DecrementPointer
          let (ce, more) ← compile fuel .argumentLoop ce
          pure (ce, o1 ++ more)
      else pure (ce, [])
    | .CompileExpressionList => do
      let ce := ce.write "<expressionList>\n".toList
      let (ce, _) ← compile fuel .CompileExpression ce
      let (ce, _) ← compile fuel .expressionListLoop ce
      let ce := ce.DecrementPointer
      pure (ce.write "</expressionList>\n".toList, [])
    | .expressionListLoop => do
      let (c, ce) ← ce.isSymbol [",".toList]
      if c then
        let ce ← ce.CompileSymbol
        let (ce, _) ← compile fuel .CompileExpression ce
        compile fuel .expressionListLoop ce
      else pure (ce, [])

/-- The body of the loop of `main` for one `.jack` file of the given lines:
the tokenizer after `initJackTokenizer`, which holds the token file, and the
outcome of `CompileClass`; `none` is a panic in the tokenizer. -/
def analyze (fuel : Nat) (lines : List Str) :
    Option (JackTokenizer × Result (CompilationEngine × Str)) :=
  (initJackTokenizer lines).map
    (fun jt => (jt, compile fuel .CompileClass { jackTokenizer := jt, writer := [] }))

/-- The parse tree file: the strings written to `writer`, joined, when
`CompileClass` completes. -/
def parseTree (fuel : Nat) (lines : List Str) : Option Str :=
  match analyze fuel lines with
  | some (_, .ok (ce, _)) => some ce.writer.flatten
  | _ => none

/-- The tokens of `class A { function void f() { let x = foo(1,); return; } }`,
a class in which the expression list of a call inside a term ends with a
comma. -/
def trailingCommaTokens : List Str :=
  ["class".toList, "A".toList, "\x7b".toList, "function".toList, "void".toList, "f".toList,
    "(".toList, ")".toList, "\x7b".toList, "let".toList, "x".toList, "=".toList, "foo".toList,
    "(".toList, "1".toList, ",".toList, ")".toList, ";".toList, "return".toList, ";".toList,
    "\x7d".toList, "\x7d".toList]

/-- The compilation engine on `trailingCommaTokens` with the pointer at the
token of index `p`, the token file `writerT` and the strings `writer` written
so far. -/
def engineAt (p : Nat) (writerT writer : List Str) : CompilationEngine :=
  { jackTokenizer :=
      { tokenPointer := (p : Int), tokenList := trailingCommaTokens, writerT := writerT },
    writer := writer }

end JackAnalyzer

/-! ## Lemmas on the string library -/

namespace GoStr

theorem toDigitsCore_acc (f n : Nat) (acc : Str) :
    Nat.toDigitsCore 10 f n acc = Nat.toDigitsCore 10 f n [] ++ acc := by
  induction f generalizing n acc with
  | zero => simp [Nat.toDigitsCore]
  | succ f ih =>
    simp only [Nat.toDigitsCore]
    split
    · simp
    · rw [ih (n / 10) (_ :: acc), ih (n / 10) [_]]; simp

theorem toDigitsCore_fuel (f1 f2 n : Nat) (acc : Str) (h1 : n < f1) (h2 : n < f2) :
    Nat.toDigitsCore 10 f1 n acc = Nat.toDigitsCore 10 f2 n acc := by
  induction f1 generalizing f2 n acc with
  | zero => omega
  | succ f1 ih =>
    cases f2 with
    | zero => omega
    | succ f2 =>
      simp only [Nat.toDigitsCore]
      split
      · rfl
      · apply ih <;> omega

theorem toDigitsCore_succ (f n : Nat) (acc : Str) :
    Nat.toDigitsCore 10 (f + 1) n acc =
      if n / 10 = 0 then Nat.digitChar (n % 10) :: acc
      else Nat.toDigitsCore 10 f (n / 10) (Nat.digitChar (n % 10) :: acc) := by
  simp [Nat.toDigitsCore]

theorem toDigits_step (n : Nat) :
    Nat.toDigits 10 n =
      if n < 10 then [Nat.digitChar n]
      else Nat.toDigits 10 (n / 10) ++ [Nat.digitChar (n % 10)] := by
  show Nat.toDigitsCore 10 (n + 1) n [] = _
  rw [toDigitsCore_succ]
  by_cases h : n < 10
  · have h0 : n / 10 = 0 := by omega
    have h1 : n % 10 = n := by omega
    simp [h, h0, h1]
  · have h0 : ¬ n / 10 = 0 := by omega
    simp only [h, h0, if_false]
    rw [toDigitsCore_acc, toDigitsCore_fuel n (n / 10 + 1) (n / 10) [] (by omega) (by omega)]
    rfl

theorem digitVal_digitChar (d : Nat) (h : d < 10) : digitVal (Nat.digitChar d) = some d := by
  interval_cases d <;> decide

theorem digitChar_toNat (d : Nat) (h : d < 10) : (Nat.digitChar d).toNat = 48 + d := by
  interval_cases d <;> decide

theorem parseDigits_append (xs ys : Str) (acc : Nat) :
    parseDigits (xs ++ ys) acc = (parseDigits xs acc).bind (parseDigits ys) := by
  induction xs generalizing acc with
  | nil => simp [parseDigits]
  | cons c t ih =>
    simp only [List.cons_append, parseDigits]
    cases digitVal c with
    | none => simp
    | some d => simp [ih]

theorem parseDigits_toDigits (n : Nat) : parseDigits (Nat.toDigits 10 n) 0 = some n := by
  induction n using Nat.strong_induction_on with
  | _ n ih =>
    rw [toDigits_step]
    by_cases h : n < 10
    · simp [h, parseDigits, digitVal_digitChar n h]
    · simp only [h, if_false, parseDigits_append, ih (n / 10) (by omega), Option.some_bind,
        parseDigits, digitVal_digitChar (n % 10) (by omega)]
      congr 1
      omega

theorem toDigits_isDigit (n : Nat) :
    ∀ c ∈ Nat.toDigits 10 n, 48 ≤ c.toNat ∧ c.toNat ≤ 57 := by
  induction n using Nat.strong_induction_on with
  | _ n ih =>
    rw [toDigits_step]
    by_cases h : n < 10
    · simp only [h, if_true, List.mem_singleton]
      intro c hc
      subst hc
      rw [digitChar_toNat n h]; omega
    · simp only [h, if_false, List.mem_append, List.mem_singleton]
      intro c hc
      rcases hc with hc | hc
      · exact ih (n / 10) (by omega) c hc
      · subst hc
        rw [digitChar_toNat (n % 10) (by omega)]; omega

theorem toDigits_ne_nil (n : Nat) : Nat.toDigits 10 n ≠ [] := by
  rw [toDigits_step]
  split <;> simp

end GoStr

namespace GoStr

theorem parseDigits_le (s : Str) : ∀ (acc m : Nat), parseDigits s acc = some m → acc ≤ m := by
  induction s with
  | nil =>
    intro acc m h
    simp only [parseDigits, Option.some.injEq] at h
    omega
  | cons c t ih =>
    intro acc m h
    simp only [parseDigits] at h
    cases hd : digitVal c with
    | none => rw [hd] at h; cases h
    | some d =>
      rw [hd] at h
      have := ih _ _ h
      omega

/-- A run of digits whose number fits 64 bits is read by `ParseUint` as it
stands. -/
theorem parseUint_of_parseDigits (s : Str) :
    ∀ (acc m : Nat), parseDigits s acc = some m → m < 2 ^ 64 → parseUint s acc = some m := by
  induction s with
  | nil =>
    intro acc m h _
    simpa [parseDigits, parseUint] using h
  | cons c t ih =>
    intro acc m h hm
    simp only [parseDigits] at h
    cases hd : digitVal c with
    | none => rw [hd] at h; cases h
    | some d =>
      rw [hd] at h
      have hle := parseDigits_le t _ _ h
      have hlt : ¬ acc * 10 + d ≥ 2 ^ 64 := by omega
      simp only [parseUint, hd, hlt, if_false]
      exact ih _ _ h hm

theorem atoi_toDigits (n : Nat) (h : n < 2 ^ 63) : atoi (Nat.toDigits 10 n) = ((n : Int), true) := by
  have hne := toDigits_ne_nil n
  have hd := toDigits_isDigit n
  have hp := parseUint_of_parseDigits _ 0 n (parseDigits_toDigits n)
    (lt_trans h (by norm_num))
  cases hds : Nat.toDigits 10 n with
  | nil => exact absurd hds hne
  | cons c t =>
    rw [hds] at hd hp
    have hc := hd c (by simp)
    have h1 : c ≠ '-' := by
      intro he; subst he; revert hc; decide
    have h2 : c ≠ '+' := by
      intro he; subst he; revert hc; decide
    simp [atoi, h1, h2, atoiBody, hp]
    omega

/-! ### Cutting and splitting -/

theorem isPrefixOf_cons_ne (x c : Char) (rest t : Str) (h : c ≠ x) :
    (x :: rest).isPrefixOf (c :: t) = false := by
  simp [List.isPrefixOf, Ne.symm h]

theorem indexCut_absent (x : Char) (rest s : Str) (h : ∀ c ∈ s, c ≠ x) :
    indexCut (x :: rest) s = none := by
  induction s with
  | nil => simp [indexCut]
  | cons c t ih =>
    have hc : c ≠ x := h c (by simp)
    have ht : ∀ c ∈ t, c ≠ x := fun c hc => h c (by simp [hc])
    simp [indexCut, isPrefixOf_cons_ne x c rest t hc, ih ht]

theorem indexCut_found (x : Char) (rest p q : Str) (h : ∀ c ∈ p, c ≠ x) :
    indexCut (x :: rest) (p ++ (x :: rest) ++ q) = some (p, q) := by
  induction p with
  | nil =>
    cases rest with
    | nil => simp [indexCut, List.isPrefixOf]
    | cons r rs =>
      have : (x :: r :: rs).isPrefixOf (x :: r :: (rs ++ q)) = true := by
        have := List.isPrefixOf_iff_prefix.mpr (List.prefix_append (x :: r :: rs) q)
        simp
      simp [indexCut, this]
  | cons c t ih =>
    have hc : c ≠ x := h c (by simp)
    have ht : ∀ c ∈ t, c ≠ x := fun c hc => h c (by simp [hc])
    have := ih ht
    simp only [List.append_assoc, List.cons_append] at this ⊢
    simp [indexCut, isPrefixOf_cons_ne x c rest _ hc, this]

theorem split_absent (x : Char) (rest s : Str) (h : ∀ c ∈ s, c ≠ x) :
    split s (x :: rest) = [s] := by
  simp [split, splitAux, indexCut_absent x rest s h]

theorem contains_absent (x : Char) (rest s : Str) (h : ∀ c ∈ s, c ≠ x) :
    contains s (x :: rest) = false := by
  simp [contains, indexCut_absent x rest s h]

theorem removeFirst_cons (x : Char) (s : Str) : removeFirst (x :: s) [x] = s := by
  simp [removeFirst, indexCut, List.isPrefixOf]

/-! ### Trimming -/

theorem dropWhile_isSpace_self (s : Str) (h : ∀ c ∈ s, isSpace c = false) :
    s.dropWhile isSpace = s := by
  cases s with
  | nil => rfl
  | cons c t => simp [List.dropWhile, h c (by simp)]

theorem trimSpace_self (s : Str) (h : ∀ c ∈ s, isSpace c = false) : trimSpace s = s := by
  unfold trimSpace
  rw [dropWhile_isSpace_self s h, dropWhile_isSpace_self s.reverse (by simpa using h)]
  simp

end GoStr

/-! ## The assembler: A-instructions -/

namespace HackAssembler

open GoStr CommandType

theorem wrap64_of_bounds (x : Int) (h1 : 0 ≤ x) (h2 : x < 2 ^ 63) : wrap64 x = x := by
  unfold wrap64
  have : (x + 2 ^ 63) % 2 ^ 64 = x + 2 ^ 63 := Int.emod_eq_of_lt (by omega) (by omega)
  omega

theorem wrap64_nat (m : Nat) (h : m < 2 ^ 63) : wrap64 (m : Int) = (m : Int) :=
  wrap64_of_bounds _ (by omega) (by omega)

theorem binAsDec_zero (w : Nat) : binAsDec w 0 = 0 := by
  induction w with
  | zero => rfl
  | succ w ih => simp [binAsDec, ih]

theorem decimalToBinaryLoop_nat (w : Nat) :
    ∀ (fuel n b c : Nat), n < 2 ^ w → w ≤ fuel → b < c → c * 10 ^ w < 2 ^ 63 →
      decimalToBinaryLoop fuel (n : Int) (b : Int) (c : Int) = ((b + c * binAsDec w n : Nat) : Int) := by
  induction w with
  | zero =>
    intro fuel n b c hn _ _ _
    have : n = 0 := by simpa using hn
    subst this
    cases fuel <;> simp [decimalToBinaryLoop, binAsDec]
  | succ w ih =>
    intro fuel n b c hn hf hb hc
    cases fuel with
    | zero => omega
    | succ fuel =>
      by_cases h0 : n = 0
      · subst h0
        simp [decimalToBinaryLoop, binAsDec_zero]
      · have hn0 : ¬ ((n : Int) = 0) := by exact_mod_cast h0
        have hpow : c * 10 ^ (w + 1) = (c * 10) * 10 ^ w := by ring
        have hpos : 0 < 10 ^ w := by positivity
        have hc10 : c * 10 < 2 ^ 63 := by
          have : c * 10 ≤ (c * 10) * 10 ^ w := Nat.le_mul_of_pos_right _ hpos
          omega
        have hmod : Int.tmod (n : Int) 2 = ((n % 2 : Nat) : Int) := (Int.ofNat_tmod n 2).symm
        have hdiv : Int.tdiv (n : Int) 2 = ((n / 2 : Nat) : Int) := (Int.ofNat_tdiv n 2).symm
        have hr : n % 2 * c ≤ c := by
          have : n % 2 ≤ 1 := by omega
          calc n % 2 * c ≤ 1 * c := Nat.mul_le_mul_right c this
            _ = c := by simp
        have hb1 : n % 2 * c < 2 ^ 63 := by omega
        have hb2 : b + n % 2 * c < 2 ^ 63 := by omega
        have g1 : n / 2 < 2 ^ w := by omega
        have g2 : w ≤ fuel := by omega
        have g3 : b + n % 2 * c < c * 10 := by omega
        have g4 : c * 10 * 10 ^ w < 2 ^ 63 := by rw [← hpow]; exact hc
        have e1 : wrap64 (((n % 2 : Nat) : Int) * (c : Int)) = ((n % 2 * c : Nat) : Int) := by
          rw [← Nat.cast_mul, wrap64_nat _ hb1]
        have e2 : wrap64 ((b : Int) + ((n % 2 * c : Nat) : Int)) = ((b + n % 2 * c : Nat) : Int) := by
          rw [← Nat.cast_add, wrap64_nat _ hb2]
        have e3 : wrap64 ((c : Int) * 10) = ((c * 10 : Nat) : Int) := by
          rw [show ((c : Int) * 10) = ((c * 10 : Nat) : Int) by push_cast; rfl, wrap64_nat _ hc10]
        simp only [decimalToBinaryLoop, hn0, if_false, hmod, hdiv, e1, e2, e3]
        rw [ih fuel (n / 2) (b + n % 2 * c) (c * 10) g1 g2 g3 g4]
        have hsum : b + n % 2 * c + c * 10 * binAsDec w (n / 2) = b + c * binAsDec (w + 1) n := by
          simp only [binAsDec]
          ring
        rw [hsum]

theorem decimalToBinary_nat (n : Nat) (h : n < 2 ^ 15) :
    decimalToBinary (n : Int) = ((binAsDec 15 n : Nat) : Int) := by
  have := decimalToBinaryLoop_nat 15 64 n 0 1 h (by norm_num) (by norm_num) (by norm_num)
  simpa [decimalToBinary] using this

theorem padLoop_eq (fuel : Nat) (s : Str) (h : 16 - s.length ≤ fuel) :
    padLoop fuel s = List.replicate (16 - s.length) '0' ++ s := by
  induction fuel generalizing s with
  | zero =>
    have : 16 - s.length = 0 := by omega
    simp [padLoop, this]
  | succ fuel ih =>
    by_cases hl : s.length < 16
    · simp only [padLoop, hl, if_true]
      rw [ih ('0' :: s) (by simp; omega)]
      have : 16 - s.length = (16 - ('0' :: s).length) + 1 := by simp; omega
      rw [this, List.replicate_succ']
      simp
    · have : 16 - s.length = 0 := by omega
      simp [padLoop, hl, this]

theorem bitsBE_length (w n : Nat) : (bitsBE w n).length = w := by
  induction w generalizing n with
  | zero => rfl
  | succ w ih => simp [bitsBE, ih]

theorem bitsBE_zero (w : Nat) : bitsBE w 0 = List.replicate w '0' := by
  induction w with
  | zero => rfl
  | succ w ih => simp [bitsBE, ih, List.replicate_succ']

theorem binValue_append (s : Str) (c : Char) :
    binValue (s ++ [c]) = 2 * binValue s + (if c = '1' then 1 else 0) := by
  simp [binValue, List.foldl_append]

theorem binValue_bitsBE (w n : Nat) : binValue (bitsBE w n) = n % 2 ^ w := by
  induction w generalizing n with
  | zero => simp [bitsBE, binValue, Nat.mod_one]
  | succ w ih =>
    rw [bitsBE, binValue_append, ih]
    have h2 : n % 2 ^ (w + 1) = 2 * (n / 2 % 2 ^ w) + n % 2 := by
      rw [pow_succ, Nat.mul_comm (2 ^ w) 2, Nat.mod_mul]
      omega
    rw [h2]
    rcases Nat.mod_two_eq_zero_or_one n with h | h <;> simp [h]

theorem digitChar_bit (n : Nat) : Nat.digitChar (n % 2) = if n % 2 = 1 then '1' else '0' := by
  rcases Nat.mod_two_eq_zero_or_one n with h | h <;> simp [h] <;> rfl

theorem toDigits_binAsDec (w : Nat) :
    ∀ n, n < 2 ^ (w + 1) →
      (Nat.toDigits 10 (binAsDec (w + 1) n)).length ≤ w + 1 ∧
      List.replicate (w + 1 - (Nat.toDigits 10 (binAsDec (w + 1) n)).length) '0' ++
        Nat.toDigits 10 (binAsDec (w + 1) n) = bitsBE (w + 1) n := by
  induction w with
  | zero =>
    intro n hn
    have : n = 0 ∨ n = 1 := by omega
    rcases this with h | h <;> subst h <;> decide
  | succ w ih =>
    intro n hn
    obtain ⟨ihl, ihe⟩ := ih (n / 2) (by omega)
    have hm : binAsDec (w + 2) n = n % 2 + 10 * binAsDec (w + 1) (n / 2) := rfl
    rw [hm, toDigits_step]
    have hdiv : (n % 2 + 10 * binAsDec (w + 1) (n / 2)) / 10 = binAsDec (w + 1) (n / 2) := by omega
    have hmod : (n % 2 + 10 * binAsDec (w + 1) (n / 2)) % 10 = n % 2 := by omega
    by_cases hz : binAsDec (w + 1) (n / 2) = 0
    · have hlt : n % 2 + 10 * binAsDec (w + 1) (n / 2) < 10 := by omega
      rw [hz] at ihe
      have ihe2 : List.replicate w '0' ++ ['0'] = bitsBE (w + 1) (n / 2) := by
        simpa [Nat.toDigits, Nat.toDigitsCore] using ihe
      rw [if_pos hlt]
      simp only [hz, Nat.mul_zero, Nat.add_zero, List.length_singleton]
      refine ⟨by omega, ?_⟩
      rw [bitsBE, ← ihe2, ← digitChar_bit, ← List.replicate_succ']
      simp
    · have hlt : ¬ n % 2 + 10 * binAsDec (w + 1) (n / 2) < 10 := by omega
      rw [if_neg hlt]
      simp only [hdiv, hmod, List.length_append, List.length_singleton]
      refine ⟨by omega, ?_⟩
      rw [bitsBE, ← ihe, ← digitChar_bit]
      have : w + 1 + 1 - ((Nat.toDigits 10 (binAsDec (w + 1) (n / 2))).length + 1) =
          w + 1 - (Nat.toDigits 10 (binAsDec (w + 1) (n / 2))).length := by omega
      rw [this]
      simp

theorem aWord_eq (N : Nat) (hN : N < 32768) :
    padLoop 16 (itoa (decimalToBinary (N : Int))) = '0' :: bitsBE 15 N := by
  rw [decimalToBinary_nat N (by norm_num; exact hN)]
  obtain ⟨hl, he⟩ := toDigits_binAsDec 14 N (by norm_num; exact hN)
  have hi : itoa ((binAsDec 15 N : Nat) : Int) = Nat.toDigits 10 (binAsDec 15 N) := by
    simp [itoa]
  rw [hi, padLoop_eq 16 _ (by omega), ← he]
  have : 16 - (Nat.toDigits 10 (binAsDec (14 + 1) N)).length =
      (14 + 1 - (Nat.toDigits 10 (binAsDec (14 + 1) N)).length) + 1 := by omega
  rw [this, List.replicate_succ]
  simp

end HackAssembler

namespace HackAssembler

open GoStr CommandType

theorem isPlain_iff (s : Str) : isPlain s = true ↔ ∀ c ∈ s, c ≠ '/' ∧ isSpace c = false := by
  simp [isPlain, List.all_eq_true]

theorem isPlain_toDigits (n : Nat) : isPlain (Nat.toDigits 10 n) = true := by
  rw [isPlain_iff]
  intro c hc
  have h := toDigits_isDigit n c hc
  constructor
  · intro he; subst he; revert h; decide
  · simp only [isSpace]
    have h1 : ¬ (c.toNat ≤ 13) := by omega
    have h2 : ¬ (8192 ≤ c.toNat) := by omega
    simp [h1, h2]
    omega

theorem dropWhile_append_last (p : Char → Bool) (l : Str) (c : Char) (h : p c = false) :
    (l ++ [c]).dropWhile p ≠ [] := by
  induction l with
  | nil => simp [List.dropWhile, h]
  | cons a t ih =>
    simp only [List.cons_append, List.dropWhile]
    split
    · exact ih
    · simp

theorem keepsLine_cons (c : Char) (t : Str) (hc : c ≠ '/') (hs : isSpace c = false) :
    keepsLine (c :: t) = true := by
  have h1 : startsWith (c :: t) ['/', '/'] = false := isPrefixOf_cons_ne '/' c ['/'] t hc
  have h2 : trimSpace (c :: t) ≠ [] := by
    unfold trimSpace
    have : (c :: t).dropWhile isSpace = c :: t := by simp [List.dropWhile, hs]
    rw [this, List.reverse_cons]
    intro h
    exact dropWhile_append_last isSpace t.reverse c hs (by simpa using h)
  simp [keepsLine, h1, h2]

theorem advance_plain (parser : Parser) (s : Str) (h : isPlain s = true) :
    (parser.advance s).currentCommand = s := by
  rw [isPlain_iff] at h
  have h1 : split s ['/', '/'] = [s] := split_absent '/' ['/'] s (fun c hc => (h c hc).1)
  have h2 : trimSpace s = s := trimSpace_self s (fun c hc => (h c hc).2)
  simp [Parser.advance, h1, h2]

theorem advance_ramAddress (parser : Parser) (s : Str) :
    (parser.advance s).ramAddress = parser.ramAddress := rfl

theorem commandType_at (parser : Parser) (t : Str) (h : parser.currentCommand = '@' :: t) :
    parser.commandType = A_COMMAND := by
  simp [Parser.commandType, h, startsWith, List.isPrefixOf]

theorem symbol_at (parser : Parser) (t : Str) (h : parser.currentCommand = '@' :: t) :
    parser.symbol = t := by
  simp [Parser.symbol, commandType_at parser t h, h, removeFirst_cons]

theorem generateHackStep_at (parser : Parser) (symboltable : SymbolTable) (t : Str)
    (h : parser.currentCommand = '@' :: t) :
    generateHackStep parser symboltable =
      ((writeACommand parser symboltable).1, (writeACommand parser symboltable).2.1,
        [(writeACommand parser symboltable).2.2]) := by
  have hA := commandType_at parser t h
  have hcur : (writeACommand parser symboltable).1.currentCommand = '@' :: t := by
    simp only [writeACommand]
    split_ifs <;> exact h
  have hA2 := commandType_at _ t hcur
  simp [generateHackStep, hA, hA2]

theorem writeACommand_literal (parser : Parser) (symboltable : SymbolTable) (t : Str) (v : Int)
    (h : parser.currentCommand = '@' :: t) (hv : atoi t = (v, true)) :
    writeACommand parser symboltable =
      (parser, symboltable, padLoop 16 (itoa (decimalToBinary v)) ++ "\n".toList) := by
  simp [writeACommand, symbol_at parser t h, hv]

end HackAssembler

namespace GoStr

theorem split_two (x : Char) (rest p q : Str) (hp : ∀ c ∈ p, c ≠ x) (hq : ∀ c ∈ q, c ≠ x) :
    split (p ++ (x :: rest) ++ q) (x :: rest) = [p, q] := by
  have h1 := indexCut_found x rest p q hp
  have h2 := indexCut_absent x rest q hq
  simp only [split, splitAux, h1]
  cases hn : (p ++ x :: rest ++ q).length with
  | zero => simp [splitAux]
  | succ n => simp [splitAux, h2]

theorem contains_found (x : Char) (rest p q : Str) (hp : ∀ c ∈ p, c ≠ x) :
    contains (p ++ (x :: rest) ++ q) (x :: rest) = true := by
  unfold contains
  rw [indexCut_found x rest p q hp]
  rfl

end GoStr

namespace HackAssembler

open GoStr CommandType

theorem isField_iff (s : Str) :
    isField s = true ↔
      ∀ c ∈ s, c ≠ '/' ∧ isSpace c = false ∧ c ≠ '=' ∧ c ≠ ';' ∧ c ≠ '@' ∧ c ≠ '(' := by
  simp [isField, List.all_eq_true, and_assoc]

theorem commandType_c (parser : Parser) (x : Char) (t : Str)
    (h : parser.currentCommand = x :: t) (h1 : x ≠ '@') (h2 : x ≠ '(') :
    parser.commandType = C_COMMAND := by
  simp [Parser.commandType, h, startsWith, List.isPrefixOf, Ne.symm h1, Ne.symm h2]

theorem commandType_field (parser : Parser) (d rest : Str)
    (h : parser.currentCommand = d ++ rest) (hd : isField d = true) (hne : d ≠ []) :
    parser.commandType = C_COMMAND := by
  rw [isField_iff] at hd
  obtain ⟨x, t, rfl⟩ := List.exists_cons_of_ne_nil hne
  have hx := hd x (by simp)
  exact commandType_c parser x (t ++ rest) (by simpa using h) hx.2.2.2.2.1 hx.2.2.2.2.2

theorem generateHackStep_c (parser : Parser) (symboltable : SymbolTable)
    (h : parser.commandType = C_COMMAND) :
    generateHackStep parser symboltable = (parser, symboltable, [writeCCommand parser]) := by
  simp [generateHackStep, h]

theorem isPlain_two (p q : Str) (x : Char) (hp : isField p = true) (hq : isField q = true)
    (hx : x ≠ '/' ∧ isSpace x = false) : isPlain (p ++ x :: q) = true := by
  rw [isField_iff] at hp hq
  rw [isPlain_iff]
  intro y hy
  simp only [List.mem_append, List.mem_cons] at hy
  rcases hy with hy | hy | hy
  · exact ⟨(hp y hy).1, (hp y hy).2.1⟩
  · subst hy; exact hx
  · exact ⟨(hq y hy).1, (hq y hy).2.1⟩

/-- The line `dest=comp`, for fields free of delimiters, is translated to
`111`, the comp code, the dest code and the code of the empty jump. -/
theorem step_dest_comp (parser : Parser) (symboltable : SymbolTable) (d c : Str)
    (hd : isField d = true) (hc : isField c = true) (hne : d ≠ []) :
    generateHackStep (parser.advance (d ++ '=' :: c)) symboltable =
      (parser.advance (d ++ '=' :: c), symboltable,
        ["111".toList ++ comp c ++ dest d ++ jump [] ++ "\n".toList]) := by
  have hcur := advance_plain parser _ (isPlain_two d c '=' hd hc (by decide))
  rw [generateHackStep_c _ _ (commandType_field _ d ('=' :: c) hcur hd hne)]
  rw [isField_iff] at hd hc
  have hsp : split (d ++ '=' :: c) ['='] = [d, c] := by
    have := split_two '=' [] d c (fun y hy => (hd y hy).2.2.1) (fun y hy => (hc y hy).2.2.1)
    simpa using this
  have hco : contains (d ++ '=' :: c) ['='] = true := by
    have := contains_found '=' [] d c (fun y hy => (hd y hy).2.2.1)
    simpa using this
  have hsemi : contains (d ++ '=' :: c) [';'] = false := by
    apply contains_absent
    intro y hy
    simp only [List.mem_append, List.mem_cons] at hy
    rcases hy with hy | hy | hy
    · exact (hd y hy).2.2.2.1
    · subst hy; decide
    · exact (hc y hy).2.2.2.1
  simp only [writeCCommand, Parser.comp, Parser.dest, Parser.jump]
  rw [hcur]
  simp [hsp, hco, hsemi]

/-- The line `comp;jump`, for fields free of delimiters, is translated to
`111`, the comp code, the code of the empty dest and the jump code. -/
theorem step_comp_jump (parser : Parser) (symboltable : SymbolTable) (c j : Str)
    (hc : isField c = true) (hj : isField j = true) (hne : c ≠ []) :
    generateHackStep (parser.advance (c ++ ';' :: j)) symboltable =
      (parser.advance (c ++ ';' :: j), symboltable,
        ["111".toList ++ comp c ++ dest [] ++ jump j ++ "\n".toList]) := by
  have hcur := advance_plain parser _ (isPlain_two c j ';' hc hj (by decide))
  rw [generateHackStep_c _ _ (commandType_field _ c (';' :: j) hcur hc hne)]
  rw [isField_iff] at hc hj
  have hsp : split (c ++ ';' :: j) [';'] = [c, j] := by
    have := split_two ';' [] c j (fun y hy => (hc y hy).2.2.2.1) (fun y hy => (hj y hy).2.2.2.1)
    simpa using this
  have hco : contains (c ++ ';' :: j) [';'] = true := by
    have := contains_found ';' [] c j (fun y hy => (hc y hy).2.2.2.1)
    simpa using this
  have heq : contains (c ++ ';' :: j) ['='] = false := by
    apply contains_absent
    intro y hy
    simp only [List.mem_append, List.mem_cons] at hy
    rcases hy with hy | hy | hy
    · exact (hc y hy).2.2.1
    · subst hy; decide
    · exact (hj y hy).2.2.1
  simp only [writeCCommand, Parser.comp, Parser.dest, Parser.jump]
  rw [hcur]
  simp [hsp, hco, heq]

end HackAssembler

/-! ## Claims on the assembler -/

namespace HackAssembler

open GoStr CommandType

/-- C1: for every N below 32768 the scanner keeps the line `@N`, and the string
pass 2 writes for it, in any state of the parser and the symbol table, is a
16-character word and a line break; the word starts with `0` and its other 15
characters are the big-endian binary representation of N, which denote N. -/
theorem C1_a_instruction_word (N : Nat) (hN : N < 32768) (parser : Parser)
    (symboltable : SymbolTable) :
    keepsLine ('@' :: Nat.toDigits 10 N) = true ∧
    (generateHackStep (parser.advance ('@' :: Nat.toDigits 10 N)) symboltable).2.2 =
      [('0' :: bitsBE 15 N) ++ ['\n']] ∧
    assemble ['@' :: Nat.toDigits 10 N] = [('0' :: bitsBE 15 N) ++ ['\n']] ∧
    ('0' :: bitsBE 15 N).length = 16 ∧
    binValue (bitsBE 15 N) = N := by
  have hk : keepsLine ('@' :: Nat.toDigits 10 N) = true := keepsLine_cons _ _ (by decide) (by decide)
  have hplain : isPlain ('@' :: Nat.toDigits 10 N) = true := by
    have := isPlain_toDigits N
    simp only [isPlain, List.all_cons] at this ⊢
    rw [this]; decide
  have hat : atoi (Nat.toDigits 10 N) = ((N : Int), true) := atoi_toDigits N (by omega)
  have hstep : ∀ p : Parser, ∀ tb : SymbolTable,
      generateHackStep (p.advance ('@' :: Nat.toDigits 10 N)) tb =
        (p.advance ('@' :: Nat.toDigits 10 N), tb, [('0' :: bitsBE 15 N) ++ ['\n']]) := by
    intro p tb
    have hcur := advance_plain p _ hplain
    rw [generateHackStep_at _ _ _ hcur, writeACommand_literal _ _ _ _ hcur hat, aWord_eq N hN]
    rfl
  refine ⟨hk, ?_, ?_, ?_, ?_⟩
  · rw [hstep]
  · simp [assemble, assembleWith, addLCOMMAND, generateHack, generateHackLoop, hk, hstep]
  · simp [bitsBE_length]
  · rw [binValue_bitsBE]
    exact Nat.mod_eq_of_lt (by norm_num; exact hN)

end HackAssembler

namespace HackAssembler

open GoStr CommandType

/-- The witness of C1: the line `@5`. -/
theorem C1_a_instruction_word_witness :
    (5 : Nat) < 32768 ∧
    assemble ['@' :: Nat.toDigits 10 5] = ["0000000000000101\n".toList] :=
  ⟨by decide, (C1_a_instruction_word 5 (by decide) initParser initSymbolTable).2.2.1⟩

set_option maxRecDepth 100000 in
theorem compMnemonics_field :
    ∀ c ∈ compMnemonics, isField c = true ∧ c ≠ [] ∧ (comp c).length = 7 := by
  decide

set_option maxRecDepth 100000 in
theorem destMnemonics_field :
    ∀ d ∈ destMnemonics, isField d = true ∧ d ≠ [] ∧ (dest d).length = 3 := by
  decide

set_option maxRecDepth 100000 in
theorem jumpMnemonics_field :
    ∀ j ∈ jumpMnemonics, isField j = true ∧ j ≠ [] ∧ (jump j).length = 3 := by
  decide

set_option maxRecDepth 100000 in
/-- C2: for a comp mnemonic `c`, a dest mnemonic `d` and a jump mnemonic `j` of
the tables, the scanner keeps the lines `d=c` and `c;j`, and pass 2 writes for
them, in any state, `111`, the 7 comp bits, the 3 dest bits and the 3 jump bits
(`000` for the absent field), 16 characters in all, and a line break; the four
examples of the specification come out as stated. -/
theorem C2_two_part_c_instruction (c d j : Str) (hc : c ∈ compMnemonics)
    (hd : d ∈ destMnemonics) (hj : j ∈ jumpMnemonics) (parser : Parser)
    (symboltable : SymbolTable) :
    (keepsLine (d ++ '=' :: c) = true ∧
      (generateHackStep (parser.advance (d ++ '=' :: c)) symboltable).2.2 =
        ["111".toList ++ comp c ++ dest d ++ "000".toList ++ "\n".toList] ∧
      ("111".toList ++ comp c ++ dest d ++ "000".toList).length = 16) ∧
    (keepsLine (c ++ ';' :: j) = true ∧
      (generateHackStep (parser.advance (c ++ ';' :: j)) symboltable).2.2 =
        ["111".toList ++ comp c ++ "000".toList ++ jump j ++ "\n".toList] ∧
      ("111".toList ++ comp c ++ "000".toList ++ jump j).length = 16) ∧
    assemble ["D=A".toList] = ["1110110000010000\n".toList] ∧
    assemble ["D=D+A".toList] = ["1110000010010000\n".toList] ∧
    assemble ["M=D".toList] = ["1110001100001000\n".toList] ∧
    assemble ["0;JMP".toList] = ["1110101010000111\n".toList] := by
  obtain ⟨hcf, hcn, hcl⟩ := compMnemonics_field c hc
  obtain ⟨hdf, hdn, hdl⟩ := destMnemonics_field d hd
  obtain ⟨hjf, hjn, hjl⟩ := jumpMnemonics_field j hj
  have key : ∀ (p q : Str) (x : Char), isField p = true → p ≠ [] → keepsLine (p ++ x :: q) = true := by
    intro p q x hp hpn
    obtain ⟨y, t, rfl⟩ := List.exists_cons_of_ne_nil hpn
    have hy := (isField_iff _).mp hp y (by simp)
    exact keepsLine_cons y (t ++ x :: q) hy.1 hy.2.1
  refine ⟨⟨key d c '=' hdf hdn, ?_, ?_⟩, ⟨key c j ';' hcf hcn, ?_, ?_⟩, ?_, ?_, ?_, ?_⟩
  · rw [step_dest_comp parser symboltable d c hdf hcf hdn]
    rfl
  · simp [hcl, hdl]
  · rw [step_comp_jump parser symboltable c j hcf hjf hcn]
    rfl
  · simp [hcl, hjl]
  · decide
  · decide
  · decide
  · decide

set_option maxRecDepth 100000 in
/-- The witness of C2: `M=D+1` and `D+1;JGT`. -/
theorem C2_two_part_c_instruction_witness :
    "D+1".toList ∈ compMnemonics ∧ "M".toList ∈ destMnemonics ∧ "JGT".toList ∈ jumpMnemonics ∧
    (generateHackStep (initParser.advance "M=D+1".toList) initSymbolTable).2.2 =
      ["1110011111001000\n".toList] ∧
    (generateHackStep (initParser.advance "D+1;JGT".toList) initSymbolTable).2.2 =
      ["1110011111000001\n".toList] :=
  ⟨by decide, by decide, by decide,
    (C2_two_part_c_instruction "D+1".toList "M".toList "JGT".toList (by decide) (by decide)
      (by decide) initParser initSymbolTable).1.2.1,
    (C2_two_part_c_instruction "D+1".toList "M".toList "JGT".toList (by decide) (by decide)
      (by decide) initParser initSymbolTable).2.1.2.1⟩

set_option maxRecDepth 100000 in
/-- C3 (the code departs from the claim): for the full instruction `D=M;JGT`
the comp field the parser returns is `M;JGT`, which is no key of the comp
table, so the word written has no comp bits: `111`, the dest bits `010` and the
jump bits `001`, 9 characters instead of the 16 of `1111110000010001`. -/
theorem C3_three_part_c_instruction_fails :
    (initParser.advance "D=M;JGT".toList).comp = "M;JGT".toList ∧
    comp "M;JGT".toList = [] ∧
    assemble ["D=M;JGT".toList] = ["111010001\n".toList] ∧
    assemble ["D=M;JGT".toList] ≠ ["1111110000010001\n".toList] ∧
    assemble ["AMD=D|M;JMP".toList] = ["111111111\n".toList] := by
  decide

end HackAssembler

/-! ## The assembler: labels and variables -/

namespace HackAssembler

open GoStr CommandType

theorem render_keepsLine (l : SourceLine) (h : l.wellFormed = true) :
    keepsLine l.render = true := by
  cases l with
  | aInstr s => exact keepsLine_cons _ _ (by decide) (by decide)
  | label n => exact keepsLine_cons _ _ (by decide) (by decide)
  | cInstr t =>
    cases t with
    | nil => simp [SourceLine.wellFormed] at h
    | cons c t =>
      simp only [SourceLine.wellFormed, Bool.and_eq_true] at h
      have hc := (isPlain_iff _).mp h.1 c (by simp)
      exact keepsLine_cons c t hc.1 hc.2

theorem render_plain (l : SourceLine) (h : l.wellFormed = true) : isPlain l.render = true := by
  cases l with
  | aInstr s =>
    simp only [SourceLine.wellFormed] at h
    simp only [SourceLine.render, isPlain, List.all_cons] at h ⊢
    rw [h]; decide
  | cInstr t =>
    simp only [SourceLine.wellFormed, Bool.and_eq_true] at h
    exact h.1
  | label n =>
    simp only [SourceLine.wellFormed, Bool.and_eq_true] at h
    simp only [SourceLine.render, isPlain, List.all_cons, List.all_append, List.all_nil] at h ⊢
    rw [h.1]; decide

theorem render_advance (parser : Parser) (l : SourceLine) (h : l.wellFormed = true) :
    (parser.advance l.render).currentCommand = l.render :=
  advance_plain parser _ (render_plain l h)

theorem commandType_label (parser : Parser) (n : Str)
    (h : parser.currentCommand = '(' :: (n ++ [')'])) : parser.commandType = L_COMMAND := by
  have h1 : startsWith ('(' :: (n ++ [')'])) ['@'] = false := by
    simp [startsWith, List.isPrefixOf]
  have h2 : startsWith ('(' :: (n ++ [')'])) ['('] = true := by
    simp [startsWith, List.isPrefixOf]
  have h3 : endsWith ('(' :: (n ++ [')'])) [')'] = true := by
    unfold endsWith
    rw [List.isSuffixOf_iff_suffix]
    exact ⟨'(' :: n, by simp⟩
  simp only [Parser.commandType, h]
  simp [h1, h2, h3]

theorem symbol_label (parser : Parser) (n : Str)
    (h : parser.currentCommand = '(' :: (n ++ [')'])) (hn : ∀ c ∈ n, c ≠ ')') :
    parser.symbol = n := by
  have h1 : removeFirst ('(' :: (n ++ [')'])) ['('] = n ++ [')'] :=
    removeFirst_cons '(' (n ++ [')'])
  have h2 : removeFirst (n ++ [')']) [')'] = n := by
    have := indexCut_found ')' [] n [] hn
    simp only [List.append_nil] at this
    simp [removeFirst, this]
  simp only [Parser.symbol, commandType_label parser n h, h]
  show removeFirst (removeFirst ('(' :: (n ++ [')'])) ['(']) [')'] = n
  rw [h1, h2]

theorem commandType_render (parser : Parser) (l : SourceLine) (h : l.wellFormed = true) :
    (parser.advance l.render).commandType =
      match l with
      | .aInstr _ => A_COMMAND
      | .cInstr _ => C_COMMAND
      | .label _ => L_COMMAND := by
  have hcur := render_advance parser l h
  cases l with
  | aInstr s => exact commandType_at _ s hcur
  | label n => exact commandType_label _ n hcur
  | cInstr t =>
    cases t with
    | nil => simp [SourceLine.wellFormed] at h
    | cons c t =>
      simp only [SourceLine.wellFormed, Bool.and_eq_true, bne_iff_ne] at h
      exact commandType_c _ c t hcur h.2.1 h.2.2

end HackAssembler

namespace HackAssembler

open GoStr CommandType

theorem symbol_render_label (parser : Parser) (n : Str)
    (h : (SourceLine.label n).wellFormed = true) :
    (parser.advance (SourceLine.label n).render).symbol = n := by
  have hcur := render_advance parser _ h
  simp only [SourceLine.wellFormed, Bool.and_eq_true, List.all_eq_true, bne_iff_ne] at h
  exact symbol_label _ n hcur h.2

/-- Pass 1 computes the label bindings of the specification. -/
theorem addLCOMMAND_render (prog : List SourceLine) :
    ∀ (parser : Parser) (table : SymbolTable), (∀ l ∈ prog, l.wellFormed = true) →
      (addLCOMMAND (prog.map SourceLine.render) parser table).2 =
        bindLabels prog parser.ramAddress table := by
  induction prog with
  | nil => intro parser table _; rfl
  | cons l rest ih =>
    intro parser table hwf
    have hl : l.wellFormed = true := hwf l (by simp)
    have hrest : ∀ l ∈ rest, l.wellFormed = true := fun l h => hwf l (by simp [h])
    have hk := render_keepsLine l hl
    have hct := commandType_render parser l hl
    simp only [List.map_cons, addLCOMMAND, hk, if_true]
    cases l with
    | aInstr s =>
      simp only [] at hct
      simp only [hct, reduceCtorEq, if_false]
      rw [ih _ _ hrest]
      rfl
    | cInstr t =>
      simp only [] at hct
      simp only [hct, reduceCtorEq, if_false]
      rw [ih _ _ hrest]
      rfl
    | label n =>
      simp only [] at hct
      simp only [hct, if_true]
      rw [ih _ _ hrest, symbol_render_label parser n hl]
      rfl

theorem instructionCount_label (n : Str) (rest : List SourceLine) :
    instructionCount (SourceLine.label n :: rest) = instructionCount rest := by
  simp [instructionCount, SourceLine.isLabel]

theorem instructionCount_aInstr (s : Str) (rest : List SourceLine) :
    instructionCount (SourceLine.aInstr s :: rest) = instructionCount rest + 1 := by
  simp [instructionCount, SourceLine.isLabel]

theorem instructionCount_cInstr (s : Str) (rest : List SourceLine) :
    instructionCount (SourceLine.cInstr s :: rest) = instructionCount rest + 1 := by
  simp [instructionCount, SourceLine.isLabel]

theorem instructionCount_append (p q : List SourceLine) :
    instructionCount (p ++ q) = instructionCount p + instructionCount q := by
  simp [instructionCount]

theorem lookup_cons_ne {α : Type} (k k2 : Str) (v : α) (t : List (Str × α)) (h : k ≠ k2) :
    List.lookup k ((k2, v) :: t) = List.lookup k t := by
  have : (k == k2) = false := by simpa using h
  simp [List.lookup, this]

theorem lookup_cons_self {α : Type} (k : Str) (v : α) (t : List (Str × α)) :
    List.lookup k ((k, v) :: t) = some v := by
  simp [List.lookup]

theorem bindLabels_append (p q : List SourceLine) :
    ∀ (a : Int) (table : SymbolTable),
      bindLabels (p ++ q) a table =
        bindLabels q (a + (instructionCount p : Int)) (bindLabels p a table) := by
  induction p with
  | nil => intro a table; simp [bindLabels, instructionCount]
  | cons l rest ih =>
    intro a table
    cases l with
    | label n =>
      rw [instructionCount_label]
      exact ih a _
    | aInstr s =>
      rw [instructionCount_aInstr]
      have := ih (a + 1) table
      rw [show a + 1 + (instructionCount rest : Int) = a + ((instructionCount rest + 1 : Nat) : Int)
        by push_cast; ring] at this
      exact this
    | cInstr t =>
      rw [instructionCount_cInstr]
      have := ih (a + 1) table
      rw [show a + 1 + (instructionCount rest : Int) = a + ((instructionCount rest + 1 : Nat) : Int)
        by push_cast; ring] at this
      exact this

theorem bindLabels_lookup_absent (q : List SourceLine) (name : Str)
    (h : SourceLine.label name ∉ q) :
    ∀ (a : Int) (table : SymbolTable),
      (bindLabels q a table).lookup name = table.lookup name := by
  induction q with
  | nil => intro a table; rfl
  | cons l rest ih =>
    intro a table
    have hrest : SourceLine.label name ∉ rest := fun hm => h (by simp [hm])
    cases l with
    | label n =>
      have hne : name ≠ n := by
        intro he; subst he; exact h (by simp)
      simp only [bindLabels, ih hrest]
      exact lookup_cons_ne name n a table hne
    | aInstr s => simp only [bindLabels, ih hrest]
    | cInstr t => simp only [bindLabels, ih hrest]

/-- After pass 1 a label with no later definition is bound to the number of
instructions before it. -/
theorem pass1_label (pre post : List SourceLine) (name : Str) (table : SymbolTable)
    (hwf : ∀ l ∈ pre ++ SourceLine.label name :: post, l.wellFormed = true)
    (hpost : SourceLine.label name ∉ post) :
    (addLCOMMAND ((pre ++ SourceLine.label name :: post).map SourceLine.render) initParser
      table).2.lookup name = some (instructionCount pre : Int) := by
  rw [addLCOMMAND_render _ _ _ hwf, bindLabels_append]
  simp only [bindLabels]
  rw [bindLabels_lookup_absent post name hpost, lookup_cons_self]
  simp [initParser]

end HackAssembler

namespace HackAssembler

open GoStr CommandType

theorem writeACommand_known (parser : Parser) (symboltable : SymbolTable) (s : Str)
    (h : parser.currentCommand = '@' :: s) (hv : (atoi s).2 = false)
    (hc : symboltable.contains s = true) :
    writeACommand parser symboltable =
      (parser, symboltable, aWord (symboltable.GetAddress s)) := by
  simp [writeACommand, symbol_at parser s h, hv, hc, aWord]

theorem writeACommand_new (parser : Parser) (symboltable : SymbolTable) (s : Str)
    (h : parser.currentCommand = '@' :: s) (hv : (atoi s).2 = false)
    (hc : symboltable.contains s = false) :
    writeACommand parser symboltable =
      ({ parser with ramAddress := parser.ramAddress + 1 },
        symboltable.addEntry s parser.ramAddress, aWord parser.ramAddress) := by
  simp [writeACommand, symbol_at parser s h, hv, hc, aWord]

theorem writeACommand_number (parser : Parser) (symboltable : SymbolTable) (s : Str)
    (h : parser.currentCommand = '@' :: s) (hv : (atoi s).2 = true) :
    writeACommand parser symboltable = (parser, symboltable, aWord (atoi s).1) := by
  simp [writeACommand, symbol_at parser s h, hv, aWord]

theorem generateHackStep_label (parser : Parser) (symboltable : SymbolTable)
    (h : parser.commandType = L_COMMAND) :
    generateHackStep parser symboltable = (parser, symboltable, []) := by
  simp [generateHackStep, h]

theorem generateHackLoop_cons (line : Str) (rest : List Str) (parser : Parser)
    (symboltable : SymbolTable) (h : keepsLine line = true) :
    generateHackLoop (line :: rest) parser symboltable =
      ((generateHackLoop rest (generateHackStep (parser.advance line) symboltable).1
          (generateHackStep (parser.advance line) symboltable).2.1).1,
        (generateHackLoop rest (generateHackStep (parser.advance line) symboltable).1
          (generateHackStep (parser.advance line) symboltable).2.1).2.1,
        (generateHackStep (parser.advance line) symboltable).2.2 ++
          (generateHackLoop rest (generateHackStep (parser.advance line) symboltable).1
            (generateHackStep (parser.advance line) symboltable).2.1).2.2) := by
  simp [generateHackLoop, h]

theorem generateHackLoop_skip (line : Str) (rest : List Str) (parser : Parser)
    (symboltable : SymbolTable) (h : keepsLine line = false) :
    generateHackLoop (line :: rest) parser symboltable =
      generateHackLoop rest parser symboltable := by
  simp [generateHackLoop, h]

theorem generateHackLoop_append (l1 l2 : List Str) :
    ∀ (parser : Parser) (symboltable : SymbolTable),
      generateHackLoop (l1 ++ l2) parser symboltable =
        ((generateHackLoop l2 (generateHackLoop l1 parser symboltable).1
            (generateHackLoop l1 parser symboltable).2.1).1,
          (generateHackLoop l2 (generateHackLoop l1 parser symboltable).1
            (generateHackLoop l1 parser symboltable).2.1).2.1,
          (generateHackLoop l1 parser symboltable).2.2 ++
            (generateHackLoop l2 (generateHackLoop l1 parser symboltable).1
              (generateHackLoop l1 parser symboltable).2.1).2.2) := by
  induction l1 with
  | nil => intro parser symboltable; simp [generateHackLoop]
  | cons line rest ih =>
    intro parser symboltable
    by_cases hk : keepsLine line = true
    · rw [List.cons_append, generateHackLoop_cons _ _ _ _ hk, generateHackLoop_cons _ _ _ _ hk, ih]
      simp
    · have hk2 : keepsLine line = false := by simpa using hk
      rw [List.cons_append, generateHackLoop_skip _ _ _ _ hk2, generateHackLoop_skip _ _ _ _ hk2]
      exact ih parser symboltable

/-- The step of pass 2 on a well-formed source line. -/
theorem generateHackStep_render (parser : Parser) (symboltable : SymbolTable) (l : SourceLine)
    (h : l.wellFormed = true) :
    generateHackStep (parser.advance l.render) symboltable =
      match l with
      | .label _ => (parser.advance l.render, symboltable, [])
      | .cInstr _ => (parser.advance l.render, symboltable, [writeCCommand (parser.advance l.render)])
      | .aInstr _ =>
        ((writeACommand (parser.advance l.render) symboltable).1,
          (writeACommand (parser.advance l.render) symboltable).2.1,
          [(writeACommand (parser.advance l.render) symboltable).2.2]) := by
  have hct := commandType_render parser l h
  have hcur := render_advance parser l h
  cases l with
  | label n => exact generateHackStep_label _ _ hct
  | cInstr t => exact generateHackStep_c _ _ hct
  | aInstr s => exact generateHackStep_at _ _ s hcur

theorem contains_of_lookup (table : SymbolTable) (s : Str) (a : Int)
    (h : table.lookup s = some a) : table.contains s = true := by
  simp [SymbolTable.contains, h]

theorem getAddress_of_lookup (table : SymbolTable) (s : Str) (a : Int)
    (h : table.lookup s = some a) : table.GetAddress s = a := by
  simp [SymbolTable.GetAddress, mapGetD, h]

/-- Pass 2 keeps the binding of a symbol that the table has, and writes one
string for every instruction. -/
theorem pass2_keeps (prog : List SourceLine) (name : Str) (a : Int) :
    ∀ (parser : Parser) (table : SymbolTable), (∀ l ∈ prog, l.wellFormed = true) →
      table.lookup name = some a →
      (generateHackLoop (prog.map SourceLine.render) parser table).2.1.lookup name = some a ∧
      (generateHackLoop (prog.map SourceLine.render) parser table).2.2.length =
        instructionCount prog := by
  induction prog with
  | nil => intro parser table _ h; exact ⟨h, rfl⟩
  | cons l rest ih =>
    intro parser table hwf hlook
    have hl : l.wellFormed = true := hwf l (by simp)
    have hrest : ∀ l ∈ rest, l.wellFormed = true := fun l h => hwf l (by simp [h])
    have hk := render_keepsLine l hl
    have hstep := generateHackStep_render parser table l hl
    have hcur := render_advance parser l hl
    rw [List.map_cons, generateHackLoop_cons _ _ _ _ hk]
    cases l with
    | label n =>
      simp only [] at hstep
      rw [hstep]
      have := ih (parser.advance (SourceLine.label n).render) table hrest hlook
      simpa [instructionCount_label] using this
    | cInstr t =>
      simp only [] at hstep
      rw [hstep]
      have := ih (parser.advance (SourceLine.cInstr t).render) table hrest hlook
      simpa [instructionCount_cInstr] using this
    | aInstr s =>
      simp only [] at hstep
      rw [hstep]
      have hlook2 : (writeACommand (parser.advance (SourceLine.aInstr s).render) table).2.1.lookup
          name = some a := by
        by_cases hv : (atoi s).2 = true
        · rw [writeACommand_number _ _ s hcur hv]; exact hlook
        · have hv2 : (atoi s).2 = false := by simpa using hv
          by_cases hc : table.contains s = true
          · rw [writeACommand_known _ _ s hcur hv2 hc]; exact hlook
          · have hc2 : table.contains s = false := by simpa using hc
            rw [writeACommand_new _ _ s hcur hv2 hc2]
            have hne : name ≠ s := by
              intro he; subst he
              rw [contains_of_lookup table name a hlook] at hc2
              exact absurd hc2 (by decide)
            exact (lookup_cons_ne name s _ table hne).trans hlook
      have := ih (writeACommand (parser.advance (SourceLine.aInstr s).render) table).1
        (writeACommand (parser.advance (SourceLine.aInstr s).render) table).2.1 hrest hlook2
      obtain ⟨h1, h2⟩ := this
      refine ⟨h1, ?_⟩
      simp only [List.length_append, List.length_cons, List.length_nil, h2,
        instructionCount_aInstr]
      omega

end HackAssembler

namespace HackAssembler

open GoStr CommandType

theorem aWord_small (n : Nat) (h : n < 32768) :
    aWord (n : Int) = ('0' :: bitsBE 15 n) ++ ['\n'] := by
  unfold aWord
  rw [aWord_eq n h]
  rfl

/-- The string pass 2 writes for `@name` when the table binds `name`, which is
no decimal literal, to `a`: the word of `a`, at the index given by the number
of instructions before. -/
theorem pass2_symbol (p1 p2 : List SourceLine) (name : Str) (a : Int) (parser : Parser)
    (table : SymbolTable) (hwf : ∀ l ∈ p1 ++ SourceLine.aInstr name :: p2, l.wellFormed = true)
    (hlit : (atoi name).2 = false) (hlook : table.lookup name = some a) :
    (generateHackLoop ((p1 ++ SourceLine.aInstr name :: p2).map SourceLine.render) parser
      table).2.2[instructionCount p1]? = some (aWord a) := by
  have hwf1 : ∀ l ∈ p1, l.wellFormed = true := fun l h => hwf l (by simp [h])
  have hwfa : (SourceLine.aInstr name).wellFormed = true := hwf _ (by simp)
  obtain ⟨hl1, hlen⟩ := pass2_keeps p1 name a parser table hwf1 hlook
  rw [List.map_append, generateHackLoop_append, List.map_cons,
    generateHackLoop_cons _ _ _ _ (render_keepsLine _ hwfa)]
  have hstep := generateHackStep_render
    (generateHackLoop (p1.map SourceLine.render) parser table).1
    (generateHackLoop (p1.map SourceLine.render) parser table).2.1 _ hwfa
  simp only [] at hstep
  have hcur := render_advance (generateHackLoop (p1.map SourceLine.render) parser table).1 _ hwfa
  rw [hstep, writeACommand_known _ _ name hcur hlit (contains_of_lookup _ _ _ hl1),
    getAddress_of_lookup _ _ _ hl1]
  simp only []
  rw [List.getElem?_append_right (by omega), hlen]
  simp

end HackAssembler

namespace HackAssembler

open GoStr CommandType

theorem contains_eq_false_iff (table : SymbolTable) (s : Str) :
    table.contains s = false ↔ table.lookup s = none := by
  simp [SymbolTable.contains]

theorem position_append_of_mem (s : Str) (l1 l2 : List Str) (h : s ∈ l1) :
    position s (l1 ++ l2) = position s l1 := by
  induction l1 with
  | nil => simp at h
  | cons x rest ih =>
    by_cases hx : x = s
    · simp [position, hx]
    · have : s ∈ rest := by
        rcases List.mem_cons.mp h with h | h
        · exact absurd h.symm hx
        · exact h
      simp [position, hx, ih this]

theorem position_append_new (s : Str) (l : List Str) (h : s ∉ l) :
    position s (l ++ [s]) = l.length := by
  induction l with
  | nil => simp [position]
  | cons x rest ih =>
    have hx : x ≠ s := fun he => h (by simp [he])
    have hr : s ∉ rest := fun hm => h (by simp [hm])
    simp [position, hx, ih hr]

theorem newSymbols_append (table : SymbolTable) (p q : List SourceLine) :
    ∀ acc, newSymbols table (p ++ q) acc = newSymbols table q (newSymbols table p acc) := by
  induction p with
  | nil => intro acc; rfl
  | cons l rest ih =>
    intro acc
    cases l with
    | aInstr s =>
      simp only [List.cons_append, newSymbols]
      split <;> exact ih _
    | cInstr t => exact ih acc
    | label n => exact ih acc

theorem newSymbols_extends (table : SymbolTable) (p : List SourceLine) :
    ∀ acc, ∃ ext, newSymbols table p acc = acc ++ ext := by
  induction p with
  | nil => intro acc; exact ⟨[], by simp [newSymbols]⟩
  | cons l rest ih =>
    intro acc
    cases l with
    | aInstr s =>
      simp only [newSymbols]
      split
      · obtain ⟨ext, h⟩ := ih (acc ++ [s])
        exact ⟨s :: ext, by rw [h]; simp⟩
      · exact ih acc
    | cInstr t => exact ih acc
    | label n => exact ih acc

/-- One A-instruction `@s` of a symbol that is no decimal literal, in a state
of pass 2 that has allocated `vars`: the word written is the one of
`16 + k` for the position `k` of `s` among the symbols allocated afterwards. -/
theorem allocated_step (table1 : SymbolTable) (vars : List Str) (parser : Parser)
    (table : SymbolTable) (s : Str) (h : Allocated table1 vars parser.ramAddress table)
    (hcur : parser.currentCommand = '@' :: s) :
    Allocated table1 (newSymbols table1 [SourceLine.aInstr s] vars)
      (writeACommand parser table).1.ramAddress (writeACommand parser table).2.1 ∧
    ((atoi s).2 = false → table1.contains s = false →
      (writeACommand parser table).2.2 =
        aWord (16 + (position s (newSymbols table1 [SourceLine.aInstr s] vars) : Int)) ∧
      s ∈ newSymbols table1 [SourceLine.aInstr s] vars) := by
  obtain ⟨hram, htab⟩ := h
  by_cases hv : (atoi s).2 = true
  · rw [writeACommand_number _ _ s hcur hv]
    have : newSymbols table1 [SourceLine.aInstr s] vars = vars := by
      simp [newSymbols, hv]
    rw [this]
    exact ⟨⟨hram, htab⟩, fun h => by rw [hv] at h; exact absurd h (by decide)⟩
  · have hv2 : (atoi s).2 = false := by simpa using hv
    by_cases hc : table.contains s = true
    · rw [writeACommand_known _ _ s hcur hv2 hc]
      have hls := htab s
      by_cases hmem : s ∈ vars
      · have : newSymbols table1 [SourceLine.aInstr s] vars = vars := by
          simp [newSymbols, hmem]
        rw [this]
        refine ⟨⟨hram, htab⟩, fun _ _ => ⟨?_, hmem⟩⟩
        rw [if_pos hmem] at hls
        simp only []
        rw [getAddress_of_lookup _ _ _ hls]
      · rw [if_neg hmem] at hls
        have hc1 : table1.contains s = true := by
          simp only [SymbolTable.contains] at hc ⊢
          rw [← hls]; exact hc
        have : newSymbols table1 [SourceLine.aInstr s] vars = vars := by
          simp [newSymbols, hc1]
        rw [this]
        exact ⟨⟨hram, htab⟩, fun _ h => by rw [hc1] at h; exact absurd h (by decide)⟩
    · have hc2 : table.contains s = false := by simpa using hc
      rw [writeACommand_new _ _ s hcur hv2 hc2]
      have hls := htab s
      rw [(contains_eq_false_iff _ _).mp hc2] at hls
      have hmem : s ∉ vars := by
        intro hm; rw [if_pos hm] at hls; exact absurd hls (by simp)
      rw [if_neg hmem] at hls
      have hc1 : table1.contains s = false := (contains_eq_false_iff _ _).mpr hls.symm
      have hnew : newSymbols table1 [SourceLine.aInstr s] vars = vars ++ [s] := by
        simp [newSymbols, hv2, hc1, hmem]
      rw [hnew]
      have hidx : position s (vars ++ [s]) = vars.length := position_append_new s vars hmem
      refine ⟨⟨?_, ?_⟩, fun _ _ => ⟨?_, by simp⟩⟩
      · simp only [List.length_append, List.length_singleton]
        push_cast
        rw [hram]; ring
      · intro s2
        by_cases he : s2 = s
        · subst he
          simp only [SymbolTable.addEntry]
          rw [lookup_cons_self, if_pos (by simp), hidx, hram]
        · simp only [SymbolTable.addEntry]
          rw [lookup_cons_ne s2 s _ _ he, htab s2]
          by_cases hm2 : s2 ∈ vars
          · rw [if_pos hm2, if_pos (by simp [hm2]), position_append_of_mem s2 vars [s] hm2]
          · rw [if_neg hm2, if_neg (by simp [hm2, he])]
      · simp only []
        rw [hidx, hram]

end HackAssembler

namespace HackAssembler

open GoStr CommandType

/-- Pass 2 allocates the new symbols of a program in the order of their first
occurrence, and writes one string for every instruction. -/
theorem pass2_allocated (table1 : SymbolTable) (prog : List SourceLine) :
    ∀ (parser : Parser) (table : SymbolTable) (vars : List Str),
      (∀ l ∈ prog, l.wellFormed = true) → Allocated table1 vars parser.ramAddress table →
      Allocated table1 (newSymbols table1 prog vars)
        (generateHackLoop (prog.map SourceLine.render) parser table).1.ramAddress
        (generateHackLoop (prog.map SourceLine.render) parser table).2.1 ∧
      (generateHackLoop (prog.map SourceLine.render) parser table).2.2.length =
        instructionCount prog := by
  induction prog with
  | nil => intro parser table vars _ h; exact ⟨h, rfl⟩
  | cons l rest ih =>
    intro parser table vars hwf hall
    have hl : l.wellFormed = true := hwf l (by simp)
    have hrest : ∀ l ∈ rest, l.wellFormed = true := fun l h => hwf l (by simp [h])
    have hk := render_keepsLine l hl
    have hstep := generateHackStep_render parser table l hl
    have hcur := render_advance parser l hl
    rw [List.map_cons, generateHackLoop_cons _ _ _ _ hk]
    cases l with
    | label n =>
      simp only [] at hstep
      rw [hstep]
      have := ih (parser.advance (SourceLine.label n).render) table vars hrest hall
      simpa [instructionCount_label, newSymbols] using this
    | cInstr t =>
      simp only [] at hstep
      rw [hstep]
      have := ih (parser.advance (SourceLine.cInstr t).render) table vars hrest hall
      simpa [instructionCount_cInstr, newSymbols] using this
    | aInstr s =>
      simp only [] at hstep
      rw [hstep]
      have hs := (allocated_step table1 vars (parser.advance (SourceLine.aInstr s).render) table s
        hall hcur).1
      obtain ⟨h1, h2⟩ := ih (writeACommand (parser.advance (SourceLine.aInstr s).render) table).1
        (writeACommand (parser.advance (SourceLine.aInstr s).render) table).2.1 _ hrest hs
      have hns : newSymbols table1 (SourceLine.aInstr s :: rest) vars =
          newSymbols table1 rest (newSymbols table1 [SourceLine.aInstr s] vars) :=
        newSymbols_append table1 [SourceLine.aInstr s] rest vars
      rw [hns]
      refine ⟨h1, ?_⟩
      simp only [List.length_append, List.length_cons, List.length_nil, h2,
        instructionCount_aInstr]
      omega

theorem allocated_init (table1 : SymbolTable) : Allocated table1 [] 16 table1 := by
  constructor
  · simp
  · intro s; simp

/-- The string pass 2 writes for `@s` when `s` is a new symbol: the word of
16 plus the position of `s` among the new symbols of the program. -/
theorem pass2_variable (table1 : SymbolTable) (p1 p2 : List SourceLine) (s : Str)
    (parser : Parser) (hwf : ∀ l ∈ p1 ++ SourceLine.aInstr s :: p2, l.wellFormed = true)
    (hlit : (atoi s).2 = false) (hnew : table1.contains s = false)
    (hram : parser.ramAddress = 16) :
    (generateHackLoop ((p1 ++ SourceLine.aInstr s :: p2).map SourceLine.render) parser
      table1).2.2[instructionCount p1]? =
        some (aWord (16 + (position s
          (newSymbols table1 (p1 ++ SourceLine.aInstr s :: p2) []) : Int))) ∧
    s ∈ newSymbols table1 (p1 ++ SourceLine.aInstr s :: p2) [] := by
  have hwf1 : ∀ l ∈ p1, l.wellFormed = true := fun l h => hwf l (by simp [h])
  have hwfa : (SourceLine.aInstr s).wellFormed = true := hwf _ (by simp)
  have h0 : Allocated table1 [] parser.ramAddress table1 := by
    rw [hram]; exact allocated_init table1
  obtain ⟨hall, hlen⟩ := pass2_allocated table1 p1 parser table1 [] hwf1 h0
  have hcur := render_advance (generateHackLoop (p1.map SourceLine.render) parser table1).1 _ hwfa
  have hall2 : Allocated table1 (newSymbols table1 p1 [])
      ((generateHackLoop (p1.map SourceLine.render) parser table1).1.advance
        (SourceLine.aInstr s).render).ramAddress
      (generateHackLoop (p1.map SourceLine.render) parser table1).2.1 := hall
  obtain ⟨hw, hmem⟩ := (allocated_step table1 _
    ((generateHackLoop (p1.map SourceLine.render) parser table1).1.advance
      (SourceLine.aInstr s).render) _ s hall2 hcur).2 hlit hnew
  have hns : newSymbols table1 (p1 ++ SourceLine.aInstr s :: p2) [] =
      newSymbols table1 p2 (newSymbols table1 [SourceLine.aInstr s] (newSymbols table1 p1 [])) := by
    rw [newSymbols_append, show SourceLine.aInstr s :: p2 = [SourceLine.aInstr s] ++ p2 from rfl,
      newSymbols_append]
  obtain ⟨ext, hext⟩ := newSymbols_extends table1 p2
    (newSymbols table1 [SourceLine.aInstr s] (newSymbols table1 p1 []))
  rw [hns, hext, position_append_of_mem s _ ext hmem]
  refine ⟨?_, by simp [hmem]⟩
  rw [List.map_append, generateHackLoop_append, List.map_cons,
    generateHackLoop_cons _ _ _ _ (render_keepsLine _ hwfa)]
  have hstep := generateHackStep_render
    (generateHackLoop (p1.map SourceLine.render) parser table1).1
    (generateHackLoop (p1.map SourceLine.render) parser table1).2.1 _ hwfa
  simp only [] at hstep
  rw [hstep, hw]
  simp only []
  rw [List.getElem?_append_right (by omega), hlen]
  simp

end HackAssembler

/-! ## Lines of a text -/

namespace GoStr

theorem indexCut_shorter (x : Char) (r : Str) :
    ∀ (s p q : Str), indexCut (x :: r) s = some (p, q) → q.length < s.length := by
  intro s
  induction s with
  | nil => intro p q h; simp [indexCut] at h
  | cons c t ih =>
    intro p q h
    simp only [indexCut] at h
    split at h
    · simp only [Option.some.injEq, Prod.mk.injEq] at h
      rw [← h.2]
      simp
      omega
    · cases hc : indexCut (x :: r) t with
      | none => rw [hc] at h; simp at h
      | some pq =>
        obtain ⟨p2, q2⟩ := pq
        rw [hc] at h
        simp only [Option.some.injEq, Prod.mk.injEq] at h
        have := ih p2 q2 hc
        rw [← h.2]
        simp only [List.length_cons]
        omega

theorem splitAux_fuel (x : Char) (r : Str) (n : Nat) :
    ∀ (s : Str) (f1 f2 : Nat), s.length ≤ n → s.length < f1 → s.length < f2 →
      splitAux (x :: r) f1 s = splitAux (x :: r) f2 s := by
  induction n with
  | zero =>
    intro s f1 f2 hn h1 h2
    have : s = [] := List.length_eq_zero.mp (by omega)
    subst this
    cases f1 with
    | zero => omega
    | succ f1 =>
      cases f2 with
      | zero => omega
      | succ f2 => simp [splitAux, indexCut]
  | succ n ih =>
    intro s f1 f2 hn h1 h2
    cases f1 with
    | zero => omega
    | succ f1 =>
      cases f2 with
      | zero => omega
      | succ f2 =>
        simp only [splitAux]
        cases hc : indexCut (x :: r) s with
        | none => rfl
        | some pq =>
          obtain ⟨p, q⟩ := pq
          have hq := indexCut_shorter x r s p q hc
          simp only []
          rw [ih q f1 f2 (by omega) (by omega) (by omega)]

theorem split_line (l rest : Str) (h : ∀ c ∈ l, c ≠ '\n') :
    split (l ++ '\n' :: rest) ['\n'] = l :: split rest ['\n'] := by
  have hc : indexCut ['\n'] (l ++ '\n' :: rest) = some (l, rest) := by
    have := indexCut_found '\n' [] l rest h
    simpa using this
  have e1 : split (l ++ '\n' :: rest) ['\n'] =
      l :: splitAux ['\n'] (l ++ '\n' :: rest).length rest := by
    simp only [split, splitAux, hc]
  rw [e1, split, splitAux_fuel '\n' [] rest.length rest (l ++ '\n' :: rest).length
    (rest.length + 1) (le_refl _) (by simp; omega) (by omega)]

theorem split_nil : split [] ['\n'] = [[]] := by decide

theorem itoa_nat (n : Nat) : itoa (n : Int) = Nat.toDigits 10 n := by
  simp [itoa]

theorem toDigits_no_newline (n : Nat) : ∀ c ∈ Nat.toDigits 10 n, c ≠ '\n' := by
  intro c hc he
  subst he
  have := toDigits_isDigit n _ hc
  revert this
  decide

end GoStr

namespace HackMachine

open GoStr

theorem parseText_nil : parseText [] = some [] := by decide

theorem parseText_line (l rest : Str) (h : ∀ c ∈ l, c ≠ '\n') :
    parseText (l ++ '\n' :: rest) =
      match parseLine l, parseText rest with
      | some (some a), some ls => some (a :: ls)
      | some none, some ls => some ls
      | _, _ => none := by
  unfold parseText
  have : split (l ++ '\n' :: rest) "\n".toList = l :: split rest "\n".toList := split_line l rest h
  rw [this]
  rfl

/-- A line that holds the instruction or label `a`, followed by a line break. -/
theorem parseText_instr (l rest : Str) (a : AsmLine) (ls : List AsmLine)
    (h : ∀ c ∈ l, c ≠ '\n') (hl : parseLine l = some (some a)) (hr : parseText rest = some ls) :
    parseText (l ++ '\n' :: rest) = some (a :: ls) := by
  rw [parseText_line l rest h, hl, hr]

/-- A line without a command, followed by a line break. -/
theorem parseText_skip (l rest : Str) (ls : List AsmLine)
    (h : ∀ c ∈ l, c ≠ '\n') (hl : parseLine l = some none) (hr : parseText rest = some ls) :
    parseText (l ++ '\n' :: rest) = some ls := by
  rw [parseText_line l rest h, hl, hr]

theorem parseLines_cons (l : Str) (rest : List Str) :
    parseLines (l :: rest) =
      match parseLine l, parseLines rest with
      | some (some a), some ls => some (a :: ls)
      | some none, some ls => some ls
      | _, _ => none := rfl

theorem parseLines_append (l1 l2 : List Str) (a b : List AsmLine)
    (h1 : parseLines l1 = some a) (h2 : parseLines l2 = some b) :
    parseLines (l1 ++ l2) = some (a ++ b) := by
  induction l1 generalizing a with
  | nil =>
    simp only [parseLines, Option.some.injEq] at h1
    subst h1
    simpa using h2
  | cons l rest ih =>
    rw [parseLines_cons] at h1
    rw [List.cons_append, parseLines_cons]
    cases hl : parseLine l with
    | none => rw [hl] at h1; simp at h1
    | some o =>
      rw [hl] at h1
      cases hr : parseLines rest with
      | none => rw [hr] at h1; cases o <;> simp at h1
      | some ls =>
        rw [hr] at h1
        rw [ih ls hr]
        cases o with
        | none =>
          simp only [Option.some.injEq] at h1
          subst h1; rfl
        | some x =>
          simp only [Option.some.injEq] at h1
          subst h1; rfl

/-- A text made of whole lines, followed by more text. -/
theorem parseText_unlines (ls : List Str) (rest : Str) (a b : List AsmLine)
    (h : ∀ l ∈ ls, ∀ c ∈ l, c ≠ '\n') (h1 : parseLines ls = some a)
    (h2 : parseText rest = some b) :
    parseText (unlines ls ++ rest) = some (a ++ b) := by
  induction ls generalizing a with
  | nil =>
    simp only [parseLines, Option.some.injEq] at h1
    subst h1
    simpa [unlines] using h2
  | cons l more ih =>
    have hl0 : ∀ c ∈ l, c ≠ '\n' := h l (by simp)
    have hm : ∀ l ∈ more, ∀ c ∈ l, c ≠ '\n' := fun l hl => h l (by simp [hl])
    rw [parseLines_cons] at h1
    have he : unlines (l :: more) ++ rest = l ++ '\n' :: (unlines more ++ rest) := by
      simp [unlines]
    rw [he, parseText_line l _ hl0]
    cases hl : parseLine l with
    | none => rw [hl] at h1; simp at h1
    | some o =>
      rw [hl] at h1
      cases hr : parseLines more with
      | none => rw [hr] at h1; cases o <;> simp at h1
      | some ms =>
        rw [hr] at h1
        rw [ih ms hm hr]
        cases o with
        | none =>
          simp only [Option.some.injEq] at h1
          subst h1; rfl
        | some x =>
          simp only [Option.some.injEq] at h1
          subst h1; rfl

theorem parseLine_comment (rest : Str) : parseLine ('/' :: '/' :: rest) = some none := by
  have : split ('/' :: '/' :: rest) "//".toList = [] :: splitAux "//".toList
      ('/' :: '/' :: rest).length rest := by
    simp [split, splitAux, indexCut, List.isPrefixOf]
  simp only [parseLine, this]
  rfl

theorem parseLine_number (n : Nat) (h : n < 32768) :
    parseLine ('@' :: Nat.toDigits 10 n) = some (some (AsmLine.aNumber n)) := by
  have hplain := (HackAssembler.isPlain_iff _).mp (HackAssembler.isPlain_toDigits n)
  have h1 : split ('@' :: Nat.toDigits 10 n) "//".toList = ['@' :: Nat.toDigits 10 n] := by
    apply split_absent
    intro c hc
    rcases List.mem_cons.mp hc with hc | hc
    · subst hc; decide
    · exact (hplain c hc).1
  have h2 : trimSpace ('@' :: Nat.toDigits 10 n) = '@' :: Nat.toDigits 10 n := by
    apply trimSpace_self
    intro c hc
    rcases List.mem_cons.mp hc with hc | hc
    · subst hc; decide
    · exact (hplain c hc).2
  simp only [parseLine, h1, List.getD_cons_zero, h2]
  have hne := toDigits_ne_nil n
  cases hd : Nat.toDigits 10 n with
  | nil => exact absurd hd hne
  | cons r t =>
    have hr := toDigits_isDigit n r (by rw [hd]; simp)
    have hp := parseDigits_toDigits n
    rw [hd] at hp
    simp [digitVal, hr, hp, h]

end HackMachine

/-! ## The VM translator: reading commands -/

namespace GoStr

theorem split_cons_sep (x : Char) (l rest : Str) (h : ∀ c ∈ l, c ≠ x) :
    split (l ++ x :: rest) [x] = l :: split rest [x] := by
  have hc : indexCut [x] (l ++ x :: rest) = some (l, rest) := by
    have := indexCut_found x [] l rest h
    simpa using this
  have e1 : split (l ++ x :: rest) [x] = l :: splitAux [x] (l ++ x :: rest).length rest := by
    simp only [split, splitAux, hc]
  rw [e1, split, splitAux_fuel x [] rest.length rest (l ++ x :: rest).length
    (rest.length + 1) (le_refl _) (by simp; omega) (by omega)]

end GoStr

namespace VMTranslator

open GoStr CommandType


theorem keepsLine_eq (line : Str) : keepsLine line = HackAssembler.keepsLine line := rfl

theorem advance_words3 (p : Parser) (w0 w1 w2 : Str)
    (h0 : ∀ c ∈ w0, c ≠ ' ' ∧ c ≠ '/') (h1 : ∀ c ∈ w1, c ≠ ' ' ∧ c ≠ '/')
    (h2 : ∀ c ∈ w2, c ≠ ' ' ∧ c ≠ '/') :
    (p.advance (w0 ++ ' ' :: (w1 ++ ' ' :: w2))).args = [w0, w1, w2] := by
  have hs : split (w0 ++ ' ' :: (w1 ++ ' ' :: w2)) ['/', '/'] = [w0 ++ ' ' :: (w1 ++ ' ' :: w2)] := by
    apply split_absent
    intro c hc
    simp only [List.mem_append, List.mem_cons] at hc
    rcases hc with hc | hc | hc | hc | hc
    · exact (h0 c hc).2
    · subst hc; decide
    · exact (h1 c hc).2
    · subst hc; decide
    · exact (h2 c hc).2
  have e2 : split w2 [' '] = [w2] := split_absent ' ' [] w2 (fun c hc => (h2 c hc).1)
  show split ((split (w0 ++ ' ' :: (w1 ++ ' ' :: w2)) ['/', '/']).getD 0 []) [' '] = _
  rw [hs, List.getD_cons_zero, split_cons_sep ' ' w0 _ (fun c hc => (h0 c hc).1),
    split_cons_sep ' ' w1 _ (fun c hc => (h1 c hc).1), e2]

theorem advance_words1 (p : Parser) (w0 : Str) (h0 : ∀ c ∈ w0, c ≠ ' ' ∧ c ≠ '/') :
    (p.advance w0).args = [w0] := by
  have hs : split w0 ['/', '/'] = [w0] := split_absent '/' ['/'] w0 (fun c hc => (h0 c hc).2)
  have e2 : split w0 [' '] = [w0] := split_absent ' ' [] w0 (fun c hc => (h0 c hc).1)
  show split ((split w0 ['/', '/']).getD 0 []) [' '] = _
  rw [hs, List.getD_cons_zero, e2]

theorem toDigits_word (n : Nat) : ∀ c ∈ Nat.toDigits 10 n, c ≠ ' ' ∧ c ≠ '/' := by
  intro c hc
  have := toDigits_isDigit n c hc
  constructor <;> (intro he; subst he; revert this; decide)

end VMTranslator
namespace VMTranslator

open GoStr CommandType

theorem writePush_constant (cw : CodeWriter) (n : Nat) :
    cw.writePush "constant".toList (n : Int) = unlines (pushConstantLines n) := by
  simp [CodeWriter.writePush, itoa_nat, pushConstantLines, pushDLines, pushDcommand, unlines]

theorem writeArithmetic_add (cw : CodeWriter) :
    cw.writeArithmetic "add".toList =
      ({ cw with comparisonCount := wrap64 (cw.comparisonCount + 1) }, unlines addLines) := by
  simp [CodeWriter.writeArithmetic, addLines, popDLines, popDcommand, unlines]

end VMTranslator
namespace VMTranslator

open GoStr CommandType

theorem generateASMStep_push (p : Parser) (cw : CodeWriter) (asm seg idx : Str)
    (h : p.args = ["push".toList, seg, idx]) :
    generateASMStep p cw asm = some (cw, cw.writePush seg (atoi idx).1) := by
  have hc : p.commandType = C_PUSH := by
    simp [Parser.commandType, h]
  simp [generateASMStep, hc, Parser.arg1, Parser.arg2, h]

theorem generateASMStep_arithmetic (p : Parser) (cw : CodeWriter) (asm : Str)
    (h : p.args = ["add".toList]) :
    generateASMStep p cw asm = some (cw.writeArithmetic "add".toList) := by
  have hc : p.commandType = C_ARITHMETIC := by
    simp [Parser.commandType, h]
  simp [generateASMStep, hc, Parser.arg1, h]

theorem keepsLine_word (c : Char) (t : Str) (hc : c ≠ '/') (hs : isSpace c = false) :
    keepsLine (c :: t) = true := HackAssembler.keepsLine_cons c t hc hs

theorem generateASMLoop_cons (line : Str) (rest : List Str) (p : Parser) (cw cw2 : CodeWriter)
    (asm asm2 : Str) (hk : keepsLine line = true)
    (hs : generateASMStep (p.advance line) cw asm = some (cw2, asm2)) :
    generateASMLoop (line :: rest) p cw asm =
      (generateASMLoop rest (p.advance line) cw2 asm2).map
        (fun r => (r.1, r.2.1, asm2 :: r.2.2)) := by
  simp only [generateASMLoop, hk, if_true, hs]
  cases generateASMLoop rest (p.advance line) cw2 asm2 with
  | none => rfl
  | some r => obtain ⟨a, b, c⟩ := r; rfl

/-- The file written for `push constant a`, `push constant b`, `add`. -/
theorem translateFile_add (path : Str) (a b : Nat) (ha : a < 32768) (hb : b < 32768) :
    translateFile path
      ["push constant ".toList ++ Nat.toDigits 10 a, "push constant ".toList ++ Nat.toDigits 10 b,
        "add".toList] =
      some (unlines (pushConstantLines a) ++ (unlines (pushConstantLines b) ++
        (unlines addLines ++ []))) := by
  have hw : ∀ (n : Nat) (p : Parser),
      (p.advance ("push constant ".toList ++ Nat.toDigits 10 n)).args =
        ["push".toList, "constant".toList, Nat.toDigits 10 n] := by
    intro n p
    exact advance_words3 p "push".toList "constant".toList _ (by decide) (by decide)
      (toDigits_word n)
  have hstep : ∀ (n : Nat) (p : Parser) (cw : CodeWriter) (asm : Str), n < 32768 →
      generateASMStep (p.advance ("push constant ".toList ++ Nat.toDigits 10 n)) cw asm =
        some (cw, unlines (pushConstantLines n)) := by
    intro n p cw asm hn
    rw [generateASMStep_push _ cw asm _ _ (hw n p), atoi_toDigits n (by omega), writePush_constant]
  have hk : ∀ n : Nat, keepsLine ("push constant ".toList ++ Nat.toDigits 10 n) = true :=
    fun n => keepsLine_word 'p' _ (by decide) (by decide)
  have hadd : ∀ (p : Parser) (cw : CodeWriter) (asm : Str),
      generateASMStep (p.advance "add".toList) cw asm =
        some ({ cw with comparisonCount := wrap64 (cw.comparisonCount + 1) }, unlines addLines) := by
    intro p cw asm
    rw [generateASMStep_arithmetic _ cw asm (advance_words1 p _ (by decide)), writeArithmetic_add]
  simp only [translateFile, generateASM]
  rw [generateASMLoop_cons _ _ _ _ _ _ _ (hk a) (hstep a _ _ _ ha),
    generateASMLoop_cons _ _ _ _ _ _ _ (hk b) (hstep b _ _ _ hb),
    generateASMLoop_cons _ _ _ _ _ _ _ (by decide) (hadd _ _ _)]
  simp [generateASMLoop]

end VMTranslator
namespace VMTranslator

open GoStr CommandType HackMachine

set_option maxRecDepth 100000 in
theorem parseLines_pushD : parseLines pushDLines = some pushDAsm := by decide

set_option maxRecDepth 100000 in
theorem parseLines_popD : parseLines popDLines = some popDAsm := by decide

set_option maxRecDepth 100000 in
theorem parseLines_add : parseLines addLines = some addAsm := by decide

theorem parseLines_skip (l : Str) (rest : List Str) (h : parseLine l = some none) :
    parseLines (l :: rest) = parseLines rest := by
  rw [parseLines_cons, h]
  cases parseLines rest <;> rfl

theorem parseLines_instr (l : Str) (rest : List Str) (a : AsmLine) (ls : List AsmLine)
    (h : parseLine l = some (some a)) (hr : parseLines rest = some ls) :
    parseLines (l :: rest) = some (a :: ls) := by
  rw [parseLines_cons, h, hr]

set_option maxRecDepth 100000 in
theorem parseLines_pushConstant (n : Nat) (h : n < 32768) :
    parseLines (pushConstantLines n) = some (pushConstantAsm n) := by
  have h1 : parseLine ("// C_PUSH constant[".toList ++ Nat.toDigits 10 n ++ "]".toList) =
      some none := parseLine_comment _
  have h3 : parseLines ("D=A".toList :: pushDLines) =
      some (.cInstr ⟨false, true, false⟩ (.y .A) .null :: pushDAsm) := by decide
  show parseLines (("// C_PUSH constant[".toList ++ Nat.toDigits 10 n ++ "]".toList) ::
    ('@' :: Nat.toDigits 10 n) :: "D=A".toList :: pushDLines) =
      some (.aNumber n :: .cInstr ⟨false, true, false⟩ (.y .A) .null :: pushDAsm)
  rw [parseLines_skip _ _ h1, parseLines_instr _ _ _ _ (parseLine_number n h) h3]

end VMTranslator
namespace VMTranslator

open GoStr CommandType HackMachine

theorem pushDLines_lines : ∀ l ∈ pushDLines, ∀ c ∈ l, c ≠ '\n' := by decide

theorem popDLines_lines : ∀ l ∈ popDLines, ∀ c ∈ l, c ≠ '\n' := by decide

theorem addLines_lines : ∀ l ∈ addLines, ∀ c ∈ l, c ≠ '\n' := by decide

theorem pushConstantLines_lines (n : Nat) : ∀ l ∈ pushConstantLines n, ∀ c ∈ l, c ≠ '\n' := by
  intro l hl
  have hd := toDigits_no_newline n
  simp only [pushConstantLines, List.cons_append, List.nil_append, List.mem_cons] at hl
  rcases hl with rfl | rfl | rfl | hl
  · intro c hc
    simp only [List.mem_append] at hc
    rcases hc with (hc | hc) | hc
    · intro he; subst he; revert hc; decide
    · exact hd c hc
    · intro he; subst he; revert hc; decide
  · intro c hc
    rcases List.mem_cons.mp hc with hc | hc
    · subst hc; decide
    · exact hd c hc
  · decide
  · exact pushDLines_lines l hl

/-- The program of `push constant a`, `push constant b`, `add`. -/
theorem assemble_add (a b : Nat) (ha : a < 32768) (hb : b < 32768) :
    assemble (unlines (pushConstantLines a) ++ (unlines (pushConstantLines b) ++
        (unlines addLines ++ []))) =
      some (link (pushConstantAsm a ++ (pushConstantAsm b ++ (addAsm ++ [])))) := by
  unfold assemble
  rw [parseText_unlines _ _ _ _ (pushConstantLines_lines a) (parseLines_pushConstant a ha)
    (parseText_unlines _ _ _ _ (pushConstantLines_lines b) (parseLines_pushConstant b hb)
      (parseText_unlines _ _ _ _ addLines_lines parseLines_add parseText_nil))]
  rfl

theorem link_add (a b : Nat) :
    link (pushConstantAsm a ++ (pushConstantAsm b ++ (addAsm ++ []))) =
      [.aInstr a, .cInstr ⟨false, true, false⟩ (.y .A) .null, .aInstr 0,
        .cInstr ⟨true, false, false⟩ (.y .M) .null, .cInstr ⟨false, false, true⟩ .d .null,
        .aInstr 0, .cInstr ⟨false, false, true⟩ (.incY .M) .null,
        .aInstr b, .cInstr ⟨false, true, false⟩ (.y .A) .null, .aInstr 0,
        .cInstr ⟨true, false, false⟩ (.y .M) .null, .cInstr ⟨false, false, true⟩ .d .null,
        .aInstr 0, .cInstr ⟨false, false, true⟩ (.incY .M) .null,
        .aInstr 0, .cInstr ⟨true, false, true⟩ (.decY .M) .null,
        .cInstr ⟨false, true, false⟩ (.y .M) .null, .aInstr 0,
        .cInstr ⟨true, false, true⟩ (.decY .M) .null,
        .cInstr ⟨false, false, true⟩ (.dPlusY .M) .null, .aInstr 0,
        .cInstr ⟨false, false, true⟩ (.incY .M) .null] := by
  rfl

end VMTranslator
/-! ## Running programs on the Hack computer -/

namespace HackMachine

theorem runFor_add (prog : List Instr) (m n : Nat) (s : State) :
    runFor prog (m + n) s = (runFor prog m s).bind (runFor prog n) := by
  induction m generalizing s with
  | zero => simp [runFor]
  | succ m ih =>
    rw [Nat.add_right_comm]
    simp only [runFor]
    cases step prog s with
    | none => rfl
    | some s2 => exact ih s2

theorem execBlock_pc (code : List Instr) (s : State) (h : ∀ i ∈ code, i.noJump = true) :
    (execBlock code s).pc = s.pc + code.length := by
  induction code generalizing s with
  | nil => rfl
  | cons i rest ih =>
    have hi : i.noJump = true := h i (by simp)
    have hr : ∀ i ∈ rest, i.noJump = true := fun i hm => h i (by simp [hm])
    simp only [execBlock, List.length_cons]
    rw [ih _ hr]
    cases i with
    | aInstr v => simp [exec]; omega
    | cInstr d c j =>
      have : j = Jump.null := by simpa [Instr.noJump] using hi
      subst this
      simp [exec, Jump.taken]; omega

theorem codeAt_fetch (prog : List Instr) (off : Nat) (i : Instr) (rest : List Instr)
    (h : CodeAt prog off (i :: rest)) : prog[off]? = some i ∧ CodeAt prog (off + 1) rest := by
  obtain ⟨pre, post, hp, hl⟩ := h
  subst hl
  constructor
  · rw [hp, List.append_assoc, List.getElem?_append_right (le_refl _)]
    simp
  · exact ⟨pre ++ [i], post, by rw [hp]; simp, by simp⟩

/-- A block of instructions that do not jump runs from its first to its last
instruction. -/
theorem run_block (prog code : List Instr) :
    ∀ s : State, CodeAt prog s.pc code → (∀ i ∈ code, i.noJump = true) →
      runFor prog code.length s = some (execBlock code s) := by
  induction code with
  | nil => intro s _ _; rfl
  | cons i rest ih =>
    intro s hc hj
    obtain ⟨hf, hrest⟩ := codeAt_fetch prog s.pc i rest hc
    have hi : i.noJump = true := hj i (by simp)
    have hr : ∀ i ∈ rest, i.noJump = true := fun i hm => hj i (by simp [hm])
    have hpc : (exec i s).pc = s.pc + 1 := by
      have := execBlock_pc [i] s (by simpa using hi)
      simpa [execBlock] using this
    simp only [List.length_cons, runFor, step, hf, execBlock]
    exact ih (exec i s) (by rw [hpc]; exact hrest) hr

theorem codeAt_append_left (prog : List Instr) (off : Nat) (c1 c2 : List Instr)
    (h : CodeAt prog off (c1 ++ c2)) : CodeAt prog off c1 := by
  obtain ⟨pre, post, hp, hl⟩ := h
  exact ⟨pre, c2 ++ post, by rw [hp]; simp, hl⟩

theorem codeAt_append_right (prog : List Instr) (off : Nat) (c1 c2 : List Instr)
    (h : CodeAt prog off (c1 ++ c2)) : CodeAt prog (off + c1.length) c2 := by
  obtain ⟨pre, post, hp, hl⟩ := h
  exact ⟨pre ++ c1, post, by rw [hp]; simp, by simp [hl]⟩

theorem codeAt_self (prog : List Instr) : CodeAt prog 0 prog :=
  ⟨[], [], by simp, rfl⟩

theorem exec_a (v a d pc : Nat) (ram : Nat → Nat) :
    exec (.aInstr v) ⟨a, d, pc, ram⟩ = ⟨v, d, pc + 1, ram⟩ := rfl

theorem exec_c (dest : Dest) (comp : Comp) (jump : Jump) (a d pc : Nat) (ram : Nat → Nat) :
    exec (.cInstr dest comp jump) ⟨a, d, pc, ram⟩ =
      ⟨if dest.a then comp.eval a d (ram (a % 32768)) else a,
        if dest.d then comp.eval a d (ram (a % 32768)) else d,
        if jump.taken (comp.eval a d (ram (a % 32768))) then a else pc + 1,
        if dest.m then setRam ram (a % 32768) (comp.eval a d (ram (a % 32768))) else ram⟩ := rfl

theorem setRam_same (ram : Nat → Nat) (addr v : Nat) : setRam ram addr v addr = v := by
  simp [setRam]

theorem setRam_other (ram : Nat → Nat) (addr v x : Nat) (h : x ≠ addr) :
    setRam ram addr v x = ram x := by
  simp [setRam, h]

end HackMachine

namespace VMTranslator

open GoStr CommandType HackMachine

theorem run_add (a b a0 d0 : Nat) (ram : Nat → Nat) (ha : a < 32768) (hb : b < 32768)
    (hsp : ram 0 = 256) :
    ∃ s, runFor (link (pushConstantAsm a ++ (pushConstantAsm b ++ (addAsm ++ [])))) 22
      ⟨a0, d0, 0, ram⟩ = some s ∧ s.pc = 22 ∧ s.ram 0 = 257 ∧ s.ram 256 = a + b := by
  have ha1 : a % 65536 = a := Nat.mod_eq_of_lt (by omega)
  have hb1 : b % 65536 = b := Nat.mod_eq_of_lt (by omega)
  have hab : (b + a) % 65536 = a + b := by rw [Nat.mod_eq_of_lt (by omega)]; omega
  have hrun := run_block _ (link (pushConstantAsm a ++ (pushConstantAsm b ++ (addAsm ++ []))))
    ⟨a0, d0, 0, ram⟩ (codeAt_self _) (by rw [link_add]; simp [Instr.noJump])
  rw [show (link (pushConstantAsm a ++ (pushConstantAsm b ++ (addAsm ++ [])))).length = 22 by
    rw [link_add]; rfl] at hrun
  refine ⟨_, hrun, ?_⟩
  rw [link_add]
  simp [execBlock, exec_a, exec_c, Comp.eval, Jump.taken, setRam_same, setRam_other, hsp, ha1, hb1,
    hab]

end VMTranslator
namespace VMTranslator

open GoStr CommandType HackMachine

theorem step_end (prog : List Instr) (s : State) (h : s.pc = prog.length) :
    step prog s = none := by
  unfold step
  rw [List.getElem?_eq_none (by omega)]

/-- C6: for all constants a and b in [0, 32767] and every path of the `.vm`
file, file mode writes an assembly text for `push constant a`,
`push constant b`, `add`; the text is a program of the Hack computer, and
running it from its first instruction with SP = 256 reaches its end after as
many steps as it has instructions, with SP = 257 and RAM[256] = (a + b) mod
2^16. -/
theorem C6_add_program (a b : Nat) (ha : a ≤ 32767) (hb : b ≤ 32767) (path : Str) (s0 : State)
    (hpc : s0.pc = 0) (hsp : s0.ram 0 = 256) :
    ∃ (text : Str) (prog : List Instr) (s : State),
      translateFile path
        ["push constant ".toList ++ Nat.toDigits 10 a,
          "push constant ".toList ++ Nat.toDigits 10 b, "add".toList] = some text ∧
      assemble text = some prog ∧
      runFor prog prog.length s0 = some s ∧ step prog s = none ∧
      s.ram 0 = 257 ∧ s.ram 256 = (a + b) % 65536 := by
  obtain ⟨a0, d0, pc0, ram⟩ := s0
  simp only at hpc hsp
  subst hpc
  obtain ⟨s, hrun, hspc, h0, h256⟩ := run_add a b a0 d0 ram (by omega) (by omega) hsp
  have hlen : (link (pushConstantAsm a ++ (pushConstantAsm b ++ (addAsm ++ [])))).length = 22 := by
    rw [link_add]; rfl
  refine ⟨_, _, s, translateFile_add path a b (by omega) (by omega),
    assemble_add a b (by omega) (by omega), ?_, ?_, h0, ?_⟩
  · rw [hlen]; exact hrun
  · exact step_end _ _ (by rw [hspc, hlen])
  · rw [h256, Nat.mod_eq_of_lt (by omega)]

/-- The witness of C6: 7 + 8 = 15. -/
theorem C6_add_program_witness :
    ∃ (text : Str) (prog : List Instr) (s : State),
      translateFile "Add.vm".toList
        ["push constant ".toList ++ Nat.toDigits 10 7,
          "push constant ".toList ++ Nat.toDigits 10 8, "add".toList] = some text ∧
      assemble text = some prog ∧
      runFor prog prog.length ⟨0, 0, 0, fun x => if x = 0 then 256 else 0⟩ = some s ∧
      step prog s = none ∧ s.ram 0 = 257 ∧ s.ram 256 = 15 :=
  C6_add_program 7 8 (by decide) (by decide) "Add.vm".toList
    ⟨0, 0, 0, fun x => if x = 0 then 256 else 0⟩ rfl rfl

end VMTranslator
namespace VMTranslator

open GoStr CommandType HackMachine

theorem itoa_zero : itoa 0 = ['0'] := by decide

theorem writeArithmetic_lt (cw : CodeWriter) (h : cw.comparisonCount = 0) :
    cw.writeArithmetic "lt".toList =
      ({ cw with comparisonCount := wrap64 (cw.comparisonCount + 1) }, unlines ltLines) := by
  simp [CodeWriter.writeArithmetic, ltLines, popDLines, pushDLines, popDcommand, pushDcommand,
    unlines, h, itoa_zero]

theorem generateASMStep_lt (p : Parser) (cw : CodeWriter) (asm : Str)
    (h : p.args = ["lt".toList]) :
    generateASMStep p cw asm = some (cw.writeArithmetic "lt".toList) := by
  have hc : p.commandType = C_ARITHMETIC := by
    simp [Parser.commandType, h]
  simp [generateASMStep, hc, Parser.arg1, h]

/-- The file written for `push constant a`, `push constant b`, `lt`. -/
theorem translateFile_lt (path : Str) (a b : Nat) (ha : a < 32768) (hb : b < 32768) :
    translateFile path
      ["push constant ".toList ++ Nat.toDigits 10 a, "push constant ".toList ++ Nat.toDigits 10 b,
        "lt".toList] =
      some (unlines (pushConstantLines a) ++ (unlines (pushConstantLines b) ++
        (unlines ltLines ++ []))) := by
  have hw : ∀ (n : Nat) (p : Parser),
      (p.advance ("push constant ".toList ++ Nat.toDigits 10 n)).args =
        ["push".toList, "constant".toList, Nat.toDigits 10 n] := by
    intro n p
    exact advance_words3 p "push".toList "constant".toList _ (by decide) (by decide)
      (toDigits_word n)
  have hstep : ∀ (n : Nat) (p : Parser) (cw : CodeWriter) (asm : Str), n < 32768 →
      generateASMStep (p.advance ("push constant ".toList ++ Nat.toDigits 10 n)) cw asm =
        some (cw, unlines (pushConstantLines n)) := by
    intro n p cw asm hn
    rw [generateASMStep_push _ cw asm _ _ (hw n p), atoi_toDigits n (by omega), writePush_constant]
  have hk : ∀ n : Nat, keepsLine ("push constant ".toList ++ Nat.toDigits 10 n) = true :=
    fun n => keepsLine_word 'p' _ (by decide) (by decide)
  have hlt : ∀ (p : Parser) (cw : CodeWriter) (asm : Str), cw.comparisonCount = 0 →
      generateASMStep (p.advance "lt".toList) cw asm =
        some ({ cw with comparisonCount := wrap64 (cw.comparisonCount + 1) }, unlines ltLines) := by
    intro p cw asm h0
    rw [generateASMStep_lt _ cw asm (advance_words1 p _ (by decide)), writeArithmetic_lt cw h0]
  simp only [translateFile, generateASM]
  rw [generateASMLoop_cons _ _ _ _ _ _ _ (hk a) (hstep a _ _ _ ha),
    generateASMLoop_cons _ _ _ _ _ _ _ (hk b) (hstep b _ _ _ hb),
    generateASMLoop_cons _ _ _ _ _ _ _ (by decide) (hlt _ _ _ rfl)]
  simp [generateASMLoop]

set_option maxRecDepth 100000 in
theorem parseLines_lt : parseLines ltLines = some ltAsm := by decide

theorem ltLines_lines : ∀ l ∈ ltLines, ∀ c ∈ l, c ≠ '\n' := by decide

/-- The program of `push constant a`, `push constant b`, `lt`. -/
theorem assemble_lt (a b : Nat) (ha : a < 32768) (hb : b < 32768) :
    assemble (unlines (pushConstantLines a) ++ (unlines (pushConstantLines b) ++
        (unlines ltLines ++ []))) =
      some (link (pushConstantAsm a ++ (pushConstantAsm b ++ (ltAsm ++ [])))) := by
  unfold assemble
  rw [parseText_unlines _ _ _ _ (pushConstantLines_lines a) (parseLines_pushConstant a ha)
    (parseText_unlines _ _ _ _ (pushConstantLines_lines b) (parseLines_pushConstant b hb)
      (parseText_unlines _ _ _ _ ltLines_lines parseLines_lt parseText_nil))]
  rfl

theorem link_lt (a b : Nat) :
    link (pushConstantAsm a ++ (pushConstantAsm b ++ (ltAsm ++ []))) =
      [.aInstr a, .cInstr ⟨false, true, false⟩ (.y .A) .null, .aInstr 0,
        .cInstr ⟨true, false, false⟩ (.y .M) .null, .cInstr ⟨false, false, true⟩ .d .null,
        .aInstr 0, .cInstr ⟨false, false, true⟩ (.incY .M) .null, .aInstr b,
        .cInstr ⟨false, true, false⟩ (.y .A) .null, .aInstr 0,
        .cInstr ⟨true, false, false⟩ (.y .M) .null, .cInstr ⟨false, false, true⟩ .d .null,
        .aInstr 0, .cInstr ⟨false, false, true⟩ (.incY .M) .null, .aInstr 0,
        .cInstr ⟨true, false, true⟩ (.decY .M) .null, .cInstr ⟨false, true, false⟩ (.y .M) .null,
        .aInstr 0, .cInstr ⟨true, false, true⟩ (.decY .M) .null,
        .cInstr ⟨false, true, false⟩ (.yMinusD .M) .null, .aInstr 25] ++
      ([.cInstr ⟨false, false, false⟩ .d .JLT] ++
      ([.cInstr ⟨false, true, false⟩ .zero .null, .aInstr 26] ++
      ([.cInstr ⟨false, false, false⟩ .zero .JEQ] ++
      ([.cInstr ⟨false, true, false⟩ .negOne .null] ++
      [.aInstr 0, .cInstr ⟨true, false, false⟩ (.y .M) .null,
        .cInstr ⟨false, false, true⟩ .d .null, .aInstr 0,
        .cInstr ⟨false, false, true⟩ (.incY .M) .null])))) := by
  rfl

/-- One step at an instruction of the program. -/
theorem run_one (prog : List Instr) (i : Instr) (s : State) (h : CodeAt prog s.pc [i]) :
    runFor prog 1 s = some (exec i s) := by
  have := (codeAt_fetch prog s.pc i [] h).1
  simp [runFor, step, this]

theorem codeAt_mk (pre code post : List Instr) (off : Nat) (h : pre.length = off) :
    CodeAt (pre ++ code ++ post) off code := ⟨pre, post, rfl, h⟩

end VMTranslator
namespace VMTranslator

open GoStr CommandType HackMachine

theorem runFor_chain (prog : List Instr) (m n : Nat) (s s1 s2 : State)
    (h1 : runFor prog m s = some s1) (h2 : runFor prog n s1 = some s2) :
    runFor prog (m + n) s = some s2 := by
  rw [runFor_add, h1]
  exact h2

theorem run_lt (a b a0 d0 : Nat) (ram : Nat → Nat) (ha : a < 32768) (hb : b < 32768)
    (hsp : ram 0 = 256) :
    ∃ (s : State) (n : Nat),
      runFor (link (pushConstantAsm a ++ (pushConstantAsm b ++ (ltAsm ++ [])))) n
        ⟨a0, d0, 0, ram⟩ = some s ∧
      s.pc = 31 ∧ s.ram 0 = 257 ∧ s.ram 256 = if a < b then 65535 else 0 := by
  have ha1 : a % 65536 = a := Nat.mod_eq_of_lt (by omega)
  have hb1 : b % 65536 = b := Nat.mod_eq_of_lt (by omega)
  rw [link_lt]
  generalize hB1 : ([.aInstr a, .cInstr ⟨false, true, false⟩ (.y .A) .null, .aInstr 0,
        .cInstr ⟨true, false, false⟩ (.y .M) .null, .cInstr ⟨false, false, true⟩ .d .null,
        .aInstr 0, .cInstr ⟨false, false, true⟩ (.incY .M) .null, .aInstr b,
        .cInstr ⟨false, true, false⟩ (.y .A) .null, .aInstr 0,
        .cInstr ⟨true, false, false⟩ (.y .M) .null, .cInstr ⟨false, false, true⟩ .d .null,
        .aInstr 0, .cInstr ⟨false, false, true⟩ (.incY .M) .null, .aInstr 0,
        .cInstr ⟨true, false, true⟩ (.decY .M) .null, .cInstr ⟨false, true, false⟩ (.y .M) .null,
        .aInstr 0, .cInstr ⟨true, false, true⟩ (.decY .M) .null,
        .cInstr ⟨false, true, false⟩ (.yMinusD .M) .null, .aInstr 25] : List Instr) = B1
  generalize hJ1 : ([.cInstr ⟨false, false, false⟩ .d .JLT] : List Instr) = J1
  generalize hB2 : ([.cInstr ⟨false, true, false⟩ .zero .null, .aInstr 26] : List Instr) = B2
  generalize hJ2 : ([.cInstr ⟨false, false, false⟩ .zero .JEQ] : List Instr) = J2
  generalize hB3 : ([.cInstr ⟨false, true, false⟩ .negOne .null] : List Instr) = B3
  generalize hB4 : ([.aInstr 0, .cInstr ⟨true, false, false⟩ (.y .M) .null,
        .cInstr ⟨false, false, true⟩ .d .null, .aInstr 0,
        .cInstr ⟨false, false, true⟩ (.incY .M) .null] : List Instr) = B4
  have l1 : B1.length = 21 := by rw [← hB1]; rfl
  have l2 : B2.length = 2 := by rw [← hB2]; rfl
  have l3 : B3.length = 1 := by rw [← hB3]; rfl
  have l4 : B4.length = 5 := by rw [← hB4]; rfl
  have lj1 : J1.length = 1 := by rw [← hJ1]; rfl
  have lj2 : J2.length = 1 := by rw [← hJ2]; rfl
  -- where the blocks lie
  have c1 : CodeAt (B1 ++ (J1 ++ (B2 ++ (J2 ++ (B3 ++ B4))))) 0 B1 :=
    ⟨[], J1 ++ (B2 ++ (J2 ++ (B3 ++ B4))), by simp, rfl⟩
  have cj1 : CodeAt (B1 ++ (J1 ++ (B2 ++ (J2 ++ (B3 ++ B4))))) 21 J1 :=
    ⟨B1, B2 ++ (J2 ++ (B3 ++ B4)), by simp, l1⟩
  have c2 : CodeAt (B1 ++ (J1 ++ (B2 ++ (J2 ++ (B3 ++ B4))))) 22 B2 :=
    ⟨B1 ++ J1, J2 ++ (B3 ++ B4), by simp, by simp [l1, lj1]⟩
  have cj2 : CodeAt (B1 ++ (J1 ++ (B2 ++ (J2 ++ (B3 ++ B4))))) 24 J2 :=
    ⟨B1 ++ J1 ++ B2, B3 ++ B4, by simp, by simp [l1, lj1, l2]⟩
  have c3 : CodeAt (B1 ++ (J1 ++ (B2 ++ (J2 ++ (B3 ++ B4))))) 25 (B3 ++ B4) :=
    ⟨B1 ++ J1 ++ B2 ++ J2, [], by simp, by simp [l1, lj1, l2, lj2]⟩
  have c4 : CodeAt (B1 ++ (J1 ++ (B2 ++ (J2 ++ (B3 ++ B4))))) 26 B4 :=
    ⟨B1 ++ J1 ++ B2 ++ J2 ++ B3, [], by simp, by simp [l1, lj1, l2, lj2, l3]⟩
  generalize (B1 ++ (J1 ++ (B2 ++ (J2 ++ (B3 ++ B4))))) = prog at c1 cj1 c2 cj2 c3 c4 ⊢
  -- the two pushes and the subtraction
  have r1 := run_block prog B1 ⟨a0, d0, 0, ram⟩ c1 (by rw [← hB1]; simp [Instr.noJump])
  have e1 : execBlock B1 ⟨a0, d0, 0, ram⟩ =
      ⟨25, (a + (65536 - b)) % 65536, 21,
        setRam (setRam (setRam (setRam (setRam (setRam ram 256 a) 0 257) 257 b) 0 258) 0 257)
          0 256⟩ := by
    rw [← hB1]
    simp [execBlock, exec_a, exec_c, Comp.eval, Jump.taken, setRam_same, setRam_other, hsp, ha1,
      hb1]
  rw [e1, l1] at r1
  generalize hram1 : setRam (setRam (setRam (setRam (setRam (setRam ram 256 a) 0 257) 257 b) 0
    258) 0 257) 0 256 = ram1 at r1
  have hr0 : ram1 0 = 256 := by rw [← hram1]; simp [setRam_same]
  by_cases hab : a < b
  · -- the jump is taken
    have hd : (a + (65536 - b)) % 65536 = a + (65536 - b) := Nat.mod_eq_of_lt (by omega)
    have r2 := run_one prog (.cInstr ⟨false, false, false⟩ .d .JLT)
      ⟨25, (a + (65536 - b)) % 65536, 21, ram1⟩ (by rw [hJ1]; exact cj1)
    have e2 : exec (.cInstr ⟨false, false, false⟩ .d .JLT)
        ⟨25, (a + (65536 - b)) % 65536, 21, ram1⟩ =
        ⟨25, (a + (65536 - b)) % 65536, 25, ram1⟩ := by
      have : 32768 ≤ a + (65536 - b) := by omega
      simp [exec_c, Comp.eval, Jump.taken, hd, this]
    rw [e2] at r2
    have r3 := run_block prog (B3 ++ B4) ⟨25, (a + (65536 - b)) % 65536, 25, ram1⟩ c3
      (by rw [← hB3, ← hB4]; simp [Instr.noJump])
    have e3 : execBlock (B3 ++ B4) ⟨25, (a + (65536 - b)) % 65536, 25, ram1⟩ =
        ⟨0, 65535, 31, setRam (setRam ram1 256 65535) 0 257⟩ := by
      rw [← hB3, ← hB4]
      simp [execBlock, exec_a, exec_c, Comp.eval, Jump.taken, setRam_same, setRam_other, hr0]
    rw [e3] at r3
    refine ⟨_, _, runFor_chain _ _ _ _ _ _ (runFor_chain _ _ _ _ _ _ r1 r2) r3, rfl, ?_, ?_⟩
    · simp [setRam_same]
    · simp [setRam_same, setRam_other, hab]
  · -- the jump is not taken
    have hd : (a + (65536 - b)) % 65536 = a - b := by omega
    have r2 := run_one prog (.cInstr ⟨false, false, false⟩ .d .JLT)
      ⟨25, (a + (65536 - b)) % 65536, 21, ram1⟩ (by rw [hJ1]; exact cj1)
    have e2 : exec (.cInstr ⟨false, false, false⟩ .d .JLT)
        ⟨25, (a + (65536 - b)) % 65536, 21, ram1⟩ =
        ⟨25, (a + (65536 - b)) % 65536, 22, ram1⟩ := by
      have h1 : (a - b) % 65536 = a - b := Nat.mod_eq_of_lt (by omega)
      have h2 : ¬ 32768 ≤ a - b := by omega
      simp [exec_c, Comp.eval, Jump.taken, hd, h1, h2]
    rw [e2] at r2
    have r3 := run_block prog B2 ⟨25, (a + (65536 - b)) % 65536, 22, ram1⟩ c2
      (by rw [← hB2]; simp [Instr.noJump])
    have e3 : execBlock B2 ⟨25, (a + (65536 - b)) % 65536, 22, ram1⟩ = ⟨26, 0, 24, ram1⟩ := by
      rw [← hB2]
      simp [execBlock, exec_a, exec_c, Comp.eval, Jump.taken]
    rw [e3] at r3
    have r4 := run_one prog (.cInstr ⟨false, false, false⟩ .zero .JEQ) ⟨26, 0, 24, ram1⟩
      (by rw [hJ2]; exact cj2)
    have e4 : exec (.cInstr ⟨false, false, false⟩ .zero .JEQ) ⟨26, 0, 24, ram1⟩ =
        ⟨26, 0, 26, ram1⟩ := by
      simp [exec_c, Comp.eval, Jump.taken]
    rw [e4] at r4
    have r5 := run_block prog B4 ⟨26, 0, 26, ram1⟩ c4 (by rw [← hB4]; simp [Instr.noJump])
    have e5 : execBlock B4 ⟨26, 0, 26, ram1⟩ = ⟨0, 0, 31, setRam (setRam ram1 256 0) 0 257⟩ := by
      rw [← hB4]
      simp [execBlock, exec_a, exec_c, Comp.eval, Jump.taken, setRam_same, setRam_other, hr0]
    rw [e5] at r5
    refine ⟨_, _, runFor_chain _ _ _ _ _ _ (runFor_chain _ _ _ _ _ _
      (runFor_chain _ _ _ _ _ _ (runFor_chain _ _ _ _ _ _ r1 r2) r3) r4) r5, rfl, ?_, ?_⟩
    · simp [setRam_same]
    · simp [setRam_same, setRam_other, hab]

end VMTranslator
namespace VMTranslator

open GoStr CommandType HackMachine

/-- C7: for all constants a and b in [0, 32767] and every path of the `.vm`
file, file mode writes an assembly text for `push constant a`,
`push constant b`, `lt`; the text is a program of the Hack computer, and
running it from its first instruction with SP = 256 reaches its end with
SP = 257 and with RAM[256] = 65535, the word of all ones that stands for -1,
when a < b, and RAM[256] = 0 otherwise. -/
theorem C7_lt_program (a b : Nat) (ha : a ≤ 32767) (hb : b ≤ 32767) (path : Str) (s0 : State)
    (hpc : s0.pc = 0) (hsp : s0.ram 0 = 256) :
    ∃ (text : Str) (prog : List Instr) (s : State) (n : Nat),
      translateFile path
        ["push constant ".toList ++ Nat.toDigits 10 a,
          "push constant ".toList ++ Nat.toDigits 10 b, "lt".toList] = some text ∧
      assemble text = some prog ∧
      runFor prog n s0 = some s ∧ step prog s = none ∧
      s.ram 0 = 257 ∧ s.ram 256 = (if a < b then 65535 else 0) := by
  obtain ⟨a0, d0, pc0, ram⟩ := s0
  simp only at hpc hsp
  subst hpc
  obtain ⟨s, n, hrun, hspc, h0, h256⟩ := run_lt a b a0 d0 ram (by omega) (by omega) hsp
  have hlen : (link (pushConstantAsm a ++ (pushConstantAsm b ++ (ltAsm ++ [])))).length = 31 := by
    rw [link_lt]; rfl
  exact ⟨_, _, s, n, translateFile_lt path a b (by omega) (by omega),
    assemble_lt a b (by omega) (by omega), hrun, step_end _ _ (by rw [hspc, hlen]), h0, h256⟩

/-- The witness of C7: 3 < 5 leaves 65535 (-1), and 5 < 3 leaves 0. -/
theorem C7_lt_program_witness :
    (∃ (text : Str) (prog : List Instr) (s : State) (n : Nat),
      translateFile "Lt.vm".toList
        ["push constant ".toList ++ Nat.toDigits 10 3,
          "push constant ".toList ++ Nat.toDigits 10 5, "lt".toList] = some text ∧
      assemble text = some prog ∧
      runFor prog n ⟨0, 0, 0, fun x => if x = 0 then 256 else 0⟩ = some s ∧
      step prog s = none ∧ s.ram 0 = 257 ∧ s.ram 256 = 65535) ∧
    (∃ (text : Str) (prog : List Instr) (s : State) (n : Nat),
      translateFile "Lt.vm".toList
        ["push constant ".toList ++ Nat.toDigits 10 5,
          "push constant ".toList ++ Nat.toDigits 10 3, "lt".toList] = some text ∧
      assemble text = some prog ∧
      runFor prog n ⟨0, 0, 0, fun x => if x = 0 then 256 else 0⟩ = some s ∧
      step prog s = none ∧ s.ram 0 = 257 ∧ s.ram 256 = 0) :=
  ⟨C7_lt_program 3 5 (by decide) (by decide) "Lt.vm".toList
      ⟨0, 0, 0, fun x => if x = 0 then 256 else 0⟩ rfl rfl,
    C7_lt_program 5 3 (by decide) (by decide) "Lt.vm".toList
      ⟨0, 0, 0, fun x => if x = 0 then 256 else 0⟩ rfl rfl⟩

end VMTranslator
namespace VMTranslator

open GoStr CommandType HackMachine

set_option maxRecDepth 10000 in
theorem writeCall_text (cw : CodeWriter) (f : Str) (n k : Nat) (hk : cw.callCount = (k : Int))
    (hn : n + 5 < 2 ^ 63) :
    cw.writeCall f (n : Int) =
      ({ cw with callCount := wrap64 ((k : Int) + 1) }, unlines (callLines f n k)) := by
  have hw : wrap64 ((n : Int) + 5) = ((n + 5 : Nat) : Int) := by
    rw [show ((n : Int) + 5) = ((n + 5 : Nat) : Int) by push_cast; rfl]
    exact HackAssembler.wrap64_nat _ hn
  simp only [CodeWriter.writeCall, hk, hw, itoa_nat]
  simp [callLines, pushAddressLines, pushMemLines, setArgLines, setLclLines, gotoLines,
    returnLabel, pushDLines, pushDcommand, unlines]

end VMTranslator
namespace VMTranslator

open GoStr CommandType HackMachine

/-- A block that does not jump, followed by one instruction. -/
theorem run_block_then (prog code : List Instr) (i : Instr) (s : State)
    (hc : CodeAt prog s.pc (code ++ [i])) (hj : ∀ i ∈ code, i.noJump = true) :
    runFor prog (code.length + 1) s = some (exec i (execBlock code s)) := by
  have h1 := run_block prog code s (codeAt_append_left _ _ _ _ hc) hj
  have hpc := execBlock_pc code s hj
  have h2 := run_one prog i (execBlock code s)
    (by rw [hpc]; exact codeAt_append_right _ _ _ _ hc)
  exact runFor_chain _ _ _ _ _ _ h1 h2

/-- The call sequence: the return address and LCL, ARG, THIS, THAT are pushed,
ARG is set to SP - (n + 5) and LCL to SP, for the SP after the pushes, and
control goes to the function. -/
theorem run_call (prog : List Instr) (s : State) (ret fa n sp : Nat)
    (hc : CodeAt prog s.pc (callCode ret fa n)) (h0 : s.ram 0 = sp)
    (hsp : 5 ≤ sp) (hn : n ≤ sp) (hsp2 : sp + 5 < 32768) (hret : ret < 32768)
    (hw : ∀ x, s.ram x < 65536) :
    ∃ s2, runFor prog 46 s = some s2 ∧ s2.pc = fa ∧
      s2.ram 0 = sp + 5 ∧ s2.ram 1 = sp + 5 ∧ s2.ram 2 = sp + 5 - (n + 5) ∧
      s2.ram 3 = s.ram 3 ∧ s2.ram 4 = s.ram 4 ∧
      s2.ram sp = ret ∧ s2.ram (sp + 1) = s.ram 1 ∧ s2.ram (sp + 2) = s.ram 2 ∧
      s2.ram (sp + 3) = s.ram 3 ∧ s2.ram (sp + 4) = s.ram 4 ∧
      (∀ x, 5 ≤ x → (x < sp ∨ sp + 5 ≤ x) → s2.ram x = s.ram x) ∧
      (∀ x, s2.ram x < 65536) := by
  obtain ⟨a0, d0, pc0, ram⟩ := s
  simp only at hc h0 hw
  have w1 := hw 1
  have w2 := hw 2
  have w3 := hw 3
  have w4 := hw 4
  have hcode : callCode ret fa n =
      (callFrameCode ret n ++ [.aInstr fa]) ++ [.cInstr ⟨false, false, false⟩ .zero .JMP] := by
    simp [callCode]
  rw [hcode] at hc
  have hrun := run_block_then prog _ _ ⟨a0, d0, pc0, ram⟩ hc
    (by simp [callFrameCode, pushAddressCode, pushMemCode, setArgCode, setLclCode, pushDCode,
      Instr.noJump])
  have hlen : (callFrameCode ret n ++ [Instr.aInstr fa]).length + 1 = 46 := by
    simp [callFrameCode, pushAddressCode, pushMemCode, setArgCode, setLclCode, pushDCode]
  rw [hlen] at hrun
  refine ⟨_, hrun, ?_⟩
  simp (disch := omega) [callFrameCode, pushAddressCode, pushMemCode, setArgCode, setLclCode,
    pushDCode, execBlock, exec_a, exec_c, Comp.eval, Jump.taken, setRam_same, setRam_other,
    Nat.mod_eq_of_lt, h0, Nat.add_assoc]
  refine ⟨by omega, ?_, ?_⟩
  · intro x h5 hx
    simp (disch := omega) [setRam_other]
  · intro x
    simp only [setRam]
    split_ifs <;> first | omega | exact hw x

end VMTranslator
namespace VMTranslator

open GoStr CommandType HackMachine

set_option maxRecDepth 100000 in
theorem writeReturn_text (cw : CodeWriter) : cw.writeReturn = unlines returnLines := by
  have h : Nat.toDigits 10 5 = ['5'] ∧ Nat.toDigits 10 1 = ['1'] ∧ Nat.toDigits 10 2 = ['2'] ∧
      Nat.toDigits 10 3 = ['3'] ∧ Nat.toDigits 10 4 = ['4'] := by decide
  simp [CodeWriter.writeReturn, returnLines, frameLines, restoreLines, popArgLines, spLines,
    jumpRetLines, popDLines, popDcommand, unlines, h.1, h.2.1, h.2.2.1, h.2.2.2.1, h.2.2.2.2]

set_option maxHeartbeats 4000000 in
/-- The return sequence, for a frame whose saved return address is at `fb`
(so that LCL = fb + 5) and a return value at `top` (so that SP = top + 1):
FRAME = LCL, RET = *(FRAME - 5), *ARG = pop(), SP = ARG + 1, THAT, THIS, ARG
and LCL are restored from the frame, and control goes to the address in RET. -/
theorem run_return (prog : List Instr) (s : State) (fr rt fb arg top : Nat)
    (hc : CodeAt prog s.pc (returnCode fr rt)) (h0 : s.ram 0 = top + 1) (h1 : s.ram 1 = fb + 5)
    (h2 : s.ram 2 = arg)
    (hfr : 5 ≤ fr) (hrt : 5 ≤ rt) (hne : fr ≠ rt) (hfa : fr < arg) (hra : rt < arg)
    (hal : arg ≤ fb) (hls : fb + 5 ≤ top) (hsp : top + 1 < 32768)
    (hw : ∀ x, s.ram x < 65536) :
    ∃ s2, runFor prog 57 s = some s2 ∧ s2.pc = s.ram fb ∧
      s2.ram 0 = arg + 1 ∧ s2.ram arg = s.ram top ∧
      s2.ram 1 = s.ram (fb + 1) ∧ s2.ram 2 = s.ram (fb + 2) ∧
      s2.ram 3 = s.ram (fb + 3) ∧ s2.ram 4 = s.ram (fb + 4) ∧
      (∀ x, 5 ≤ x → x ≠ fr → x ≠ rt → x ≠ arg → s2.ram x = s.ram x) ∧
      (∀ x, s2.ram x < 65536) ∧ s2.ram fr = fb + 5 ∧ s2.ram rt = s.ram fb := by
  obtain ⟨a0, d0, pc0, ram⟩ := s
  simp only at hc h0 h1 h2 hw
  have hwm : ∀ x, ram x % 65536 = ram x := fun x => Nat.mod_eq_of_lt (hw x)
  have e5 : (fb + 65536) % 65536 = fb := by omega
  have e4 : (fb + 65537) % 65536 = fb + 1 := by omega
  have e3 : (fb + 65538) % 65536 = fb + 2 := by omega
  have e2 : (fb + 65539) % 65536 = fb + 3 := by omega
  have e1 : (fb + 65540) % 65536 = fb + 4 := by omega
  have es : (top + 65536) % 65536 = top := by omega
  have key : exec (.cInstr ⟨false, false, false⟩ .zero .JMP)
      (execBlock (returnFrameCode fr rt ++
        [.aInstr rt, .cInstr ⟨true, false, false⟩ (.y .M) .null]) ⟨a0, d0, pc0, ram⟩) =
      ⟨ram fb, ram (fb + 1), ram fb,
        setRam (setRam (setRam (setRam (setRam (setRam (setRam (setRam (setRam ram fr (fb + 5))
          rt (ram fb)) 0 top) arg (ram top)) 0 (arg + 1)) 4 (ram (fb + 4))) 3 (ram (fb + 3)))
          2 (ram (fb + 2))) 1 (ram (fb + 1))⟩ := by
    simp (disch := omega) [returnFrameCode, frameCode, restoreCode, popArgCode, spCode, popDCode,
      execBlock, exec_a, exec_c, Comp.eval, Jump.taken, setRam_same, setRam_other,
      Nat.mod_eq_of_lt, h0, h1, h2, hwm, e1, e2, e3, e4, e5, es, Nat.add_assoc]
  have hcode : returnCode fr rt =
      (returnFrameCode fr rt ++ [.aInstr rt, .cInstr ⟨true, false, false⟩ (.y .M) .null]) ++
        [.cInstr ⟨false, false, false⟩ .zero .JMP] := by
    simp [returnCode]
  rw [hcode] at hc
  have hrun := run_block_then prog _ _ ⟨a0, d0, pc0, ram⟩ hc
    (by simp [returnFrameCode, frameCode, restoreCode, popArgCode, spCode, popDCode,
      Instr.noJump])
  have hlen : (returnFrameCode fr rt ++
      [Instr.aInstr rt, Instr.cInstr ⟨true, false, false⟩ (.y .M) .null]).length + 1 = 57 := by
    simp [returnFrameCode, frameCode, restoreCode, popArgCode, spCode, popDCode]
  rw [hlen] at hrun
  rw [key] at hrun
  refine ⟨_, hrun, rfl, ?_, ?_, ?_, ?_, ?_, ?_, ?_, ?_, ?_, ?_⟩
  · simp (disch := omega) [setRam_same, setRam_other]
  · simp (disch := omega) [setRam_same, setRam_other]
  · simp (disch := omega) [setRam_same, setRam_other]
  · simp (disch := omega) [setRam_same, setRam_other]
  · simp (disch := omega) [setRam_same, setRam_other]
  · simp (disch := omega) [setRam_same, setRam_other]
  · intro x h5 hx1 hx2 hx3
    simp (disch := omega) [setRam_other]
  · intro x
    have := hw x
    have := hw fb
    have := hw (fb + 1)
    have := hw (fb + 2)
    have := hw (fb + 3)
    have := hw (fb + 4)
    have := hw top
    simp only [setRam]
    split_ifs <;> omega
  · simp (disch := omega) [setRam_same, setRam_other]
  · simp (disch := omega) [setRam_same, setRam_other]

end VMTranslator
namespace VMTranslator

open GoStr CommandType HackMachine

set_option maxRecDepth 100000 in
theorem parseLines_return : parseLines returnLines = some returnAsm := by decide

theorem returnLines_lines : ∀ l ∈ returnLines, ∀ c ∈ l, c ≠ '\n' := by decide

theorem localsLoop_text (k : Nat) :
    localsLoop (k : Int) = unlines (List.replicate k ["M=0".toList, "A=A+1".toList]).flatten := by
  unfold localsLoop
  simp only [Int.toNat_ofNat]
  induction k with
  | zero => rfl
  | succ k ih =>
    rw [List.replicate_succ, List.flatten_cons, ih, List.replicate_succ, List.flatten_cons]
    simp [unlines]

theorem unlines_append (l1 l2 : List Str) : unlines (l1 ++ l2) = unlines l1 ++ unlines l2 := by
  induction l1 with
  | nil => rfl
  | cons l rest ih => simp [unlines, ih]

theorem writeFunction_text (cw : CodeWriter) (f : Str) (k : Nat) :
    cw.writeFunction f (k : Int) =
      ({ cw with currentFunction := f }, unlines (functionLines f k)) := by
  simp only [CodeWriter.writeFunction, localsLoop_text, itoa_nat, functionLines, unlines_append]
  simp [unlines]

end VMTranslator
namespace VMTranslator

open GoStr CommandType HackMachine

theorem isName_iff (s : Str) :
    isName s = true ↔
      ∃ c t, s = c :: t ∧ digitVal c = none ∧ ∀ x ∈ s, x ≠ '/' ∧ isSpace x = false := by
  cases s with
  | nil => simp [isName]
  | cons c t =>
    constructor
    · intro h
      simp only [isName, Bool.and_eq_true, Option.isNone_iff_eq_none, List.all_eq_true,
        bne_iff_ne, ne_eq, Bool.not_eq_true'] at h
      exact ⟨c, t, rfl, h.1, h.2⟩
    · rintro ⟨c2, t2, h1, h3, h4⟩
      simp only [List.cons.injEq] at h1
      obtain ⟨rfl, rfl⟩ := h1
      simp only [isName, Bool.and_eq_true, Option.isNone_iff_eq_none, List.all_eq_true,
        bne_iff_ne, ne_eq, Bool.not_eq_true']
      exact ⟨h3, h4⟩

theorem name_no_newline (s : Str) (h : isName s = true) : ∀ c ∈ s, c ≠ '\n' := by
  obtain ⟨c, t, rfl, _, hall⟩ := (isName_iff s).mp h
  intro x hx he
  subst he
  have := (hall _ hx).2
  revert this
  decide

theorem parseLine_symbol (s : Str) (h : isName s = true) :
    parseLine ('@' :: s) = some (some (AsmLine.aSymbol s)) := by
  obtain ⟨c, t, rfl, hd, hall⟩ := (isName_iff s).mp h
  have h1 : split ('@' :: c :: t) ['/', '/'] = ['@' :: c :: t] := by
    apply split_absent
    intro x hx
    rcases List.mem_cons.mp hx with hx | hx
    · subst hx; decide
    · exact (hall x hx).1
  have h2 : trimSpace ('@' :: c :: t) = '@' :: c :: t := by
    apply trimSpace_self
    intro x hx
    rcases List.mem_cons.mp hx with hx | hx
    · subst hx; decide
    · exact (hall x hx).2
  simp [parseLine, h1, h2, hd]

theorem parseLine_label (s : Str) (h : ∀ x ∈ s, x ≠ '/' ∧ isSpace x = false) :
    parseLine ('(' :: (s ++ [')'])) = some (some (AsmLine.label s)) := by
  have h1 : split ('(' :: (s ++ [')'])) ['/', '/'] = ['(' :: (s ++ [')'])] := by
    apply split_absent
    intro x hx
    simp only [List.mem_cons, List.mem_append, List.mem_singleton, List.not_mem_nil,
      or_false] at hx
    rcases hx with hx | hx | hx
    · subst hx; decide
    · exact (h x hx).1
    · subst hx; decide
  have h2 : trimSpace ('(' :: (s ++ [')'])) = '(' :: (s ++ [')']) := by
    apply trimSpace_self
    intro x hx
    simp only [List.mem_cons, List.mem_append, List.mem_singleton, List.not_mem_nil,
      or_false] at hx
    rcases hx with hx | hx | hx
    · subst hx; decide
    · exact (h x hx).2
    · subst hx; decide
  have h3 : endsWith (s ++ [')']) [')'] = true := by
    unfold endsWith
    rw [List.isSuffixOf_iff_suffix]
    exact ⟨s, rfl⟩
  have hne : ¬ ('(' = '@') := by decide
  simp [parseLine, h1, h2, hne, h3]

theorem returnLabel_isName (k : Nat) : isName (returnLabel k) = true := by
  rw [isName_iff]
  refine ⟨'r', "eturn_address_".toList ++ Nat.toDigits 10 k, rfl, by decide, ?_⟩
  intro x hx
  simp only [returnLabel, List.mem_append] at hx
  rcases hx with hx | hx
  · revert x; decide
  · exact (HackAssembler.isPlain_iff _).mp (HackAssembler.isPlain_toDigits k) x hx

theorem parseLine_blank : parseLine [] = some none := by decide

end VMTranslator
namespace VMTranslator

open GoStr CommandType HackMachine

set_option maxRecDepth 100000 in
theorem parseLines_pushAddress (s : Str) (h : isName s = true) :
    parseLines (pushAddressLines s) = some (pushAddressAsm s) := by
  have h3 : parseLines ("D=A".toList :: pushDLines) =
      some (.cInstr ⟨false, true, false⟩ (.y .A) .null :: pushDAsm) := by decide
  exact parseLines_instr _ _ _ _ (parseLine_symbol s h) h3

set_option maxRecDepth 100000 in
theorem parseLines_pushMem (s : Str) (h : isName s = true) :
    parseLines (pushMemLines s) = some (pushMemAsm s) := by
  have h3 : parseLines ("D=M".toList :: pushDLines) =
      some (.cInstr ⟨false, true, false⟩ (.y .M) .null :: pushDAsm) := by decide
  exact parseLines_instr _ _ _ _ (parseLine_symbol s h) h3

set_option maxRecDepth 100000 in
theorem parseLines_setArg (n : Nat) (h : n + 5 < 32768) :
    parseLines (setArgLines n) = some (setArgAsm n) := by
  have h1 : parseLine "D=M".toList = some (some (.cInstr ⟨false, true, false⟩ (.y .M) .null)) := by
    decide
  have h3 : parseLines ["D=D-A".toList, "@ARG".toList, "M=D".toList] =
      some [.cInstr ⟨false, true, false⟩ (.dMinusY .A) .null, .aSymbol "ARG".toList,
        .cInstr ⟨false, false, true⟩ .d .null] := by decide
  show parseLines ([] :: "D=M".toList :: ('@' :: Nat.toDigits 10 (n + 5)) ::
    ["D=D-A".toList, "@ARG".toList, "M=D".toList]) = _
  rw [parseLines_skip _ _ parseLine_blank]
  exact parseLines_instr _ _ _ _ h1 (parseLines_instr _ _ _ _ (parseLine_number (n + 5) h) h3)

set_option maxRecDepth 100000 in
theorem parseLines_setLcl : parseLines setLclLines = some setLclAsm := by decide

set_option maxRecDepth 100000 in
theorem parseLines_goto (f : Str) (k : Nat) (h : isName f = true) :
    parseLines (gotoLines f ++ ['(' :: (returnLabel k ++ [')'])]) =
      some [.aSymbol f, .cInstr ⟨false, false, false⟩ .zero .JMP, .label (returnLabel k)] := by
  have h1 : parseLine "0;JMP".toList =
      some (some (.cInstr ⟨false, false, false⟩ .zero .JMP)) := by decide
  obtain ⟨c, t, _, _, hall⟩ := (isName_iff _).mp (returnLabel_isName k)
  have h2 : parseLines ['(' :: (returnLabel k ++ [')'])] = some [.label (returnLabel k)] :=
    parseLines_instr _ _ _ _ (parseLine_label _ hall) rfl
  exact parseLines_instr _ _ _ _ (parseLine_symbol f h) (parseLines_instr _ _ _ _ h1 h2)

set_option maxRecDepth 100000 in
/-- The lines of a call are the instructions of `callAsm`. -/
theorem parseLines_call (f : Str) (n k : Nat) (hf : isName f = true) (hn : n + 5 < 32768) :
    parseLines (callLines f n k) = some (callAsm f n k) := by
  have hc : parseLines ["// call ".toList ++ f ++ " ".toList ++ Nat.toDigits 10 n] = some [] := by
    have hcm : parseLine ("// call ".toList ++ f ++ " ".toList ++ Nat.toDigits 10 n) = some none :=
      parseLine_comment (" call ".toList ++ f ++ " ".toList ++ Nat.toDigits 10 n)
    rw [parseLines_skip _ _ hcm]
    rfl
  have := parseLines_append _ _ _ _ hc
    (parseLines_append _ _ _ _ (parseLines_pushAddress _ (returnLabel_isName k))
    (parseLines_append _ _ _ _ (parseLines_pushMem "LCL".toList (by decide))
    (parseLines_append _ _ _ _ (parseLines_pushMem "ARG".toList (by decide))
    (parseLines_append _ _ _ _ (parseLines_pushMem "THIS".toList (by decide))
    (parseLines_append _ _ _ _ (parseLines_pushMem "THAT".toList (by decide))
    (parseLines_append _ _ _ _ (parseLines_setArg n hn)
    (parseLines_append _ _ _ _ parseLines_setLcl (parseLines_goto f k hf))))))))
  exact this

theorem parseLines_loop (k : Nat) (rest : List Str) (a : List AsmLine)
    (h : parseLines rest = some a) :
    parseLines ((List.replicate k ["M=0".toList, "A=A+1".toList]).flatten ++ rest) =
      some (loopAsm k ++ a) := by
  have h2 : parseLines ["M=0".toList, "A=A+1".toList] =
      some [AsmLine.cInstr ⟨false, false, true⟩ .zero .null,
        AsmLine.cInstr ⟨true, false, false⟩ (.incY .A) .null] := by decide
  induction k with
  | zero => simpa [loopAsm] using h
  | succ k ih =>
    rw [List.replicate_succ, List.flatten_cons, List.append_assoc]
    have := parseLines_append _ _ _ _ h2 ih
    rw [this]
    simp [loopAsm, List.replicate_succ]

set_option maxRecDepth 100000 in
/-- The lines of a function are the instructions of `functionAsm`. -/
theorem parseLines_function (f : Str) (k : Nat) (hf : isName f = true) :
    parseLines (functionLines f k) = some (functionAsm f k) := by
  obtain ⟨c, t, _, _, hall⟩ := (isName_iff _).mp hf
  have h1 : parseLines ["@SP".toList, "A=M".toList] =
      some [.aSymbol "SP".toList, .cInstr ⟨true, false, false⟩ (.y .M) .null] := by decide
  have h2 : parseLines ["D=A".toList, "@SP".toList, "M=D".toList] =
      some [.cInstr ⟨false, true, false⟩ (.y .A) .null, .aSymbol "SP".toList,
      .cInstr ⟨false, false, true⟩ .d .null] := by decide
  show parseLines (("// function ".toList ++ f ++ Nat.toDigits 10 k) :: ('(' :: (f ++ [')'])) ::
    (["@SP".toList, "A=M".toList] ++ ((List.replicate k ["M=0".toList, "A=A+1".toList]).flatten ++
    ["D=A".toList, "@SP".toList, "M=D".toList]))) = _
  have hcm : parseLine ("// function ".toList ++ f ++ Nat.toDigits 10 k) = some none :=
    parseLine_comment (" function ".toList ++ f ++ Nat.toDigits 10 k)
  rw [parseLines_skip _ _ hcm]
  exact parseLines_instr _ _ _ _ (parseLine_label f hall)
    (parseLines_append _ _ _ _ h1 (parseLines_loop k _ _ h2))

end VMTranslator
namespace VMTranslator

open GoStr CommandType HackMachine

theorem lines_cons (l : Str) (rest : List Str) (h1 : ∀ c ∈ l, c ≠ '\n')
    (h2 : ∀ x ∈ rest, ∀ c ∈ x, c ≠ '\n') : ∀ x ∈ l :: rest, ∀ c ∈ x, c ≠ '\n' := by
  intro x hx
  rcases List.mem_cons.mp hx with hx | hx
  · subst hx; exact h1
  · exact h2 x hx

theorem lines_append (a b : List Str) (h1 : ∀ x ∈ a, ∀ c ∈ x, c ≠ '\n')
    (h2 : ∀ x ∈ b, ∀ c ∈ x, c ≠ '\n') : ∀ x ∈ a ++ b, ∀ c ∈ x, c ≠ '\n' := by
  intro x hx
  rcases List.mem_append.mp hx with hx | hx
  · exact h1 x hx
  · exact h2 x hx

theorem chars_append (a b : Str) (h1 : ∀ c ∈ a, c ≠ '\n') (h2 : ∀ c ∈ b, c ≠ '\n') :
    ∀ c ∈ a ++ b, c ≠ '\n' := by
  intro c hc
  rcases List.mem_append.mp hc with hc | hc
  · exact h1 c hc
  · exact h2 c hc

theorem chars_cons (x : Char) (b : Str) (h1 : x ≠ '\n') (h2 : ∀ c ∈ b, c ≠ '\n') :
    ∀ c ∈ x :: b, c ≠ '\n' := by
  intro c hc
  rcases List.mem_cons.mp hc with hc | hc
  · subst hc; exact h1
  · exact h2 c hc

theorem lines_iff (ls : List Str) :
    (∀ l ∈ ls, ∀ c ∈ l, c ≠ '\n') ↔ ls.all (fun l => l.all (fun c => c != '\n')) = true := by
  simp [List.all_eq_true]

theorem chars_iff (l : Str) :
    (∀ c ∈ l, c ≠ '\n') ↔ l.all (fun c => c != '\n') = true := by
  simp [List.all_eq_true]

theorem returnLabel_chars (k : Nat) : ∀ c ∈ returnLabel k, c ≠ '\n' :=
  name_no_newline _ (returnLabel_isName k)

theorem callLines_lines (f : Str) (n k : Nat) (hf : ∀ c ∈ f, c ≠ '\n') :
    ∀ l ∈ callLines f n k, ∀ c ∈ l, c ≠ '\n' := by
  have h1 := (chars_iff _).mp hf
  have h2 := (chars_iff _).mp (toDigits_no_newline n)
  have h3 := (chars_iff _).mp (toDigits_no_newline (n + 5))
  have h4 := (chars_iff _).mp (toDigits_no_newline k)
  rw [lines_iff]
  simp [callLines, pushAddressLines, pushMemLines, setArgLines, setLclLines, gotoLines,
    returnLabel, pushDLines, List.all_append, h1, h2, h3, h4]

theorem loopLines_lines (k : Nat) :
    ∀ l ∈ (List.replicate k ["M=0".toList, "A=A+1".toList]).flatten, ∀ c ∈ l, c ≠ '\n' := by
  intro l hl
  rw [List.mem_flatten] at hl
  obtain ⟨x, hx, hlx⟩ := hl
  rw [List.eq_of_mem_replicate hx] at hlx
  revert l
  decide

theorem functionLines_lines (f : Str) (k : Nat) (hf : ∀ c ∈ f, c ≠ '\n') :
    ∀ l ∈ functionLines f k, ∀ c ∈ l, c ≠ '\n' := by
  have h1 := (chars_iff _).mp hf
  have h2 := (chars_iff _).mp (toDigits_no_newline k)
  have h3 := (lines_iff _).mp (loopLines_lines k)
  rw [lines_iff]
  simp only [functionLines, List.all_append, List.all_cons, h3]
  simp [List.all_append, h1, h2]

end VMTranslator
namespace VMTranslator

open GoStr CommandType HackMachine

theorem resolve_append (L : List (Str × Nat)) (V : List Str) (a b : List AsmLine) :
    resolve L V (a ++ b) = resolve L V a ++ resolve L V b := by
  induction a with
  | nil => rfl
  | cons x rest ih =>
    cases x <;> simp [resolve, ih]

theorem resolve_loop (L : List (Str × Nat)) (V : List Str) (k : Nat) :
    resolve L V (loopAsm k) = loopCode k := by
  induction k with
  | zero => rfl
  | succ k ih =>
    have e1 : loopAsm (k + 1) = [AsmLine.cInstr ⟨false, false, true⟩ .zero .null,
        AsmLine.cInstr ⟨true, false, false⟩ (.incY .A) .null] ++ loopAsm k := by
      simp [loopAsm, List.replicate_succ]
    have e2 : loopCode (k + 1) = [Instr.cInstr ⟨false, false, true⟩ .zero .null,
        Instr.cInstr ⟨true, false, false⟩ (.incY .A) .null] ++ loopCode k := by
      simp [loopCode, List.replicate_succ]
    rw [e1, e2, resolve_append, ih]
    rfl

theorem labelTable_loop (k : Nat) (rest : List AsmLine) (addr : Nat) :
    labelTable (loopAsm k ++ rest) addr = labelTable rest (addr + 2 * k) := by
  induction k generalizing addr with
  | zero => simp [loopAsm]
  | succ k ih =>
    have e1 : loopAsm (k + 1) = [AsmLine.cInstr ⟨false, false, true⟩ .zero .null,
        AsmLine.cInstr ⟨true, false, false⟩ (.incY .A) .null] ++ loopAsm k := by
      simp [loopAsm, List.replicate_succ]
    rw [e1]
    show labelTable (loopAsm k ++ rest) (addr + 1 + 1) = _
    rw [ih]
    congr 1
    omega

theorem variableList_loop (L : List (Str × Nat)) (k : Nat) (rest : List AsmLine)
    (acc : List Str) :
    variableList L (loopAsm k ++ rest) acc = variableList L rest acc := by
  induction k with
  | zero => simp [loopAsm]
  | succ k ih =>
    have e1 : loopAsm (k + 1) = [AsmLine.cInstr ⟨false, false, true⟩ .zero .null,
        AsmLine.cInstr ⟨true, false, false⟩ (.incY .A) .null] ++ loopAsm k := by
      simp [loopAsm, List.replicate_succ]
    rw [e1]
    show variableList L (loopAsm k ++ rest) acc = _
    exact ih

/-- The code of a call, for an assignment of addresses under which the
register symbols have their predefined addresses. -/
theorem resolve_call (L : List (Str × Nat)) (V : List Str) (f : Str) (n k : Nat)
    (h0 : symbolAddress L V "SP".toList = 0) (h1 : symbolAddress L V "LCL".toList = 1)
    (h2 : symbolAddress L V "ARG".toList = 2) (h3 : symbolAddress L V "THIS".toList = 3)
    (h4 : symbolAddress L V "THAT".toList = 4) :
    resolve L V (callAsm f n k) =
      callCode (symbolAddress L V (returnLabel k)) (symbolAddress L V f) n := by
  simp [callAsm, pushAddressAsm, pushMemAsm, setArgAsm, setLclAsm, pushDAsm, resolve, callCode,
    callFrameCode, pushAddressCode, pushMemCode, setArgCode, setLclCode, pushDCode, h0, h1, h2,
    h3, h4]
  exact ⟨h0, h1, h0, h2, h0, h3, h0, h4, h0, h2, h0, h1⟩

/-- The code of a function. -/
theorem resolve_function (L : List (Str × Nat)) (V : List Str) (f : Str) (k : Nat)
    (h0 : symbolAddress L V "SP".toList = 0) :
    resolve L V (functionAsm f k) = functionCode k := by
  show Instr.aInstr (symbolAddress L V "SP".toList) :: Instr.cInstr ⟨true, false, false⟩ (.y .M) .null ::
    resolve L V (loopAsm k ++ _) = _
  rw [resolve_append, resolve_loop, h0]
  simp only [resolve, h0, functionCode, List.cons_append, List.nil_append]

/-- The code of `push constant c`. -/
theorem resolve_pushConstant (L : List (Str × Nat)) (V : List Str) (c : Nat)
    (h0 : symbolAddress L V "SP".toList = 0) :
    resolve L V (pushConstantAsm c) = pushAddressCode c := by
  simp [pushConstantAsm, pushDAsm, resolve, pushAddressCode, pushDCode, h0]
  exact h0

/-- The code of a return, with FRAME and RET at the addresses of the two
symbols. -/
theorem resolve_return (L : List (Str × Nat)) (V : List Str)
    (h0 : symbolAddress L V "SP".toList = 0) (h1 : symbolAddress L V "LCL".toList = 1)
    (h2 : symbolAddress L V "ARG".toList = 2) (h3 : symbolAddress L V "THIS".toList = 3)
    (h4 : symbolAddress L V "THAT".toList = 4) :
    resolve L V returnAsm =
      returnCode (symbolAddress L V "FRAME".toList) (symbolAddress L V "RET".toList) := by
  simp [returnAsm, restoreAsm, popDAsm, resolve, returnCode, returnFrameCode, frameCode,
    restoreCode, popArgCode, spCode, popDCode, h0, h1, h2, h3, h4]
  exact ⟨h1, h0, h2, h0, h4, h3, h2, h1⟩

end VMTranslator
namespace VMTranslator

open GoStr CommandType HackMachine

theorem execBlock_append (c1 c2 : List Instr) (s : State) :
    execBlock (c1 ++ c2) s = execBlock c2 (execBlock c1 s) := by
  induction c1 generalizing s with
  | nil => rfl
  | cons i rest ih => exact ih _

theorem loopCode_succ (k : Nat) :
    loopCode (k + 1) = [Instr.cInstr ⟨false, false, true⟩ .zero .null,
      Instr.cInstr ⟨true, false, false⟩ (.incY .A) .null] ++ loopCode k := by
  simp [loopCode, List.replicate_succ]

theorem loopCode_length (k : Nat) : (loopCode k).length = 2 * k := by
  induction k with
  | zero => rfl
  | succ k ih => rw [loopCode_succ, List.length_append, ih]; simp; omega

theorem loopCode_noJump (k : Nat) : ∀ i ∈ loopCode k, i.noJump = true := by
  induction k with
  | zero => intro i hi; simp [loopCode] at hi
  | succ k ih =>
    intro i hi
    rw [loopCode_succ] at hi
    rcases List.mem_append.1 hi with h | h
    · simp at h
      rcases h with h | h <;> subst h <;> rfl
    · exact ih i h

theorem zeroRange_step (ram : Nat → Nat) (a k : Nat) :
    zeroRange (setRam ram a 0) (a + 1) k = zeroRange ram a (k + 1) := by
  funext x
  simp only [zeroRange, setRam]
  by_cases h1 : x = a
  · subst h1
    simp
  · by_cases h2 : a + 1 ≤ x ∧ x < a + 1 + k
    · have h3 : a ≤ x ∧ x < a + (k + 1) := by omega
      simp [h2, h3]
    · have h3 : ¬ (a ≤ x ∧ x < a + (k + 1)) := by omega
      simp [h1, h2, h3]

/-- The loop of `writeFunction` sets the `k` words from A on to zero and
leaves A after them. -/
theorem execBlock_loop (k : Nat) :
    ∀ (a d pc : Nat) (ram : Nat → Nat), a + k < 32768 →
      execBlock (loopCode k) ⟨a, d, pc, ram⟩ = ⟨a + k, d, pc + 2 * k, zeroRange ram a k⟩ := by
  induction k with
  | zero =>
    intro a d pc ram _
    have : zeroRange ram a 0 = ram := by
      funext x
      simp [zeroRange]
    simp [loopCode, execBlock, this]
  | succ k ih =>
    intro a d pc ram h
    have ha : a % 32768 = a := Nat.mod_eq_of_lt (by omega)
    have ha1 : (a + 1) % 65536 = a + 1 := Nat.mod_eq_of_lt (by omega)
    have hk : a + 1 + k < 32768 := by omega
    rw [loopCode_succ, execBlock_append]
    simp only [execBlock, exec_c, Comp.eval, Jump.taken, ha, ha1, if_true, if_false,
      Bool.false_eq_true]
    rw [ih _ _ _ _ hk, zeroRange_step]
    congr 1 <;> omega

/-- The code of `function f k` pushes `k` zeros. -/
theorem run_function (prog : List Instr) (s : State) (k sp : Nat)
    (hc : CodeAt prog s.pc (functionCode k)) (h0 : s.ram 0 = sp) (hsp : 1 ≤ sp)
    (hk : sp + k < 32768) (hw : ∀ x, s.ram x < 65536) :
    ∃ s2, runFor prog (5 + 2 * k) s = some s2 ∧ s2.pc = s.pc + (5 + 2 * k) ∧
      s2.ram 0 = sp + k ∧ (∀ x, sp ≤ x → x < sp + k → s2.ram x = 0) ∧
      (∀ x, 1 ≤ x → (x < sp ∨ sp + k ≤ x) → s2.ram x = s.ram x) ∧
      (∀ x, s2.ram x < 65536) := by
  obtain ⟨a0, d0, pc0, ram⟩ := s
  simp only at hc h0 hw
  have hj : ∀ i ∈ functionCode k, i.noJump = true := by
    intro i hi
    simp only [functionCode, List.mem_append, List.mem_cons, List.mem_singleton,
      List.not_mem_nil, or_false] at hi
    rcases hi with (h | h) | h | h | h | h
    · subst h; rfl
    · subst h; rfl
    · exact loopCode_noJump k i h
    · subst h; rfl
    · subst h; rfl
    · subst h; rfl
  have hrun := run_block prog _ ⟨a0, d0, pc0, ram⟩ hc hj
  have hlen : (functionCode k).length = 5 + 2 * k := by
    simp [functionCode, loopCode_length]
    omega
  rw [hlen] at hrun
  have hs1 : sp % 65536 = sp := Nat.mod_eq_of_lt (by omega)
  have hs2 : (sp + k) % 65536 = sp + k := Nat.mod_eq_of_lt (by omega)
  have key : execBlock (functionCode k) ⟨a0, d0, pc0, ram⟩ =
      ⟨0, sp + k, pc0 + 1 + 1 + 2 * k + 1 + 1 + 1, setRam (zeroRange ram sp k) 0 (sp + k)⟩ := by
    have e : functionCode k = [.aInstr 0, .cInstr ⟨true, false, false⟩ (.y .M) .null] ++
        (loopCode k ++ [.cInstr ⟨false, true, false⟩ (.y .A) .null, .aInstr 0,
          .cInstr ⟨false, false, true⟩ .d .null]) := rfl
    rw [e, execBlock_append, execBlock_append]
    simp only [execBlock, exec_a, exec_c, Comp.eval, Jump.taken, Nat.zero_mod, h0, hs1, if_true,
      if_false, Bool.false_eq_true]
    rw [execBlock_loop k sp d0 _ ram hk]
    simp only [execBlock, exec_a, exec_c, Comp.eval, Jump.taken, Nat.zero_mod, hs2, if_true,
      if_false, Bool.false_eq_true]
  rw [key] at hrun
  refine ⟨_, hrun, ?_, ?_, ?_, ?_, ?_⟩
  · show pc0 + 1 + 1 + 2 * k + 1 + 1 + 1 = pc0 + (5 + 2 * k)
    omega
  · show setRam (zeroRange ram sp k) 0 (sp + k) 0 = sp + k
    exact setRam_same _ _ _
  · intro x h1 h2
    show setRam (zeroRange ram sp k) 0 (sp + k) x = 0
    rw [setRam_other _ _ _ _ (by omega)]
    simp [zeroRange, h1, h2]
  · intro x h1 h2
    show setRam (zeroRange ram sp k) 0 (sp + k) x = ram x
    rw [setRam_other _ _ _ _ (by omega)]
    have h3 : ¬ (sp ≤ x ∧ x < sp + k) := by omega
    simp [zeroRange, h3]
  · intro x
    show setRam (zeroRange ram sp k) 0 (sp + k) x < 65536
    simp only [setRam, zeroRange]
    split_ifs
    · omega
    · omega
    · exact hw x

/-- The code of `push constant c` pushes `c`. -/
theorem run_pushConstant (prog : List Instr) (s : State) (c sp : Nat)
    (hc : CodeAt prog s.pc (pushAddressCode c)) (h0 : s.ram 0 = sp) (hsp : 1 ≤ sp)
    (hk : sp + 1 < 32768) (hcw : c < 32768) (hw : ∀ x, s.ram x < 65536) :
    ∃ s2, runFor prog 7 s = some s2 ∧ s2.pc = s.pc + 7 ∧
      s2.ram 0 = sp + 1 ∧ s2.ram sp = c ∧
      (∀ x, 1 ≤ x → x ≠ sp → s2.ram x = s.ram x) ∧
      (∀ x, s2.ram x < 65536) := by
  obtain ⟨a0, d0, pc0, ram⟩ := s
  simp only at hc h0 hw
  have hrun := run_block prog _ ⟨a0, d0, pc0, ram⟩ hc
    (by simp [pushAddressCode, pushDCode, Instr.noJump])
  have hlen : (pushAddressCode c).length = 7 := by simp [pushAddressCode, pushDCode]
  rw [hlen] at hrun
  refine ⟨_, hrun, ?_⟩
  simp (disch := omega) [pushAddressCode, pushDCode, execBlock, exec_a, exec_c, Comp.eval,
    Jump.taken, setRam_same, setRam_other, Nat.mod_eq_of_lt, h0, Nat.add_assoc]
  refine ⟨?_, ?_⟩
  · intro x h1 hx
    simp (disch := omega) [setRam_other]
  · intro x
    simp only [setRam]
    split_ifs <;> first | omega | exact hw x

end VMTranslator
namespace VMTranslator

open GoStr CommandType HackMachine

theorem generateASMStep_call (p : Parser) (cw : CodeWriter) (asm f idx : Str)
    (h : p.args = ["call".toList, f, idx]) :
    generateASMStep p cw asm = some (cw.writeCall f (atoi idx).1) := by
  have hc : p.commandType = C_CALL := by
    simp [Parser.commandType, h]
  simp [generateASMStep, hc, Parser.arg1, Parser.arg2, h]

theorem generateASMStep_function (p : Parser) (cw : CodeWriter) (asm f idx : Str)
    (h : p.args = ["function".toList, f, idx]) :
    generateASMStep p cw asm = some (cw.writeFunction f (atoi idx).1) := by
  have hc : p.commandType = C_FUNCTION := by
    simp [Parser.commandType, h]
  simp [generateASMStep, hc, Parser.arg1, Parser.arg2, h]

theorem generateASMStep_return (p : Parser) (cw : CodeWriter) (asm : Str)
    (h : p.args = ["return".toList]) :
    generateASMStep p cw asm = some (cw, cw.writeReturn) := by
  have hc : p.commandType = C_RETURN := by
    simp [Parser.commandType, h]
  simp [generateASMStep, hc]

theorem name_word (f : Str) (hf : isName f = true) : ∀ c ∈ f, c ≠ ' ' ∧ c ≠ '/' := by
  obtain ⟨c, t, _, _, hall⟩ := (isName_iff f).mp hf
  intro x hx
  refine ⟨?_, (hall x hx).1⟩
  intro he
  subst he
  have := (hall _ hx).2
  revert this
  decide

/-- The file written for a call of a function that pushes a constant and
returns. -/
theorem translateFile_call (path f : Str) (n k c : Nat) (hf : isName f = true)
    (hn : n + 5 < 32768) (hk : k < 32768) (hc : c < 32768) :
    translateFile path
      ["call ".toList ++ f ++ " ".toList ++ Nat.toDigits 10 n,
        "function ".toList ++ f ++ " ".toList ++ Nat.toDigits 10 k,
        "push constant ".toList ++ Nat.toDigits 10 c, "return".toList] =
      some (unlines (callLines f n 0) ++ (unlines (functionLines f k) ++
        (unlines (pushConstantLines c) ++ (unlines returnLines ++ [])))) := by
  have hfw := name_word f hf
  have hw1 : ∀ p : Parser,
      (p.advance ("call ".toList ++ f ++ " ".toList ++ Nat.toDigits 10 n)).args =
        ["call".toList, f, Nat.toDigits 10 n] := by
    intro p
    have := advance_words3 p "call".toList f (Nat.toDigits 10 n) (by decide) hfw (toDigits_word n)
    simpa using this
  have hw2 : ∀ p : Parser,
      (p.advance ("function ".toList ++ f ++ " ".toList ++ Nat.toDigits 10 k)).args =
        ["function".toList, f, Nat.toDigits 10 k] := by
    intro p
    have := advance_words3 p "function".toList f (Nat.toDigits 10 k) (by decide) hfw
      (toDigits_word k)
    simpa using this
  have hw3 : ∀ p : Parser,
      (p.advance ("push constant ".toList ++ Nat.toDigits 10 c)).args =
        ["push".toList, "constant".toList, Nat.toDigits 10 c] := by
    intro p
    exact advance_words3 p "push".toList "constant".toList _ (by decide) (by decide)
      (toDigits_word c)
  have hn63 : n + 5 < 2 ^ 63 := by omega
  have hs1 : ∀ (p : Parser) (cw : CodeWriter) (asm : Str), cw.callCount = ((0 : Nat) : Int) →
      generateASMStep (p.advance ("call ".toList ++ f ++ " ".toList ++ Nat.toDigits 10 n)) cw asm =
        some ({ cw with callCount := wrap64 (((0 : Nat) : Int) + 1) }, unlines (callLines f n 0)) := by
    intro p cw asm h0
    rw [generateASMStep_call _ cw asm _ _ (hw1 p), atoi_toDigits n (by omega),
      writeCall_text cw f n 0 h0 hn63]
  have hs2 : ∀ (p : Parser) (cw : CodeWriter) (asm : Str),
      generateASMStep (p.advance ("function ".toList ++ f ++ " ".toList ++ Nat.toDigits 10 k)) cw
          asm =
        some ({ cw with currentFunction := f }, unlines (functionLines f k)) := by
    intro p cw asm
    rw [generateASMStep_function _ cw asm _ _ (hw2 p), atoi_toDigits k (by omega),
      writeFunction_text]
  have hs3 : ∀ (p : Parser) (cw : CodeWriter) (asm : Str),
      generateASMStep (p.advance ("push constant ".toList ++ Nat.toDigits 10 c)) cw asm =
        some (cw, unlines (pushConstantLines c)) := by
    intro p cw asm
    rw [generateASMStep_push _ cw asm _ _ (hw3 p), atoi_toDigits c (by omega), writePush_constant]
  have hs4 : ∀ (p : Parser) (cw : CodeWriter) (asm : Str),
      generateASMStep (p.advance "return".toList) cw asm = some (cw, unlines returnLines) := by
    intro p cw asm
    rw [generateASMStep_return _ cw asm (advance_words1 p _ (by decide)), writeReturn_text]
  have hk1 : keepsLine ("call ".toList ++ f ++ " ".toList ++ Nat.toDigits 10 n) = true :=
    keepsLine_word 'c' _ (by decide) (by decide)
  have hk2 : keepsLine ("function ".toList ++ f ++ " ".toList ++ Nat.toDigits 10 k) = true :=
    keepsLine_word 'f' _ (by decide) (by decide)
  have hk3 : keepsLine ("push constant ".toList ++ Nat.toDigits 10 c) = true :=
    keepsLine_word 'p' _ (by decide) (by decide)
  simp only [translateFile, generateASM]
  rw [generateASMLoop_cons _ _ _ _ _ _ _ hk1 (hs1 _ _ _ rfl),
    generateASMLoop_cons _ _ _ _ _ _ _ hk2 (hs2 _ _ _),
    generateASMLoop_cons _ _ _ _ _ _ _ hk3 (hs3 _ _ _),
    generateASMLoop_cons _ _ _ _ _ _ _ (by decide) (hs4 _ _ _)]
  simp [generateASMLoop]

/-- The text of a call of a function that pushes a constant and returns is a
program of four parts. -/
theorem parseText_call (f : Str) (n k c : Nat) (hf : isName f = true)
    (hn : n + 5 < 32768) (hc : c < 32768) :
    parseText (unlines (callLines f n 0) ++ (unlines (functionLines f k) ++
        (unlines (pushConstantLines c) ++ (unlines returnLines ++ [])))) =
      some (callAsm f n 0 ++ (functionAsm f k ++ (pushConstantAsm c ++ (returnAsm ++ [])))) := by
  have hfn := name_no_newline f hf
  exact parseText_unlines _ _ _ _ (callLines_lines f n 0 hfn) (parseLines_call f n 0 hf hn)
    (parseText_unlines _ _ _ _ (functionLines_lines f k hfn) (parseLines_function f k hf)
      (parseText_unlines _ _ _ _ (pushConstantLines_lines c) (parseLines_pushConstant c hc)
        (parseText_unlines _ _ _ _ returnLines_lines parseLines_return parseText_nil)))

end VMTranslator
namespace VMTranslator

open GoStr CommandType HackMachine

theorem variableList_append (L : List (Str × Nat)) (a b : List AsmLine) (acc : List Str) :
    variableList L (a ++ b) acc = variableList L b (variableList L a acc) := by
  induction a generalizing acc with
  | nil => rfl
  | cons x rest ih =>
    cases x with
    | aSymbol name =>
      simp only [List.cons_append, variableList]
      split_ifs <;> exact ih _
    | aNumber v => exact ih _
    | cInstr d c j => exact ih _
    | label name => exact ih _

theorem labelTable_call (f : Str) (n k a : Nat) (rest : List AsmLine) :
    labelTable (callAsm f n k ++ rest) a = (returnLabel k, a + 46) :: labelTable rest (a + 46) := by
  simp [callAsm, pushAddressAsm, pushMemAsm, setArgAsm, setLclAsm, pushDAsm, labelTable,
    Nat.add_assoc]

theorem labelTable_function (f : Str) (k a : Nat) (rest : List AsmLine) :
    labelTable (functionAsm f k ++ rest) a = (f, a) :: labelTable rest (a + (5 + 2 * k)) := by
  show labelTable (.label f :: .aSymbol "SP".toList :: .cInstr ⟨true, false, false⟩ (.y .M) .null ::
    ((loopAsm k ++ [.cInstr ⟨false, true, false⟩ (.y .A) .null, .aSymbol "SP".toList,
      .cInstr ⟨false, false, true⟩ .d .null]) ++ rest)) a = _
  rw [List.append_assoc]
  simp only [labelTable]
  rw [labelTable_loop]
  simp only [List.cons_append, List.nil_append, labelTable]
  congr 2
  omega

theorem labelTable_pushConstant (c a : Nat) (rest : List AsmLine) :
    labelTable (pushConstantAsm c ++ rest) a = labelTable rest (a + 7) := by
  simp [pushConstantAsm, pushDAsm, labelTable, Nat.add_assoc]

theorem labelTable_return (a : Nat) : labelTable (returnAsm ++ []) a = [] := by
  simp [returnAsm, restoreAsm, popDAsm, labelTable]

theorem variableList_c (L : List (Str × Nat)) (d : Dest) (c : Comp) (j : Jump)
    (rest : List AsmLine) (acc : List Str) :
    variableList L (.cInstr d c j :: rest) acc = variableList L rest acc := rfl

theorem variableList_number (L : List (Str × Nat)) (v : Nat) (rest : List AsmLine)
    (acc : List Str) : variableList L (.aNumber v :: rest) acc = variableList L rest acc := rfl

theorem variableList_label (L : List (Str × Nat)) (name : Str) (rest : List AsmLine)
    (acc : List Str) : variableList L (.label name :: rest) acc = variableList L rest acc := rfl

theorem variableList_known (L : List (Str × Nat)) (name : Str) (rest : List AsmLine)
    (acc : List Str)
    (h : (L.lookup name).isSome = true ∨ (predefined.lookup name).isSome = true ∨ name ∈ acc) :
    variableList L (.aSymbol name :: rest) acc = variableList L rest acc := by
  show (if (L.lookup name).isSome = true ∨ (predefined.lookup name).isSome = true ∨ name ∈ acc
    then variableList L rest acc else variableList L rest (acc ++ [name])) = _
  rw [if_pos h]

theorem variableList_new (L : List (Str × Nat)) (name : Str) (rest : List AsmLine)
    (acc : List Str)
    (h1 : L.lookup name = none) (h2 : predefined.lookup name = none) (h3 : name ∉ acc) :
    variableList L (.aSymbol name :: rest) acc = variableList L rest (acc ++ [name]) := by
  show (if (L.lookup name).isSome = true ∨ (predefined.lookup name).isSome = true ∨ name ∈ acc
    then variableList L rest acc else variableList L rest (acc ++ [name])) = _
  rw [if_neg]
  simp [h1, h2, h3]

theorem variableList_SP (L : List (Str × Nat)) (rest : List AsmLine) (acc : List Str) :
    variableList L (.aSymbol "SP".toList :: rest) acc = variableList L rest acc :=
  variableList_known L _ rest acc (Or.inr (Or.inl (by decide)))

theorem variableList_LCL (L : List (Str × Nat)) (rest : List AsmLine) (acc : List Str) :
    variableList L (.aSymbol "LCL".toList :: rest) acc = variableList L rest acc :=
  variableList_known L _ rest acc (Or.inr (Or.inl (by decide)))

theorem variableList_ARG (L : List (Str × Nat)) (rest : List AsmLine) (acc : List Str) :
    variableList L (.aSymbol "ARG".toList :: rest) acc = variableList L rest acc :=
  variableList_known L _ rest acc (Or.inr (Or.inl (by decide)))

theorem variableList_THIS (L : List (Str × Nat)) (rest : List AsmLine) (acc : List Str) :
    variableList L (.aSymbol "THIS".toList :: rest) acc = variableList L rest acc :=
  variableList_known L _ rest acc (Or.inr (Or.inl (by decide)))

theorem variableList_THAT (L : List (Str × Nat)) (rest : List AsmLine) (acc : List Str) :
    variableList L (.aSymbol "THAT".toList :: rest) acc = variableList L rest acc :=
  variableList_known L _ rest acc (Or.inr (Or.inl (by decide)))

theorem variableList_call (L : List (Str × Nat)) (f : Str) (n k : Nat) (acc : List Str)
    (hr : (L.lookup (returnLabel k)).isSome = true) (hf : (L.lookup f).isSome = true) :
    variableList L (callAsm f n k) acc = acc := by
  have e1 := fun rest => variableList_known L (returnLabel k) rest acc (Or.inl hr)
  have e2 := fun rest => variableList_known L f rest acc (Or.inl hf)
  simp only [callAsm, pushAddressAsm, pushMemAsm, setArgAsm, setLclAsm, pushDAsm,
    List.cons_append, List.nil_append, variableList_c, variableList_number, variableList_label,
    variableList_SP, variableList_LCL, variableList_ARG, variableList_THIS, variableList_THAT,
    e1, e2]
  rfl

theorem variableList_function (L : List (Str × Nat)) (f : Str) (k : Nat) (acc : List Str) :
    variableList L (functionAsm f k) acc = acc := by
  show variableList L (.label f :: .aSymbol "SP".toList ::
    .cInstr ⟨true, false, false⟩ (.y .M) .null ::
    (loopAsm k ++ [.cInstr ⟨false, true, false⟩ (.y .A) .null, .aSymbol "SP".toList,
      .cInstr ⟨false, false, true⟩ .d .null])) acc = _
  rw [variableList_label, variableList_SP, variableList_c, variableList_loop, variableList_c,
    variableList_SP, variableList_c]
  rfl

theorem variableList_pushConstant (L : List (Str × Nat)) (c : Nat) (acc : List Str) :
    variableList L (pushConstantAsm c) acc = acc := by
  simp only [pushConstantAsm, pushDAsm, List.cons_append, List.nil_append, variableList_c,
    variableList_number, variableList_SP]
  rfl

theorem variableList_return (L : List (Str × Nat))
    (h1 : L.lookup "FRAME".toList = none) (h2 : L.lookup "RET".toList = none) :
    variableList L returnAsm [] = ["FRAME".toList, "RET".toList] := by
  have e1 := fun rest => variableList_new L "FRAME".toList rest [] h1 (by decide) (by decide)
  have e2 := fun rest => variableList_known L "FRAME".toList rest ["FRAME".toList]
    (Or.inr (Or.inr (by decide)))
  have e3 := fun rest => variableList_new L "RET".toList rest ["FRAME".toList] h2 (by decide)
    (by decide)
  have e4 := fun rest => variableList_known L "FRAME".toList rest ["FRAME".toList, "RET".toList]
    (Or.inr (Or.inr (by decide)))
  have e5 := fun rest => variableList_known L "RET".toList rest ["FRAME".toList, "RET".toList]
    (Or.inr (Or.inr (by decide)))
  simp only [returnAsm, restoreAsm, popDAsm, List.cons_append, List.nil_append, variableList_c,
    variableList_number, variableList_SP, variableList_LCL, variableList_ARG, variableList_THIS,
    variableList_THAT, e1, e2, e3, e4, e5]
  rfl

end VMTranslator
namespace VMTranslator

open GoStr CommandType HackMachine

theorem returnLabel_zero : returnLabel 0 = "return_address_0".toList := by decide

/-- The program of a call of a function that pushes a constant and returns:
the call in the first 46 instructions, its return label and the function at
the address 46, FRAME and RET at the addresses 16 and 17. -/
theorem link_call (f : Str) (n k c : Nat) (hf : f ∉ translatorSymbols) :
    link (callAsm f n 0 ++ (functionAsm f k ++ (pushConstantAsm c ++ (returnAsm ++ [])))) =
      callCode 46 46 n ++ (functionCode k ++ (pushAddressCode c ++ returnCode 16 17)) := by
  have hL : labelTable (callAsm f n 0 ++ (functionAsm f k ++ (pushConstantAsm c ++
      (returnAsm ++ [])))) 0 = [(returnLabel 0, 46), (f, 46)] := by
    rw [labelTable_call, labelTable_function, labelTable_pushConstant, labelTable_return]
  have hmem : ∀ x ∈ translatorSymbols, List.lookup x [(returnLabel 0, 46), (f, 46)] = none := by
    intro x hx
    have h1 : x ≠ returnLabel 0 := by
      rw [returnLabel_zero]
      intro he
      subst he
      revert hx
      decide
    have h2 : x ≠ f := by
      intro he
      subst he
      exact hf hx
    have b1 : (x == returnLabel 0) = false := beq_eq_false_iff_ne.mpr h1
    have b2 : (x == f) = false := beq_eq_false_iff_ne.mpr h2
    simp only [List.lookup, b1, b2]
  have hr : List.lookup (returnLabel 0) [(returnLabel 0, 46), (f, 46)] = some 46 := by
    simp [List.lookup]
  have hfl : List.lookup f [(returnLabel 0, 46), (f, 46)] = some 46 := by
    simp only [List.lookup]
    cases (f == returnLabel 0)
    · simp
    · rfl
  have hV : variableList [(returnLabel 0, 46), (f, 46)]
      (callAsm f n 0 ++ (functionAsm f k ++ (pushConstantAsm c ++ (returnAsm ++ [])))) [] =
      ["FRAME".toList, "RET".toList] := by
    rw [variableList_append, variableList_append, variableList_append,
      variableList_call _ f n 0 [] (by rw [hr]; rfl) (by rw [hfl]; rfl),
      variableList_function, variableList_pushConstant, List.append_nil,
      variableList_return _ (hmem _ (by decide)) (hmem _ (by decide))]
  have s0 : symbolAddress [(returnLabel 0, 46), (f, 46)] ["FRAME".toList, "RET".toList]
      "SP".toList = 0 := by
    simp only [symbolAddress, hmem "SP".toList (by decide)]
    rfl
  have s1 : symbolAddress [(returnLabel 0, 46), (f, 46)] ["FRAME".toList, "RET".toList]
      "LCL".toList = 1 := by
    simp only [symbolAddress, hmem "LCL".toList (by decide)]
    rfl
  have s2 : symbolAddress [(returnLabel 0, 46), (f, 46)] ["FRAME".toList, "RET".toList]
      "ARG".toList = 2 := by
    simp only [symbolAddress, hmem "ARG".toList (by decide)]
    rfl
  have s3 : symbolAddress [(returnLabel 0, 46), (f, 46)] ["FRAME".toList, "RET".toList]
      "THIS".toList = 3 := by
    simp only [symbolAddress, hmem "THIS".toList (by decide)]
    rfl
  have s4 : symbolAddress [(returnLabel 0, 46), (f, 46)] ["FRAME".toList, "RET".toList]
      "THAT".toList = 4 := by
    simp only [symbolAddress, hmem "THAT".toList (by decide)]
    rfl
  have s5 : symbolAddress [(returnLabel 0, 46), (f, 46)] ["FRAME".toList, "RET".toList]
      "FRAME".toList = 16 := by
    simp only [symbolAddress, hmem "FRAME".toList (by decide)]
    rfl
  have s6 : symbolAddress [(returnLabel 0, 46), (f, 46)] ["FRAME".toList, "RET".toList]
      "RET".toList = 17 := by
    simp only [symbolAddress, hmem "RET".toList (by decide)]
    rfl
  have s7 : symbolAddress [(returnLabel 0, 46), (f, 46)] ["FRAME".toList, "RET".toList]
      (returnLabel 0) = 46 := by
    simp only [symbolAddress, hr]
  have s8 : symbolAddress [(returnLabel 0, 46), (f, 46)] ["FRAME".toList, "RET".toList] f = 46 := by
    simp only [symbolAddress, hfl]
  unfold link
  rw [hL, hV, resolve_append, resolve_append, resolve_append, List.append_nil,
    resolve_call _ _ f n 0 s0 s1 s2 s3 s4, resolve_function _ _ f k s0,
    resolve_pushConstant _ _ c s0, resolve_return _ _ s0 s1 s2 s3 s4, s5, s6, s7, s8]

end VMTranslator
namespace VMTranslator

open GoStr CommandType HackMachine

theorem callCode_length (ret fa n : Nat) : (callCode ret fa n).length = 46 := by
  simp [callCode, callFrameCode, pushAddressCode, pushMemCode, setArgCode, setLclCode, pushDCode]

theorem functionCode_length (k : Nat) : (functionCode k).length = 5 + 2 * k := by
  simp [functionCode, loopCode_length]
  omega

theorem pushAddressCode_length (c : Nat) : (pushAddressCode c).length = 7 := by
  simp [pushAddressCode, pushDCode]

/-- A call of a function that pushes `c` and returns, on the machine: from
the start of the call with `n` arguments above `base`, 115 + 2k steps lead to
the address `ret` the call pushed, with the return value at `base`, SP after
it, and the four segment pointers as before the call. -/
theorem run_call_return (prog : List Instr) (s0 : State) (n k c base ret fa : Nat)
    (hc1 : CodeAt prog s0.pc (callCode ret fa n)) (hc2 : CodeAt prog fa (functionCode k))
    (hc3 : CodeAt prog (fa + (5 + 2 * k)) (pushAddressCode c))
    (hc4 : CodeAt prog (fa + (5 + 2 * k) + 7) (returnCode 16 17))
    (h0 : s0.ram 0 = base + n) (hb : 18 ≤ base) (hm : base + n + k + 6 < 32768)
    (hret : ret < 32768) (hcw : c < 32768) (hw : ∀ x, s0.ram x < 65536) :
    ∃ s, runFor prog (46 + (5 + 2 * k) + 7 + 57) s0 = some s ∧ s.pc = ret ∧
      s.ram 0 = base + 1 ∧ s.ram base = c ∧ s.ram 1 = s0.ram 1 ∧ s.ram 2 = s0.ram 2 ∧
      s.ram 3 = s0.ram 3 ∧ s.ram 4 = s0.ram 4 := by
  have b1 : 5 ≤ base + n := by omega
  have b2 : n ≤ base + n := by omega
  have b3 : base + n + 5 < 32768 := by omega
  have b4 : base + n + 5 - (n + 5) = base := by omega
  obtain ⟨s1, r1, p1, a0, a1, a2, a3, a4, f0, f1, f2, f3, f4, o1, w1⟩ :=
    run_call prog s0 ret fa n (base + n) hc1 h0 b1 b2 b3 hret hw
  rw [b4] at a2
  have b5 : 1 ≤ base + n + 5 := by omega
  have b6 : base + n + 5 + k < 32768 := by omega
  obtain ⟨s2, r2, p2, c0, cz, co, w2⟩ :=
    run_function prog s1 k (base + n + 5) (by rw [p1]; exact hc2) a0 b5 b6 w1
  have b7 : 1 ≤ base + n + 5 + k := by omega
  have b8 : base + n + 5 + k + 1 < 32768 := by omega
  obtain ⟨s3, r3, p3, d0, dt, do_, w3⟩ :=
    run_pushConstant prog s2 c (base + n + 5 + k) (by rw [p2, p1]; exact hc3) c0 b7 b8 hcw w2
  -- the state at the return
  have e1 : s3.ram 1 = base + n + 5 := by
    rw [do_ 1 (by omega) (by omega), co 1 (by omega) (Or.inl (by omega)), a1]
  have e2 : s3.ram 2 = base := by
    rw [do_ 2 (by omega) (by omega), co 2 (by omega) (Or.inl (by omega)), a2]
  have keep : ∀ x, 1 ≤ x → x < base + n + 5 → s3.ram x = s1.ram x := by
    intro x hx1 hx2
    rw [do_ x hx1 (by omega), co x hx1 (Or.inl hx2)]
  have g0 : s3.ram (base + n) = ret := by rw [keep _ (by omega) (by omega), f0]
  have g1 : s3.ram (base + n + 1) = s0.ram 1 := by rw [keep _ (by omega) (by omega), f1]
  have g2 : s3.ram (base + n + 2) = s0.ram 2 := by rw [keep _ (by omega) (by omega), f2]
  have g3 : s3.ram (base + n + 3) = s0.ram 3 := by rw [keep _ (by omega) (by omega), f3]
  have g4 : s3.ram (base + n + 4) = s0.ram 4 := by rw [keep _ (by omega) (by omega), f4]
  have b9 : (16 : Nat) < base := by omega
  have b10 : (17 : Nat) < base := by omega
  have b11 : base ≤ base + n := by omega
  have b12 : base + n + 5 ≤ base + n + 5 + k := by omega
  obtain ⟨s4, r4, p4, q0, qa, q1, q2, q3, q4, _, _⟩ :=
    run_return prog s3 16 17 (base + n) base (base + n + 5 + k)
      (by rw [p3, p2, p1]; exact hc4) d0 e1 e2 (by decide) (by decide) (by decide) b9 b10 b11
      b12 b8 w3
  refine ⟨s4, ?_, ?_, q0, ?_, ?_, ?_, ?_, ?_⟩
  · exact runFor_chain _ _ _ _ _ _ (runFor_chain _ _ _ _ _ _ (runFor_chain _ _ _ _ _ _ r1 r2) r3) r4
  · rw [p4, g0]
  · rw [qa, dt]
  · rw [q1, g1]
  · rw [q2, g2]
  · rw [q3, g3]
  · rw [q4, g4]

end VMTranslator
namespace VMTranslator

open GoStr CommandType HackMachine

theorem registers_resolved (L : List (Str × Nat)) (V : List Str)
    (hL : ∀ r ∈ ["SP".toList, "LCL".toList, "ARG".toList, "THIS".toList, "THAT".toList],
      L.lookup r = none) :
    symbolAddress L V "SP".toList = 0 ∧ symbolAddress L V "LCL".toList = 1 ∧
      symbolAddress L V "ARG".toList = 2 ∧ symbolAddress L V "THIS".toList = 3 ∧
      symbolAddress L V "THAT".toList = 4 := by
  refine ⟨?_, ?_, ?_, ?_, ?_⟩
  · simp only [symbolAddress, hL "SP".toList (by decide)]
    rfl
  · simp only [symbolAddress, hL "LCL".toList (by decide)]
    rfl
  · simp only [symbolAddress, hL "ARG".toList (by decide)]
    rfl
  · simp only [symbolAddress, hL "THIS".toList (by decide)]
    rfl
  · simp only [symbolAddress, hL "THAT".toList (by decide)]
    rfl

theorem parseText_lines (ls : List Str) (a : List AsmLine)
    (h : ∀ l ∈ ls, ∀ c ∈ l, c ≠ '\n') (h1 : parseLines ls = some a) :
    parseText (unlines ls) = some a := by
  have := parseText_unlines ls [] a [] h h1 parseText_nil
  simpa using this

/-- C9: `writeCall(f, n)` at the call counter `k` leaves the counter at
`k + 1` and writes, in this order, the push of the address of
`return_address_k`, the pushes of LCL, ARG, THIS and THAT, the code for
ARG = SP - (n + 5) and for LCL = SP, `@f` with `0;JMP`, and the label
`(return_address_k)`, declared 46 instructions after the start of the call;
run from a stack at `sp`, the code stores the address of the label and the
four pointers in the five words from `sp` on, leaves SP = LCL = sp + 5 and
ARG = SP - (n + 5), and is then at the address of `f`. -/
theorem C9_writeCall_sequence (cw : CodeWriter) (f : Str) (n k sp : Nat)
    (L : List (Str × Nat)) (V : List Str) (prog : List Instr) (s0 : State)
    (hk : cw.callCount = (k : Int)) (hk2 : k + 1 < 2 ^ 63) (hf : isName f = true)
    (hL : ∀ r ∈ ["SP".toList, "LCL".toList, "ARG".toList, "THIS".toList, "THAT".toList],
      L.lookup r = none)
    (hc : CodeAt prog s0.pc (resolve L V (callAsm f n k)))
    (h0 : s0.ram 0 = sp) (hsp : 5 ≤ sp) (hn : n ≤ sp) (hsp2 : sp + 5 < 32768)
    (hret : symbolAddress L V (returnLabel k) < 32768) (hw : ∀ x, s0.ram x < 65536) :
    (cw.writeCall f (n : Int)).1.callCount = (k : Int) + 1 ∧
    (cw.writeCall f (n : Int)).2 =
      unlines (["// call ".toList ++ f ++ " ".toList ++ Nat.toDigits 10 n] ++
        (pushAddressLines (returnLabel k) ++
        (pushMemLines "LCL".toList ++
        (pushMemLines "ARG".toList ++
        (pushMemLines "THIS".toList ++
        (pushMemLines "THAT".toList ++
        (setArgLines n ++
        (setLclLines ++
        (gotoLines f ++
        ['(' :: (returnLabel k ++ [')'])]))))))))) ∧
    parseText (cw.writeCall f (n : Int)).2 = some (callAsm f n k) ∧
    (∀ a, labelTable (callAsm f n k) a = [(returnLabel k, a + 46)]) ∧
    ∃ s, runFor prog 46 s0 = some s ∧ s.pc = symbolAddress L V f ∧
      s.ram sp = symbolAddress L V (returnLabel k) ∧
      s.ram (sp + 1) = s0.ram 1 ∧ s.ram (sp + 2) = s0.ram 2 ∧
      s.ram (sp + 3) = s0.ram 3 ∧ s.ram (sp + 4) = s0.ram 4 ∧
      s.ram 0 = sp + 5 ∧ s.ram 2 + (n + 5) = s.ram 0 ∧ s.ram 1 = s.ram 0 ∧
      s.ram 3 = s0.ram 3 ∧ s.ram 4 = s0.ram 4 := by
  have hn5 : n + 5 < 32768 := by omega
  have hn63 : n + 5 < 2 ^ 63 := by omega
  have hsub : sp + 5 - (n + 5) + (n + 5) = sp + 5 := by omega
  have hwrap : wrap64 ((k : Int) + 1) = (k : Int) + 1 := by
    have := HackAssembler.wrap64_nat (k + 1) hk2
    simpa using this
  have htext := writeCall_text cw f n k hk hn63
  obtain ⟨r0, r1, r2, r3, r4⟩ := registers_resolved L V hL
  rw [resolve_call L V f n k r0 r1 r2 r3 r4] at hc
  obtain ⟨s, hrun, hp, a0, a1, a2, a3, a4, f0, f1, f2, f3, f4, _, _⟩ :=
    run_call prog s0 _ _ n sp hc h0 hsp hn hsp2 hret hw
  refine ⟨?_, ?_, ?_, ?_, s, hrun, hp, f0, f1, f2, f3, f4, a0, ?_, ?_, a3, a4⟩
  · rw [htext]
    exact hwrap
  · rw [htext]
    rfl
  · rw [htext]
    exact parseText_lines _ _ (callLines_lines f n k (name_no_newline f hf))
      (parseLines_call f n k hf hn5)
  · intro a
    have := labelTable_call f n k a []
    rw [List.append_nil] at this
    exact this
  · rw [a2, a0, hsub]
  · rw [a1, a0]

/-- The witness of C9: the fourth call of a file, `call Main.f 2`, with the
stack at 300. -/
theorem C9_writeCall_sequence_witness :
    ((⟨0, 3, "Main".toList, "main".toList⟩ : CodeWriter).writeCall "Main.f".toList
      ((2 : Nat) : Int)).1.callCount = ((3 : Nat) : Int) + 1 ∧
    ((⟨0, 3, "Main".toList, "main".toList⟩ : CodeWriter).writeCall "Main.f".toList
      ((2 : Nat) : Int)).2 =
      unlines (["// call ".toList ++ "Main.f".toList ++ " ".toList ++ Nat.toDigits 10 2] ++
        (pushAddressLines (returnLabel 3) ++
        (pushMemLines "LCL".toList ++
        (pushMemLines "ARG".toList ++
        (pushMemLines "THIS".toList ++
        (pushMemLines "THAT".toList ++
        (setArgLines 2 ++
        (setLclLines ++
        (gotoLines "Main.f".toList ++
        ['(' :: (returnLabel 3 ++ [')'])]))))))))) ∧
    parseText ((⟨0, 3, "Main".toList, "main".toList⟩ : CodeWriter).writeCall "Main.f".toList
      ((2 : Nat) : Int)).2 = some (callAsm "Main.f".toList 2 3) ∧
    (∀ a, labelTable (callAsm "Main.f".toList 2 3) a = [(returnLabel 3, a + 46)]) ∧
    ∃ s, runFor (resolve [(returnLabel 3, 46), ("Main.f".toList, 200)] []
        (callAsm "Main.f".toList 2 3)) 46
        ⟨0, 0, 0, fun x => if x = 0 then 300 else x % 7⟩ = some s ∧
      s.pc = symbolAddress [(returnLabel 3, 46), ("Main.f".toList, 200)] [] "Main.f".toList ∧
      s.ram 300 = symbolAddress [(returnLabel 3, 46), ("Main.f".toList, 200)] [] (returnLabel 3) ∧
      s.ram (300 + 1) = (⟨0, 0, 0, fun x => if x = 0 then 300 else x % 7⟩ : State).ram 1 ∧
      s.ram (300 + 2) = (⟨0, 0, 0, fun x => if x = 0 then 300 else x % 7⟩ : State).ram 2 ∧
      s.ram (300 + 3) = (⟨0, 0, 0, fun x => if x = 0 then 300 else x % 7⟩ : State).ram 3 ∧
      s.ram (300 + 4) = (⟨0, 0, 0, fun x => if x = 0 then 300 else x % 7⟩ : State).ram 4 ∧
      s.ram 0 = 300 + 5 ∧ s.ram 2 + (2 + 5) = s.ram 0 ∧ s.ram 1 = s.ram 0 ∧
      s.ram 3 = (⟨0, 0, 0, fun x => if x = 0 then 300 else x % 7⟩ : State).ram 3 ∧
      s.ram 4 = (⟨0, 0, 0, fun x => if x = 0 then 300 else x % 7⟩ : State).ram 4 :=
  C9_writeCall_sequence ⟨0, 3, "Main".toList, "main".toList⟩ "Main.f".toList 2 3 300
    [(returnLabel 3, 46), ("Main.f".toList, 200)] []
    (resolve [(returnLabel 3, 46), ("Main.f".toList, 200)] [] (callAsm "Main.f".toList 2 3))
    ⟨0, 0, 0, fun x => if x = 0 then 300 else x % 7⟩ rfl (by decide) (by decide) (by decide)
    (codeAt_self _) rfl (by decide) (by decide) (by decide) (by decide)
    (fun x => by
      show (if x = 0 then 300 else x % 7) < 65536
      split_ifs <;> omega)

/-- C10: `writeReturn` writes, in this order, the code for FRAME = LCL,
RET = *(FRAME - 5), *ARG = pop(), SP = ARG + 1, THAT = *(FRAME - 1),
THIS = *(FRAME - 2), ARG = *(FRAME - 3), LCL = *(FRAME - 4) and the jump to
the address in RET. Run on a frame whose saved return address is at `fb`
(LCL = fb + 5), with ARG = arg and the return value at `top`, the code ends
at the saved return address, also when `*ARG` is the word that held it
(arg = fb), with the return value at `arg`, SP = arg + 1 for the old ARG,
and the four pointers restored from the frame. -/
theorem C10_writeReturn_sequence (cw : CodeWriter) (fb arg top : Nat)
    (L : List (Str × Nat)) (V : List Str) (prog : List Instr) (s0 : State)
    (hL : ∀ r ∈ ["SP".toList, "LCL".toList, "ARG".toList, "THIS".toList, "THAT".toList],
      L.lookup r = none)
    (hc : CodeAt prog s0.pc (resolve L V returnAsm))
    (h0 : s0.ram 0 = top + 1) (h1 : s0.ram 1 = fb + 5) (h2 : s0.ram 2 = arg)
    (hfr : 5 ≤ symbolAddress L V "FRAME".toList) (hrt : 5 ≤ symbolAddress L V "RET".toList)
    (hne : symbolAddress L V "FRAME".toList ≠ symbolAddress L V "RET".toList)
    (hfa : symbolAddress L V "FRAME".toList < arg) (hra : symbolAddress L V "RET".toList < arg)
    (hal : arg ≤ fb) (hls : fb + 5 ≤ top) (hsp : top + 1 < 32768)
    (hw : ∀ x, s0.ram x < 65536) :
    cw.writeReturn =
      unlines (["// return".toList] ++
        (frameLines ++
        (restoreLines 5 "RET".toList ++
        (popArgLines ++
        (spLines ++
        (restoreLines 1 "THAT".toList ++
        (restoreLines 2 "THIS".toList ++
        (restoreLines 3 "ARG".toList ++
        (restoreLines 4 "LCL".toList ++
        jumpRetLines))))))))) ∧
    parseText cw.writeReturn = some returnAsm ∧
    ∃ s, runFor prog 57 s0 = some s ∧
      s.ram (symbolAddress L V "FRAME".toList) = s0.ram 1 ∧
      s.ram (symbolAddress L V "RET".toList) = s0.ram (s0.ram 1 - 5) ∧
      s.ram (s0.ram 2) = s0.ram (s0.ram 0 - 1) ∧ s.ram 0 = s0.ram 2 + 1 ∧
      s.ram 4 = s0.ram (fb + 4) ∧ s.ram 3 = s0.ram (fb + 3) ∧
      s.ram 2 = s0.ram (fb + 2) ∧ s.ram 1 = s0.ram (fb + 1) ∧
      s.pc = s0.ram fb := by
  have t1 : s0.ram 1 - 5 = fb := by omega
  have t2 : s0.ram 0 - 1 = top := by omega
  obtain ⟨r0, r1, r2, r3, r4⟩ := registers_resolved L V hL
  rw [resolve_return L V r0 r1 r2 r3 r4] at hc
  obtain ⟨s, hrun, hp, a0, aa, a1, a2, a3, a4, _, _, gf, gr⟩ :=
    run_return prog s0 _ _ fb arg top hc h0 h1 h2 hfr hrt hne hfa hra hal hls hsp hw
  refine ⟨?_, ?_, s, hrun, ?_, ?_, ?_, ?_, a4, a3, a2, a1, hp⟩
  · rw [writeReturn_text]
    rfl
  · rw [writeReturn_text]
    exact parseText_lines _ _ returnLines_lines parseLines_return
  · rw [gf, h1]
  · rw [gr, t1]
  · rw [h2, t2, aa]
  · rw [a0, h2]

/-- The witness of C10: a return from a function called without arguments,
where `*ARG` is the word that holds the return address. -/
theorem C10_writeReturn_sequence_witness :
    (⟨0, 0, "Main".toList, "main".toList⟩ : CodeWriter).writeReturn =
      unlines (["// return".toList] ++
        (frameLines ++
        (restoreLines 5 "RET".toList ++
        (popArgLines ++
        (spLines ++
        (restoreLines 1 "THAT".toList ++
        (restoreLines 2 "THIS".toList ++
        (restoreLines 3 "ARG".toList ++
        (restoreLines 4 "LCL".toList ++
        jumpRetLines))))))))) ∧
    parseText (⟨0, 0, "Main".toList, "main".toList⟩ : CodeWriter).writeReturn =
      some returnAsm ∧
    ∃ s, runFor (resolve [] ["FRAME".toList, "RET".toList] returnAsm) 57
        ⟨0, 0, 0, fun x => if x = 0 then 306 else if x = 1 then 305 else if x = 2 then 300
          else x % 7⟩ = some s ∧
      s.ram (symbolAddress [] ["FRAME".toList, "RET".toList] "FRAME".toList) =
        (⟨0, 0, 0, fun x => if x = 0 then 306 else if x = 1 then 305 else if x = 2 then 300
          else x % 7⟩ : State).ram 1 ∧
      s.ram (symbolAddress [] ["FRAME".toList, "RET".toList] "RET".toList) =
        (⟨0, 0, 0, fun x => if x = 0 then 306 else if x = 1 then 305 else if x = 2 then 300
          else x % 7⟩ : State).ram
          ((⟨0, 0, 0, fun x => if x = 0 then 306 else if x = 1 then 305 else if x = 2 then 300
            else x % 7⟩ : State).ram 1 - 5) ∧
      s.ram ((⟨0, 0, 0, fun x => if x = 0 then 306 else if x = 1 then 305 else if x = 2 then 300
          else x % 7⟩ : State).ram 2) =
        (⟨0, 0, 0, fun x => if x = 0 then 306 else if x = 1 then 305 else if x = 2 then 300
          else x % 7⟩ : State).ram
          ((⟨0, 0, 0, fun x => if x = 0 then 306 else if x = 1 then 305 else if x = 2 then 300
            else x % 7⟩ : State).ram 0 - 1) ∧
      s.ram 0 = (⟨0, 0, 0, fun x => if x = 0 then 306 else if x = 1 then 305
          else if x = 2 then 300 else x % 7⟩ : State).ram 2 + 1 ∧
      s.ram 4 = (⟨0, 0, 0, fun x => if x = 0 then 306 else if x = 1 then 305
          else if x = 2 then 300 else x % 7⟩ : State).ram (300 + 4) ∧
      s.ram 3 = (⟨0, 0, 0, fun x => if x = 0 then 306 else if x = 1 then 305
          else if x = 2 then 300 else x % 7⟩ : State).ram (300 + 3) ∧
      s.ram 2 = (⟨0, 0, 0, fun x => if x = 0 then 306 else if x = 1 then 305
          else if x = 2 then 300 else x % 7⟩ : State).ram (300 + 2) ∧
      s.ram 1 = (⟨0, 0, 0, fun x => if x = 0 then 306 else if x = 1 then 305
          else if x = 2 then 300 else x % 7⟩ : State).ram (300 + 1) ∧
      s.pc = (⟨0, 0, 0, fun x => if x = 0 then 306 else if x = 1 then 305
          else if x = 2 then 300 else x % 7⟩ : State).ram 300 :=
  C10_writeReturn_sequence ⟨0, 0, "Main".toList, "main".toList⟩ 300 300 305 []
    ["FRAME".toList, "RET".toList] (resolve [] ["FRAME".toList, "RET".toList] returnAsm)
    ⟨0, 0, 0, fun x => if x = 0 then 306 else if x = 1 then 305 else if x = 2 then 300
      else x % 7⟩
    (by decide) (codeAt_self _) rfl rfl rfl (by decide) (by decide) (by decide) (by decide)
    (by decide) (by decide) (by decide) (by decide)
    (fun x => by
      show (if x = 0 then 306 else if x = 1 then 305 else if x = 2 then 300 else x % 7) < 65536
      split_ifs <;> omega)

end VMTranslator
namespace GoStr

theorem split_unlines (ls : List Str) (h : ∀ l ∈ ls, ∀ c ∈ l, c ≠ '\n') :
    split (unlines ls) "\n".toList = ls ++ [[]] := by
  induction ls with
  | nil => exact split_nil
  | cons l rest ih =>
    have h1 := h l (by simp)
    have h2 : ∀ l ∈ rest, ∀ c ∈ l, c ≠ '\n' := fun x hx => h x (by simp [hx])
    show split (l ++ '\n' :: unlines rest) ['\n'] = l :: (rest ++ [[]])
    rw [split_line l _ h1]
    exact congrArg _ (ih h2)

end GoStr

namespace VMTranslator

open GoStr CommandType HackMachine

theorem count_loopLines (k : Nat) :
    List.count "M=0".toList (List.replicate k ["M=0".toList, "A=A+1".toList]).flatten = k := by
  induction k with
  | zero => rfl
  | succ k ih =>
    have e : (List.replicate (k + 1) ["M=0".toList, "A=A+1".toList]).flatten =
        "M=0".toList :: "A=A+1".toList ::
          (List.replicate k ["M=0".toList, "A=A+1".toList]).flatten := by
      simp [List.replicate_succ]
    have h1 : ("A=A+1".toList == "M=0".toList) = false := by decide
    rw [e, List.count_cons_self, List.count_cons, ih, h1]
    simp

/-- C11: `writeFunction(f, k)` writes the label `(f)`, then `@SP`, `A=M`,
then `k` times the store `M=0` with `A=A+1` (no store for k = 0), then the
code that sets SP to the address reached. The text has exactly `k` lines
`M=0`; run with SP = sp, its code leaves zeros in the `k` words from `sp` on,
SP = sp + k, and every other word as it was. -/
theorem C11_writeFunction_locals (cw : CodeWriter) (f : Str) (k sp : Nat)
    (L : List (Str × Nat)) (V : List Str) (prog : List Instr) (s0 : State)
    (hf : isName f = true) (hL : L.lookup "SP".toList = none)
    (hc : CodeAt prog s0.pc (resolve L V (functionAsm f k)))
    (h0 : s0.ram 0 = sp) (hsp : 1 ≤ sp) (hk : sp + k < 32768) (hw : ∀ x, s0.ram x < 65536) :
    (cw.writeFunction f (k : Int)).2 =
      unlines (["// function ".toList ++ f ++ Nat.toDigits 10 k, '(' :: (f ++ [')']),
          "@SP".toList, "A=M".toList] ++
        ((List.replicate k ["M=0".toList, "A=A+1".toList]).flatten ++
        ["D=A".toList, "@SP".toList, "M=D".toList])) ∧
    List.count "M=0".toList (split (cw.writeFunction f (k : Int)).2 "\n".toList) = k ∧
    parseText (cw.writeFunction f (k : Int)).2 = some (functionAsm f k) ∧
    (∀ a, labelTable (functionAsm f k) a = [(f, a)]) ∧
    ∃ s, runFor prog (5 + 2 * k) s0 = some s ∧ s.pc = s0.pc + (5 + 2 * k) ∧
      s.ram 0 = sp + k ∧ (∀ x, sp ≤ x → x < sp + k → s.ram x = 0) ∧
      (∀ x, 1 ≤ x → (x < sp ∨ sp + k ≤ x) → s.ram x = s0.ram x) := by
  have r0 : symbolAddress L V "SP".toList = 0 := by
    simp only [symbolAddress, hL]
    rfl
  rw [resolve_function L V f k r0] at hc
  obtain ⟨s, hrun, hp, a0, az, ao, _⟩ := run_function prog s0 k sp hc h0 hsp hk hw
  have hfn := name_no_newline f hf
  have hlines := functionLines_lines f k hfn
  refine ⟨?_, ?_, ?_, ?_, s, hrun, hp, a0, az, ao⟩
  · rw [writeFunction_text]
    rfl
  · rw [writeFunction_text, split_unlines _ hlines, List.count_append]
    have c1 : List.count "M=0".toList [([] : Str)] = 0 := by decide
    rw [c1, Nat.add_zero]
    show List.count "M=0".toList (("// function ".toList ++ f ++ Nat.toDigits 10 k) ::
      ('(' :: (f ++ [')'])) :: "@SP".toList :: "A=M".toList ::
      ((List.replicate k ["M=0".toList, "A=A+1".toList]).flatten ++
        ["D=A".toList, "@SP".toList, "M=D".toList])) = k
    have n1 : (("// function ".toList ++ f ++ Nat.toDigits 10 k) == "M=0".toList) = false := by
      apply beq_eq_false_iff_ne.mpr
      intro h
      have := congrArg List.head? h
      simp at this
    have n2 : (('(' :: (f ++ [')'])) == "M=0".toList) = false := by
      apply beq_eq_false_iff_ne.mpr
      intro h
      have := congrArg List.head? h
      simp at this
    have n3 : ("@SP".toList == "M=0".toList) = false := by decide
    have n4 : ("A=M".toList == "M=0".toList) = false := by decide
    have c2 : List.count "M=0".toList ["D=A".toList, "@SP".toList, "M=D".toList] = 0 := by decide
    rw [List.count_cons, List.count_cons, List.count_cons, List.count_cons, List.count_append,
      count_loopLines, c2, n1, n2, n3, n4]
    simp
  · rw [writeFunction_text]
    exact parseText_lines _ _ hlines (parseLines_function f k hf)
  · intro a
    have := labelTable_function f k a []
    rw [List.append_nil] at this
    exact this

/-- The witness of C11: `function Main.f 3` with SP = 300. -/
theorem C11_writeFunction_locals_witness :
    ((⟨0, 0, "Main".toList, "main".toList⟩ : CodeWriter).writeFunction "Main.f".toList
        ((3 : Nat) : Int)).2 =
      unlines (["// function ".toList ++ "Main.f".toList ++ Nat.toDigits 10 3,
          '(' :: ("Main.f".toList ++ [')']), "@SP".toList, "A=M".toList] ++
        ((List.replicate 3 ["M=0".toList, "A=A+1".toList]).flatten ++
        ["D=A".toList, "@SP".toList, "M=D".toList])) ∧
    List.count "M=0".toList (split ((⟨0, 0, "Main".toList, "main".toList⟩ :
      CodeWriter).writeFunction "Main.f".toList ((3 : Nat) : Int)).2 "\n".toList) = 3 ∧
    parseText ((⟨0, 0, "Main".toList, "main".toList⟩ : CodeWriter).writeFunction
      "Main.f".toList ((3 : Nat) : Int)).2 = some (functionAsm "Main.f".toList 3) ∧
    (∀ a, labelTable (functionAsm "Main.f".toList 3) a = [("Main.f".toList, a)]) ∧
    ∃ s, runFor (resolve [] [] (functionAsm "Main.f".toList 3)) (5 + 2 * 3)
        ⟨0, 0, 0, fun x => if x = 0 then 300 else 1 + x % 7⟩ = some s ∧
      s.pc = (⟨0, 0, 0, fun x => if x = 0 then 300 else 1 + x % 7⟩ : State).pc + (5 + 2 * 3) ∧
      s.ram 0 = 300 + 3 ∧ (∀ x, 300 ≤ x → x < 300 + 3 → s.ram x = 0) ∧
      (∀ x, 1 ≤ x → (x < 300 ∨ 300 + 3 ≤ x) →
        s.ram x = (⟨0, 0, 0, fun x => if x = 0 then 300 else 1 + x % 7⟩ : State).ram x) :=
  C11_writeFunction_locals ⟨0, 0, "Main".toList, "main".toList⟩ "Main.f".toList 3 300 [] []
    (resolve [] [] (functionAsm "Main.f".toList 3))
    ⟨0, 0, 0, fun x => if x = 0 then 300 else 1 + x % 7⟩ (by decide) rfl (codeAt_self _) rfl
    (by decide) (by decide)
    (fun x => by
      show (if x = 0 then 300 else 1 + x % 7) < 65536
      split_ifs <;> omega)

end VMTranslator
namespace VMTranslator

open GoStr CommandType HackMachine

theorem initCodeWriter_name (F : Str) (h : ∀ c ∈ F, c ≠ '/' ∧ c ≠ '.' ∧ c ≠ '\n') :
    (initCodeWriter (F ++ ".vm".toList)).currentFileName = F := by
  have h1 : split (F ++ ".vm".toList) "/".toList = [F ++ ".vm".toList] := by
    apply split_absent
    intro c hc
    rcases List.mem_append.1 hc with hc | hc
    · exact (h c hc).1
    · intro he
      subst he
      revert hc
      decide
  have h2 : split (F ++ ".vm".toList) ".".toList = F :: split "vm".toList ".".toList :=
    split_cons_sep '.' F "vm".toList (fun c hc => (h c hc).2.1)
  simp only [initCodeWriter, h1, List.length_singleton, Nat.sub_self, List.getD_cons_zero, h2]

end VMTranslator
namespace VMTranslator

open GoStr CommandType HackMachine

theorem append_sep_inj (x : Char) (F G d1 d2 : Str) (h1 : ∀ c ∈ d1, c ≠ x)
    (h2 : ∀ c ∈ d2, c ≠ x) (h : F ++ x :: d1 = G ++ x :: d2) : F = G ∧ d1 = d2 := by
  induction F generalizing G with
  | nil =>
    cases G with
    | nil => simpa using h
    | cons g G =>
      simp only [List.nil_append, List.cons_append, List.cons.injEq] at h
      exact absurd h.1.symm (by
        intro hg
        have : x ∈ d1 := by rw [h.2]; simp
        exact h1 x this rfl)
  | cons f F ih =>
    cases G with
    | nil =>
      simp only [List.nil_append, List.cons_append, List.cons.injEq] at h
      have : x ∈ d2 := by rw [← h.2]; simp
      exact absurd rfl (h2 x this)
    | cons g G =>
      simp only [List.cons_append, List.cons.injEq] at h
      obtain ⟨e1, e2⟩ := ih G h.2
      exact ⟨by rw [h.1, e1], e2⟩

/-- Code writers with different file names name different static symbols. -/
theorem static_symbol_injective (F G : Str) (i j : Nat) (h : F ≠ G) :
    F ++ '_' :: Nat.toDigits 10 i ≠ G ++ '_' :: Nat.toDigits 10 j := by
  intro he
  have hd : ∀ n : Nat, ∀ c ∈ Nat.toDigits 10 n, c ≠ '_' := by
    intro n c hc hx
    subst hx
    have := toDigits_isDigit n _ hc
    revert this
    decide
  exact h (append_sep_inj '_' F G _ _ (hd i) (hd j) he).1

set_option maxRecDepth 100000 in
/-- C13 at its failing input: the code writers of `Main.vm` and of
`Main.test.vm` both take `Main` for the file name, and `push static 0` names
the symbol `Main_0` in both files. -/
theorem C13_static_collision :
    "Main.vm".toList ≠ "Main.test.vm".toList ∧
    (initCodeWriter "Main.vm".toList).currentFileName = "Main".toList ∧
    (initCodeWriter "Main.test.vm".toList).currentFileName = "Main".toList ∧
    translateFile "Main.vm".toList ["push static 0".toList] =
      some "// C_PUSH static[0]\n@Main_0\nD=M\n@SP\nA=M\nM=D\n@SP\nM=M+1\n".toList ∧
    translateFile "Main.test.vm".toList ["push static 0".toList] =
      some "// C_PUSH static[0]\n@Main_0\nD=M\n@SP\nA=M\nM=D\n@SP\nM=M+1\n".toList :=
  ⟨by decide, by decide, by decide, by decide, by decide⟩

end VMTranslator
namespace VMTranslator

open GoStr CommandType HackMachine

set_option maxRecDepth 1000000 in
/-- C14 at its failing input: directory mode on a directory of two files,
each with one comparison, the second with a call. Every file gets a new code
writer, whose counters start at 0, so the one output file declares
`(return_address_0)` for the bootstrap call and again for the call in
`Sys.vm`, and `(BOOLEAN_0)` and `(FINAL_BOOLEAN_0)` once per file. -/
theorem C14_counters_reset_per_file :
    (translateDirectory
      [("Prog/Main.vm".toList, ["function Main.main 0".toList, "push constant 1".toList,
          "push constant 2".toList, "eq".toList, "return".toList]),
        ("Prog/Sys.vm".toList, ["function Sys.init 0".toList, "call Main.main 0".toList,
          "push constant 3".toList, "eq".toList, "return".toList])]).map labelDeclarations =
      some ["(return_address_0)".toList, "(Main.main)".toList, "(BOOLEAN_0)".toList,
        "(FINAL_BOOLEAN_0)".toList, "(Sys.init)".toList, "(return_address_0)".toList,
        "(BOOLEAN_0)".toList, "(FINAL_BOOLEAN_0)".toList] ∧
    ¬ List.Nodup ["(return_address_0)".toList, "(Main.main)".toList, "(BOOLEAN_0)".toList,
        "(FINAL_BOOLEAN_0)".toList, "(Sys.init)".toList, "(return_address_0)".toList,
        "(BOOLEAN_0)".toList, "(FINAL_BOOLEAN_0)".toList] :=
  ⟨by decide, by decide⟩

theorem writeArithmetic_and (cw : CodeWriter) :
    (cw.writeArithmetic "and".toList).2 = unlines (logicLines "and".toList "M=D&M".toList) := by
  simp [CodeWriter.writeArithmetic, logicLines, popDLines, popDcommand, unlines]

theorem writeArithmetic_or (cw : CodeWriter) :
    (cw.writeArithmetic "or".toList).2 = unlines (logicLines "or".toList "M=D|M".toList) := by
  simp [CodeWriter.writeArithmetic, logicLines, popDLines, popDcommand, unlines]

theorem generateASMStep_logic (p : Parser) (cw : CodeWriter) (asm name : Str)
    (h : p.args = [name]) (hn : name = "and".toList ∨ name = "or".toList) :
    generateASMStep p cw asm = some (cw.writeArithmetic name) := by
  have hc : p.commandType = C_ARITHMETIC := by
    rcases hn with rfl | rfl <;> simp [Parser.commandType, h]
  simp [generateASMStep, hc, Parser.arg1, h]

/-- The file written for `push constant a`, `push constant b` and `and` or
`or`. -/
theorem translateFile_logic (path name op : Str) (a b : Nat) (ha : a < 32768) (hb : b < 32768)
    (hn : (name = "and".toList ∧ op = "M=D&M".toList) ∨
      (name = "or".toList ∧ op = "M=D|M".toList)) :
    translateFile path
      ["push constant ".toList ++ Nat.toDigits 10 a, "push constant ".toList ++ Nat.toDigits 10 b,
        name] =
      some (unlines (pushConstantLines a) ++ (unlines (pushConstantLines b) ++
        (unlines (logicLines name op) ++ []))) := by
  have hw : ∀ (n : Nat) (p : Parser),
      (p.advance ("push constant ".toList ++ Nat.toDigits 10 n)).args =
        ["push".toList, "constant".toList, Nat.toDigits 10 n] := by
    intro n p
    exact advance_words3 p "push".toList "constant".toList _ (by decide) (by decide)
      (toDigits_word n)
  have hstep : ∀ (n : Nat) (p : Parser) (cw : CodeWriter) (asm : Str), n < 32768 →
      generateASMStep (p.advance ("push constant ".toList ++ Nat.toDigits 10 n)) cw asm =
        some (cw, unlines (pushConstantLines n)) := by
    intro n p cw asm hn
    rw [generateASMStep_push _ cw asm _ _ (hw n p), atoi_toDigits n (by omega), writePush_constant]
  have hk : ∀ n : Nat, keepsLine ("push constant ".toList ++ Nat.toDigits 10 n) = true :=
    fun n => keepsLine_word 'p' _ (by decide) (by decide)
  have hop : ∀ (p : Parser) (cw : CodeWriter) (asm : Str),
      generateASMStep (p.advance name) cw asm =
        some ((cw.writeArithmetic name).1, unlines (logicLines name op)) := by
    intro p cw asm
    rcases hn with ⟨rfl, rfl⟩ | ⟨rfl, rfl⟩
    · rw [generateASMStep_logic _ cw asm _ (advance_words1 p _ (by decide)) (Or.inl rfl),
        ← writeArithmetic_and cw]
    · rw [generateASMStep_logic _ cw asm _ (advance_words1 p _ (by decide)) (Or.inr rfl),
        ← writeArithmetic_or cw]
  have hkn : keepsLine name = true := by
    rcases hn with ⟨rfl, _⟩ | ⟨rfl, _⟩ <;> decide
  simp only [translateFile, generateASM]
  rw [generateASMLoop_cons _ _ _ _ _ _ _ (hk a) (hstep a _ _ _ ha),
    generateASMLoop_cons _ _ _ _ _ _ _ (hk b) (hstep b _ _ _ hb),
    generateASMLoop_cons _ _ _ _ _ _ _ hkn (hop _ _ _)]
  simp [generateASMLoop]

set_option maxRecDepth 100000 in
theorem parseLines_and :
    parseLines (logicLines "and".toList "M=D&M".toList) = some (logicAsm (.dAndY .M)) := by
  decide

set_option maxRecDepth 100000 in
theorem parseLines_or :
    parseLines (logicLines "or".toList "M=D|M".toList) = some (logicAsm (.dOrY .M)) := by
  decide

theorem andLines_lines :
    ∀ l ∈ logicLines "and".toList "M=D&M".toList, ∀ c ∈ l, c ≠ '\n' := by decide

theorem orLines_lines :
    ∀ l ∈ logicLines "or".toList "M=D|M".toList, ∀ c ∈ l, c ≠ '\n' := by decide

theorem assemble_logic (name op : Str) (c : Comp) (a b : Nat) (ha : a < 32768) (hb : b < 32768)
    (hl : ∀ l ∈ logicLines name op, ∀ x ∈ l, x ≠ '\n')
    (hp : parseLines (logicLines name op) = some (logicAsm c)) :
    assemble (unlines (pushConstantLines a) ++ (unlines (pushConstantLines b) ++
        (unlines (logicLines name op) ++ []))) =
      some (link (pushConstantAsm a ++ (pushConstantAsm b ++ (logicAsm c ++ [])))) := by
  unfold assemble
  rw [parseText_unlines _ _ _ _ (pushConstantLines_lines a) (parseLines_pushConstant a ha)
    (parseText_unlines _ _ _ _ (pushConstantLines_lines b) (parseLines_pushConstant b hb)
      (parseText_unlines _ _ _ _ hl hp parseText_nil))]
  rfl

theorem link_logic (c : Comp) (a b : Nat) :
    link (pushConstantAsm a ++ (pushConstantAsm b ++ (logicAsm c ++ []))) =
      [.aInstr a, .cInstr ⟨false, true, false⟩ (.y .A) .null, .aInstr 0,
        .cInstr ⟨true, false, false⟩ (.y .M) .null, .cInstr ⟨false, false, true⟩ .d .null,
        .aInstr 0, .cInstr ⟨false, false, true⟩ (.incY .M) .null,
        .aInstr b, .cInstr ⟨false, true, false⟩ (.y .A) .null, .aInstr 0,
        .cInstr ⟨true, false, false⟩ (.y .M) .null, .cInstr ⟨false, false, true⟩ .d .null,
        .aInstr 0, .cInstr ⟨false, false, true⟩ (.incY .M) .null,
        .aInstr 0, .cInstr ⟨true, false, true⟩ (.decY .M) .null,
        .cInstr ⟨false, true, false⟩ (.y .M) .null, .aInstr 0,
        .cInstr ⟨true, false, true⟩ (.decY .M) .null,
        .cInstr ⟨false, false, true⟩ c .null, .cInstr ⟨false, false, true⟩ .d .null,
        .aInstr 0, .cInstr ⟨false, false, true⟩ (.incY .M) .null] := by
  rfl

/-- The run of `push constant a`, `push constant b` and `and` or `or`: the
line `M=D` after the operation stores `b` over its result. -/
theorem run_logic (c : Comp) (a b a0 d0 : Nat) (ram : Nat → Nat) (ha : a < 32768)
    (hb : b < 32768) (hsp : ram 0 = 256) :
    ∃ s, runFor (link (pushConstantAsm a ++ (pushConstantAsm b ++ (logicAsm c ++ [])))) 23
      ⟨a0, d0, 0, ram⟩ = some s ∧ s.pc = 23 ∧ s.ram 0 = 257 ∧ s.ram 256 = b := by
  have ha1 : a % 65536 = a := Nat.mod_eq_of_lt (by omega)
  have hb1 : b % 65536 = b := Nat.mod_eq_of_lt (by omega)
  have hrun := run_block _ (link (pushConstantAsm a ++ (pushConstantAsm b ++ (logicAsm c ++ []))))
    ⟨a0, d0, 0, ram⟩ (codeAt_self _) (by rw [link_logic]; simp [Instr.noJump])
  rw [show (link (pushConstantAsm a ++ (pushConstantAsm b ++ (logicAsm c ++ [])))).length = 23 by
    rw [link_logic]; rfl] at hrun
  refine ⟨_, hrun, ?_⟩
  rw [link_logic]
  simp [execBlock, exec_a, exec_c, Jump.taken, setRam_same, setRam_other, hsp, ha1, hb1,
    Comp.eval.eq_def]

end VMTranslator
namespace VMTranslator

open GoStr CommandType HackMachine

/-- C16, what the code does: for constants `a` and `b`, the text written for
`push constant a`, `push constant b`, then `and` or `or`, has the line `M=D`
between the operation `M=D&M` or `M=D|M` and the increment of SP; run from
SP = 256, both programs end with SP = 257 and with `b`, the second operand,
on top of the stack, not `a & b` or `a | b`. -/
theorem C16_and_or_store_operand (a b : Nat) (ha : a ≤ 32767) (hb : b ≤ 32767) (path : Str)
    (s0 : State) (hpc : s0.pc = 0) (hsp : s0.ram 0 = 256) :
    ∃ (p1 p2 : List Instr) (s1 s2 : State),
      translateFile path
        ["push constant ".toList ++ Nat.toDigits 10 a,
          "push constant ".toList ++ Nat.toDigits 10 b, "and".toList] =
        some (unlines (pushConstantLines a) ++ (unlines (pushConstantLines b) ++
          (unlines ["// and".toList, "@SP".toList, "AM=M-1".toList, "D=M".toList, "@SP".toList,
            "AM=M-1".toList, "M=D&M".toList, "M=D".toList, "@SP".toList, "M=M+1".toList] ++
          []))) ∧
      translateFile path
        ["push constant ".toList ++ Nat.toDigits 10 a,
          "push constant ".toList ++ Nat.toDigits 10 b, "or".toList] =
        some (unlines (pushConstantLines a) ++ (unlines (pushConstantLines b) ++
          (unlines ["// or".toList, "@SP".toList, "AM=M-1".toList, "D=M".toList, "@SP".toList,
            "AM=M-1".toList, "M=D|M".toList, "M=D".toList, "@SP".toList, "M=M+1".toList] ++
          []))) ∧
      assemble (unlines (pushConstantLines a) ++ (unlines (pushConstantLines b) ++
          (unlines ["// and".toList, "@SP".toList, "AM=M-1".toList, "D=M".toList, "@SP".toList,
            "AM=M-1".toList, "M=D&M".toList, "M=D".toList, "@SP".toList, "M=M+1".toList] ++
          []))) = some p1 ∧
      assemble (unlines (pushConstantLines a) ++ (unlines (pushConstantLines b) ++
          (unlines ["// or".toList, "@SP".toList, "AM=M-1".toList, "D=M".toList, "@SP".toList,
            "AM=M-1".toList, "M=D|M".toList, "M=D".toList, "@SP".toList, "M=M+1".toList] ++
          []))) = some p2 ∧
      runFor p1 p1.length s0 = some s1 ∧ step p1 s1 = none ∧
      s1.ram 0 = 257 ∧ s1.ram 256 = b ∧
      runFor p2 p2.length s0 = some s2 ∧ step p2 s2 = none ∧
      s2.ram 0 = 257 ∧ s2.ram 256 = b := by
  obtain ⟨a0, d0, pc0, ram⟩ := s0
  simp only at hpc hsp
  subst hpc
  have ha2 : a < 32768 := by omega
  have hb2 : b < 32768 := by omega
  obtain ⟨s1, r1, q1, x1, y1⟩ := run_logic (.dAndY .M) a b a0 d0 ram ha2 hb2 hsp
  obtain ⟨s2, r2, q2, x2, y2⟩ := run_logic (.dOrY .M) a b a0 d0 ram ha2 hb2 hsp
  have l1 : (link (pushConstantAsm a ++ (pushConstantAsm b ++
      (logicAsm (.dAndY .M) ++ [])))).length = 23 := by rw [link_logic]; rfl
  have l2 : (link (pushConstantAsm a ++ (pushConstantAsm b ++
      (logicAsm (.dOrY .M) ++ [])))).length = 23 := by rw [link_logic]; rfl
  refine ⟨_, _, s1, s2,
    translateFile_logic path _ _ a b ha2 hb2 (Or.inl ⟨rfl, rfl⟩),
    translateFile_logic path _ _ a b ha2 hb2 (Or.inr ⟨rfl, rfl⟩),
    assemble_logic "and".toList "M=D&M".toList _ a b ha2 hb2 andLines_lines parseLines_and,
    assemble_logic "or".toList "M=D|M".toList _ a b ha2 hb2 orLines_lines parseLines_or,
    ?_, ?_, x1, y1, ?_, ?_, x2, y2⟩
  · rw [l1]; exact r1
  · exact step_end _ _ (by rw [q1, l1])
  · rw [l2]; exact r2
  · exact step_end _ _ (by rw [q2, l2])

/-- C16 at its failing input: `push constant 6`, `push constant 3`, then
`and` or `or`, leave 3 on top of the stack; 6 & 3 is 2 and 6 | 3 is 7. -/
theorem C16_and_or_store_operand_witness :
    (∃ (p1 p2 : List Instr) (s1 s2 : State),
      translateFile "Logic.vm".toList
        ["push constant ".toList ++ Nat.toDigits 10 6,
          "push constant ".toList ++ Nat.toDigits 10 3, "and".toList] =
        some (unlines (pushConstantLines 6) ++ (unlines (pushConstantLines 3) ++
          (unlines ["// and".toList, "@SP".toList, "AM=M-1".toList, "D=M".toList, "@SP".toList,
            "AM=M-1".toList, "M=D&M".toList, "M=D".toList, "@SP".toList, "M=M+1".toList] ++
          []))) ∧
      translateFile "Logic.vm".toList
        ["push constant ".toList ++ Nat.toDigits 10 6,
          "push constant ".toList ++ Nat.toDigits 10 3, "or".toList] =
        some (unlines (pushConstantLines 6) ++ (unlines (pushConstantLines 3) ++
          (unlines ["// or".toList, "@SP".toList, "AM=M-1".toList, "D=M".toList, "@SP".toList,
            "AM=M-1".toList, "M=D|M".toList, "M=D".toList, "@SP".toList, "M=M+1".toList] ++
          []))) ∧
      assemble (unlines (pushConstantLines 6) ++ (unlines (pushConstantLines 3) ++
          (unlines ["// and".toList, "@SP".toList, "AM=M-1".toList, "D=M".toList, "@SP".toList,
            "AM=M-1".toList, "M=D&M".toList, "M=D".toList, "@SP".toList, "M=M+1".toList] ++
          []))) = some p1 ∧
      assemble (unlines (pushConstantLines 6) ++ (unlines (pushConstantLines 3) ++
          (unlines ["// or".toList, "@SP".toList, "AM=M-1".toList, "D=M".toList, "@SP".toList,
            "AM=M-1".toList, "M=D|M".toList, "M=D".toList, "@SP".toList, "M=M+1".toList] ++
          []))) = some p2 ∧
      runFor p1 p1.length ⟨0, 0, 0, fun x => if x = 0 then 256 else 0⟩ = some s1 ∧
      step p1 s1 = none ∧ s1.ram 0 = 257 ∧ s1.ram 256 = 3 ∧
      runFor p2 p2.length ⟨0, 0, 0, fun x => if x = 0 then 256 else 0⟩ = some s2 ∧
      step p2 s2 = none ∧ s2.ram 0 = 257 ∧ s2.ram 256 = 3) ∧
    Nat.land 6 3 = 2 ∧ Nat.lor 6 3 = 7 :=
  ⟨C16_and_or_store_operand 6 3 (by decide) (by decide) "Logic.vm".toList
    ⟨0, 0, 0, fun x => if x = 0 then 256 else 0⟩ rfl rfl, by decide, by decide⟩

set_option maxRecDepth 1000000 in
/-- C15 at its failing input: `label LOOP` with `goto LOOP` in the function
`Main.f` and with `if-goto LOOP` in the function `Main.g` of one file. The
text declares the same label `(LOOP)` twice and names `@LOOP` in both jumps;
the name of the function is no part of either, and the assembler of this
repository gives the `goto` in `Main.f` the address 12, the label in
`Main.g`. -/
theorem C15_label_not_scoped :
    translateFile "Main.vm".toList
      ["function Main.f 0".toList, "label LOOP".toList, "goto LOOP".toList,
        "function Main.g 0".toList, "label LOOP".toList, "if-goto LOOP".toList] =
      some ("// function Main.f0\n(Main.f)\n@SP\nA=M\nD=A\n@SP\nM=D\n".toList ++
        "// label LOOP\n(LOOP)\n".toList ++
        "// goto LOOP\n@LOOP\n0;JMP\n".toList ++
        "// function Main.g0\n(Main.g)\n@SP\nA=M\nD=A\n@SP\nM=D\n".toList ++
        "// label LOOP\n(LOOP)\n".toList ++
        "// if-goto LOOP\n@SP\nAM=M-1\nD=M\n@LOOP\nD;JNE\n".toList) ∧
    ((initCodeWriter "Main.vm".toList).writeFunction "Main.f".toList 0).1.writeLabel
        "LOOP".toList =
      ((initCodeWriter "Main.vm".toList).writeFunction "Main.g".toList 0).1.writeLabel
        "LOOP".toList ∧
    (HackAssembler.assemble (split
      ("// function Main.f0\n(Main.f)\n@SP\nA=M\nD=A\n@SP\nM=D\n".toList ++
        "// label LOOP\n(LOOP)\n".toList ++
        "// goto LOOP\n@LOOP\n0;JMP\n".toList ++
        "// function Main.g0\n(Main.g)\n@SP\nA=M\nD=A\n@SP\nM=D\n".toList ++
        "// label LOOP\n(LOOP)\n".toList ++
        "// if-goto LOOP\n@SP\nAM=M-1\nD=M\n@LOOP\nD;JNE\n".toList) "\n".toList)).getD 5 [] =
      "0000000000001100\n".toList :=
  ⟨by decide, by decide, by decide⟩

end VMTranslator
namespace JackAnalyzer

open GoStr TokenType KeyWord

theorem getCurrentToken_at (p : Nat) (toks : List Str) (w : List Str) (t : Str)
    (h : toks[p]? = some t) :
    JackTokenizer.getCurrentToken ⟨(p : Int), toks, w⟩ = some (t, ⟨(p : Int), toks, w⟩) := by
  have hlt : p < toks.length := by
    by_contra hc
    rw [List.getElem?_eq_none (by omega)] at h
    cases h
  have h1 : ¬ ((p : Int) > (toks.length : Int)) := by omega
  have h2 : (0 : Int) ≤ (p : Int) ∧ (p : Int) < (toks.length : Int) := by omega
  simp only [JackTokenizer.getCurrentToken, h1, if_false, h2, and_self, if_true, Int.toNat_ofNat, h,
    Option.map_some']

theorem token_at (p : Nat) (toks : List Str) (w out : List Str) (t : Str)
    (h : toks[p]? = some t) :
    CompilationEngine.token ⟨⟨(p : Int), toks, w⟩, out⟩ = .ok (t, ⟨⟨(p : Int), toks, w⟩, out⟩) := by
  simp only [CompilationEngine.token, getCurrentToken_at p toks w t h]

theorem tokenType_at (p : Nat) (toks : List Str) (w out : List Str) (t : Str)
    (h : toks[p]? = some t) :
    CompilationEngine.tokenType ⟨⟨(p : Int), toks, w⟩, out⟩ =
      .ok (classify t, ⟨⟨(p : Int), toks, w⟩, out⟩) := by
  simp only [CompilationEngine.tokenType, JackTokenizer.tokenType, getCurrentToken_at p toks w t h,
    Option.map_some']

theorem bind_ok {α β : Type} (a : α) (f : α → Result β) : (Result.ok a >>= f) = f a := rfl

theorem pure_ok {α : Type} (a : α) : (pure a : Result α) = Result.ok a := rfl

theorem incrementPointer_at (p : Nat) (toks : List Str) (w out : List Str)
    (h : p < toks.length) :
    CompilationEngine.IncrementPointer ⟨⟨(p : Int), toks, w⟩, out⟩ =
      ⟨⟨((p + 1 : Nat) : Int), toks, w⟩, out⟩ := by
  have h1 : ((p : Int) < (toks.length : Int)) := by omega
  simp [CompilationEngine.IncrementPointer, JackTokenizer.hasMoreTokens, JackTokenizer.advance, h1]

theorem decrementPointer_at (p : Nat) (toks : List Str) (w out : List Str) :
    CompilationEngine.DecrementPointer ⟨⟨((p + 1 : Nat) : Int), toks, w⟩, out⟩ =
      ⟨⟨(p : Int), toks, w⟩, out⟩ := by
  simp [CompilationEngine.DecrementPointer]

theorem compileSymbol_at (p : Nat) (toks : List Str) (w out : List Str) (t : Str)
    (h : toks[p]? = some t) :
    CompilationEngine.CompileSymbol ⟨⟨(p : Int), toks, w⟩, out⟩ =
      .ok ⟨⟨(p : Int), toks, w⟩, out ++ ["<symbol> ".toList ++ t ++ " </symbol>\n".toList]⟩ := by
  simp only [CompilationEngine.CompileSymbol, token_at p toks w out t h, bind_ok, pure_ok,
    CompilationEngine.write]

theorem compileIdentifier_at (p : Nat) (toks : List Str) (w out : List Str) (t : Str)
    (h : toks[p]? = some t) :
    CompilationEngine.CompileIdentifier ⟨⟨(p : Int), toks, w⟩, out⟩ =
      .ok ⟨⟨(p : Int), toks, w⟩,
        out ++ ["<identifier> ".toList ++ t ++ " </identifier>\n".toList]⟩ := by
  simp only [CompilationEngine.CompileIdentifier, token_at p toks w out t h, bind_ok, pure_ok,
    CompilationEngine.write]

theorem compileKeyWord_at (p : Nat) (toks : List Str) (w out : List Str) (t : Str)
    (h : toks[p]? = some t) :
    CompilationEngine.CompileKeyWord ⟨⟨(p : Int), toks, w⟩, out⟩ =
      .ok ⟨⟨(p : Int), toks, w⟩, out ++ ["<keyword> ".toList ++ t ++ " </keyword>\n".toList]⟩ := by
  simp only [CompilationEngine.CompileKeyWord, token_at p toks w out t h, bind_ok, pure_ok,
    CompilationEngine.write]

theorem isKeyWord_other (p : Nat) (toks : List Str) (w out : List Str) (t : Str)
    (ks : List KeyWord) (h : toks[p]? = some t) (hc : classify t ≠ KEYWORD) :
    CompilationEngine.isKeyWord ⟨⟨(p : Int), toks, w⟩, out⟩ ks =
      .ok (false, ⟨⟨(p : Int), toks, w⟩, out⟩) := by
  simp only [CompilationEngine.isKeyWord, tokenType_at p toks w out t h, bind_ok, pure_ok, hc,
    if_false]

end JackAnalyzer
namespace GoStr

theorem trimSpace_ends (c d : Char) (m : Str) (hc : isSpace c = false) (hd : isSpace d = false) :
    trimSpace (c :: (m ++ [d])) = c :: (m ++ [d]) := by
  unfold trimSpace
  have h1 : (c :: (m ++ [d])).dropWhile isSpace = c :: (m ++ [d]) := by
    simp [List.dropWhile, hc]
  have h2 : (c :: (m ++ [d])).reverse = d :: (m.reverse ++ [c]) := by simp
  rw [h1, h2]
  have h3 : (d :: (m.reverse ++ [c])).dropWhile isSpace = d :: (m.reverse ++ [c]) := by
    simp [List.dropWhile, hd]
  rw [h3]
  simp

end GoStr

namespace JackAnalyzer

open GoStr TokenType KeyWord

theorem isWord_plain (c : Char) (h : isWord c = true) :
    c ≠ ' ' ∧ c ≠ '"' ∧ c ≠ '/' ∧ symbolMatch [c] = false := by
  refine ⟨?_, ?_, ?_, ?_⟩
  · intro he; subst he; revert h; decide
  · intro he; subst he; revert h; decide
  · intro he; subst he; revert h; decide
  · have hs : ∀ x ∈ symbolChars, isWord x = false := by decide
    have hb : List.contains symbolChars c = false := by
      apply Bool.eq_false_iff.mpr
      intro hb
      obtain ⟨x, hx, he⟩ := List.contains_iff_exists_mem_beq.mp hb
      have hcx : c = x := eq_of_beq he
      rw [hcx, hs x hx] at h
      cases h
    simp only [symbolMatch, List.any_cons, List.any_nil, Bool.or_false, hb]

/-- The scan of a word: its characters are added to `inputstring`. -/
theorem scanChars_word (word rest acc : Str) (jt : JackTokenizer)
    (h : ∀ c ∈ word, isWord c = true) :
    scanChars (word ++ rest) acc false jt = scanChars rest (acc ++ word) false jt := by
  induction word generalizing acc with
  | nil => simp
  | cons c t ih =>
    obtain ⟨h1, h2, _, h4⟩ := isWord_plain c (h c (by simp))
    have ht : ∀ c ∈ t, isWord c = true := fun x hx => h x (by simp [hx])
    show scanChars (c :: (t ++ rest)) acc false jt = _
    rw [scanChars]
    simp only [Bool.not_false, if_true, h1, if_false, h4, Bool.false_eq_true, h2]
    rw [ih _ ht]
    simp

theorem writeToken_ok (p : Nat) (toks w : List Str) (h : p < toks.length) :
    ∃ w2, JackTokenizer.writeToken ⟨(p : Int), toks, w⟩ =
      some ⟨((p + 1 : Nat) : Int), toks, w2⟩ := by
  have ht : toks[p]? = some toks[p] := List.getElem?_eq_getElem h
  have hg := getCurrentToken_at p toks w _ ht
  simp only [JackTokenizer.writeToken, JackTokenizer.tokenType, hg, Option.map_some']
  cases classify toks[p] <;> simp [hg]

theorem writeTokens_ok (n : Nat) :
    ∀ (p : Nat) (toks w : List Str), p + n ≤ toks.length →
      ∃ w2, JackTokenizer.writeTokens n ⟨(p : Int), toks, w⟩ =
        some ⟨((p + n : Nat) : Int), toks, w2⟩ := by
  induction n with
  | zero => intro p toks w _; exact ⟨w, rfl⟩
  | succ n ih =>
    intro p toks w h
    obtain ⟨w1, h1⟩ := writeToken_ok p toks w (by omega)
    obtain ⟨w2, h2⟩ := ih (p + 1) toks w1 (by omega)
    refine ⟨w2, ?_⟩
    simp only [JackTokenizer.writeTokens, h1, h2]
    congr 3
    omega

/-- The function `writeTXML` returns, with the token list as it was and the
pointer at 0. -/
theorem writeTXML_ok (jt : JackTokenizer) :
    ∃ w2, jt.writeTXML = some ⟨0, jt.tokenList, w2⟩ := by
  obtain ⟨w2, h⟩ := writeTokens_ok jt.tokenList.length 0 jt.tokenList
    (jt.writerT ++ ["<tokens>\n".toList]) (by omega)
  refine ⟨w2 ++ ["</tokens>\n".toList], ?_⟩
  simp only [JackTokenizer.writeTXML]
  simp only [Nat.cast_zero] at h
  rw [h]

/-- The tokens of the line `class C { }` for a word `C`. -/
theorem scanLines_emptyClass (C : Str) (hC : C ≠ []) (hw : ∀ c ∈ C, isWord c = true) :
    scanLines ["class ".toList ++ C ++ " \x7b \x7d".toList] false ⟨0, [], []⟩ =
      ⟨4, ["class".toList, C, "\x7b".toList, "\x7d".toList], []⟩ := by
  have hline : "class ".toList ++ C ++ " \x7b \x7d".toList =
      'c' :: (("lass ".toList ++ C ++ " \x7b ".toList) ++ ['\x7d']) := by simp
  have h1 : startsWith ("class ".toList ++ C ++ " \x7b \x7d".toList) "//".toList = false := by
    rw [hline]
    exact isPrefixOf_cons_ne '/' 'c' ['/'] _ (by decide)
  have h2 : trimSpace ("class ".toList ++ C ++ " \x7b \x7d".toList) =
      "class ".toList ++ C ++ " \x7b \x7d".toList := by
    rw [hline]
    exact trimSpace_ends 'c' '\x7d' _ (by decide) (by decide)
  have h3 : split ("class ".toList ++ C ++ " \x7b \x7d".toList) "//".toList =
      ["class ".toList ++ C ++ " \x7b \x7d".toList] := by
    apply split_absent
    intro c hc
    simp only [List.mem_append] at hc
    rcases hc with (hc | hc) | hc
    · intro he; subst he; revert hc; decide
    · exact (isWord_plain c (hw c hc)).2.2.1
    · intro he; subst he; revert hc; decide
  have h4 : trimLeft ("class ".toList ++ C ++ " \x7b \x7d".toList) " ".toList =
      "class ".toList ++ C ++ " \x7b \x7d".toList := by
    rw [hline]
    simp [trimLeft, List.dropWhile]
  have h5 : startsWith ("class ".toList ++ C ++ " \x7b \x7d".toList) "/*".toList = false := by
    rw [hline]
    exact isPrefixOf_cons_ne '/' 'c' ['*'] _ (by decide)
  have hne : "class ".toList ++ C ++ " \x7b \x7d".toList ≠ [] := by rw [hline]; simp
  rw [scanLines]
  simp only [h1, Bool.false_eq_true, if_false, h2, hne, h3, List.getD_cons_zero, h4, h5,
    Bool.false_and, Bool.and_false, scanLines]
  have e1 : "class ".toList ++ C ++ " \x7b \x7d".toList =
      "class".toList ++ (' ' :: (C ++ " \x7b \x7d".toList)) := by simp
  rw [e1, scanChars_word "class".toList _ [] _ (by decide)]
  rw [scanChars]
  simp only [Bool.not_false, if_true, List.nil_append]
  rw [if_pos (by decide), scanChars_word C _ [] _ hw]
  simp [scanChars, hC, symbolMatch, symbolChars, JackTokenizer.appendToken]

end JackAnalyzer
namespace JackAnalyzer

open GoStr TokenType KeyWord

/-- The engine on the four tokens of a class without members, for any
amount of fuel from 4 on. -/
theorem compile_emptyClass_fuel (n : Nat) (C : Str) (w : List Str) :
    compile (n + 4) .CompileClass ⟨⟨0, ["class".toList, C, "\x7b".toList, "\x7d".toList], w⟩, []⟩ =
      .ok (⟨⟨3, ["class".toList, C, "\x7b".toList, "\x7d".toList], w⟩,
        ["<class>\n".toList, "<keyword> class </keyword>\n".toList,
          "<identifier> ".toList ++ C ++ " </identifier>\n".toList,
          "<symbol> \x7b </symbol>\n".toList, "<symbol> \x7d </symbol>\n".toList,
          "</class>\n".toList]⟩, []) := by
  have hs : classify "\x7d".toList ≠ KEYWORD := by decide
  have k0 := compileKeyWord_at 0 ["class".toList, C, "\x7b".toList, "\x7d".toList] w
  have i1 := compileIdentifier_at 1 ["class".toList, C, "\x7b".toList, "\x7d".toList] w
  have s2 := compileSymbol_at 2 ["class".toList, C, "\x7b".toList, "\x7d".toList] w
  have s3 := compileSymbol_at 3 ["class".toList, C, "\x7b".toList, "\x7d".toList] w
  have q3 := fun out ks => isKeyWord_other 3 ["class".toList, C, "\x7b".toList, "\x7d".toList] w out
    "\x7d".toList ks rfl hs
  have n0 := fun out => incrementPointer_at 0 ["class".toList, C, "\x7b".toList, "\x7d".toList] w out
    (by simp)
  have n1 := fun out => incrementPointer_at 1 ["class".toList, C, "\x7b".toList, "\x7d".toList] w out
    (by simp)
  have n2 := fun out => incrementPointer_at 2 ["class".toList, C, "\x7b".toList, "\x7d".toList] w out
    (by simp)
  have d2 := fun out => decrementPointer_at 2 ["class".toList, C, "\x7b".toList, "\x7d".toList] w out
  simp only [Nat.cast_zero, Nat.cast_one, Nat.cast_ofNat, zero_add, Nat.reduceAdd]
    at k0 i1 s2 s3 q3 n0 n1 n2 d2
  show compile (n + 3 + 1) .CompileClass _ = _
  simp only [compile, CompilationEngine.write, bind_ok, pure_ok, List.nil_append, k0 _ _ rfl, n0,
    i1 _ _ rfl, n1, s2 _ _ rfl, n2, q3, if_false, Bool.false_eq_true, d2, s3 _ _ rfl,
    List.append_assoc, List.cons_append, List.singleton_append]
  rfl

end JackAnalyzer
namespace JackAnalyzer

open GoStr TokenType KeyWord

set_option maxRecDepth 1000000 in
/-- The parse tree of the class `Main` with the one function `main`. -/
theorem parseTree_main :
    parseTree 10 ["class Main \x7b function void main() \x7b return; \x7d \x7d".toList] =
      some ("<class>\n".toList ++
        "<keyword> class </keyword>\n".toList ++
        "<identifier> Main </identifier>\n".toList ++
        "<symbol> \x7b </symbol>\n".toList ++
        "<subroutineDec>\n".toList ++
        "<keyword> function </keyword>\n".toList ++
        "<keyword> void </keyword>\n".toList ++
        "<identifier> main </identifier>\n".toList ++
        "<symbol> ( </symbol>\n".toList ++
        "<parameterList>\n".toList ++
        "</parameterList>\n".toList ++
        "<symbol> ) </symbol>\n".toList ++
        "<subroutineBody>\n".toList ++
        "<symbol> \x7b </symbol>\n".toList ++
        "<statements>\n".toList ++
        "<returnStatement>\n".toList ++
        "<keyword> return </keyword>\n".toList ++
        "<symbol> ; </symbol>\n".toList ++
        "</returnStatement>\n".toList ++
        "</statements>\n".toList ++
        "<symbol> \x7d </symbol>\n".toList ++
        "</subroutineBody>\n</subroutineDec>\n".toList ++
        "<symbol> \x7d </symbol>\n".toList ++
        "</class>\n".toList) := by
  decide

/-- C17: for the input `class Main { function void main() { return; } }` the
analyzer writes the tree class(keyword class, identifier Main, symbol {,
subroutineDec(keyword function, keyword void, identifier main, symbol (, empty
parameterList, symbol ), subroutineBody(symbol {, statements(returnStatement(
keyword return, symbol ;)), symbol })), symbol }); and for a class without
fields and subroutines, `class C { }` with any word `C`, it writes the tree
class(keyword class, identifier C, symbol {, symbol }), with any fuel from 4
on. -/
theorem C17_parse_trees (C : Str) (n : Nat) (hC : C ≠ []) (hw : ∀ c ∈ C, isWord c = true) :
    parseTree 10 ["class Main \x7b function void main() \x7b return; \x7d \x7d".toList] =
      some ("<class>\n".toList ++
        "<keyword> class </keyword>\n".toList ++
        "<identifier> Main </identifier>\n".toList ++
        "<symbol> \x7b </symbol>\n".toList ++
        "<subroutineDec>\n".toList ++
        "<keyword> function </keyword>\n".toList ++
        "<keyword> void </keyword>\n".toList ++
        "<identifier> main </identifier>\n".toList ++
        "<symbol> ( </symbol>\n".toList ++
        "<parameterList>\n".toList ++
        "</parameterList>\n".toList ++
        "<symbol> ) </symbol>\n".toList ++
        "<subroutineBody>\n".toList ++
        "<symbol> \x7b </symbol>\n".toList ++
        "<statements>\n".toList ++
        "<returnStatement>\n".toList ++
        "<keyword> return </keyword>\n".toList ++
        "<symbol> ; </symbol>\n".toList ++
        "</returnStatement>\n".toList ++
        "</statements>\n".toList ++
        "<symbol> \x7d </symbol>\n".toList ++
        "</subroutineBody>\n</subroutineDec>\n".toList ++
        "<symbol> \x7d </symbol>\n".toList ++
        "</class>\n".toList) ∧
    parseTree (n + 4) ["class ".toList ++ C ++ " \x7b \x7d".toList] =
      some ("<class>\n".toList ++
        "<keyword> class </keyword>\n".toList ++
        ("<identifier> ".toList ++ C ++ " </identifier>\n".toList) ++
        "<symbol> \x7b </symbol>\n".toList ++
        "<symbol> \x7d </symbol>\n".toList ++
        "</class>\n".toList) := by
  refine ⟨parseTree_main, ?_⟩
  obtain ⟨w2, hx⟩ := writeTXML_ok ⟨4, ["class".toList, C, "\x7b".toList, "\x7d".toList], []⟩
  simp only [parseTree, analyze, initJackTokenizer, scanLines_emptyClass C hC hw, hx,
    Option.map_some', compile_emptyClass_fuel n C w2]
  simp

/-- The witness of C17: the class `Point`. -/
theorem C17_parse_trees_witness :
    parseTree 10 ["class Main \x7b function void main() \x7b return; \x7d \x7d".toList] =
      some ("<class>\n".toList ++
        "<keyword> class </keyword>\n".toList ++
        "<identifier> Main </identifier>\n".toList ++
        "<symbol> \x7b </symbol>\n".toList ++
        "<subroutineDec>\n".toList ++
        "<keyword> function </keyword>\n".toList ++
        "<keyword> void </keyword>\n".toList ++
        "<identifier> main </identifier>\n".toList ++
        "<symbol> ( </symbol>\n".toList ++
        "<parameterList>\n".toList ++
        "</parameterList>\n".toList ++
        "<symbol> ) </symbol>\n".toList ++
        "<subroutineBody>\n".toList ++
        "<symbol> \x7b </symbol>\n".toList ++
        "<statements>\n".toList ++
        "<returnStatement>\n".toList ++
        "<keyword> return </keyword>\n".toList ++
        "<symbol> ; </symbol>\n".toList ++
        "</returnStatement>\n".toList ++
        "</statements>\n".toList ++
        "<symbol> \x7d </symbol>\n".toList ++
        "</subroutineBody>\n</subroutineDec>\n".toList ++
        "<symbol> \x7d </symbol>\n".toList ++
        "</class>\n".toList) ∧
    parseTree (0 + 4) ["class ".toList ++ "Point".toList ++ " \x7b \x7d".toList] =
      some ("<class>\n".toList ++
        "<keyword> class </keyword>\n".toList ++
        ("<identifier> ".toList ++ "Point".toList ++ " </identifier>\n".toList) ++
        "<symbol> \x7b </symbol>\n".toList ++
        "<symbol> \x7d </symbol>\n".toList ++
        "</class>\n".toList) :=
  C17_parse_trees "Point".toList 0 (by decide) (by decide)

set_option maxRecDepth 1000000 in
/-- C18 at its failing input: the class
`class A { function void f() { return x1; } }` conforms to the grammar and
`CompileClass` completes, but the terminal written for the identifier `x1` is
`integerConstant 0`: `tokenType` finds a digit in the token, and `intVal`
drops the error of `strconv.Atoi`. -/
theorem C18_identifier_written_as_integer :
    parseTree 10 ["class A \x7b function void f() \x7b return x1; \x7d \x7d".toList] =
      some ("<class>\n".toList ++
        "<keyword> class </keyword>\n".toList ++
        "<identifier> A </identifier>\n".toList ++
        "<symbol> \x7b </symbol>\n".toList ++
        "<subroutineDec>\n".toList ++
        "<keyword> function </keyword>\n".toList ++
        "<keyword> void </keyword>\n".toList ++
        "<identifier> f </identifier>\n".toList ++
        "<symbol> ( </symbol>\n".toList ++
        "<parameterList>\n".toList ++
        "</parameterList>\n".toList ++
        "<symbol> ) </symbol>\n".toList ++
        "<subroutineBody>\n".toList ++
        "<symbol> \x7b </symbol>\n".toList ++
        "<statements>\n".toList ++
        "<returnStatement>\n".toList ++
        "<keyword> return </keyword>\n".toList ++
        "<expression>\n".toList ++
        "<term>\n".toList ++
        "<integerConstant> 0 </integerConstant>\n".toList ++
        "</term>\n".toList ++
        "</expression>\n".toList ++
        "<symbol> ; </symbol>\n".toList ++
        "</returnStatement>\n".toList ++
        "</statements>\n".toList ++
        "<symbol> \x7d </symbol>\n".toList ++
        "</subroutineBody>\n</subroutineDec>\n".toList ++
        "<symbol> \x7d </symbol>\n".toList ++
        "</class>\n".toList) ∧
    (initJackTokenizer ["class A \x7b function void f() \x7b return x1; \x7d \x7d".toList]).map
        (fun jt => jt.tokenList) =
      some ["class".toList, "A".toList, "\x7b".toList, "function".toList, "void".toList,
        "f".toList, "(".toList, ")".toList, "\x7b".toList, "return".toList, "x1".toList,
        ";".toList, "\x7d".toList, "\x7d".toList] := by
  decide

set_option maxRecDepth 1000000 in
/-- C19 at its failing inputs: `tokenType` classifies the word `x1` as an
integer constant, and the words `double` and `printInt` as keywords, because
each expression is matched anywhere inside the token; the token file of the
line `let x1 = double + printInt;` shows the three. -/
theorem C19_words_misclassified :
    (JackTokenizer.tokenType ⟨0, ["x1".toList], []⟩).map (fun r => r.1) = some INT_CONST ∧
    (JackTokenizer.tokenType ⟨0, ["double".toList], []⟩).map (fun r => r.1) = some KEYWORD ∧
    (JackTokenizer.tokenType ⟨0, ["printInt".toList], []⟩).map (fun r => r.1) = some KEYWORD ∧
    (initJackTokenizer ["let x1 = double + printInt;".toList]).map
        (fun jt => (jt.tokenList, jt.writerT.flatten)) =
      some (["let".toList, "x1".toList, "=".toList, "double".toList, "+".toList,
          "printInt".toList, ";".toList],
        "<tokens>\n".toList ++
        "<keyword> let </keyword>\n".toList ++
        "<integerConstant> x1 </integerConstant>\n".toList ++
        "<symbol> = </symbol>\n".toList ++
        "<keyword> double </keyword>\n".toList ++
        "<symbol> + </symbol>\n".toList ++
        "<keyword> printInt </keyword>\n".toList ++
        "<symbol> ; </symbol>\n".toList ++
        "</tokens>\n".toList) := by
  decide

set_option maxRecDepth 1000000 in
/-- C20 at its failing input: the line `let x = "a1";` yields one token for
the literal, `"a1"`, but `tokenType` classifies it as an integer constant,
since the integer expression is tried first and finds the digit; the line of
the claim, `let x = "hi";`, yields the string constant with the value `hi`. -/
theorem C20_string_with_digit :
    (initJackTokenizer ["let x = \"a1\";".toList]).map
        (fun jt => (jt.tokenList, jt.writerT.flatten)) =
      some (["let".toList, "x".toList, "=".toList, "\"a1\"".toList, ";".toList],
        "<tokens>\n".toList ++
        "<keyword> let </keyword>\n".toList ++
        "<identifier> x </identifier>\n".toList ++
        "<symbol> = </symbol>\n".toList ++
        "<integerConstant> \"a1\" </integerConstant>\n".toList ++
        "<symbol> ; </symbol>\n".toList ++
        "</tokens>\n".toList) ∧
    (JackTokenizer.tokenType ⟨3,
        ["let".toList, "x".toList, "=".toList, "\"a1\"".toList, ";".toList], []⟩).map
        (fun r => r.1) = some INT_CONST ∧
    (initJackTokenizer ["let x = \"hi\";".toList]).map (fun jt => jt.tokenList) =
      some ["let".toList, "x".toList, "=".toList, "\"hi\"".toList, ";".toList] ∧
    (JackTokenizer.tokenType ⟨3,
        ["let".toList, "x".toList, "=".toList, "\"hi\"".toList, ";".toList], []⟩).map
        (fun r => r.1) = some STRING_CONST ∧
    (JackTokenizer.stringVal ⟨3,
        ["let".toList, "x".toList, "=".toList, "\"hi\"".toList, ";".toList], []⟩).map
        (fun r => r.1) = some "hi".toList := by
  decide

end JackAnalyzer
namespace JackAnalyzer

open GoStr TokenType KeyWord

set_option maxRecDepth 1000000 in
/-- C21 at its failing inputs: a block comment between the two braces of
`class A { }`, on the same line, is read as the five tokens `/`, `*`, `c`,
`*`, `/` (only a line that STARTS with the comment is skipped); a line comment
after the word `A` makes the tokenizer lose the word, as the rest of the line
is cut and a word at the end of a line is dropped. A block comment on lines of
its own and a line comment after a symbol leave the tokens as they were. -/
theorem C21_comment_changes_tokens :
    (initJackTokenizer ["class A \x7b \x7d".toList]).map (fun jt => jt.tokenList) =
      some ["class".toList, "A".toList, "\x7b".toList, "\x7d".toList] ∧
    (initJackTokenizer ["class A \x7b /* c */ \x7d".toList]).map (fun jt => jt.tokenList) =
      some ["class".toList, "A".toList, "\x7b".toList, "/".toList, "*".toList, "c".toList,
        "*".toList, "/".toList, "\x7d".toList] ∧
    (initJackTokenizer ["class A // c".toList, "\x7b \x7d".toList]).map
        (fun jt => jt.tokenList) =
      some ["class".toList, "\x7b".toList, "\x7d".toList] ∧
    (initJackTokenizer ["class A \x7b".toList, "/* c */".toList, "\x7d".toList]).map
        (fun jt => jt.tokenList) =
      some ["class".toList, "A".toList, "\x7b".toList, "\x7d".toList] ∧
    (initJackTokenizer ["class A \x7b // c".toList, "\x7d".toList]).map
        (fun jt => jt.tokenList) =
      some ["class".toList, "A".toList, "\x7b".toList, "\x7d".toList] := by
  decide

set_option maxRecDepth 1000000 in
/-- C22 at its failing inputs: the word `Main` that ends the line `class Main`
is no token at all, the word `else` alone on a line is lost in the same way,
and the two words of `class<tab>Main` come out as the one token
`class<tab>Main`: only the space separates words, and what is left in
`inputstring` at the end of a line is never appended. -/
theorem C22_words_lost :
    (initJackTokenizer ["class Main".toList, "\x7b".toList, "\x7d".toList]).map
        (fun jt => jt.tokenList) =
      some ["class".toList, "\x7b".toList, "\x7d".toList] ∧
    (initJackTokenizer ["if (x) \x7b \x7d".toList, "else".toList, "\x7b \x7d".toList]).map
        (fun jt => jt.tokenList) =
      some ["if".toList, "(".toList, "x".toList, ")".toList, "\x7b".toList, "\x7d".toList,
        "\x7b".toList, "\x7d".toList] ∧
    (initJackTokenizer ["class\tMain \x7b \x7d".toList]).map (fun jt => jt.tokenList) =
      some ["class\tMain".toList, "\x7b".toList, "\x7d".toList] ∧
    (initJackTokenizer ["class Main \x7b \x7d".toList]).map (fun jt => jt.tokenList) =
      some ["class".toList, "Main".toList, "\x7b".toList, "\x7d".toList] := by
  decide

set_option maxRecDepth 1000000 in
/-- C23 at its failing input: for the line `let x = a < b & c > d;` the token
file, which `writeTXML` writes, has the three symbols as they are, `<`, `&`
and `>`, not as entities; the parse tree of a class with `let x = a < b;` has
the entity `&lt;`, which `CompileExpressionOutput` writes. -/
theorem C23_token_file_without_entities :
    (initJackTokenizer ["let x = a < b & c > d;".toList]).map (fun jt => jt.writerT.flatten) =
      some ("<tokens>\n".toList ++
        "<keyword> let </keyword>\n".toList ++
        "<identifier> x </identifier>\n".toList ++
        "<symbol> = </symbol>\n".toList ++
        "<identifier> a </identifier>\n".toList ++
        "<symbol> < </symbol>\n".toList ++
        "<identifier> b </identifier>\n".toList ++
        "<symbol> & </symbol>\n".toList ++
        "<identifier> c </identifier>\n".toList ++
        "<symbol> > </symbol>\n".toList ++
        "<identifier> d </identifier>\n".toList ++
        "<symbol> ; </symbol>\n".toList ++
        "</tokens>\n".toList) ∧
    parseTree 12
        ["class A \x7b function void f() \x7b let x = a < b; return; \x7d \x7d".toList] =
      some ("<class>\n".toList ++
        "<keyword> class </keyword>\n".toList ++
        "<identifier> A </identifier>\n".toList ++
        "<symbol> \x7b </symbol>\n".toList ++
        "<subroutineDec>\n".toList ++
        "<keyword> function </keyword>\n".toList ++
        "<keyword> void </keyword>\n".toList ++
        "<identifier> f </identifier>\n".toList ++
        "<symbol> ( </symbol>\n".toList ++
        "<parameterList>\n".toList ++
        "</parameterList>\n".toList ++
        "<symbol> ) </symbol>\n".toList ++
        "<subroutineBody>\n".toList ++
        "<symbol> \x7b </symbol>\n".toList ++
        "<statements>\n".toList ++
        "<letStatement>\n".toList ++
        "<keyword> let </keyword>\n".toList ++
        "<identifier> x </identifier>\n".toList ++
        "<symbol> = </symbol>\n".toList ++
        "<expression>\n".toList ++
        "<term>\n".toList ++
        "<identifier> a </identifier>\n".toList ++
        "</term>\n".toList ++
        "<symbol> &lt; </symbol>\n".toList ++
        "<term>\n".toList ++
        "<identifier> b </identifier>\n".toList ++
        "</term>\n".toList ++
        "</expression>\n".toList ++
        "<symbol> ; </symbol>\n".toList ++
        "</letStatement>\n".toList ++
        "<returnStatement>\n".toList ++
        "<keyword> return </keyword>\n".toList ++
        "<symbol> ; </symbol>\n".toList ++
        "</returnStatement>\n".toList ++
        "</statements>\n".toList ++
        "<symbol> \x7d </symbol>\n".toList ++
        "</subroutineBody>\n</subroutineDec>\n".toList ++
        "<symbol> \x7d </symbol>\n".toList ++
        "</class>\n".toList) := by
  decide

/-- C24 at its failing input, the empty file: the assembler and the
translator write nothing and the tokenizer writes `<tokens>` and `</tokens>`,
but `CompileClass`, with any fuel, ends in the panic of `getCurrentToken` on
the empty token list, after it wrote `<class>` and before any `</class>`. -/
theorem C24_empty_class_panics (n : Nat) (path : Str) :
    HackAssembler.assemble [] = [] ∧
    VMTranslator.translateFile path [] = some [] ∧
    initJackTokenizer [] = some ⟨0, [], ["<tokens>\n".toList, "</tokens>\n".toList]⟩ ∧
    analyze (n + 1) [] =
      some (⟨0, [], ["<tokens>\n".toList, "</tokens>\n".toList]⟩,
        Result.panic ⟨⟨0, [], ["<tokens>\n".toList, "</tokens>\n".toList]⟩,
          ["<class>\n".toList]⟩) := by
  have h3 : initJackTokenizer [] =
      some ⟨0, [], ["<tokens>\n".toList, "</tokens>\n".toList]⟩ := by decide
  refine ⟨rfl, rfl, h3, ?_⟩
  have hp : compile (n + 1) .CompileClass
      ⟨⟨0, [], ["<tokens>\n".toList, "</tokens>\n".toList]⟩, []⟩ =
      Result.panic ⟨⟨0, [], ["<tokens>\n".toList, "</tokens>\n".toList]⟩,
        ["<class>\n".toList]⟩ := by
    have hg : JackTokenizer.getCurrentToken
        ⟨0, [], ["<tokens>\n".toList, "</tokens>\n".toList]⟩ = none := by decide
    have hk : CompilationEngine.CompileKeyWord
        ⟨⟨0, [], ["<tokens>\n".toList, "</tokens>\n".toList]⟩, ["<class>\n".toList]⟩ =
        Result.panic ⟨⟨0, [], ["<tokens>\n".toList, "</tokens>\n".toList]⟩,
          ["<class>\n".toList]⟩ := by
      simp only [CompilationEngine.CompileKeyWord, CompilationEngine.token, hg]
      rfl
    rw [compile]
    simp only [CompilationEngine.write, List.nil_append, hk]
    rfl
  simp only [analyze, h3, Option.map_some', hp]

end JackAnalyzer
namespace HackAssembler

open GoStr CommandType

theorem sameMap_refl (t : SymbolTable) : SameMap t t := fun _ => rfl

theorem sameMap_addEntry (t1 t2 : SymbolTable) (s : Str) (a : Int) (h : SameMap t1 t2) :
    SameMap (t1.addEntry s a) (t2.addEntry s a) := by
  intro k
  by_cases hk : k = s
  · subst hk
    simp only [SymbolTable.addEntry, lookup_cons_self]
  · simp only [SymbolTable.addEntry, lookup_cons_ne k s a _ hk]
    exact h k

/-- Two bindings made one after the other, at the same address, in either
order. -/
theorem sameMap_swap (t : SymbolTable) (s1 s2 : Str) (a : Int) :
    SameMap ((t.addEntry s1 a).addEntry s2 a) ((t.addEntry s2 a).addEntry s1 a) := by
  intro k
  by_cases h1 : k = s1
  · subst h1
    by_cases h2 : k = s2
    · subst h2
      rfl
    · simp only [SymbolTable.addEntry, lookup_cons_ne k s2 a _ h2, lookup_cons_self]
  · by_cases h2 : k = s2
    · subst h2
      simp only [SymbolTable.addEntry, lookup_cons_ne k s1 a _ h1, lookup_cons_self]
    · simp only [SymbolTable.addEntry, lookup_cons_ne k s1 a _ h1, lookup_cons_ne k s2 a _ h2]

theorem advance_eq (p q : Parser) (line : Str) (h : p.ramAddress = q.ramAddress) :
    p.advance line = q.advance line := by
  cases p
  cases q
  simp only [Parser.advance] at *
  simp [h]

theorem advance_ramAddress_eq (p : Parser) (line : Str) :
    (p.advance line).ramAddress = p.ramAddress := rfl

theorem commandType_advance (p : Parser) (line : Str) :
    (p.advance line).commandType = (initParser.advance line).commandType := rfl

theorem symbol_advance (p : Parser) (line : Str) :
    (p.advance line).symbol = (initParser.advance line).symbol := rfl

theorem addLCOMMAND_append (l1 l2 : List Str) :
    ∀ (p : Parser) (t : SymbolTable),
      addLCOMMAND (l1 ++ l2) p t = addLCOMMAND l2 (addLCOMMAND l1 p t).1 (addLCOMMAND l1 p t).2 := by
  induction l1 with
  | nil => intro p t; rfl
  | cons l rest ih =>
    intro p t
    simp only [List.cons_append, addLCOMMAND]
    split_ifs <;> exact ih _ _

/-- Pass 1 from parsers with the same RAM address and from tables that are the
same map. -/
theorem addLCOMMAND_congr (lines : List Str) :
    ∀ (p q : Parser) (t1 t2 : SymbolTable), p.ramAddress = q.ramAddress → SameMap t1 t2 →
      (addLCOMMAND lines p t1).1.ramAddress = (addLCOMMAND lines q t2).1.ramAddress ∧
      SameMap (addLCOMMAND lines p t1).2 (addLCOMMAND lines q t2).2 := by
  induction lines with
  | nil => intro p q t1 t2 h1 h2; exact ⟨h1, h2⟩
  | cons l rest ih =>
    intro p q t1 t2 h1 h2
    have he := advance_eq p q l h1
    simp only [addLCOMMAND]
    by_cases hk : keepsLine l = true
    · simp only [hk, if_true]
      rw [he]
      by_cases hc : (q.advance l).commandType = L_COMMAND
      · simp only [hc, if_true]
        exact ih _ _ _ _ rfl (sameMap_addEntry _ _ _ _ h2)
      · simp only [hc, if_false]
        exact ih _ _ _ _ rfl h2
    · simp only [hk, if_false, Bool.false_eq_true]
      exact ih _ _ _ _ h1 h2

theorem sameMap_contains (t1 t2 : SymbolTable) (s : Str) (h : SameMap t1 t2) :
    t1.contains s = t2.contains s := by
  simp only [SymbolTable.contains, h s]

theorem sameMap_getAddress (t1 t2 : SymbolTable) (s : Str) (h : SameMap t1 t2) :
    t1.GetAddress s = t2.GetAddress s := by
  simp only [SymbolTable.GetAddress, mapGetD, h s]

theorem writeACommand_congr (p : Parser) (t1 t2 : SymbolTable) (h : SameMap t1 t2) :
    (writeACommand p t1).1 = (writeACommand p t2).1 ∧
    SameMap (writeACommand p t1).2.1 (writeACommand p t2).2.1 ∧
    (writeACommand p t1).2.2 = (writeACommand p t2).2.2 := by
  have hc := sameMap_contains t1 t2 p.symbol h
  have hg := sameMap_getAddress t1 t2 p.symbol h
  simp only [writeACommand, hc, hg]
  by_cases h1 : (atoi p.symbol).2 = false
  · by_cases h2 : t2.contains p.symbol = false
    · simp only [h1, h2, if_true]
      exact ⟨trivial, sameMap_addEntry _ _ _ _ h, trivial⟩
    · simp only [h1, h2, if_true, if_false]
      exact ⟨rfl, h, rfl⟩
  · simp only [h1, if_false]
    exact ⟨rfl, h, rfl⟩

theorem generateHackStep_congr (p : Parser) (t1 t2 : SymbolTable) (h : SameMap t1 t2) :
    (generateHackStep p t1).1 = (generateHackStep p t2).1 ∧
    SameMap (generateHackStep p t1).2.1 (generateHackStep p t2).2.1 ∧
    (generateHackStep p t1).2.2 = (generateHackStep p t2).2.2 := by
  obtain ⟨w1, w2, w3⟩ := writeACommand_congr p t1 t2 h
  simp only [generateHackStep]
  by_cases hA : p.commandType = A_COMMAND
  · simp only [hA, if_true, w1, w3]
    by_cases hC : (writeACommand p t2).1.commandType = C_COMMAND
    · simp only [hC, if_true]
      exact ⟨trivial, w2, trivial⟩
    · simp only [hC, if_false]
      exact ⟨trivial, w2, trivial⟩
  · simp only [hA, if_false]
    by_cases hC : p.commandType = C_COMMAND
    · simp only [hC, if_true]
      exact ⟨trivial, h, trivial⟩
    · simp only [hC, if_false]
      exact ⟨trivial, h, trivial⟩

/-- Pass 2 from parsers with the same RAM address and from tables that are the
same map writes the same strings. -/
theorem generateHackLoop_congr (lines : List Str) :
    ∀ (p q : Parser) (t1 t2 : SymbolTable), p.ramAddress = q.ramAddress → SameMap t1 t2 →
      (generateHackLoop lines p t1).1.ramAddress = (generateHackLoop lines q t2).1.ramAddress ∧
      SameMap (generateHackLoop lines p t1).2.1 (generateHackLoop lines q t2).2.1 ∧
      (generateHackLoop lines p t1).2.2 = (generateHackLoop lines q t2).2.2 := by
  induction lines with
  | nil => intro p q t1 t2 h1 h2; exact ⟨h1, h2, rfl⟩
  | cons l rest ih =>
    intro p q t1 t2 h1 h2
    by_cases hk : keepsLine l = true
    · rw [generateHackLoop_cons l rest p t1 hk, generateHackLoop_cons l rest q t2 hk,
        advance_eq p q l h1]
      obtain ⟨s1, s2, s3⟩ := generateHackStep_congr (q.advance l) t1 t2 h2
      obtain ⟨r1, r2, r3⟩ := ih (generateHackStep (q.advance l) t1).1
        (generateHackStep (q.advance l) t2).1 _ _ (by rw [s1]) s2
      exact ⟨r1, r2, by rw [s3, r3]⟩
    · have hk2 : keepsLine l = false := by simpa using hk
      rw [generateHackLoop_skip l rest p t1 hk2, generateHackLoop_skip l rest q t2 hk2]
      exact ih p q t1 t2 h1 h2

end HackAssembler
namespace HackAssembler

open GoStr CommandType

theorem isLabelLine_keeps (l : Str) (h : isLabelLine l = true) : keepsLine l = true := by
  simp only [isLabelLine, Bool.and_eq_true] at h
  exact h.1

theorem isLabelLine_type (l : Str) (p : Parser) (h : isLabelLine l = true) :
    (p.advance l).commandType = L_COMMAND := by
  simp only [isLabelLine, Bool.and_eq_true, decide_eq_true_eq] at h
  rw [commandType_advance]
  exact h.2

theorem addLCOMMAND_labelLine (l : Str) (rest : List Str) (p : Parser) (t : SymbolTable)
    (h : isLabelLine l = true) :
    addLCOMMAND (l :: rest) p t =
      addLCOMMAND rest (p.advance l) (t.addEntry (initParser.advance l).symbol p.ramAddress) := by
  have hk := isLabelLine_keeps l h
  have hc := isLabelLine_type l p h
  simp only [addLCOMMAND, hk, hc, if_true]
  rfl

theorem addLCOMMAND_skip (l : Str) (rest : List Str) (p : Parser) (t : SymbolTable)
    (h : keepsLine l = false) :
    addLCOMMAND (l :: rest) p t = addLCOMMAND rest p t := by
  simp [addLCOMMAND, h]

theorem generateHackLoop_labelLine (l : Str) (rest : List Str) (p : Parser) (t : SymbolTable)
    (h : isLabelLine l = true) :
    generateHackLoop (l :: rest) p t = generateHackLoop rest (p.advance l) t := by
  rw [generateHackLoop_cons l rest p t (isLabelLine_keeps l h),
    generateHackStep_label _ _ (isLabelLine_type l p h)]
  rfl

/-- Pass 1 on a program and on the program with two adjacent label lines
swapped: the same RAM address and the same map. -/
theorem pass1_swap (pre post : List Str) (l1 l2 : Str) (p : Parser) (t : SymbolTable)
    (h1 : isLabelLine l1 = true) (h2 : isLabelLine l2 = true) :
    (addLCOMMAND (pre ++ l1 :: l2 :: post) p t).1.ramAddress =
        (addLCOMMAND (pre ++ l2 :: l1 :: post) p t).1.ramAddress ∧
      SameMap (addLCOMMAND (pre ++ l1 :: l2 :: post) p t).2
        (addLCOMMAND (pre ++ l2 :: l1 :: post) p t).2 := by
  rw [addLCOMMAND_append, addLCOMMAND_append, addLCOMMAND_labelLine l1 _ _ _ h1,
    addLCOMMAND_labelLine l2 _ _ _ h2, addLCOMMAND_labelLine l2 _ _ _ h2,
    addLCOMMAND_labelLine l1 _ _ _ h1]
  apply addLCOMMAND_congr
  · rfl
  · exact sameMap_swap _ _ _ _

/-- Pass 2 on a program and on the program with two adjacent label lines
swapped, from the same RAM address and the same map: the same strings. -/
theorem pass2_swap (pre post : List Str) (l1 l2 : Str) (p q : Parser) (t1 t2 : SymbolTable)
    (hp : p.ramAddress = q.ramAddress) (ht : SameMap t1 t2)
    (h1 : isLabelLine l1 = true) (h2 : isLabelLine l2 = true) :
    (generateHackLoop (pre ++ l1 :: l2 :: post) p t1).2.2 =
      (generateHackLoop (pre ++ l2 :: l1 :: post) q t2).2.2 := by
  obtain ⟨r1, r2, r3⟩ := generateHackLoop_congr pre p q t1 t2 hp ht
  rw [generateHackLoop_append, generateHackLoop_append, generateHackLoop_labelLine l1 _ _ _ h1,
    generateHackLoop_labelLine l2 _ _ _ h2, generateHackLoop_labelLine l2 _ _ _ h2,
    generateHackLoop_labelLine l1 _ _ _ h1]
  show _ ++ _ = _ ++ _
  rw [r3]
  congr 1
  exact (generateHackLoop_congr post _ _ _ _ (by simp only [advance_ramAddress_eq]; exact r1) r2).2.2

theorem assembleWith_skip (t : SymbolTable) (pre post : List Str) (l : Str)
    (h : keepsLine l = false) :
    assembleWith t (pre ++ l :: post) = assembleWith t (pre ++ post) := by
  have e1 : ∀ (p : Parser) (t : SymbolTable),
      addLCOMMAND (pre ++ l :: post) p t = addLCOMMAND (pre ++ post) p t := by
    intro p t
    rw [addLCOMMAND_append, addLCOMMAND_append, addLCOMMAND_skip l post _ _ h]
  have e2 : ∀ (p : Parser) (t : SymbolTable),
      generateHackLoop (pre ++ l :: post) p t = generateHackLoop (pre ++ post) p t := by
    intro p t
    rw [generateHackLoop_append, generateHackLoop_append, generateHackLoop_skip l post _ _ h]
  simp only [assembleWith, generateHack, e1, e2]

theorem keepsLine_comment (text : Str) : keepsLine ('/' :: '/' :: text) = false := by
  have h : startsWith ('/' :: '/' :: text) "//".toList = true := by
    show List.isPrefixOf ['/', '/'] ('/' :: '/' :: text) = true
    simp [List.isPrefixOf]
  simp only [keepsLine, h, if_true]

theorem keepsLine_blank (n : Nat) : keepsLine (List.replicate n ' ') = false := by
  have h : trimSpace (List.replicate n ' ') = [] := by
    have h1 : (List.replicate n ' ').dropWhile isSpace = [] := by
      rw [List.dropWhile_eq_nil_iff]
      intro x hx
      rw [List.eq_of_mem_replicate hx]
      decide
    simp only [trimSpace, h1, List.reverse_nil, List.dropWhile_nil]
  simp only [keepsLine, h]
  split_ifs <;> first | rfl | simp at *

/-- Claim C30. Swapping two adjacent label lines of an `.asm` program leaves
the strings written to the `.hack` file unchanged, whatever the symbol table
`main` holds at that moment: both labels are bound to the same instruction
count, in either order, and the two tables are the same map. -/
theorem C30_adjacent_labels_swap (table : SymbolTable) (pre post : List Str) (l1 l2 : Str)
    (h1 : isLabelLine l1 = true) (h2 : isLabelLine l2 = true) :
    (assembleWith table (pre ++ l1 :: l2 :: post)).2 =
      (assembleWith table (pre ++ l2 :: l1 :: post)).2 := by
  obtain ⟨_, s2⟩ := pass1_swap pre post l1 l2 initParser table h1 h2
  simp only [assembleWith, generateHack]
  exact pass2_swap pre post l1 l2 _ _ _ _ rfl s2 h1 h2

set_option maxRecDepth 1000000 in
/-- Witness for C30: the labels `(A)` and `(B)` between two instructions, both
used by the program. -/
theorem C30_adjacent_labels_swap_witness :
    isLabelLine "(A)".toList = true ∧ isLabelLine "(B)".toList = true ∧
    (assembleWith initSymbolTable
        (["@B".toList, "D=A".toList] ++
          "(A)".toList :: "(B)".toList :: ["@A".toList, "0;JMP".toList])).2 =
      (assembleWith initSymbolTable
        (["@B".toList, "D=A".toList] ++
          "(B)".toList :: "(A)".toList :: ["@A".toList, "0;JMP".toList])).2 ∧
    (assembleWith initSymbolTable
        (["@B".toList, "D=A".toList] ++
          "(A)".toList :: "(B)".toList :: ["@A".toList, "0;JMP".toList])).2 =
      ["0000000000000010\n".toList, "1110110000010000\n".toList,
        "0000000000000010\n".toList, "1110101010000111\n".toList] :=
  ⟨by decide, by decide,
    C30_adjacent_labels_swap initSymbolTable ["@B".toList, "D=A".toList]
      ["@A".toList, "0;JMP".toList] "(A)".toList "(B)".toList (by decide) (by decide),
    by decide⟩

set_option maxRecDepth 1000000 in
/-- Claim C29. A blank line and a line that starts with `//` are skipped, but
a comment line that starts with white space is not: `hasMoreCommands` tests
`HasPrefix(line, "//")` on the untrimmed line, `advance` then leaves the empty
command, which is taken for a C-command, and the line `111000000` is written;
the instructions after it, and so the labels after it, move up by one. -/
theorem C29_indented_comment_is_translated :
    (∀ (pre post : List Str) (text : Str),
      assemble (pre ++ ('/' :: '/' :: text) :: post) = assemble (pre ++ post)) ∧
    (∀ (pre post : List Str) (n : Nat),
      assemble (pre ++ List.replicate n ' ' :: post) = assemble (pre ++ post)) ∧
    assemble ["@1".toList] = ["0000000000000001\n".toList] ∧
    assemble ["  // note".toList, "@1".toList] =
      ["111000000\n".toList, "0000000000000001\n".toList] ∧
    assemble ["@END".toList, "D=A".toList, "(END)".toList] =
      ["0000000000000010\n".toList, "1110110000010000\n".toList] ∧
    assemble ["@END".toList, "\t// note".toList, "D=A".toList, "(END)".toList] =
      ["0000000000000011\n".toList, "111000000\n".toList, "1110110000010000\n".toList] := by
  refine ⟨?_, ?_, by decide, by decide, by decide, by decide⟩
  · intro pre post text
    simp only [assemble, assembleWith_skip _ pre post _ (keepsLine_comment text)]
  · intro pre post n
    simp only [assemble, assembleWith_skip _ pre post _ (keepsLine_blank n)]

end HackAssembler
namespace HackAssembler

open GoStr CommandType

end HackAssembler
namespace HackAssembler

open GoStr CommandType

theorem bitsBE_head (w : Nat) :
    ∀ n, 2 ^ w ≤ n → n < 2 ^ (w + 1) → ∃ t, bitsBE (w + 1) n = '1' :: t := by
  induction w with
  | zero =>
    intro n h1 h2
    have : n = 1 := by omega
    subst this
    exact ⟨[], rfl⟩
  | succ w ih =>
    intro n h1 h2
    have e1 : 2 ^ (w + 1) = 2 * 2 ^ w := by rw [pow_succ]; omega
    have e2 : 2 ^ (w + 1 + 1) = 2 * 2 ^ (w + 1) := by rw [pow_succ]; omega
    obtain ⟨t, ht⟩ := ih (n / 2) (by omega) (by omega)
    refine ⟨t ++ [if n % 2 = 1 then '1' else '0'], ?_⟩
    show bitsBE (w + 1) (n / 2) ++ _ = _
    rw [ht]
    rfl

/-- The decimal digits of the binary-as-decimal number of `n` are the
`w + 1` bits of `n` when the top bit is set. -/
theorem toDigits_binAsDec_full (w n : Nat) (h1 : 2 ^ w ≤ n) (h2 : n < 2 ^ (w + 1)) :
    Nat.toDigits 10 (binAsDec (w + 1) n) = bitsBE (w + 1) n := by
  obtain ⟨hl, he⟩ := toDigits_binAsDec w n h2
  obtain ⟨t, ht⟩ := bitsBE_head w n h1 h2
  by_cases hlen : (Nat.toDigits 10 (binAsDec (w + 1) n)).length = w + 1
  · rw [hlen, Nat.sub_self] at he
    simpa using he
  · exfalso
    have hpos : w + 1 - (Nat.toDigits 10 (binAsDec (w + 1) n)).length =
        (w - (Nat.toDigits 10 (binAsDec (w + 1) n)).length) + 1 := by omega
    rw [hpos, List.replicate_succ, ht] at he
    simp only [List.cons_append, List.cons.injEq] at he
    exact absurd he.1 (by decide)

theorem aWord_large (w N : Nat) (hw : 15 ≤ w) (hw2 : w ≤ 17) (h1 : 2 ^ w ≤ N)
    (h2 : N < 2 ^ (w + 1)) :
    padLoop 16 (itoa (decimalToBinary (N : Int))) = bitsBE (w + 1) N := by
  have hpow : 1 * 10 ^ (w + 1) < 2 ^ 63 := by
    have : 10 ^ (w + 1) ≤ 10 ^ 18 := Nat.pow_le_pow_right (by norm_num) (by omega)
    have : (10 : Nat) ^ 18 < 2 ^ 63 := by norm_num
    omega
  have hd := decimalToBinaryLoop_nat (w + 1) 64 N 0 1 h2 (by omega) (by norm_num) hpow
  have hd2 : decimalToBinary (N : Int) = ((binAsDec (w + 1) N : Nat) : Int) := by
    simpa [decimalToBinary] using hd
  have hi : itoa ((binAsDec (w + 1) N : Nat) : Int) = Nat.toDigits 10 (binAsDec (w + 1) N) := by
    simp [itoa]
  rw [hd2, hi, toDigits_binAsDec_full w N h1 h2]
  have hlen := bitsBE_length (w + 1) N
  rw [padLoop_eq 16 _ (by omega)]
  have : 16 - (bitsBE (w + 1) N).length = 0 := by omega
  rw [this]
  rfl

set_option maxRecDepth 1000000 in
/-- Claim C28 as stated does not hold: for `@32768` the assembler writes a
16-character line that starts with `1`, and for `@65536` and `@99999` lines of
17 characters. -/
theorem C28_large_literal_counterexample :
    assemble ["@32768".toList] = ["1000000000000000\n".toList] ∧
    assemble ["@65536".toList] = ["10000000000000000\n".toList] ∧
    assemble ["@99999".toList] = ["11000011010011111\n".toList] := by
  decide

/-- Claim C28, amended: nothing is rejected. For a decimal literal N from
2^15 up to 2^18 - 1, with `w + 1` binary digits, the scanner keeps the line
`@N` and pass 2 writes for it, in any state, the `w + 1` binary digits of N
and a line break: a line that starts with `1`, of 16 characters for
N < 2^16 and of more than 16 from there on. -/
theorem C28_large_literal_is_written (w N : Nat) (hw : 15 ≤ w) (hw2 : w ≤ 17)
    (h1 : 2 ^ w ≤ N) (h2 : N < 2 ^ (w + 1)) (parser : Parser) (symboltable : SymbolTable) :
    keepsLine ('@' :: Nat.toDigits 10 N) = true ∧
    (generateHackStep (parser.advance ('@' :: Nat.toDigits 10 N)) symboltable).2.2 =
      [bitsBE (w + 1) N ++ ['\n']] ∧
    assemble ['@' :: Nat.toDigits 10 N] = [bitsBE (w + 1) N ++ ['\n']] ∧
    (bitsBE (w + 1) N).head? = some '1' ∧
    (bitsBE (w + 1) N).length = w + 1 ∧
    binValue (bitsBE (w + 1) N) = N := by
  have hk : keepsLine ('@' :: Nat.toDigits 10 N) = true :=
    keepsLine_cons _ _ (by decide) (by decide)
  have hplain : isPlain ('@' :: Nat.toDigits 10 N) = true := by
    have := isPlain_toDigits N
    simp only [isPlain, List.all_cons] at this ⊢
    rw [this]; decide
  have hN63 : N < 2 ^ 63 := by
    have : 2 ^ (w + 1) ≤ 2 ^ 63 := Nat.pow_le_pow_right (by norm_num) (by omega)
    omega
  have hat : atoi (Nat.toDigits 10 N) = ((N : Int), true) := atoi_toDigits N hN63
  have hstep : ∀ p : Parser, ∀ tb : SymbolTable,
      generateHackStep (p.advance ('@' :: Nat.toDigits 10 N)) tb =
        (p.advance ('@' :: Nat.toDigits 10 N), tb, [bitsBE (w + 1) N ++ ['\n']]) := by
    intro p tb
    have hcur := advance_plain p _ hplain
    rw [generateHackStep_at _ _ _ hcur, writeACommand_literal _ _ _ _ hcur hat,
      aWord_large w N hw hw2 h1 h2]
    rfl
  obtain ⟨t, ht⟩ := bitsBE_head w N h1 h2
  refine ⟨hk, ?_, ?_, ?_, bitsBE_length _ _, ?_⟩
  · rw [hstep]
  · simp [assemble, assembleWith, addLCOMMAND, generateHack, generateHackLoop, hk, hstep]
  · rw [ht]
    rfl
  · rw [binValue_bitsBE]
    exact Nat.mod_eq_of_lt h2

set_option maxRecDepth 1000000 in
/-- Witness for C28: the line `@40000`. -/
theorem C28_large_literal_is_written_witness :
    15 ≤ 15 ∧ 15 ≤ 17 ∧ 2 ^ 15 ≤ 40000 ∧ 40000 < 2 ^ (15 + 1) ∧
    assemble ['@' :: Nat.toDigits 10 40000] = ["1001110001000000\n".toList] :=
  ⟨by decide, by decide, by decide, by decide,
    (C28_large_literal_is_written 15 40000 (by decide) (by decide) (by decide) (by decide)
      initParser initSymbolTable).2.2.1⟩

end HackAssembler
namespace HackAssembler

open GoStr CommandType

theorem instructionCount_label_mid (p1 p2 : List SourceLine) (name : Str) :
    instructionCount (p1 ++ SourceLine.label name :: p2) =
      instructionCount p1 + instructionCount p2 := by
  simp [instructionCount, List.filter_append, SourceLine.isLabel]

set_option maxRecDepth 1000000 in
/-- Claim C25 as stated does not hold: the program with `(L)` on two label
lines is translated, and `L` is bound to the later address 1. -/
theorem C25_redefined_label_counterexample :
    assemble ["(L)".toList, "@1".toList, "(L)".toList, "@L".toList] =
      ["0000000000000001\n".toList, "0000000000000001\n".toList] ∧
    (addLCOMMAND ["(L)".toList, "@1".toList, "(L)".toList, "@L".toList] initParser
      initSymbolTable).2.lookup "L".toList = some 1 := by
  decide

theorem labelNames_cons_label (l : Str) (rest : List Str) (h : isLabelLine l = true) :
    labelNames (l :: rest) = (initParser.advance l).symbol :: labelNames rest := by
  simp [labelNames, List.filter_cons, h]

theorem labelNames_cons_other (l : Str) (rest : List Str) (h : isLabelLine l = false) :
    labelNames (l :: rest) = labelNames rest := by
  simp [labelNames, List.filter_cons, h]

/-- Pass 1 keeps the binding of every symbol that is not the name of a label
line. -/
theorem addLCOMMAND_keeps (k : Str) (v : Int) (lines : List Str) :
    ∀ (p : Parser) (t : SymbolTable), k ∉ labelNames lines → t.lookup k = some v →
      (addLCOMMAND lines p t).2.lookup k = some v := by
  induction lines with
  | nil => intro p t _ h; exact h
  | cons l rest ih =>
    intro p t hk h
    by_cases hl : isLabelLine l = true
    · rw [addLCOMMAND_labelLine l rest p t hl]
      rw [labelNames_cons_label l rest hl] at hk
      simp only [List.mem_cons, not_or] at hk
      apply ih _ _ hk.2
      simp only [SymbolTable.addEntry]
      rw [lookup_cons_ne k _ _ _ hk.1]
      exact h
    · have hl2 : isLabelLine l = false := by simpa using hl
      rw [labelNames_cons_other l rest hl2] at hk
      by_cases hkeep : keepsLine l = true
      · have hc : ¬ (p.advance l).commandType = L_COMMAND := by
          intro hc
          rw [commandType_advance] at hc
          simp [isLabelLine, hkeep, hc] at hl2
        simp only [addLCOMMAND, hkeep, hc, if_true, if_false]
        exact ih _ _ hk h
      · have hkeep2 : keepsLine l = false := by simpa using hkeep
        rw [addLCOMMAND_skip l rest p t hkeep2]
        exact ih _ _ hk h

theorem writeACommand_keeps (k : Str) (v : Int) (p : Parser) (t : SymbolTable)
    (h : t.lookup k = some v) : (writeACommand p t).2.1.lookup k = some v := by
  simp only [writeACommand]
  by_cases h1 : (atoi p.symbol).2 = false
  · by_cases h2 : t.contains p.symbol = false
    · simp only [h1, h2, if_true, SymbolTable.addEntry]
      have hne : k ≠ p.symbol := by
        intro he
        rw [contains_eq_false_iff, ← he, h] at h2
        exact absurd h2 (by simp)
      rw [lookup_cons_ne k _ _ _ hne]
      exact h
    · simp only [h1, h2, if_true, if_false]
      exact h
  · simp only [h1, if_false]
    exact h

theorem generateHackStep_keeps (k : Str) (v : Int) (p : Parser) (t : SymbolTable)
    (h : t.lookup k = some v) : (generateHackStep p t).2.1.lookup k = some v := by
  have hw := writeACommand_keeps k v p t h
  simp only [generateHackStep]
  split_ifs <;> first | exact hw | exact h

/-- Pass 2 keeps every binding of the table it starts from. -/
theorem generateHackLoop_keeps (k : Str) (v : Int) (lines : List Str) :
    ∀ (p : Parser) (t : SymbolTable), t.lookup k = some v →
      (generateHackLoop lines p t).2.1.lookup k = some v := by
  induction lines with
  | nil => intro p t h; exact h
  | cons l rest ih =>
    intro p t h
    by_cases hk : keepsLine l = true
    · rw [generateHackLoop_cons l rest p t hk]
      exact ih (generateHackStep (p.advance l) t).1 (generateHackStep (p.advance l) t).2.1
        (generateHackStep_keeps k v (p.advance l) t h)
    · have hk2 : keepsLine l = false := by simpa using hk
      rw [generateHackLoop_skip l rest p t hk2]
      exact ih p t h

set_option maxRecDepth 1000000 in
/-- Claim C26 as stated does not hold: the label line `(SCREEN)` rebinds the
predefined symbol `SCREEN`, from 16384 to the address 1 of the label. -/
theorem C26_predefined_rebound_counterexample :
    initSymbolTable.lookup "SCREEN".toList = some 16384 ∧
    (assembleWith initSymbolTable
      ["@7".toList, "(SCREEN)".toList, "@SCREEN".toList]).1.lookup "SCREEN".toList = some 1 ∧
    assemble ["@7".toList, "(SCREEN)".toList, "@SCREEN".toList] =
      ["0000000000000111\n".toList, "0000000000000001\n".toList] := by
  decide

set_option maxRecDepth 1000000 in
/-- Claim C26, amended: the symbol table starts with exactly the 23
predefined symbols `SP=0, LCL=1, ARG=2, THIS=3, THAT=4, SCREEN=16384,
KBD=24576, R0..R15=0..15`, and for every program none of whose label lines
names a predefined symbol, each predefined symbol still maps to its predefined
address after pass 1 and after pass 2. -/
theorem C26_predefined_symbols_kept (lines : List Str)
    (hno : ∀ s ∈ labelNames lines, initSymbolTable.lookup s = none) :
    initSymbolTable.length = 23 ∧
    (initSymbolTable.map Prod.fst).Nodup ∧
    initSymbolTable.lookup "SP".toList = some 0 ∧
    initSymbolTable.lookup "LCL".toList = some 1 ∧
    initSymbolTable.lookup "ARG".toList = some 2 ∧
    initSymbolTable.lookup "THIS".toList = some 3 ∧
    initSymbolTable.lookup "THAT".toList = some 4 ∧
    initSymbolTable.lookup "SCREEN".toList = some 16384 ∧
    initSymbolTable.lookup "KBD".toList = some 24576 ∧
    (∀ i : Fin 16, initSymbolTable.lookup ('R' :: Nat.toDigits 10 i.val) = some (i.val : Int)) ∧
    (∀ (k : Str) (v : Int), initSymbolTable.lookup k = some v →
      (addLCOMMAND lines initParser initSymbolTable).2.lookup k = some v ∧
      (assembleWith initSymbolTable lines).1.lookup k = some v) := by
  refine ⟨by decide, by decide, by decide, by decide, by decide, by decide, by decide,
    by decide, by decide, by decide, ?_⟩
  intro k v hk
  have hnot : k ∉ labelNames lines := by
    intro hm
    rw [hno k hm] at hk
    exact absurd hk (by simp)
  have h1 := addLCOMMAND_keeps k v lines initParser initSymbolTable hnot hk
  refine ⟨h1, ?_⟩
  simp only [assembleWith, generateHack]
  exact generateHackLoop_keeps k v lines _ _ h1

set_option maxRecDepth 1000000 in
/-- Witness for C26: a program with the label `(LOOP)` and the variable
`i`. -/
theorem C26_predefined_symbols_kept_witness :
    (∀ s ∈ labelNames ["@i".toList, "(LOOP)".toList, "@LOOP".toList, "@SCREEN".toList],
      initSymbolTable.lookup s = none) ∧
    (assembleWith initSymbolTable
      ["@i".toList, "(LOOP)".toList, "@LOOP".toList, "@SCREEN".toList]).1.lookup
        "SCREEN".toList = some 16384 :=
  ⟨by decide,
    ((C26_predefined_symbols_kept
      ["@i".toList, "(LOOP)".toList, "@LOOP".toList, "@SCREEN".toList] (by decide)).2.2.2.2.2.2.2.2.2.2
        "SCREEN".toList 16384 (by decide)).2⟩

end HackAssembler
namespace HackAssembler

open GoStr CommandType

set_option maxRecDepth 1000000 in
/-- C31 at its failing inputs: `main` makes the symbol table once, before its
loop over the files, so the file assembled second is translated with the
labels and variables of the first. After the file `@a`, `@b` the file `@b` is
written as the word of 17, where on its own it is the word of 16; after the
file `@1`, `(END)` the file `@END` is written as the word of the label address
1, where on its own `END` is a variable at 16. -/
theorem C31_symbol_table_reused :
    (∀ P Q : List Str,
      main [P, Q] = [assemble P, (assembleWith (assembleWith initSymbolTable P).1 Q).2]) ∧
    main [["@b".toList]] = [["0000000000010000\n".toList]] ∧
    main [["@a".toList, "@b".toList], ["@b".toList]] =
      [["0000000000010000\n".toList, "0000000000010001\n".toList],
        ["0000000000010001\n".toList]] ∧
    main [["@END".toList]] = [["0000000000010000\n".toList]] ∧
    main [["@1".toList, "(END)".toList], ["@END".toList]] =
      [["0000000000000001\n".toList], ["0000000000000001\n".toList]] := by
  refine ⟨fun P Q => rfl, by decide, by decide, by decide, by decide⟩

end HackAssembler

namespace VMTranslator

open GoStr CommandType

set_option maxRecDepth 1000000 in
/-- C32 at its failing inputs: `arg2` drops the error of `strconv.Atoi`, so
the index `abc` is the number 0 and `push local abc` (`pop local abc`) is
translated as `push local 0` (`pop local 0`), in any state of the code writer;
for a segment that is none of the eight names, `writePush` and `writePop`
return the comment line alone. Nothing is reported. -/
theorem C32_bad_index_and_segment_translated :
    (∀ (codewriter : CodeWriter) (assembly : Str),
      generateASMStep (initParser.advance "push local abc".toList) codewriter assembly =
        some (codewriter, codewriter.writePush "local".toList 0)) ∧
    (∀ (codewriter : CodeWriter) (assembly : Str),
      generateASMStep (initParser.advance "pop local abc".toList) codewriter assembly =
        some (codewriter, codewriter.writePop "local".toList 0)) ∧
    translateFile "f.vm".toList ["push local abc".toList] =
      some "// C_PUSH local[0]\n@0\nD=A\n@LCL\nA=D+M\nD=M\n@SP\nA=M\nM=D\n@SP\nM=M+1\n".toList ∧
    translateFile "f.vm".toList ["push local 0".toList] =
      some "// C_PUSH local[0]\n@0\nD=A\n@LCL\nA=D+M\nD=M\n@SP\nA=M\nM=D\n@SP\nM=M+1\n".toList ∧
    translateFile "f.vm".toList ["push foo 3".toList] = some "// C_PUSH foo[3]\n".toList ∧
    translateFile "f.vm".toList ["pop foo 3".toList] = some "// C_POP foo[3]\n".toList := by
  refine ⟨fun _ _ => rfl, fun _ _ => rfl, by decide, by decide, by decide, by decide⟩

/-- Claim C34 does not hold: a kept line whose first word is no command word
leaves the variable `assembly` of `generateASM` as it is, and the loop writes
it once more, so the line adds a second copy of the code of the command before
it (nothing only when it is the first command of the file). -/
theorem C34_unrecognised_line_repeats (line : Str) (rest : List Str) (parser : Parser)
    (codewriter : CodeWriter) (assembly : Str) (hk : keepsLine line = true)
    (hu : (parser.advance line).commandType = unrecognised) :
    generateASMLoop (line :: rest) parser codewriter assembly =
      (generateASMLoop rest (parser.advance line) codewriter assembly).map
        (fun r => (r.1, r.2.1, assembly :: r.2.2)) ∧
    translateFile "f.vm".toList ["push constant 1".toList] =
      some "// C_PUSH constant[1]\n@1\nD=A\n@SP\nA=M\nM=D\n@SP\nM=M+1\n".toList ∧
    translateFile "f.vm".toList ["push constant 1".toList, "  // note".toList] =
      some ("// C_PUSH constant[1]\n@1\nD=A\n@SP\nA=M\nM=D\n@SP\nM=M+1\n".toList ++
        "// C_PUSH constant[1]\n@1\nD=A\n@SP\nA=M\nM=D\n@SP\nM=M+1\n".toList) ∧
    translateFile "f.vm".toList ["push constant 1".toList, "ad".toList] =
      some ("// C_PUSH constant[1]\n@1\nD=A\n@SP\nA=M\nM=D\n@SP\nM=M+1\n".toList ++
        "// C_PUSH constant[1]\n@1\nD=A\n@SP\nA=M\nM=D\n@SP\nM=M+1\n".toList) := by
  refine ⟨?_, by decide, by decide, by decide⟩
  have hs : generateASMStep (parser.advance line) codewriter assembly =
      some (codewriter, assembly) := by
    simp only [generateASMStep, hu]
  rw [generateASMLoop]
  simp only [hk, if_true, hs]
  cases generateASMLoop rest (parser.advance line) codewriter assembly <;> rfl

set_option maxRecDepth 1000000 in
/-- Witness for C34: the line `  // note` when the code written last is
`X`. -/
theorem C34_unrecognised_line_repeats_witness :
    keepsLine "  // note".toList = true ∧
    (initParser.advance "  // note".toList).commandType = unrecognised ∧
    generateASMLoop ["  // note".toList] initParser (initCodeWriter "f.vm".toList) "X".toList =
      some (initCodeWriter "f.vm".toList, "X".toList, ["X".toList]) :=
  ⟨by decide, by decide,
    (C34_unrecognised_line_repeats "  // note".toList [] initParser
      (initCodeWriter "f.vm".toList) "X".toList (by decide) (by decide)).1⟩

end VMTranslator

namespace JackAnalyzer

open GoStr TokenType KeyWord

end JackAnalyzer
namespace JackAnalyzer

open GoStr TokenType KeyWord

theorem fuel_bind {α β : Type} (f : α → Result β) : (Result.fuel >>= f) = Result.fuel := rfl

theorem engineAt_token (p : Nat) (w out : List Str) (t : Str)
    (h : trailingCommaTokens[p]? = some t) :
    (engineAt p w out).token = .ok (t, engineAt p w out) :=
  token_at p trailingCommaTokens w out t h

theorem engineAt_tokenType (p : Nat) (w out : List Str) (t : Str) (c : TokenType)
    (h : trailingCommaTokens[p]? = some t) (hc : classify t = c) :
    (engineAt p w out).tokenType = .ok (c, engineAt p w out) := by
  rw [← hc]
  exact tokenType_at p trailingCommaTokens w out t h

theorem engineAt_keyWord (p : Nat) (w out : List Str) (t : Str) (k : KeyWord)
    (h : trailingCommaTokens[p]? = some t) (hk : (kerywordlist.lookup t).getD CLASS = k) :
    (engineAt p w out).keyWord = .ok (k, engineAt p w out) := by
  rw [← hk]
  simp only [CompilationEngine.keyWord, JackTokenizer.keyWord, engineAt,
    getCurrentToken_at p trailingCommaTokens w t h, Option.map_some']

theorem engineAt_isSymbol (p : Nat) (w out : List Str) (t : Str) (ss : List Str) (b : Bool)
    (h : trailingCommaTokens[p]? = some t)
    (hb : (decide (classify t = SYMBOL) && ss.contains t) = b) :
    (engineAt p w out).isSymbol ss = .ok (b, engineAt p w out) := by
  rw [← hb]
  simp only [CompilationEngine.isSymbol, engineAt_tokenType p w out t _ h rfl, bind_ok]
  by_cases hc : classify t = SYMBOL
  · simp only [hc, if_true, engineAt_token p w out t h, bind_ok, pure_ok, decide_True,
      Bool.true_and]
  · simp only [hc, if_false, pure_ok, decide_False, Bool.false_and]

theorem engineAt_isKeyWord (p : Nat) (w out : List Str) (t : Str) (ks : List KeyWord) (b : Bool)
    (h : trailingCommaTokens[p]? = some t)
    (hb : (decide (classify t = KEYWORD) &&
      ks.contains ((kerywordlist.lookup t).getD CLASS)) = b) :
    (engineAt p w out).isKeyWord ks = .ok (b, engineAt p w out) := by
  rw [← hb]
  simp only [CompilationEngine.isKeyWord, engineAt_tokenType p w out t _ h rfl, bind_ok]
  by_cases hc : classify t = KEYWORD
  · simp only [hc, if_true, engineAt_keyWord p w out t _ h rfl, bind_ok, pure_ok, decide_True,
      Bool.true_and]
  · simp only [hc, if_false, pure_ok, decide_False, Bool.false_and]

theorem engineAt_symbolText (p : Nat) (w out : List Str) (t : Str)
    (h : trailingCommaTokens[p]? = some t) :
    (engineAt p w out).symbolText =
      .ok ("<symbol> ".toList ++ t ++ " </symbol>\n".toList, engineAt p w out) := by
  simp only [CompilationEngine.symbolText, engineAt_token p w out t h, bind_ok, pure_ok]

theorem engineAt_write (p : Nat) (w out : List Str) (s : Str) :
    (engineAt p w out).write s = engineAt p w (out ++ [s]) := rfl

theorem engineAt_increment (p : Nat) (w out : List Str) (h : p < 22) :
    (engineAt p w out).IncrementPointer = engineAt (p + 1) w out :=
  incrementPointer_at p trailingCommaTokens w out h

theorem engineAt_decrement (p : Nat) (w out : List Str) :
    (engineAt (p + 1) w out).DecrementPointer = engineAt p w out :=
  decrementPointer_at p trailingCommaTokens w out

theorem engineAt_compileSymbol (p : Nat) (w out : List Str) (t : Str)
    (h : trailingCommaTokens[p]? = some t) :
    (engineAt p w out).CompileSymbol =
      .ok (engineAt p w (out ++ ["<symbol> ".toList ++ t ++ " </symbol>\n".toList])) :=
  compileSymbol_at p trailingCommaTokens w out t h

theorem engineAt_compileIdentifier (p : Nat) (w out : List Str) (t : Str)
    (h : trailingCommaTokens[p]? = some t) :
    (engineAt p w out).CompileIdentifier =
      .ok (engineAt p w (out ++ ["<identifier> ".toList ++ t ++ " </identifier>\n".toList])) :=
  compileIdentifier_at p trailingCommaTokens w out t h

theorem engineAt_compileKeyWord (p : Nat) (w out : List Str) (t : Str)
    (h : trailingCommaTokens[p]? = some t) :
    (engineAt p w out).CompileKeyWord =
      .ok (engineAt p w (out ++ ["<keyword> ".toList ++ t ++ " </keyword>\n".toList])) :=
  compileKeyWord_at p trailingCommaTokens w out t h

theorem engineAt_intVal (p : Nat) (w out : List Str) (t : Str)
    (h : trailingCommaTokens[p]? = some t) :
    (engineAt p w out).jackTokenizer.intVal =
      some ((atoi t).1, (engineAt p w out).jackTokenizer) := by
  simp only [JackTokenizer.intVal, engineAt, getCurrentToken_at p trailingCommaTokens w t h,
    Option.map_some']

end JackAnalyzer
namespace JackAnalyzer

open GoStr TokenType KeyWord

theorem result_bind_assoc {α β γ : Type} (r : Result α) (g : α → Result β) (f : β → Result γ) :
    ((r >>= g) >>= f) = (r >>= fun a => g a >>= f) := by
  cases r <;> rfl

/-- The term at the closing parenthesis after the comma: no term, the pointer
goes back to the comma. -/
theorem termOutput_16 (k : Nat) (w out : List Str) {β : Type}
    (f : CompilationEngine × Str → Result β) (hf : f (engineAt 15 w out, []) = .fuel) :
    (compile k .CompileTermOutput (engineAt 16 w out) >>= f) = .fuel := by
  cases k with
  | zero => rfl
  | succ k =>
    have t16 := engineAt_tokenType 16 w out ")".toList SYMBOL rfl (by decide)
    have s16a := engineAt_isSymbol 16 w out ")".toList ["(".toList] false rfl (by decide)
    have s16b := engineAt_isSymbol 16 w out ")".toList ["-".toList, "~".toList] false rfl
      (by decide)
    have k16 := engineAt_isKeyWord 16 w out ")".toList [THIS, NULL, TRUE, FALSE] false rfl
      (by decide)
    have d16 : (engineAt 16 w out).DecrementPointer = engineAt 15 w out :=
      engineAt_decrement 15 w out
    simp only [compile, t16, bind_ok, pure_ok, s16a, s16b, k16, d16, if_false,
      Bool.false_eq_true, reduceCtorEq]
    exact hf

theorem term_16 (k : Nat) (w out : List Str) {β : Type}
    (f : CompilationEngine × Str → Result β) (hf : f (engineAt 15 w out, []) = .fuel) :
    (compile k .CompileTerm (engineAt 16 w out) >>= f) = .fuel := by
  cases k with
  | zero => rfl
  | succ k =>
    simp only [compile, result_bind_assoc]
    apply termOutput_16
    simp only [ne_eq, not_true_eq_false, if_false, pure_ok, bind_ok]
    exact hf

theorem operatorLoop_16 (k : Nat) (w out : List Str) {β : Type}
    (f : CompilationEngine × Str → Result β) (hf : f (engineAt 16 w out, []) = .fuel) :
    (compile k .operatorLoop (engineAt 16 w out) >>= f) = .fuel := by
  cases k with
  | zero => rfl
  | succ k =>
    have t16 := engineAt_tokenType 16 w out ")".toList SYMBOL rfl (by decide)
    have g16 := engineAt_token 16 w out ")".toList rfl
    have om : operatorMatch ")".toList = false := by decide
    simp only [compile, t16, g16, om, bind_ok, pure_ok, if_true, if_false, Bool.false_eq_true]
    exact hf

/-- The expression after the comma: the pointer moves on to the closing
parenthesis and the text returned is empty. -/
theorem expressionOutput_15 (k : Nat) (w out : List Str) {β : Type}
    (f : CompilationEngine × Str → Result β) (hf : f (engineAt 16 w out, []) = .fuel) :
    (compile k .CompileExpressionOutput (engineAt 15 w out) >>= f) = .fuel := by
  cases k with
  | zero => rfl
  | succ k =>
    have i15 : (engineAt 15 w out).IncrementPointer = engineAt 16 w out :=
      engineAt_increment 15 w out (by decide)
    simp only [compile, i15, result_bind_assoc]
    apply term_16
    simp only [i15]
    apply operatorLoop_16
    simp only [pure_ok, bind_ok, List.append_nil]
    exact hf

/-- The loop over the arguments of a call inside a term, at the comma that is
followed by the closing parenthesis: every round ends where it began, so no
amount of fuel is enough. -/
theorem argumentLoop_15 (k : Nat) (w out : List Str) :
    compile k .argumentLoop (engineAt 15 w out) = .fuel := by
  induction k with
  | zero => rfl
  | succ k ih =>
    have s15 := engineAt_isSymbol 15 w out ",".toList [",".toList] true rfl (by decide)
    have x15 := engineAt_symbolText 15 w out ",".toList rfl
    have d16 : (engineAt 16 w out).DecrementPointer = engineAt 15 w out :=
      engineAt_decrement 15 w out
    simp only [compile, s15, x15, bind_ok, if_true]
    apply expressionOutput_15
    simp only [ne_eq, not_true_eq_false, if_false, d16, ih, fuel_bind]

end JackAnalyzer
namespace JackAnalyzer

open GoStr TokenType KeyWord

theorem termOutput_14 (k : Nat) (w out : List Str) {β : Type}
    (f : CompilationEngine × Str → Result β) (hf : ∀ s, f (engineAt 14 w out, s) = .fuel) :
    (compile k .CompileTermOutput (engineAt 14 w out) >>= f) = .fuel := by
  cases k with
  | zero => rfl
  | succ k =>
    have t14 := engineAt_tokenType 14 w out "1".toList INT_CONST rfl (by decide)
    have v14 := engineAt_intVal 14 w out "1".toList rfl
    simp only [compile, t14, v14, bind_ok, pure_ok, if_true, if_false, reduceCtorEq]
    exact hf _

theorem term_14 (k : Nat) (w out : List Str) {β : Type}
    (f : CompilationEngine × Str → Result β) (hf : ∀ s, f (engineAt 14 w out, s) = .fuel) :
    (compile k .CompileTerm (engineAt 14 w out) >>= f) = .fuel := by
  cases k with
  | zero => rfl
  | succ k =>
    simp only [compile, result_bind_assoc]
    apply termOutput_14
    intro s
    by_cases hs : s = []
    · simp only [hs, ne_eq, not_true_eq_false, if_false, pure_ok, bind_ok]
      exact hf _
    · simp only [ne_eq, hs, not_false_eq_true, if_true, pure_ok, bind_ok]
      exact hf _

theorem operatorLoop_15 (k : Nat) (w out : List Str) {β : Type}
    (f : CompilationEngine × Str → Result β) (hf : f (engineAt 15 w out, []) = .fuel) :
    (compile k .operatorLoop (engineAt 15 w out) >>= f) = .fuel := by
  cases k with
  | zero => rfl
  | succ k =>
    have t15 := engineAt_tokenType 15 w out ",".toList SYMBOL rfl (by decide)
    have g15 := engineAt_token 15 w out ",".toList rfl
    have om : operatorMatch ",".toList = false := by decide
    simp only [compile, t15, g15, om, bind_ok, pure_ok, if_true, if_false, Bool.false_eq_true]
    exact hf

/-- The first argument `1`: the expression ends at the comma. -/
theorem expressionOutput_13 (k : Nat) (w out : List Str) {β : Type}
    (f : CompilationEngine × Str → Result β) (hf : ∀ s, f (engineAt 15 w out, s) = .fuel) :
    (compile k .CompileExpressionOutput (engineAt 13 w out) >>= f) = .fuel := by
  cases k with
  | zero => rfl
  | succ k =>
    have i13 : (engineAt 13 w out).IncrementPointer = engineAt 14 w out :=
      engineAt_increment 13 w out (by decide)
    have i14 : (engineAt 14 w out).IncrementPointer = engineAt 15 w out :=
      engineAt_increment 14 w out (by decide)
    simp only [compile, i13, result_bind_assoc]
    apply term_14
    intro s
    simp only [i14]
    apply operatorLoop_15
    simp only [pure_ok, bind_ok]
    exact hf _

/-- The term `foo(1,)`: the call of `foo` reaches the loop over the
arguments. -/
theorem termOutput_12 (k : Nat) (w out : List Str) :
    compile k .CompileTermOutput (engineAt 12 w out) = .fuel := by
  cases k with
  | zero => rfl
  | succ k =>
    have t12 := engineAt_tokenType 12 w out "foo".toList IDENTIFIER rfl (by decide)
    have s12 := engineAt_isSymbol 12 w out "foo".toList ["(".toList] false rfl (by decide)
    have k12 := engineAt_isKeyWord 12 w out "foo".toList [THIS, NULL, TRUE, FALSE] false rfl
      (by decide)
    have g12 := engineAt_token 12 w out "foo".toList rfl
    have i12 : (engineAt 12 w out).IncrementPointer = engineAt 13 w out :=
      engineAt_increment 12 w out (by decide)
    have s13a := engineAt_isSymbol 13 w out "(".toList ["[".toList] false rfl (by decide)
    have s13b := engineAt_isSymbol 13 w out "(".toList ["(".toList, ".".toList] true rfl
      (by decide)
    have x13 := engineAt_symbolText 13 w out "(".toList rfl
    have g13 := engineAt_token 13 w out "(".toList rfl
    have hne : ¬ "(".toList = ".".toList := by decide
    simp only [compile, t12, s12, k12, g12, i12, s13a, s13b, x13, g13, hne, bind_ok, pure_ok,
      if_true, if_false, Bool.false_eq_true, reduceCtorEq]
    apply expressionOutput_13
    intro s
    simp only [argumentLoop_15, fuel_bind]

theorem term_12 (k : Nat) (w out : List Str) :
    compile k .CompileTerm (engineAt 12 w out) = .fuel := by
  cases k with
  | zero => rfl
  | succ k => simp only [compile, termOutput_12, fuel_bind]

theorem expressionOutput_11 (k : Nat) (w out : List Str) :
    compile k .CompileExpressionOutput (engineAt 11 w out) = .fuel := by
  cases k with
  | zero => rfl
  | succ k =>
    have i11 : (engineAt 11 w out).IncrementPointer = engineAt 12 w out :=
      engineAt_increment 11 w out (by decide)
    simp only [compile, i11, term_12, fuel_bind]

theorem expression_11 (k : Nat) (w out : List Str) :
    compile k .CompileExpression (engineAt 11 w out) = .fuel := by
  cases k with
  | zero => rfl
  | succ k => simp only [compile, expressionOutput_11, fuel_bind]

/-- The statement `let x = foo(1,);`. -/
theorem let_9 (k : Nat) (w out : List Str) :
    compile k .CompileLet (engineAt 9 w out) = .fuel := by
  cases k with
  | zero => rfl
  | succ k =>
    have c9 := fun o => engineAt_compileKeyWord 9 w o "let".toList rfl
    have i9 : ∀ o, (engineAt 9 w o).IncrementPointer = engineAt 10 w o :=
      fun o => engineAt_increment 9 w o (by decide)
    have c10 := fun o => engineAt_compileIdentifier 10 w o "x".toList rfl
    have i10 : ∀ o, (engineAt 10 w o).IncrementPointer = engineAt 11 w o :=
      fun o => engineAt_increment 10 w o (by decide)
    have s11 := fun o => engineAt_isSymbol 11 w o "=".toList ["[".toList] false rfl (by decide)
    have c11 := fun o => engineAt_compileSymbol 11 w o "=".toList rfl
    simp only [compile, engineAt_write, c9, i9, c10, i10, s11, c11, bind_ok, pure_ok, if_false,
      Bool.false_eq_true, expression_11, fuel_bind]

theorem statementLoop_9 (k : Nat) (w out : List Str) :
    compile k .statementLoop (engineAt 9 w out) = .fuel := by
  cases k with
  | zero => rfl
  | succ k =>
    have t9 := engineAt_tokenType 9 w out "let".toList KEYWORD rfl (by decide)
    have k9 := engineAt_keyWord 9 w out "let".toList LET rfl (by decide)
    simp only [compile, t9, k9, bind_ok, if_true, let_9, fuel_bind]

theorem statements_8 (k : Nat) (w out : List Str) :
    compile k .CompileStatements (engineAt 8 w out) = .fuel := by
  cases k with
  | zero => rfl
  | succ k =>
    have i8 : ∀ o, (engineAt 8 w o).IncrementPointer = engineAt 9 w o :=
      fun o => engineAt_increment 8 w o (by decide)
    simp only [compile, engineAt_write, i8, statementLoop_9, fuel_bind]

end JackAnalyzer
namespace JackAnalyzer

open GoStr TokenType KeyWord

theorem classVarDecLoop_3 (k : Nat) (w out : List Str) {β : Type}
    (f : CompilationEngine × Str → Result β) (hf : f (engineAt 3 w out, []) = .fuel) :
    (compile k .classVarDecLoop (engineAt 3 w out) >>= f) = .fuel := by
  cases k with
  | zero => rfl
  | succ k =>
    have k3 := engineAt_isKeyWord 3 w out "function".toList [STATIC, FIELD] false rfl (by decide)
    simp only [compile, k3, bind_ok, pure_ok, if_false, Bool.false_eq_true]
    exact hf

theorem classVarDec_2 (k : Nat) (w out : List Str) {β : Type}
    (f : CompilationEngine × Str → Result β) (hf : f (engineAt 2 w out, []) = .fuel) :
    (compile k .CompileClassVarDec (engineAt 2 w out) >>= f) = .fuel := by
  cases k with
  | zero => rfl
  | succ k =>
    have i2 : (engineAt 2 w out).IncrementPointer = engineAt 3 w out :=
      engineAt_increment 2 w out (by decide)
    have d3 : (engineAt 3 w out).DecrementPointer = engineAt 2 w out :=
      engineAt_decrement 2 w out
    simp only [compile, i2, result_bind_assoc]
    apply classVarDecLoop_3
    simp only [d3, pure_ok, bind_ok]
    exact hf

theorem parameterList_6 (k : Nat) (w out : List Str) {β : Type}
    (f : CompilationEngine × Str → Result β) (hf : f (engineAt 6 w out, []) = .fuel) :
    (compile k .CompileParameterList (engineAt 6 w out) >>= f) = .fuel := by
  cases k with
  | zero => rfl
  | succ k =>
    have i6 : (engineAt 6 w out).IncrementPointer = engineAt 7 w out :=
      engineAt_increment 6 w out (by decide)
    have k7 := engineAt_isKeyWord 7 w out ")".toList [BOOLEAN, CHAR, INT, VOID] false rfl
      (by decide)
    have t7 := engineAt_tokenType 7 w out ")".toList SYMBOL rfl (by decide)
    have d7 : (engineAt 7 w out).DecrementPointer = engineAt 6 w out :=
      engineAt_decrement 6 w out
    simp only [compile, i6, k7, t7, d7, bind_ok, pure_ok, if_false, Bool.false_eq_true,
      reduceCtorEq]
    exact hf

theorem varDecLoop_9 (k : Nat) (w out : List Str) {β : Type}
    (f : CompilationEngine × Str → Result β) (hf : f (engineAt 9 w out, []) = .fuel) :
    (compile k .varDecLoop (engineAt 9 w out) >>= f) = .fuel := by
  cases k with
  | zero => rfl
  | succ k =>
    have k9 := engineAt_isKeyWord 9 w out "let".toList [VAR] false rfl (by decide)
    simp only [compile, k9, bind_ok, pure_ok, if_false, Bool.false_eq_true]
    exact hf

/-- The subroutine `function void f() { let x = foo(1,); return; }`. -/
theorem subroutineLoop_3 (k : Nat) (w out : List Str) :
    compile k .subroutineLoop (engineAt 3 w out) = .fuel := by
  cases k with
  | zero => rfl
  | succ k =>
    have k3 := fun o => engineAt_isKeyWord 3 w o "function".toList
      [CONSTRUCTOR, FUNCTION, METHOD] true rfl (by decide)
    have c3 := fun o => engineAt_compileKeyWord 3 w o "function".toList rfl
    have i3 : ∀ o, (engineAt 3 w o).IncrementPointer = engineAt 4 w o :=
      fun o => engineAt_increment 3 w o (by decide)
    have k4 := fun o => engineAt_isKeyWord 4 w o "void".toList [BOOLEAN, CHAR, INT, VOID] true
      rfl (by decide)
    have c4 := fun o => engineAt_compileKeyWord 4 w o "void".toList rfl
    have i4 : ∀ o, (engineAt 4 w o).IncrementPointer = engineAt 5 w o :=
      fun o => engineAt_increment 4 w o (by decide)
    have c5 := fun o => engineAt_compileIdentifier 5 w o "f".toList rfl
    have i5 : ∀ o, (engineAt 5 w o).IncrementPointer = engineAt 6 w o :=
      fun o => engineAt_increment 5 w o (by decide)
    have c6 := fun o => engineAt_compileSymbol 6 w o "(".toList rfl
    have i6 : ∀ o, (engineAt 6 w o).IncrementPointer = engineAt 7 w o :=
      fun o => engineAt_increment 6 w o (by decide)
    have c7 := fun o => engineAt_compileSymbol 7 w o ")".toList rfl
    have i7 : ∀ o, (engineAt 7 w o).IncrementPointer = engineAt 8 w o :=
      fun o => engineAt_increment 7 w o (by decide)
    have c8 := fun o => engineAt_compileSymbol 8 w o "\x7b".toList rfl
    have i8 : ∀ o, (engineAt 8 w o).IncrementPointer = engineAt 9 w o :=
      fun o => engineAt_increment 8 w o (by decide)
    have d9 : ∀ o, (engineAt 9 w o).DecrementPointer = engineAt 8 w o :=
      fun o => engineAt_decrement 8 w o
    simp only [compile, CompilationEngine.compileType, engineAt_write, k3, c3, i3, k4, c4, i4, c5,
      i5, c6, bind_ok, pure_ok, if_true]
    apply parameterList_6
    simp only [engineAt_write, i6, c7, i7, c8, i8, bind_ok]
    apply varDecLoop_9
    simp only [d9, statements_8, fuel_bind]

theorem subroutine_2 (k : Nat) (w out : List Str) :
    compile k .CompileSubroutine (engineAt 2 w out) = .fuel := by
  cases k with
  | zero => rfl
  | succ k =>
    have i2 : (engineAt 2 w out).IncrementPointer = engineAt 3 w out :=
      engineAt_increment 2 w out (by decide)
    simp only [compile, i2, subroutineLoop_3]

/-- The class `class A { function void f() { let x = foo(1,); return; } }`:
`CompileClass` does not return, whatever the fuel. -/
theorem class_0 (k : Nat) (w out : List Str) :
    compile k .CompileClass (engineAt 0 w out) = .fuel := by
  cases k with
  | zero => rfl
  | succ k =>
    have c0 := fun o => engineAt_compileKeyWord 0 w o "class".toList rfl
    have i0 : ∀ o, (engineAt 0 w o).IncrementPointer = engineAt 1 w o :=
      fun o => engineAt_increment 0 w o (by decide)
    have c1 := fun o => engineAt_compileIdentifier 1 w o "A".toList rfl
    have i1 : ∀ o, (engineAt 1 w o).IncrementPointer = engineAt 2 w o :=
      fun o => engineAt_increment 1 w o (by decide)
    have c2 := fun o => engineAt_compileSymbol 2 w o "\x7b".toList rfl
    simp only [compile, engineAt_write, c0, i0, c1, i1, c2, bind_ok]
    apply classVarDec_2
    simp only [subroutine_2, fuel_bind]

set_option maxRecDepth 1000000 in
theorem scanLines_trailingComma :
    scanLines ["class A \x7b function void f() \x7b let x = foo(1,); return; \x7d \x7d".toList] false
      ⟨0, [], []⟩ = ⟨22, trailingCommaTokens, []⟩ := by
  decide

set_option maxRecDepth 1000000 in
/-- C35 at its failing input, the class
`class A { function void f() { let x = foo(1,); return; } }`: the tokenizer
returns the 22 tokens, and `CompileClass` neither completes nor fails on them,
whatever the fuel, here and from any state of the two writers. In the loop of
`CompileTermOutput` over the arguments, the expression after the last comma is
empty, `DecrementPointer` puts the pointer back on the comma, and the next
round finds the comma again. The same list in a `do` statement, which
`CompileExpressionList` reads, is compiled to the end. -/
theorem C35_trailing_comma_never_returns (fuel : Nat) :
    (initJackTokenizer
      ["class A \x7b function void f() \x7b let x = foo(1,); return; \x7d \x7d".toList]).map
        (fun jt => jt.tokenList) = some trailingCommaTokens ∧
    (analyze fuel ["class A \x7b function void f() \x7b let x = foo(1,); return; \x7d \x7d".toList]).map
        (fun r => r.2) = some Result.fuel ∧
    (∀ w out : List Str, compile fuel .CompileClass (engineAt 0 w out) = Result.fuel) ∧
    (∀ w out : List Str, compile fuel .argumentLoop (engineAt 15 w out) = Result.fuel) ∧
    (parseTree 14
      ["class A \x7b function void f() \x7b do foo(1,); return; \x7d \x7d".toList]).isSome = true := by
  obtain ⟨w2, hx⟩ := writeTXML_ok ⟨22, trailingCommaTokens, []⟩
  have hi : initJackTokenizer
      ["class A \x7b function void f() \x7b let x = foo(1,); return; \x7d \x7d".toList] =
      some ⟨0, trailingCommaTokens, w2⟩ := by
    simp only [initJackTokenizer, scanLines_trailingComma, hx]
  refine ⟨?_, ?_, class_0 fuel, argumentLoop_15 fuel, by decide⟩
  · rw [hi]
    rfl
  · have hc := class_0 fuel w2 []
    simp only [analyze, hi, Option.map_some']
    exact congrArg some hc

end JackAnalyzer

namespace HackAssembler

open GoStr CommandType

/-! ### The two passes on the lines of a file as they are -/

theorem commandType_A (p : Parser) (h : p.commandType = A_COMMAND) :
    ∃ t, p.currentCommand = '@' :: t := by
  have hs : startsWith p.currentCommand "@".toList = true := by
    by_contra hc
    have hc2 : startsWith p.currentCommand "@".toList = false := by simpa using hc
    unfold Parser.commandType at h
    rw [hc2] at h
    simp only [Bool.false_eq_true, if_false] at h
    split at h <;> cases h
  cases hcc : p.currentCommand with
  | nil => rw [hcc] at hs; simp [startsWith, List.isPrefixOf] at hs
  | cons c t =>
    rw [hcc] at hs
    have : '@' = c := by
      simpa [startsWith, List.isPrefixOf] using hs
    exact ⟨t, by rw [this]⟩

theorem readLine_skip (l : Str) (h : keepsLine l = false) : readLine l = none := by
  simp [readLine, h]

theorem readLine_label (l : Str) (h : isLabelLine l = true) :
    readLine l = some (.label (initParser.advance l).symbol) := by
  simp only [readLine, isLabelLine_keeps l h, if_true, isLabelLine_type l initParser h]

theorem readLine_aInstr (l s : Str) (h : readLine l = some (.aInstr s)) :
    keepsLine l = true ∧ (initParser.advance l).commandType = A_COMMAND ∧
      (initParser.advance l).symbol = s := by
  by_cases hk : keepsLine l = true
  · simp only [readLine, hk, if_true] at h
    cases hc : (initParser.advance l).commandType <;> rw [hc] at h <;>
      simp only [Option.some.injEq, SourceLine.aInstr.injEq, reduceCtorEq] at h
    exact ⟨hk, rfl, h⟩
  · simp [readLine, hk] at h

theorem readLine_isLabel (l name : Str) (h : readLine l = some (.label name)) :
    isLabelLine l = true ∧ (initParser.advance l).symbol = name := by
  by_cases hk : keepsLine l = true
  · simp only [readLine, hk, if_true] at h
    cases hc : (initParser.advance l).commandType <;> rw [hc] at h <;>
      simp only [Option.some.injEq, SourceLine.label.injEq, reduceCtorEq] at h
    exact ⟨by simp [isLabelLine, hk, hc], h⟩
  · simp [readLine, hk] at h

theorem readProgram_cons_none (l : Str) (rest : List Str) (h : readLine l = none) :
    readProgram (l :: rest) = readProgram rest := by
  simp [readProgram, List.filterMap_cons, h]

theorem readProgram_cons_some (l : Str) (rest : List Str) (x : SourceLine)
    (h : readLine l = some x) : readProgram (l :: rest) = x :: readProgram rest := by
  simp [readProgram, List.filterMap_cons, h]

theorem readProgram_append (p q : List Str) :
    readProgram (p ++ q) = readProgram p ++ readProgram q := by
  simp [readProgram, List.filterMap_append]

/-- Pass 1 on the lines of a file binds the labels of the program read from
them, and counts its instructions. -/
theorem addLCOMMAND_read (lines : List Str) :
    ∀ (p : Parser) (t : SymbolTable),
      (addLCOMMAND lines p t).2 = bindLabels (readProgram lines) p.ramAddress t ∧
      (addLCOMMAND lines p t).1.ramAddress =
        p.ramAddress + (instructionCount (readProgram lines) : Int) := by
  induction lines with
  | nil => intro p t; simp [addLCOMMAND, readProgram, bindLabels, instructionCount]
  | cons l rest ih =>
    intro p t
    by_cases hk : keepsLine l = true
    · by_cases hl : (initParser.advance l).commandType = L_COMMAND
      · have hlab : isLabelLine l = true := by simp [isLabelLine, hk, hl]
        rw [addLCOMMAND_labelLine l rest p t hlab,
          readProgram_cons_some l rest _ (readLine_label l hlab), instructionCount_label]
        obtain ⟨h1, h2⟩ := ih (p.advance l) (t.addEntry (initParser.advance l).symbol p.ramAddress)
        exact ⟨h1, h2⟩
      · have hc : ¬ (p.advance l).commandType = L_COMMAND := by
          rw [commandType_advance]; exact hl
        have hstep : addLCOMMAND (l :: rest) p t =
            addLCOMMAND rest { p.advance l with ramAddress := (p.advance l).ramAddress + 1 } t := by
          simp only [addLCOMMAND, hk, hc, if_true, if_false]
        obtain ⟨h1, h2⟩ := ih { p.advance l with ramAddress := (p.advance l).ramAddress + 1 } t
        rw [hstep]
        cases hct : (initParser.advance l).commandType with
        | L_COMMAND => exact absurd hct hl
        | A_COMMAND =>
          have hr : readLine l = some (.aInstr (initParser.advance l).symbol) := by
            simp only [readLine, hk, if_true, hct]
          rw [readProgram_cons_some l rest _ hr, instructionCount_aInstr]
          refine ⟨by rw [h1]; rfl, ?_⟩
          rw [h2]
          show p.ramAddress + 1 + _ = _
          push_cast
          ring
        | C_COMMAND =>
          have hr : readLine l = some (.cInstr (initParser.advance l).currentCommand) := by
            simp only [readLine, hk, if_true, hct]
          rw [readProgram_cons_some l rest _ hr, instructionCount_cInstr]
          refine ⟨by rw [h1]; rfl, ?_⟩
          rw [h2]
          show p.ramAddress + 1 + _ = _
          push_cast
          ring
    · have hk2 : keepsLine l = false := by simpa using hk
      rw [addLCOMMAND_skip l rest p t hk2, readProgram_cons_none l rest (readLine_skip l hk2)]
      exact ih p t

/-- After pass 1 on the lines of a file, a label with no later definition is
bound to the number of instructions before its line. -/
theorem pass1_label_read (pre post : List Str) (l name : Str) (table : SymbolTable)
    (hl : readLine l = some (.label name)) (hpost : SourceLine.label name ∉ readProgram post) :
    (addLCOMMAND (pre ++ l :: post) initParser table).2.lookup name =
      some (instructionCount (readProgram pre) : Int) := by
  rw [(addLCOMMAND_read _ initParser table).1, readProgram_append,
    readProgram_cons_some l post _ hl, bindLabels_append]
  simp only [bindLabels]
  rw [bindLabels_lookup_absent _ name hpost, lookup_cons_self]
  simp [initParser]

/-- One round of pass 2 on a kept line, by what is read in the line. -/
theorem generateHackStep_read (p : Parser) (t : SymbolTable) (l : Str) (x : SourceLine)
    (h : readLine l = some x) :
    keepsLine l = true ∧
    generateHackStep (p.advance l) t =
      match x with
      | .label _ => (p.advance l, t, [])
      | .cInstr _ => (p.advance l, t, [writeCCommand (p.advance l)])
      | .aInstr _ =>
        ((writeACommand (p.advance l) t).1, (writeACommand (p.advance l) t).2.1,
          [(writeACommand (p.advance l) t).2.2]) := by
  by_cases hk : keepsLine l = true
  · refine ⟨hk, ?_⟩
    simp only [readLine, hk, if_true] at h
    cases hc : (initParser.advance l).commandType with
    | A_COMMAND =>
      rw [hc] at h
      simp only [Option.some.injEq] at h
      subst h
      have hc2 : (p.advance l).commandType = A_COMMAND := by rw [commandType_advance]; exact hc
      obtain ⟨s, hs⟩ := commandType_A _ hc2
      exact generateHackStep_at _ _ s hs
    | C_COMMAND =>
      rw [hc] at h
      simp only [Option.some.injEq] at h
      subst h
      have hc2 : (p.advance l).commandType = C_COMMAND := by rw [commandType_advance]; exact hc
      exact generateHackStep_c _ _ hc2
    | L_COMMAND =>
      rw [hc] at h
      simp only [Option.some.injEq] at h
      subst h
      have hc2 : (p.advance l).commandType = L_COMMAND := by rw [commandType_advance]; exact hc
      exact generateHackStep_label _ _ hc2
  · simp [readLine, hk] at h

/-- The current command of an A-instruction line is `@` and its symbol. -/
theorem advance_aInstr (p : Parser) (l s : Str) (h : readLine l = some (.aInstr s)) :
    (p.advance l).currentCommand = '@' :: s := by
  obtain ⟨_, hc, hs⟩ := readLine_aInstr l s h
  have hc2 : (p.advance l).commandType = A_COMMAND := by rw [commandType_advance]; exact hc
  obtain ⟨t, ht⟩ := commandType_A _ hc2
  have hsym := symbol_at (p.advance l) t ht
  rw [symbol_advance, hs] at hsym
  rw [ht, hsym]

/-- Pass 2 on the lines of a file allocates the new symbols of the program
read from them in the order of their first occurrence, and writes one string
for every instruction. -/
theorem pass2_allocated_read (table1 : SymbolTable) (lines : List Str) :
    ∀ (parser : Parser) (table : SymbolTable) (vars : List Str),
      Allocated table1 vars parser.ramAddress table →
      Allocated table1 (newSymbols table1 (readProgram lines) vars)
        (generateHackLoop lines parser table).1.ramAddress
        (generateHackLoop lines parser table).2.1 ∧
      (generateHackLoop lines parser table).2.2.length =
        instructionCount (readProgram lines) := by
  induction lines with
  | nil => intro parser table vars h; exact ⟨h, rfl⟩
  | cons l rest ih =>
    intro parser table vars hall
    cases hr : readLine l with
    | none =>
      have hk : keepsLine l = false := by
        by_contra hc
        have hk : keepsLine l = true := by simpa using hc
        simp only [readLine, hk, if_true] at hr
        cases hct : (initParser.advance l).commandType <;> rw [hct] at hr <;> cases hr
      rw [generateHackLoop_skip l rest parser table hk, readProgram_cons_none l rest hr]
      exact ih parser table vars hall
    | some x =>
      obtain ⟨hk, hstep⟩ := generateHackStep_read parser table l x hr
      rw [generateHackLoop_cons l rest parser table hk, readProgram_cons_some l rest x hr]
      cases x with
      | label n =>
        simp only [] at hstep
        rw [hstep]
        have := ih (parser.advance l) table vars hall
        simpa [instructionCount_label, newSymbols] using this
      | cInstr c =>
        simp only [] at hstep
        rw [hstep]
        have := ih (parser.advance l) table vars hall
        simpa [instructionCount_cInstr, newSymbols] using this
      | aInstr s =>
        simp only [] at hstep
        rw [hstep]
        have hcur := advance_aInstr parser l s hr
        have hs := (allocated_step table1 vars (parser.advance l) table s hall hcur).1
        obtain ⟨h1, h2⟩ := ih (writeACommand (parser.advance l) table).1
          (writeACommand (parser.advance l) table).2.1 _ hs
        have hns : newSymbols table1 (SourceLine.aInstr s :: readProgram rest) vars =
            newSymbols table1 (readProgram rest) (newSymbols table1 [SourceLine.aInstr s] vars) :=
          newSymbols_append table1 [SourceLine.aInstr s] (readProgram rest) vars
        rw [hns]
        refine ⟨h1, ?_⟩
        simp only [List.length_append, List.length_cons, List.length_nil, h2,
          instructionCount_aInstr]
        omega

end HackAssembler

namespace HackAssembler

open GoStr CommandType

theorem generateHackLoop_length (lines : List Str) :
    ∀ (parser : Parser) (table : SymbolTable),
      (generateHackLoop lines parser table).2.2.length = instructionCount (readProgram lines) := by
  induction lines with
  | nil => intro parser table; rfl
  | cons l rest ih =>
    intro parser table
    cases hr : readLine l with
    | none =>
      have hk : keepsLine l = false := by
        by_contra hc
        have hk : keepsLine l = true := by simpa using hc
        simp only [readLine, hk, if_true] at hr
        cases hct : (initParser.advance l).commandType <;> rw [hct] at hr <;> cases hr
      rw [generateHackLoop_skip l rest parser table hk, readProgram_cons_none l rest hr]
      exact ih parser table
    | some x =>
      obtain ⟨hk, hstep⟩ := generateHackStep_read parser table l x hr
      rw [generateHackLoop_cons l rest parser table hk, readProgram_cons_some l rest x hr]
      cases x with
      | label n =>
        simp only [] at hstep
        rw [hstep]
        have := ih (parser.advance l) table
        simpa [instructionCount_label] using this
      | cInstr c =>
        simp only [] at hstep
        rw [hstep]
        have := ih (parser.advance l) table
        simp only [List.length_append, List.length_cons, List.length_nil, this,
          instructionCount_cInstr]
        omega
      | aInstr s =>
        simp only [] at hstep
        rw [hstep]
        have := ih (writeACommand (parser.advance l) table).1
          (writeACommand (parser.advance l) table).2.1
        simp only [List.length_append, List.length_cons, List.length_nil, this,
          instructionCount_aInstr]
        omega

/-- The string pass 2 writes for an A-instruction line whose symbol the
table binds. -/
theorem pass2_symbol_read (p1 p2 : List Str) (a name : Str) (addr : Int) (parser : Parser)
    (table : SymbolTable) (ha : readLine a = some (.aInstr name))
    (hlit : (atoi name).2 = false) (hlook : table.lookup name = some addr) :
    (generateHackLoop (p1 ++ a :: p2) parser table).2.2[instructionCount (readProgram p1)]? =
      some (aWord addr) := by
  have hlook1 := generateHackLoop_keeps name addr p1 parser table hlook
  have hlen := generateHackLoop_length p1 parser table
  obtain ⟨hk, hstep⟩ := generateHackStep_read (generateHackLoop p1 parser table).1
    (generateHackLoop p1 parser table).2.1 a _ ha
  simp only [] at hstep
  have hcur := advance_aInstr (generateHackLoop p1 parser table).1 a name ha
  rw [generateHackLoop_append, generateHackLoop_cons a p2 _ _ hk, hstep,
    writeACommand_known _ _ name hcur hlit (contains_of_lookup _ _ _ hlook1),
    getAddress_of_lookup _ _ _ hlook1]
  simp only []
  rw [List.getElem?_append_right (by omega), hlen]
  simp

/-- The string pass 2 writes for an A-instruction line whose symbol is new:
the word of 16 plus the position of the symbol among the new symbols of the
program. -/
theorem pass2_variable_read (table1 : SymbolTable) (p1 p2 : List Str) (a s : Str)
    (parser : Parser) (ha : readLine a = some (.aInstr s))
    (hlit : (atoi s).2 = false) (hnew : table1.contains s = false)
    (hram : parser.ramAddress = 16) :
    (generateHackLoop (p1 ++ a :: p2) parser table1).2.2[instructionCount (readProgram p1)]? =
        some (aWord (16 + (position s
          (newSymbols table1 (readProgram (p1 ++ a :: p2)) []) : Int))) ∧
    s ∈ newSymbols table1 (readProgram (p1 ++ a :: p2)) [] := by
  have h0 : Allocated table1 [] parser.ramAddress table1 := by
    rw [hram]; exact allocated_init table1
  obtain ⟨hall, hlen⟩ := pass2_allocated_read table1 p1 parser table1 [] h0
  have hcur := advance_aInstr (generateHackLoop p1 parser table1).1 a s ha
  have hall2 : Allocated table1 (newSymbols table1 (readProgram p1) [])
      ((generateHackLoop p1 parser table1).1.advance a).ramAddress
      (generateHackLoop p1 parser table1).2.1 := hall
  obtain ⟨hw, hmem⟩ := (allocated_step table1 _
    ((generateHackLoop p1 parser table1).1.advance a) _ s hall2 hcur).2 hlit hnew
  have hns : newSymbols table1 (readProgram (p1 ++ a :: p2)) [] =
      newSymbols table1 (readProgram p2)
        (newSymbols table1 [SourceLine.aInstr s] (newSymbols table1 (readProgram p1) [])) := by
    rw [readProgram_append, readProgram_cons_some a p2 _ ha, newSymbols_append,
      show SourceLine.aInstr s :: readProgram p2 = [SourceLine.aInstr s] ++ readProgram p2
        from rfl, newSymbols_append]
  obtain ⟨ext, hext⟩ := newSymbols_extends table1 (readProgram p2)
    (newSymbols table1 [SourceLine.aInstr s] (newSymbols table1 (readProgram p1) []))
  rw [hns, hext, position_append_of_mem s _ ext hmem]
  refine ⟨?_, by simp [hmem]⟩
  obtain ⟨hk, hstep⟩ := generateHackStep_read (generateHackLoop p1 parser table1).1
    (generateHackLoop p1 parser table1).2.1 a _ ha
  simp only [] at hstep
  rw [generateHackLoop_append, generateHackLoop_cons a p2 _ _ hk, hstep, hw]
  simp only []
  rw [List.getElem?_append_right (by omega), hlen]
  simp

end HackAssembler

namespace GoStr

theorem split_head (sep s p q : Str) (h : indexCut sep s = some (p, q)) :
    (split s sep).getD 0 [] = p := by
  simp [split, splitAux, h]

theorem dropWhile_blank_append (a rest : Str) (c : Char) (ha : ∀ x ∈ a, isSpace x = true)
    (hc : isSpace c = false) : (a ++ c :: rest).dropWhile isSpace = c :: rest := by
  induction a with
  | nil => simp [List.dropWhile, hc]
  | cons x t ih =>
    have hx : isSpace x = true := ha x (by simp)
    have ht : ∀ y ∈ t, isSpace y = true := fun y hy => ha y (by simp [hy])
    simp only [List.cons_append, List.dropWhile, hx]
    exact ih ht

/-- The function `TrimSpace` on a text between two runs of white space. -/
theorem trimSpace_around (a b core : Str) (ha : ∀ x ∈ a, isSpace x = true)
    (hb : ∀ x ∈ b, isSpace x = true) (hne : core ≠ [])
    (hcore : ∀ x ∈ core, isSpace x = false) : trimSpace (a ++ (core ++ b)) = core := by
  obtain ⟨c, m, rfl⟩ := List.exists_cons_of_ne_nil hne
  have h1 : (a ++ (c :: m ++ b)).dropWhile isSpace = c :: m ++ b :=
    dropWhile_blank_append a (m ++ b) c ha (hcore c (by simp))
  have hrev : (c :: m).reverse ≠ [] := by simp
  obtain ⟨d, r, hdr⟩ := List.exists_cons_of_ne_nil hrev
  have hd : isSpace d = false := hcore d (by
    have : d ∈ (c :: m).reverse := by rw [hdr]; simp
    exact List.mem_reverse.mp this)
  have h2 : (c :: m ++ b).reverse = b.reverse ++ d :: r := by
    rw [List.reverse_append, hdr]
  have h3 : (b.reverse ++ d :: r).dropWhile isSpace = d :: r :=
    dropWhile_blank_append b.reverse r d (fun x hx => hb x (by simpa using hx)) hd
  unfold trimSpace
  rw [h1, h2, h3, ← hdr, List.reverse_reverse]

/-- The function `TrimSpace` leaves something of a text with a character that
is no white space. -/
theorem trimSpace_ne_nil (a rest : Str) (c : Char) (ha : ∀ x ∈ a, isSpace x = true)
    (hc : isSpace c = false) : trimSpace (a ++ c :: rest) ≠ [] := by
  unfold trimSpace
  rw [dropWhile_blank_append a rest c ha hc]
  intro h
  have h2 : ((c :: rest).reverse.dropWhile isSpace) = [] := by
    simpa using h
  have h3 : (c :: rest).reverse = rest.reverse ++ [c] := by simp
  rw [h3] at h2
  exact HackAssembler.dropWhile_append_last isSpace rest.reverse c hc h2

end GoStr

namespace HackAssembler

open GoStr CommandType

theorem isBlank_iff (s : Str) : isBlank s = true ↔ ∀ c ∈ s, isSpace c = true := by
  simp [isBlank, List.all_eq_true]

theorem render_ne_nil (l : SourceLine) (h : l.wellFormed = true) : l.render ≠ [] := by
  cases l with
  | aInstr s => simp [SourceLine.render]
  | label n => simp [SourceLine.render]
  | cInstr t =>
    cases t with
    | nil => simp [SourceLine.wellFormed] at h
    | cons c t => simp [SourceLine.render]

/-- The scanner keeps a line that holds an instruction or a label, with
white space around it and a comment after it, and `advance` makes the
instruction or label the current command. -/
theorem advance_renderIn (parser : Parser) (l : SourceLine) (indent trail : Str)
    (comment : Option Str) (h : l.wellFormed = true) (hi : isBlank indent = true)
    (ht : isBlank trail = true) :
    keepsLine (l.renderIn indent trail comment) = true ∧
    (parser.advance (l.renderIn indent trail comment)).currentCommand = l.render := by
  have hplain := (isPlain_iff _).mp (render_plain l h)
  have hne := render_ne_nil l h
  rw [isBlank_iff] at hi ht
  obtain ⟨c, m, hcm⟩ := List.exists_cons_of_ne_nil hne
  have hc : c ≠ '/' ∧ isSpace c = false := hplain c (by rw [hcm]; simp)
  have hslash : ∀ x ∈ indent ++ (l.render ++ trail), x ≠ '/' := by
    intro x hx
    simp only [List.mem_append] at hx
    rcases hx with hx | hx | hx
    · intro he; subst he; have := hi _ hx; revert this; decide
    · exact (hplain x hx).1
    · intro he; subst he; have := ht _ hx; revert this; decide
  have htrim : trimSpace (indent ++ (l.render ++ trail)) = l.render :=
    trimSpace_around indent trail l.render hi ht hne (fun x hx => (hplain x hx).2)
  have hfirst : startsWith (l.renderIn indent trail comment) "//".toList = false := by
    simp only [SourceLine.renderIn, hcm]
    cases indent with
    | nil => exact isPrefixOf_cons_ne '/' c ['/'] _ hc.1
    | cons x t =>
      have hx : x ≠ '/' := by
        intro he; subst he; have := hi _ (List.mem_cons_self _ _); revert this; decide
      exact isPrefixOf_cons_ne '/' x ['/'] _ hx
  have hsome : trimSpace (l.renderIn indent trail comment) ≠ [] := by
    simp only [SourceLine.renderIn, hcm]
    exact trimSpace_ne_nil indent _ c hi hc.2
  have hkeep : keepsLine (l.renderIn indent trail comment) = true := by
    simp only [keepsLine, hfirst, Bool.false_eq_true, if_false]
    have : (trimSpace (l.renderIn indent trail comment) == []) = false := by
      simpa using hsome
    simp [this]
  refine ⟨hkeep, ?_⟩
  have hsplit : (split (l.renderIn indent trail comment) "//".toList).getD 0 [] =
      indent ++ (l.render ++ trail) := by
    cases comment with
    | none =>
      have e : l.renderIn indent trail none = indent ++ (l.render ++ trail) := by
        simp [SourceLine.renderIn]
      rw [e, show "//".toList = '/' :: ['/'] from rfl, split_absent '/' ['/'] _ hslash]
      rfl
    | some text =>
      have e : l.renderIn indent trail (some text) =
          (indent ++ (l.render ++ trail)) ++ ('/' :: ['/']) ++ text := by
        simp [SourceLine.renderIn]
      rw [e]
      exact split_head _ _ _ _ (indexCut_found '/' ['/'] _ text hslash)
  simp only [Parser.advance, hsplit, htrim]

/-- What the two passes read in such a line is the instruction or label. -/
theorem readLine_renderIn (l : SourceLine) (indent trail : Str) (comment : Option Str)
    (h : l.wellFormed = true) (hi : isBlank indent = true) (ht : isBlank trail = true) :
    readLine (l.renderIn indent trail comment) = some l := by
  obtain ⟨hk, hcur⟩ := advance_renderIn initParser l indent trail comment h hi ht
  simp only [readLine, hk, if_true]
  cases l with
  | aInstr s =>
    rw [commandType_at _ s hcur, symbol_at _ s hcur]
  | label n =>
    have hn : ∀ c ∈ n, c ≠ ')' := by
      simp only [SourceLine.wellFormed, Bool.and_eq_true, List.all_eq_true, bne_iff_ne] at h
      exact h.2
    rw [commandType_label _ n hcur, symbol_label _ n hcur hn]
  | cInstr t =>
    cases t with
    | nil => simp [SourceLine.wellFormed] at h
    | cons c t =>
      simp only [SourceLine.wellFormed, Bool.and_eq_true, bne_iff_ne] at h
      rw [commandType_c _ c t hcur h.2.1 h.2.2, hcur]
      rfl

end HackAssembler

namespace HackAssembler

open GoStr CommandType

set_option maxRecDepth 1000000 in
/-- C4, over the lines of a file as they are: `readLine` is what the code
itself reads in a line. When `l` is a label line of the name `name` with no
later label line of that name (so every label defined once), pass 1 binds
`name` to the number of non-label instructions before the line, from any
symbol table, and, `name` being no decimal literal, the string pass 2 writes
for every A-instruction line of the symbol `name`, before or after the label
line, is the word of that address (for an address below 32768: `0`, its 15
bits and a line break). A line that holds `@symbol`, a C-instruction or
`(name)` with white space before and after it and a comment at its end is read
as that instruction or label. -/
theorem C4_label_addresses (pre post : List Str) (l name : Str) (table : SymbolTable)
    (hl : readLine l = some (.label name))
    (hpost : SourceLine.label name ∉ readProgram post) :
    (addLCOMMAND (pre ++ l :: post) initParser table).2.lookup name =
      some (instructionCount (readProgram pre) : Int) ∧
    (∀ (p1 p2 : List Str) (a : Str), pre ++ l :: post = p1 ++ a :: p2 →
      readLine a = some (.aInstr name) → (atoi name).2 = false →
      (assembleWith table (pre ++ l :: post)).2[instructionCount (readProgram p1)]? =
        some (aWord (instructionCount (readProgram pre) : Int))) ∧
    (instructionCount (readProgram pre) < 32768 →
      aWord (instructionCount (readProgram pre) : Int) =
        ('0' :: bitsBE 15 (instructionCount (readProgram pre))) ++ ['\n']) ∧
    (∀ (x : SourceLine) (indent trail : Str) (comment : Option Str),
      x.wellFormed = true → isBlank indent = true → isBlank trail = true →
      readLine (x.renderIn indent trail comment) = some x) ∧
    assemble ["  @END  // forward".toList, "\t0;JMP".toList, "(END) // target".toList,
        "@END".toList] =
      ["0000000000000010\n".toList, "1110101010000111\n".toList,
        "0000000000000010\n".toList] := by
  have h1 := pass1_label_read pre post l name table hl hpost
  refine ⟨h1, ?_, aWord_small _, ?_, by decide⟩
  · intro p1 p2 a heq ha hlit
    simp only [assembleWith, generateHack]
    rw [heq] at h1 ⊢
    exact pass2_symbol_read p1 p2 a name _ _ _ ha hlit h1
  · intro x indent trail comment hx hi ht
    exact readLine_renderIn x indent trail comment hx hi ht

set_option maxRecDepth 1000000 in
/-- The witness of C4: `@END` with a comment, an indented `0;JMP`, `(END)`
with a comment, `@END`, where `END` is bound to 2. -/
theorem C4_label_addresses_witness :
    readLine "(END) // target".toList = some (.label "END".toList) ∧
    SourceLine.label "END".toList ∉ readProgram ["@END".toList] ∧
    (addLCOMMAND (["  @END  // forward".toList, "\t0;JMP".toList] ++
        "(END) // target".toList :: ["@END".toList]) initParser
      initSymbolTable).2.lookup "END".toList = some 2 ∧
    (assembleWith initSymbolTable (["  @END  // forward".toList, "\t0;JMP".toList] ++
        "(END) // target".toList :: ["@END".toList])).2[0]? =
      some "0000000000000010\n".toList :=
  ⟨by decide, by decide,
    (C4_label_addresses ["  @END  // forward".toList, "\t0;JMP".toList] ["@END".toList]
      "(END) // target".toList "END".toList initSymbolTable (by decide) (by decide)).1,
    ((C4_label_addresses ["  @END  // forward".toList, "\t0;JMP".toList] ["@END".toList]
      "(END) // target".toList "END".toList initSymbolTable (by decide) (by decide)).2.1
      [] ["\t0;JMP".toList, "(END) // target".toList, "@END".toList]
      "  @END  // forward".toList rfl (by decide) (by decide)).trans (by decide)⟩

set_option maxRecDepth 1000000 in
/-- C5, over the lines of a file as they are: `readLine` is what the code
itself reads in a line. Let `a` be an A-instruction line whose symbol `s` is
no decimal literal and is not in the table after pass 1 (neither predefined
nor bound by a label). The string pass 2 writes for it is the word of the
address 16 + k, where k is the position of `s` in the list of such symbols
in the order of their first occurrence: the first new symbol gets 16, the
next 17, and so on, and every line of the same symbol gets the same address.
A line that holds `@symbol`, a C-instruction or `(name)` with white space
before and after it and a comment at its end is read as that instruction or
label. The program `(LOOP)`, `@i`, `M=1`, `@LOOP`, `0;JMP` is translated as
the specification states, also with indentation and comments. -/
theorem C5_variable_addresses (p1 p2 : List Str) (a s : Str) (table : SymbolTable)
    (ha : readLine a = some (.aInstr s)) (hlit : (atoi s).2 = false)
    (hnew : (addLCOMMAND (p1 ++ a :: p2) initParser table).2.contains s = false) :
    (assembleWith table (p1 ++ a :: p2)).2[instructionCount (readProgram p1)]? =
      some (aWord (16 + (position s
        (newSymbols (addLCOMMAND (p1 ++ a :: p2) initParser table).2
          (readProgram (p1 ++ a :: p2)) []) : Int))) ∧
    s ∈ newSymbols (addLCOMMAND (p1 ++ a :: p2) initParser table).2
      (readProgram (p1 ++ a :: p2)) [] ∧
    (∀ k : Nat, 16 + k < 32768 →
      aWord (16 + (k : Int)) = ('0' :: bitsBE 15 (16 + k)) ++ ['\n']) ∧
    (∀ (x : SourceLine) (indent trail : Str) (comment : Option Str),
      x.wellFormed = true → isBlank indent = true → isBlank trail = true →
      readLine (x.renderIn indent trail comment) = some x) ∧
    assemble ["(LOOP)".toList, "@i".toList, "M=1".toList, "@LOOP".toList, "0;JMP".toList] =
      ["0000000000010000\n".toList, "1110111111001000\n".toList, "0000000000000000\n".toList,
        "1110101010000111\n".toList] ∧
    assemble ["(LOOP)".toList, "   @i // counter".toList, "\tM=1".toList, "@LOOP   ".toList,
        "0;JMP // again".toList, "  @j".toList, "@i".toList] =
      ["0000000000010000\n".toList, "1110111111001000\n".toList, "0000000000000000\n".toList,
        "1110101010000111\n".toList, "0000000000010001\n".toList,
        "0000000000010000\n".toList] := by
  have h := pass2_variable_read (addLCOMMAND (p1 ++ a :: p2) initParser table).2 p1 p2 a s
    { (addLCOMMAND (p1 ++ a :: p2) initParser table).1 with
      currentCommand := [], ramAddress := 16 }
    ha hlit hnew rfl
  refine ⟨h.1, h.2, ?_, ?_, by decide, by decide⟩
  · intro k hk
    have := aWord_small (16 + k) hk
    rw [← this]
    push_cast
    rfl
  · intro x indent trail comment hx hi ht
    exact readLine_renderIn x indent trail comment hx hi ht

set_option maxRecDepth 1000000 in
/-- The witness of C5: `@i`, an indented `@j` with a comment, `@i`, where `j`
is the second new symbol and gets the address 17. -/
theorem C5_variable_addresses_witness :
    readLine "  @j // second".toList = some (.aInstr "j".toList) ∧
    (assembleWith initSymbolTable (["@i".toList] ++ "  @j // second".toList ::
      ["@i".toList])).2[1]? = some "0000000000010001\n".toList ∧
    "j".toList ∈ newSymbols initSymbolTable
      (readProgram (["@i".toList] ++ "  @j // second".toList :: ["@i".toList])) [] := by
  have h := C5_variable_addresses ["@i".toList] ["@i".toList] "  @j // second".toList
    "j".toList initSymbolTable (by decide) (by decide) (by decide)
  exact ⟨by decide, h.1.trans (by decide), h.2.1⟩

set_option maxRecDepth 1000000 in
/-- Claim C25, amended, over the lines of a file as they are: pass 1 never
fails. When `l1` and `l2` are two label lines of the same name, `l2` the last
of that name, pass 1 binds the name to the address of the later line (the
number of instructions before it), pass 2 writes one line for every
instruction of the program, and, when the name is no decimal literal, the
line for every A-instruction of that symbol is the word of the later address.
A line that holds `@symbol`, a C-instruction or `(name)` with white space
before and after it and a comment at its end is read as that instruction or
label. A decimal literal is never looked up: in `(5)`, `@1`, `(5)`, `@5` the
line for `@5` is the word of 5, though `5` is bound to 1. -/
theorem C25_later_label_wins (p1 p2 p3 : List Str) (l1 l2 name : Str) (table : SymbolTable)
    (h1 : readLine l1 = some (.label name)) (h2 : readLine l2 = some (.label name))
    (hlast : SourceLine.label name ∉ readProgram p3) :
    (addLCOMMAND (p1 ++ l1 :: (p2 ++ l2 :: p3)) initParser table).2.lookup name =
      some ((instructionCount (readProgram p1) + instructionCount (readProgram p2) : Nat) : Int) ∧
    (assembleWith table (p1 ++ l1 :: (p2 ++ l2 :: p3))).2.length =
      instructionCount (readProgram (p1 ++ l1 :: (p2 ++ l2 :: p3))) ∧
    (∀ (q1 q2 : List Str) (a : Str), p1 ++ l1 :: (p2 ++ l2 :: p3) = q1 ++ a :: q2 →
      readLine a = some (.aInstr name) → (atoi name).2 = false →
      (assembleWith table (p1 ++ l1 :: (p2 ++ l2 :: p3))).2[instructionCount (readProgram q1)]? =
        some (aWord ((instructionCount (readProgram p1) +
          instructionCount (readProgram p2) : Nat) : Int))) ∧
    (∀ (x : SourceLine) (indent trail : Str) (comment : Option Str),
      x.wellFormed = true → isBlank indent = true → isBlank trail = true →
      readLine (x.renderIn indent trail comment) = some x) ∧
    assemble ["(5)".toList, "@1".toList, "(5)".toList, "@5".toList] =
      ["0000000000000001\n".toList, "0000000000000101\n".toList] := by
  have hre : p1 ++ l1 :: (p2 ++ l2 :: p3) = (p1 ++ l1 :: p2) ++ l2 :: p3 := by simp
  have hcount : instructionCount (readProgram (p1 ++ l1 :: p2)) =
      instructionCount (readProgram p1) + instructionCount (readProgram p2) := by
    rw [readProgram_append, readProgram_cons_some l1 p2 _ h1, instructionCount_label_mid]
  have hb := pass1_label_read (p1 ++ l1 :: p2) p3 l2 name table h2 hlast
  rw [← hre, hcount] at hb
  refine ⟨hb, ?_, ?_, ?_, by decide⟩
  · simp only [assembleWith, generateHack]
    exact generateHackLoop_length _ _ _
  · intro q1 q2 a heq ha hlit
    simp only [assembleWith, generateHack]
    rw [heq] at hb ⊢
    exact pass2_symbol_read q1 q2 a name _ _ _ ha hlit hb
  · intro x indent trail comment hx hi ht
    exact readLine_renderIn x indent trail comment hx hi ht

set_option maxRecDepth 1000000 in
/-- Witness for C25: `@L`, `(L)`, `@1`, `D=A`, `(L)`, `@L`, with indentation
and comments, where `L` ends up bound to 3. -/
theorem C25_later_label_wins_witness :
    readLine "  (L)".toList = some (.label "L".toList) ∧
    readLine "\t(L) // again".toList = some (.label "L".toList) ∧
    (addLCOMMAND (["@L // first".toList] ++ "  (L)".toList ::
      (["@1".toList, "D=A".toList] ++ "\t(L) // again".toList :: ["@L".toList])) initParser
      initSymbolTable).2.lookup "L".toList = some 3 ∧
    assemble ["@L // first".toList, "  (L)".toList, "@1".toList, "D=A".toList,
        "\t(L) // again".toList, "@L".toList] =
      ["0000000000000011\n".toList, "0000000000000001\n".toList, "1110110000010000\n".toList,
        "0000000000000011\n".toList] :=
  ⟨by decide, by decide,
    (C25_later_label_wins ["@L // first".toList] ["@1".toList, "D=A".toList] ["@L".toList]
      "  (L)".toList "\t(L) // again".toList "L".toList initSymbolTable (by decide) (by decide)
      (by decide)).1, by decide⟩

end HackAssembler

namespace GoStr

end GoStr

namespace VMTranslator

open GoStr CommandType HackMachine

end VMTranslator

namespace VMTranslator

open GoStr CommandType HackMachine

/-- The code of `push constant c` pushes one value. -/
theorem pushesOneValue_constant (prog : List Instr) (start c sp lcl arg : Nat)
    (hc : CodeAt prog start (pushAddressCode c)) (hcw : c < 32768) (hl : 6 ≤ lcl)
    (hsp : lcl ≤ sp) (hk : sp + 1 < 32768) :
    PushesOneValue prog start (start + 7) sp lcl arg := by
  intro s hpc h0 h1 h2 hw
  obtain ⟨s2, r, p, a0, _, ao, w⟩ :=
    run_pushConstant prog s c sp (by rw [hpc]; exact hc) h0 (by omega) hk hcw hw
  refine ⟨7, s2, r, by rw [p, hpc], a0, ?_, ?_, ?_, w⟩
  · rw [ao 1 (by omega) (by omega), h1]
  · rw [ao 2 (by omega) (by omega), h2]
  · intro x hx1 hx2
    exact ao x (by omega) (by omega)

/-- A call of a function whose body pushes one value and returns, on the
machine: the run from the start of the call, with `n` arguments above `base`,
reaches the `return` of the function and, 57 steps later, the address `ret`
that the call pushed, with the value the body pushed at `base`, SP after it,
and the four segment pointers as before the call. -/
theorem run_call_body_return (prog : List Instr) (s0 : State)
    (n k base ret fa fr rt stop : Nat)
    (hc1 : CodeAt prog s0.pc (callCode ret fa n)) (hc2 : CodeAt prog fa (functionCode k))
    (hbody : PushesOneValue prog (fa + (5 + 2 * k)) stop (base + n + 5 + k) (base + n + 5) base)
    (hc4 : CodeAt prog stop (returnCode fr rt))
    (hfr : 5 ≤ fr) (hrt : 5 ≤ rt) (hne : fr ≠ rt) (hfa : fr < base) (hra : rt < base)
    (h0 : s0.ram 0 = base + n) (hm : base + n + k + 6 < 32768)
    (hret : ret < 32768) (hw : ∀ x, s0.ram x < 65536) :
    ∃ (m : Nat) (sr s : State), runFor prog m s0 = some sr ∧ sr.pc = stop ∧
      sr.ram 0 = base + n + 5 + k + 1 ∧
      runFor prog (m + 57) s0 = some s ∧ s.pc = ret ∧
      s.ram 0 = base + 1 ∧ s.ram base = sr.ram (base + n + 5 + k) ∧
      s.ram 1 = s0.ram 1 ∧ s.ram 2 = s0.ram 2 ∧ s.ram 3 = s0.ram 3 ∧ s.ram 4 = s0.ram 4 := by
  have b1 : 5 ≤ base + n := by omega
  have b2 : n ≤ base + n := by omega
  have b3 : base + n + 5 < 32768 := by omega
  have b4 : base + n + 5 - (n + 5) = base := by omega
  obtain ⟨s1, r1, p1, a0, a1, a2, a3, a4, f0, f1, f2, f3, f4, o1, w1⟩ :=
    run_call prog s0 ret fa n (base + n) hc1 h0 b1 b2 b3 hret hw
  rw [b4] at a2
  have b5 : 1 ≤ base + n + 5 := by omega
  have b6 : base + n + 5 + k < 32768 := by omega
  obtain ⟨s2, r2, p2, c0, cz, co, w2⟩ :=
    run_function prog s1 k (base + n + 5) (by rw [p1]; exact hc2) a0 b5 b6 w1
  have e1 : s2.ram 1 = base + n + 5 := by
    rw [co 1 (by omega) (Or.inl (by omega)), a1]
  have e2 : s2.ram 2 = base := by
    rw [co 2 (by omega) (Or.inl (by omega)), a2]
  obtain ⟨m, s3, r3, p3, d0, d1, d2, dk, w3⟩ :=
    hbody s2 (by rw [p2, p1]) c0 e1 e2 w2
  have keep : ∀ x, base + n ≤ x → x < base + n + 5 → s3.ram x = s1.ram x := by
    intro x hx1 hx2
    rw [dk x (by omega) hx2, co x (by omega) (Or.inl hx2)]
  have g0 : s3.ram (base + n) = ret := by rw [keep _ (by omega) (by omega), f0]
  have g1 : s3.ram (base + n + 1) = s0.ram 1 := by rw [keep _ (by omega) (by omega), f1]
  have g2 : s3.ram (base + n + 2) = s0.ram 2 := by rw [keep _ (by omega) (by omega), f2]
  have g3 : s3.ram (base + n + 3) = s0.ram 3 := by rw [keep _ (by omega) (by omega), f3]
  have g4 : s3.ram (base + n + 4) = s0.ram 4 := by rw [keep _ (by omega) (by omega), f4]
  have b11 : base ≤ base + n := by omega
  have b12 : base + n + 5 ≤ base + n + 5 + k := by omega
  have b8 : base + n + 5 + k + 1 < 32768 := by omega
  obtain ⟨s4, r4, p4, q0, qa, q1, q2, q3, q4, _, _⟩ :=
    run_return prog s3 fr rt (base + n) base (base + n + 5 + k)
      (by rw [p3]; exact hc4) d0 d1 d2 hfr hrt hne hfa hra b11 b12 b8 w3
  have hr3 : runFor prog (46 + (5 + 2 * k) + m) s0 = some s3 :=
    runFor_chain _ _ _ _ _ _ (runFor_chain _ _ _ _ _ _ r1 r2) r3
  refine ⟨46 + (5 + 2 * k) + m, s3, s4, hr3, p3, d0, runFor_chain _ _ _ _ _ _ hr3 r4, ?_, q0,
    qa, ?_, ?_, ?_, ?_⟩
  · rw [p4, g0]
  · rw [q1, g1]
  · rw [q2, g2]
  · rw [q3, g3]
  · rw [q4, g4]

end VMTranslator

namespace VMTranslator

open GoStr CommandType HackMachine

set_option maxRecDepth 1000000 in
set_option maxHeartbeats 4000000 in
/-- C8, call/return balance, and the call for which it fails. Take any
program that holds the code of `call f n` written at the call counter `j`,
the code of `function f k` at the address of `f`, behind it a body that
pushes one value and ends at a `return`; the linker may have put the code
anywhere and given any addresses to the labels and to FRAME and RET (below
the stack). Run from the start of the call with the `n` arguments above `base`
(SP = base + n), the computer reaches the `return` and, 57 steps later, the
address the linker gave to the label `return_address_j`, with LCL, ARG, THIS
and THAT as before the call, SP = base + 1, and the value the function left
on its stack in the word just below SP. The call declares this label 46
instructions after its start: where the linker binds the label to this
declaration, as it does when the output has no other declaration of it (the
counter of one code writer gives every call its own label), control is at
the instruction after the call.

In directory mode it need not be the only one, the counter starting again
with every file. For the directory `callDirectory` the output declares
`return_address_0` at 50 (bootstrap), 171 (the call in `Sys.vm`) and 222 (the
call in `Util.vm`). The call of `Main.f` in `Sys.vm` starts at 125, after 55
steps, with SP = 261; 115 steps later SP, LCL and ARG are 262, 261 and 256,
as they should, but control is at 50 when the first declaration of a label
counts, and at 222 when the last one counts, and not at 171, the instruction
after the call. -/
theorem C8_call_return_balance (cw : CodeWriter) (f : Str) (n k j base stop : Nat)
    (L : List (Str × Nat)) (V : List Str) (prog : List Instr) (s0 : State)
    (hj : cw.callCount = (j : Int)) (hf : isName f = true)
    (hL : ∀ r ∈ ["SP".toList, "LCL".toList, "ARG".toList, "THIS".toList, "THAT".toList],
      L.lookup r = none)
    (hcall : CodeAt prog s0.pc (resolve L V (callAsm f n j)))
    (hfun : CodeAt prog (symbolAddress L V f) (resolve L V (functionAsm f k)))
    (hbody : PushesOneValue prog (symbolAddress L V f + (5 + 2 * k)) stop
      (base + n + 5 + k) (base + n + 5) base)
    (hreturn : CodeAt prog stop (resolve L V returnAsm))
    (hfr : 5 ≤ symbolAddress L V "FRAME".toList) (hrt : 5 ≤ symbolAddress L V "RET".toList)
    (hne : symbolAddress L V "FRAME".toList ≠ symbolAddress L V "RET".toList)
    (hfa : symbolAddress L V "FRAME".toList < base)
    (hra : symbolAddress L V "RET".toList < base)
    (hret : symbolAddress L V (returnLabel j) < 32768)
    (h0 : s0.ram 0 = base + n) (hmem : base + n + k + 6 < 32768)
    (hw : ∀ x, s0.ram x < 65536) :
    parseText (cw.writeCall f (n : Int)).2 = some (callAsm f n j) ∧
    parseText (cw.writeFunction f (k : Int)).2 = some (functionAsm f k) ∧
    parseText cw.writeReturn = some returnAsm ∧
    (∀ a, labelTable (callAsm f n j) a = [(returnLabel j, a + 46)]) ∧
    (L.lookup (returnLabel j) = some (s0.pc + 46) →
      symbolAddress L V (returnLabel j) = s0.pc + 46) ∧
    (∃ (m : Nat) (sr s : State), runFor prog m s0 = some sr ∧ sr.pc = stop ∧
      runFor prog (m + 57) s0 = some s ∧ s.pc = symbolAddress L V (returnLabel j) ∧
      s.ram 1 = s0.ram 1 ∧ s.ram 2 = s0.ram 2 ∧ s.ram 3 = s0.ram 3 ∧ s.ram 4 = s0.ram 4 ∧
      s.ram 0 = base + 1 ∧ s.ram (s.ram 0 - 1) = sr.ram (sr.ram 0 - 1)) ∧
    ((translateDirectory callDirectory).bind parseText).map (fun ls => labelTable ls 0) =
      some [("return_address_0".toList, 50), ("Main.f".toList, 51), ("Sys.init".toList, 120),
        ("return_address_0".toList, 171), ("Util.h".toList, 171),
        ("return_address_0".toList, 222)] ∧
    (((translateDirectory callDirectory).bind assemble).bind
        (fun p => runFor p 55 ⟨0, 0, 0, fun _ => 0⟩)).map
      (fun s => (s.pc, s.ram 0, s.ram 1, s.ram 2)) = some (125, 261, 261, 256) ∧
    (((translateDirectory callDirectory).bind assemble).bind
        (fun p => runFor p 170 ⟨0, 0, 0, fun _ => 0⟩)).map
      (fun s => (s.pc, s.ram 0, s.ram 1, s.ram 2)) = some (50, 262, 261, 256) ∧
    (((translateDirectory callDirectory).bind parseText).bind
        (fun ls => runFor
          (resolve (labelTable ls 0).reverse (variableList (labelTable ls 0) ls []) ls) 55
          ⟨0, 0, 0, fun _ => 0⟩)).map
      (fun s => (s.pc, s.ram 0, s.ram 1, s.ram 2)) = some (125, 261, 261, 256) ∧
    (((translateDirectory callDirectory).bind parseText).bind
        (fun ls => runFor
          (resolve (labelTable ls 0).reverse (variableList (labelTable ls 0) ls []) ls) 170
          ⟨0, 0, 0, fun _ => 0⟩)).map
      (fun s => (s.pc, s.ram 0, s.ram 1, s.ram 2)) = some (222, 262, 261, 256) := by
  have hn5 : n + 5 < 32768 := by omega
  have hn63 : n + 5 < 2 ^ 63 := by omega
  have hfn := name_no_newline f hf
  obtain ⟨r0, r1, r2, r3, r4⟩ := registers_resolved L V hL
  rw [resolve_call L V f n j r0 r1 r2 r3 r4] at hcall
  rw [resolve_function L V f k r0] at hfun
  rw [resolve_return L V r0 r1 r2 r3 r4] at hreturn
  obtain ⟨m, sr, s, hr1, hp1, hsp, hr2, hp2, q0, qa, q1, q2, q3, q4⟩ :=
    run_call_body_return prog s0 n k base _ _ _ _ stop hcall hfun hbody hreturn hfr hrt hne hfa
      hra h0 hmem hret hw
  have t1 : s.ram 0 - 1 = base := by omega
  have t2 : sr.ram 0 - 1 = base + n + 5 + k := by omega
  refine ⟨?_, ?_, ?_, ?_, ?_, ⟨m, sr, s, hr1, hp1, hr2, hp2, q1, q2, q3, q4, q0, ?_⟩, by decide,
    by decide, by decide, by decide, by decide⟩
  · rw [writeCall_text cw f n j hj hn63]
    exact parseText_lines _ _ (callLines_lines f n j hfn) (parseLines_call f n j hf hn5)
  · rw [writeFunction_text]
    exact parseText_lines _ _ (functionLines_lines f k hfn) (parseLines_function f k hf)
  · rw [writeReturn_text]
    exact parseText_lines _ _ returnLines_lines parseLines_return
  · intro a
    have := labelTable_call f n j a []
    rw [List.append_nil] at this
    exact this
  · intro h
    simp only [symbolAddress, h]
  · rw [t1, t2, qa]

/-- The witness of C8: `call Main.f 2`, first call of a file translated alone,
with the arguments at 256 and 257, of a function of three local variables
that returns 42; control is at 46, the instruction after the call. -/
theorem C8_call_return_balance_witness :
    ∃ (m : Nat) (sr s : State),
      runFor (callCode 46 46 2 ++ (functionCode 3 ++ (pushAddressCode 42 ++ returnCode 16 17))) m
        ⟨0, 0, 0, fun x => if x = 0 then 258 else x % 7⟩ = some sr ∧
      sr.pc = 64 ∧
      runFor (callCode 46 46 2 ++ (functionCode 3 ++ (pushAddressCode 42 ++ returnCode 16 17)))
        (m + 57) ⟨0, 0, 0, fun x => if x = 0 then 258 else x % 7⟩ = some s ∧
      s.pc = 46 ∧
      s.ram 1 = 1 ∧ s.ram 2 = 2 ∧ s.ram 3 = 3 ∧ s.ram 4 = 4 ∧
      s.ram 0 = 256 + 1 ∧ s.ram (s.ram 0 - 1) = sr.ram (sr.ram 0 - 1) :=
  (C8_call_return_balance ⟨0, 0, "Main".toList, "main".toList⟩ "Main.f".toList 2 3 0 256 64
    [(returnLabel 0, 46), ("Main.f".toList, 46)] ["FRAME".toList, "RET".toList]
    (callCode 46 46 2 ++ (functionCode 3 ++ (pushAddressCode 42 ++ returnCode 16 17)))
    ⟨0, 0, 0, fun x => if x = 0 then 258 else x % 7⟩ rfl (by decide) (by decide)
    ⟨[], functionCode 3 ++ (pushAddressCode 42 ++ returnCode 16 17), rfl, rfl⟩
    ⟨callCode 46 46 2, pushAddressCode 42 ++ returnCode 16 17, rfl, rfl⟩
    (pushesOneValue_constant _ 57 42 _ _ _
      ⟨callCode 46 46 2 ++ functionCode 3, returnCode 16 17, rfl, rfl⟩
      (by decide) (by decide) (by decide) (by decide))
    ⟨callCode 46 46 2 ++ (functionCode 3 ++ pushAddressCode 42), [], rfl, rfl⟩
    (by decide) (by decide) (by decide) (by decide) (by decide) (by decide) rfl (by decide)
    (fun x => by
      show (if x = 0 then 258 else x % 7) < 65536
      split_ifs <;> omega)).2.2.2.2.2.1

end VMTranslator
